import Mathlib

/-!
# tinysql: logical-plan builder and equivalence-class memo

A shallow embedding of `planner/core/planbuilder.go` (the INSERT builders and the
access-path enumeration) and of the `planner/memo` Group, followed by the
properties proved about them.

Conventions of the embedding:
* a Go `error` result is `Except Err _`; a Go run-time panic (index out of range)
  is the error `Err.runtimePanic`;
* a Go map is an association list read with `mapGet`, written with `mapSet` and
  `mapDelete`;
* a nil-able slice is `Option (List _)`;
* functions of other packages that the planner calls (the expression rewriter,
  `table.FindCols`, `DoOptimize`, ...) are fields of an environment record.
-/

namespace TinySQL

/-! ## Shared data model -/

/-- Case-insensitive string of `parser/model`: `O` is the original, `L` the lowered form. -/
structure CIStr where
  O : String
  L : String
deriving DecidableEq

/-- Field type of `parser/types`; only the type code and the flag word are kept. -/
structure FieldType where
  Tp : Nat
  Flag : Nat
deriving DecidableEq

/-- Datum of `types`: a literal value. -/
inductive Datum where
  | null
  | int (v : Int)
  | str (v : String)
deriving DecidableEq

/-- Column of `expression`: an output column of an operator. -/
structure ExprColumn where
  UniqueID : Int
  RetType : Option FieldType
deriving DecidableEq

/-- Schema of `expression`: ordered columns plus candidate keys. -/
structure Schema where
  Columns : List ExprColumn
  Keys : List (List ExprColumn)
deriving DecidableEq

/-! ## Go maps as association lists -/

/-- Map read `m[k]`. -/
def mapGet {κ ν : Type} [DecidableEq κ] (m : List (κ × ν)) (k : κ) : Option ν :=
  match m with
  | [] => none
  | (k', v) :: rest => if k' = k then some v else mapGet rest k

/-- Map deletion `delete(m, k)`. -/
def mapDelete {κ ν : Type} [DecidableEq κ] (m : List (κ × ν)) (k : κ) : List (κ × ν) :=
  m.filter (fun p => decide (p.1 ≠ k))

/-- Map assignment `m[k] = v`. -/
def mapSet {κ ν : Type} [DecidableEq κ] (m : List (κ × ν)) (k : κ) (v : ν) : List (κ × ν) :=
  (k, v) :: mapDelete m k

/-! ## planner/memo -/

namespace memo

/-- Modelled from the spec: the operator kinds of `planner/memo` (the file declaring
them is not among the sources). `OperandAny` is the wildcard of `GetFirstElem`. -/
inductive Operand where
  | OperandAny
  | OperandJoin
  | OperandAggregation
  | OperandProjection
  | OperandSelection
  | OperandLimit
  | OperandMaxOneRow
  | OperandTableDual
  | OperandDataSource
  | OperandUnionAll
  | OperandUnsupported
deriving DecidableEq

/-- Modelled from the spec: the kinds of logical operator a GroupExpr can wrap
(`plannercore.LogicalLimit`, `LogicalSelection`, `LogicalProjection`, ... in the tests). -/
inductive PlanKind where
  | LogicalJoin
  | LogicalAggregation
  | LogicalProjection
  | LogicalSelection
  | LogicalLimit
  | LogicalMaxOneRow
  | LogicalTableDual
  | DataSource
  | LogicalUnionAll
  | LogicalOther
deriving DecidableEq

/-- Modelled from the spec: one relational operator node; `id` is the plan id given
by `Init`. -/
structure LogicalPlan where
  kind : PlanKind
  id : Nat
deriving DecidableEq

/-- Modelled from the spec: the operand kind of an operator; never the wildcard. -/
def GetOperand (p : LogicalPlan) : Operand :=
  match p.kind with
  | .LogicalJoin => .OperandJoin
  | .LogicalAggregation => .OperandAggregation
  | .LogicalProjection => .OperandProjection
  | .LogicalSelection => .OperandSelection
  | .LogicalLimit => .OperandLimit
  | .LogicalMaxOneRow => .OperandMaxOneRow
  | .LogicalTableDual => .OperandTableDual
  | .DataSource => .OperandDataSource
  | .LogicalUnionAll => .OperandUnionAll
  | .LogicalOther => .OperandUnsupported

/-- Modelled from the spec: a GroupExpr is one operator with references to its operand
Groups (their identities) and carries its self-fingerprint. -/
structure GroupExpr where
  ExprNode : LogicalPlan
  Children : List Nat
  selfFingerprint : String
deriving DecidableEq

/-- Modelled from the spec: the fingerprint an expression carries. -/
def GroupExpr.FingerPrint (e : GroupExpr) : String := e.selfFingerprint

/-- Modelled from the spec: one ordering item of a physical property. -/
structure Item where
  Col : ExprColumn
  Desc : Bool
deriving DecidableEq

/-- Modelled from the spec: a required physical property, compared structurally. -/
structure PhysicalProperty where
  Items : List Item
deriving DecidableEq

/-- Modelled from the spec: a physical realisation, a plan fragment with its cost. -/
structure Implementation where
  plan : Nat
  cost : Nat
deriving DecidableEq

/-- Modelled from the spec: the logical property of a Group (`Prop`). -/
structure LogicalProperty where
  Schema : Schema
deriving DecidableEq

/-- Modelled from the spec: a Group holds the ordered members (`Equivalents`), the
operand-kind index (`FirstExpr`) that `Delete` advances and `DeleteAll` invalidates,
the fingerprint index (`Fingerprints`), the `Explored` flag, the implementation cache
and the logical property (`Prop` in the tests, here `GroupProp`). `group.go` is not
among the sources. -/
structure Group where
  Equivalents : List GroupExpr
  FirstExpr : List (Operand × GroupExpr)
  Fingerprints : List String
  Explored : Bool
  ImplMap : List (PhysicalProperty × Implementation)
  GroupProp : LogicalProperty
deriving DecidableEq

/-- Modelled from the spec: `NewGroupWithSchema(expr, schema)` creates a Group whose
sole initial member is `expr`, sets `Prop.Schema`, and starts unexplored. -/
def NewGroupWithSchema (e : GroupExpr) (s : Schema) : Group :=
  { Equivalents := [e]
    FirstExpr := [(GetOperand e.ExprNode, e)]
    Fingerprints := [e.FingerPrint]
    Explored := false
    ImplMap := []
    GroupProp := { Schema := s } }

/-- Modelled from the spec: `Exists(expr)`, the membership test through the
fingerprint index. -/
def Group.Exists (g : Group) (e : GroupExpr) : Bool :=
  decide (e.FingerPrint ∈ g.Fingerprints)

/-- Modelled from the spec: `Insert(expr)`. If a member with the same fingerprint is
recorded the Group is returned unmodified with `false`; otherwise the expression is
appended to the ordered member list, its fingerprint is recorded, it becomes the
first expression of its operand kind when that kind has none, and `true` is returned. -/
def Group.Insert (g : Group) (e : GroupExpr) : Group × Bool :=
  if g.Exists e then (g, false)
  else
    let operand := GetOperand e.ExprNode
    let firstExpr :=
      match mapGet g.FirstExpr operand with
      | some _ => g.FirstExpr
      | none => mapSet g.FirstExpr operand e
    ({ g with
        Equivalents := g.Equivalents ++ [e]
        FirstExpr := firstExpr
        Fingerprints := g.Fingerprints ++ [e.FingerPrint] }, true)

/-- Modelled from the spec: the next member after `e`, in member order, that has the
operand kind of `e`. -/
def nextOfKind (l : List GroupExpr) (e : GroupExpr) : Option GroupExpr :=
  match l with
  | [] => none
  | x :: rest =>
    if x = e then rest.find? (fun y => decide (GetOperand y.ExprNode = GetOperand e.ExprNode))
    else nextOfKind rest e

/-- Modelled from the spec: `Delete(expr)` removes the specific member if present and
is a no-op if absent; an operand-kind index pointing at the removed member is advanced
to the next surviving member of that kind, or dropped when there is none. -/
def Group.Delete (g : Group) (e : GroupExpr) : Group :=
  if e ∈ g.Equivalents then
    let operand := GetOperand e.ExprNode
    let firstExpr :=
      if mapGet g.FirstExpr operand = some e then
        match nextOfKind g.Equivalents e with
        | some n => mapSet g.FirstExpr operand n
        | none => mapDelete g.FirstExpr operand
      else g.FirstExpr
    { g with
        Equivalents := g.Equivalents.erase e
        FirstExpr := firstExpr
        Fingerprints := g.Fingerprints.filter (fun f => decide (f ≠ e.FingerPrint)) }
  else g

/-- Modelled from the spec: `DeleteAll()` clears all members and invalidates every
operand-kind index. -/
def Group.DeleteAll (g : Group) : Group :=
  { g with Equivalents := [], FirstExpr := [], Fingerprints := [] }

/-- Modelled from the spec: `GetFirstElem(operandKind)`; the wildcard matches any
operator, another kind is answered from the operand-kind index. -/
def Group.GetFirstElem (g : Group) (operand : Operand) : Option GroupExpr :=
  if operand = Operand.OperandAny then g.Equivalents.head?
  else mapGet g.FirstExpr operand

/-- Modelled from the spec: `GetImpl(property)` looks the required property up in the
implementation cache, by structural equality; a miss is not-found. -/
def Group.GetImpl (g : Group) (prop : PhysicalProperty) : Option Implementation :=
  mapGet g.ImplMap prop

/-- Modelled from the spec: `InsertImpl(property, impl)` records the implementation for
the property; insertion always overwrites. -/
def Group.InsertImpl (g : Group) (prop : PhysicalProperty) (impl : Implementation) : Group :=
  { g with ImplMap := mapSet g.ImplMap prop impl }

/-- The properties of `TestGetInsertGroupImpl`: no ordering, and one ordering item. -/
def testEmptyProp : PhysicalProperty := { Items := [] }

/-- The property of `TestGetInsertGroupImpl` with one ordering item. -/
def testOrderProp : PhysicalProperty :=
  { Items := [{ Col := { UniqueID := 0, RetType := none }, Desc := false }] }

/-- The operand kind of a member. -/
def kindOf (e : GroupExpr) : Operand := GetOperand e.ExprNode

/-- Whether an operand kind asked of `GetFirstElem` matches a member: the wildcard
matches any operator, another kind matches the members of that kind. -/
def matchesOperand (k : Operand) (e : GroupExpr) : Bool :=
  decide (k = Operand.OperandAny) || decide (kindOf e = k)

/-- The representation invariant of a Group: the fingerprint index lists the
fingerprints of the members, no fingerprint is recorded twice, and the operand-kind
index holds, for every kind, the first member of that kind. -/
structure Group.Inv (g : Group) : Prop where
  fingerprints : g.Fingerprints = g.Equivalents.map GroupExpr.FingerPrint
  nodup : g.Fingerprints.Nodup
  firstExpr : ∀ k : Operand,
    mapGet g.FirstExpr k = g.Equivalents.find? (fun y => decide (GetOperand y.ExprNode = k))

/-- One call on a Group. -/
inductive GroupOp where
  | Insert (e : GroupExpr)
  | Delete (e : GroupExpr)
  | DeleteAll
deriving DecidableEq

/-- The Group after one call. -/
def Group.step (g : Group) : GroupOp → Group
  | .Insert e => (g.Insert e).1
  | .Delete e => g.Delete e
  | .DeleteAll => g.DeleteAll

/-- The Group after a sequence of calls, oldest first. -/
def Group.run (g : Group) : List GroupOp → Group
  | [] => g
  | op :: ops => (g.step op).run ops

/-- The insertion ledger after one call made at time `t`: a successful `Insert`
records `(t, e)`, a `Delete` drops the entries of the deleted expression, `DeleteAll`
drops everything. The ledger is a history variable; no Group operation reads it. -/
def ledgerStep (g : Group) (t : Nat) (led : List (Nat × GroupExpr)) : GroupOp → List (Nat × GroupExpr)
  | .Insert e => if (g.Insert e).2 then led ++ [(t, e)] else led
  | .Delete e => led.filter (fun p => decide (p.2 ≠ e))
  | .DeleteAll => []

/-- Runs the calls `ops`, the first of them at time `t`, on a Group and its ledger. -/
def runLedger (g : Group) (t : Nat) (led : List (Nat × GroupExpr)) :
    List GroupOp → Group × List (Nat × GroupExpr)
  | [] => (g, led)
  | op :: ops => runLedger (g.step op) (t + 1) (ledgerStep g t led op) ops

/-- The Group built by `NewGroupWithSchema e0 s` (time 0) followed by the calls `ops`
(times 1, 2, ...), with the ledger of the insertions that are still present. -/
def history (e0 : GroupExpr) (s : Schema) (ops : List GroupOp) : Group × List (Nat × GroupExpr) :=
  runLedger (NewGroupWithSchema e0 s) 1 [(0, e0)] ops

/-- The invariant tying the insertion ledger to a Group at time `t`: the ledger lists
the members in member order, with strictly increasing insertion times before `t`. -/
structure LedgerInv (g : Group) (t : Nat) (led : List (Nat × GroupExpr)) : Prop where
  members : led.map Prod.snd = g.Equivalents
  sorted : led.Pairwise (fun a b => a.1 < b.1)
  bound : ∀ p ∈ led, p.1 < t

/-- The empty schema of the Group tests (`expression.NewSchema()`). -/
def testSchema : Schema := { Columns := [], Keys := [] }

/-- A childless expression over an operator of the given kind and plan id, with the
given fingerprint, as `NewGroupExpr` builds in the Group tests. -/
def testExpr (kind : PlanKind) (id : Nat) (fp : String) : GroupExpr :=
  { ExprNode := { kind := kind, id := id }, Children := [], selfFingerprint := fp }

/-- The Group of `TestGroupGetFirstElem`: projection, limit, projection, limit,
projection, inserted in this order. -/
def testGroup : Group :=
  (NewGroupWithSchema (testExpr .LogicalProjection 0 "0") testSchema).run
    [.Insert (testExpr .LogicalLimit 1 "1"), .Insert (testExpr .LogicalProjection 2 "2"),
     .Insert (testExpr .LogicalLimit 3 "3"), .Insert (testExpr .LogicalProjection 4 "4")]

end memo

/-! ## planner/core: planbuilder.go -/

namespace core

/-- An argument of a formatted error message (`errors.Errorf`, `fmt.Errorf`): a string
or a number. -/
inductive FormatArg where
  | str (s : String)
  | num (n : Nat)
deriving DecidableEq

/-- Errors the builder returns. `external` stands for an error produced by a
collaborator (rewriter, optimizer, table package); `cantFindColumn` for
`errors.Errorf("Can't find column %s", ...)`; `runtimePanic` for a Go panic. -/
inductive Err where
  | ErrWrongValueCountOnRow (row : Nat)
  | ErrBadGeneratedColumn (col : String) (tbl : String)
  | ErrKeyDoesNotExist (key : CIStr) (tbl : CIStr)
  | ErrUnknownColumn (col : String) (clause : String)
  | ErrUnsupportedType (msg : String)
  | cantFindColumn (column : String)
  | external (code : Nat)
  | runtimePanic
  | ErrNoDB
  | ErrInternal (msg : String)
  | ErrPartitionMgmtOnNonpartitioned
  | errorf (format : String) (args : List FormatArg)
deriving DecidableEq

/-- Column of `table`, with the fields of `model.ColumnInfo` the builder reads. A column
is generated when it has a stored generation expression. -/
structure Column where
  Name : CIStr
  Offset : Nat
  FieldType : FieldType
  GeneratedExprString : String
deriving DecidableEq

/-- Whether the column is a generated column. -/
def Column.IsGenerated (c : Column) : Bool := c.GeneratedExprString.length != 0

/-- Schema state of an index (`model.SchemaState`). -/
inductive SchemaState where
  | StateNone
  | StateDeleteOnly
  | StateWriteOnly
  | StateWriteReorganization
  | StateDeleteReorganization
  | StatePublic
deriving DecidableEq

/-- Index metadata (`model.IndexInfo`). -/
structure IndexInfo where
  Name : CIStr
  State : SchemaState
deriving DecidableEq

/-- TiFlash replica metadata (`model.TiFlashReplicaInfo`). -/
structure TiFlashReplicaInfo where
  Available : Bool
deriving DecidableEq

/-- Table metadata (`model.TableInfo`). -/
structure TableInfo where
  ID : Int
  Name : CIStr
  Indices : List IndexInfo
  PKIsHandle : Bool
  TiFlashReplica : Option TiFlashReplicaInfo
deriving DecidableEq

/-- Table of `table`: `Cols()`, `Meta()` and `Type().IsClusterTable()`. -/
structure Table where
  Cols : List Column
  Meta : TableInfo
  IsClusterTable : Bool
deriving DecidableEq

/-- Column name of the syntax tree (`ast.ColumnName`). -/
structure ColumnName where
  Schema : CIStr
  Table : CIStr
  Name : CIStr
deriving DecidableEq

/-- Operator code of a binary operation (`opcode.Op`). -/
inductive Opcode where
  | LogicAnd
  | LogicOr
  | EQ
  | Plus
  | Minus
deriving DecidableEq

/-- Expression nodes of the syntax tree: the three kinds `buildValuesListOfInsert`
switches on (`*ast.DefaultExpr`, `*driver.ValueExpr`, anything else), with the other
kinds the builder inspects. -/
inductive ExprNode where
  | DefaultExpr (Name : Option ColumnName)
  | ValueExpr (Datum : Datum) (Tp : FieldType)
  | ColumnNameExpr (Name : ColumnName)
  | BinaryOperationExpr (Op : Opcode) (L : ExprNode) (R : ExprNode)
  | ParenthesesExpr (Expr : ExprNode)
deriving DecidableEq

/-- Compiled scalar expression (`expression.Expression`). -/
inductive Expression where
  | Constant (Value : Datum) (RetType : FieldType)
  | Column (col : ExprColumn)
  | ScalarFunction (id : Nat)
deriving DecidableEq

/-- Output name (`types.FieldName`). -/
structure FieldName where
  DBName : CIStr
  TblName : CIStr
  ColName : CIStr
deriving DecidableEq

/-- Assignment of `expression`. -/
structure Assignment where
  Col : ExprColumn
  ColName : CIStr
  Expr : Expression
deriving DecidableEq

/-- Assignment of the syntax tree (`ast.Assignment`). -/
structure AstAssignment where
  Column : ColumnName
  Expr : ExprNode
deriving DecidableEq

/-- A built plan, logical or physical: its `Schema()` and `OutputNames()`. -/
structure Plan where
  id : Nat
  schema : Schema
  names : List FieldName
deriving DecidableEq

/-- INSERT statement (`ast.InsertStmt`); `Select` is the source text of the SELECT part. -/
structure InsertStmt where
  IsReplace : Bool
  Columns : List ColumnName
  Lists : List (List ExprNode)
  Setlist : List AstAssignment
  OnDuplicate : List AstAssignment
  Select : String
deriving DecidableEq

/-- The Insert plan under construction (the fields the INSERT builders write). -/
structure Insert where
  Table : Table
  tableSchema : Schema
  tableColNames : List FieldName
  Columns : List ColumnName
  Lists : List (List Expression)
  SetList : List Assignment
  OnDuplicate : List Assignment
  Schema4OnDuplicate : Option Schema
  names4OnDuplicate : List FieldName
  SelectPlan : Option Plan
  IsReplace : Bool
  AllAssignmentsAreConstant : Bool
deriving DecidableEq

/-- The collaborators of the INSERT builders that live in other files and packages:
`table.FindCols`, `table.GetColDefaultValue`, the expression rewriter called with the
mock table plan, `PlanBuilder.Build` on the SELECT part, `DoOptimize`,
`expression.MergeSchema`, the placeholder name `types.EmptyName` and
`expression.FindFieldName` (the position of a column name among output names, negative
when there is none). `Build` and `DoOptimize` take and return the session counter
`PlanColumnID`. -/
structure Env where
  FindCols : List Column → List String → Bool → Except Err (List Column)
  FindFieldName : List FieldName → ColumnName → Except Err Int
  GetColDefaultValue : Column → Except Err Datum
  rewriteWithPreprocess : ExprNode → Except Err Expression
  Build : String → Int → Except Err (Plan × Int)
  DoOptimize : Plan → Int → Except Err (Plan × Int)
  MergeSchema : Schema → Schema → Schema
  EmptyName : FieldName

/-- Go `getDefaultValue`: the default of a column as a constant. -/
def getDefaultValue (env : Env) (col : Column) : Except Err Expression :=
  match env.GetColDefaultValue col with
  | .error e => .error e
  | .ok value => .ok (Expression.Constant value col.FieldType)

/-- Go `findDefaultValue`: the default of the first column with the given name. -/
def findDefaultValue (env : Env) (cols : List Column) (name : ColumnName) : Except Err Expression :=
  match cols with
  | [] => .error (Err.ErrUnknownColumn name.Name.O "field_list")
  | col :: rest =>
    if col.Name.L = name.Name.L then getDefaultValue env col
    else findDefaultValue env rest name

/-- Go `getAffectCols`: the target columns of an INSERT ... VALUES / SELECT. -/
def getAffectCols (env : Env) (insertStmt : InsertStmt) (insertPlan : Insert) :
    Except Err (List Column) :=
  if insertStmt.Columns.length > 0 then
    env.FindCols insertPlan.Table.Cols (insertStmt.Columns.map (fun col => col.Name.O))
      insertPlan.Table.Meta.PKIsHandle
  else if insertStmt.Setlist.length = 0 then
    .ok insertPlan.Table.Cols
  else
    .ok []

/-- Whether an expression is an `*expression.Constant`; the nil expression is not. -/
def isConstant : Option Expression → Bool
  | some (Expression.Constant _ _) => true
  | _ => false

/-- The evaluation of one value (the `switch` of the inner loop of
`buildValuesListOfInsert`). The result `none` is the nil expression left by an accepted
DEFAULT on a generated column, the one case that sets `generatedColumnWithDefaultExpr`. -/
def evalValueItem (env : Env) (insertPlan : Insert) (totalTableCols : List Column)
    (col : Column) (valueItem : ExprNode) : Except Err (Option Expression) :=
  match valueItem with
  | .DefaultExpr name =>
    if col.IsGenerated then
      match name with
      | some _ => .error (Err.ErrBadGeneratedColumn col.Name.O insertPlan.Table.Meta.Name.O)
      | none => .ok none
    else
      match name with
      | some n =>
        match findDefaultValue env totalTableCols n with
        | .error e => .error e
        | .ok expr => .ok (some expr)
      | none =>
        match getDefaultValue env col with
        | .error e => .error e
        | .ok expr => .ok (some expr)
  | .ValueExpr d t => .ok (some (Expression.Constant d t))
  | other =>
    match env.rewriteWithPreprocess other with
    | .error e => .error e
    | .ok expr => .ok (some expr)

/-- Whether a value is a computed expression: neither a DEFAULT nor a literal, so that
`buildValuesListOfInsert` compiles it with the expression rewriter. -/
def isComputedValue : ExprNode → Bool
  | .DefaultExpr _ => false
  | .ValueExpr _ _ => false
  | _ => true

/-- One iteration of the inner loop of `buildValuesListOfInsert` for the value at
position `j`: returns the expression list and `AllAssignmentsAreConstant` afterwards. -/
def buildValueItem (env : Env) (insertPlan : Insert) (affectedValuesCols totalTableCols : List Column)
    (j : Nat) (valueItem : ExprNode) (exprList : List Expression) (allConst : Bool) :
    Except Err (List Expression × Bool) :=
  match affectedValuesCols.get? j with
  | none => .error Err.runtimePanic
  | some col =>
    match evalValueItem env insertPlan totalTableCols col valueItem with
    | .error e => .error e
    | .ok none =>
      -- `generatedColumnWithDefaultExpr`: the column is generated and the loop continues
      .ok (exprList, if allConst then false else allConst)
    | .ok (some expr) =>
      let allConst := if allConst then isConstant (some expr) else allConst
      if col.IsGenerated then
        .error (Err.ErrBadGeneratedColumn col.Name.O insertPlan.Table.Meta.Name.O)
      else
        .ok (exprList ++ [expr], allConst)

/-- The inner loop of `buildValuesListOfInsert` over the values of one row, from
position `j` on. -/
def buildValuesItems (env : Env) (insertPlan : Insert) (affectedValuesCols totalTableCols : List Column) :
    Nat → List ExprNode → List Expression → Bool → Except Err (List Expression × Bool)
  | _, [], exprList, allConst => .ok (exprList, allConst)
  | j, valueItem :: rest, exprList, allConst =>
    match buildValueItem env insertPlan affectedValuesCols totalTableCols j valueItem exprList allConst with
    | .error e => .error e
    | .ok (exprList, allConst) =>
      buildValuesItems env insertPlan affectedValuesCols totalTableCols (j + 1) rest exprList allConst

/-- The row-length test `i > 0 && len(insert.Lists[i-1]) != len(insert.Lists[i])` of
`buildValuesListOfInsert`; `prev` is row `i - 1`, absent for the first row. -/
def rowLengthMismatch (i : Nat) (prev : Option (List ExprNode)) (valuesItem : List ExprNode) : Bool :=
  match prev with
  | none => false
  | some p => decide (i > 0) && (p.length != valuesItem.length)

/-- The outer loop of `buildValuesListOfInsert` from row `i` on; `prev` is row `i - 1`
when `i > 0`. Returns `insertPlan.Lists` and `AllAssignmentsAreConstant`. -/
def buildValuesRows (env : Env) (insertPlan : Insert) (affectedValuesCols totalTableCols : List Column) :
    Nat → Option (List ExprNode) → List (List ExprNode) → List (List Expression) → Bool →
    Except Err (List (List Expression) × Bool)
  | _, _, [], lists, allConst => .ok (lists, allConst)
  | i, prev, valuesItem :: rest, lists, allConst =>
    if rowLengthMismatch i prev valuesItem then .error (Err.ErrWrongValueCountOnRow (i + 1))
    else
      match buildValuesItems env insertPlan affectedValuesCols totalTableCols 0 valuesItem [] allConst with
      | .error e => .error e
      | .ok (exprList, allConst) =>
        buildValuesRows env insertPlan affectedValuesCols totalTableCols (i + 1) (some valuesItem) rest
          (lists ++ [exprList]) allConst

/-- The row before row `m` of `rows`, where `prev` is the row before `rows`. -/
def rowBefore (prev : Option (List ExprNode)) (rows : List (List ExprNode)) (m : Nat) :
    Option (List ExprNode) :=
  if m = 0 then prev else rows.get? (m - 1)

/-- Go `PlanBuilder.buildValuesListOfInsert`. -/
def buildValuesListOfInsert (env : Env) (insert : InsertStmt) (insertPlan : Insert) : Except Err Insert :=
  match getAffectCols env insert insertPlan with
  | .error e => .error e
  | .ok affectedValuesCols =>
    match insert.Lists with
    | [] => .error Err.runtimePanic
    | first :: _ =>
      if (decide (insert.Columns.length > 0) || decide (first.length > 0))
          && (first.length != affectedValuesCols.length) then
        .error (Err.ErrWrongValueCountOnRow 1)
      else
        match buildValuesRows env insertPlan affectedValuesCols insertPlan.Table.Cols 0 none
            insert.Lists insertPlan.Lists true with
        | .error e => .error e
        | .ok (lists, allConst) =>
          .ok { insertPlan with
                  Lists := lists
                  AllAssignmentsAreConstant := allConst
                  Schema4OnDuplicate := some insertPlan.tableSchema
                  names4OnDuplicate := insertPlan.tableColNames }

/-- The generated-column check of `buildSelectPlanOfInsert`: the first generated
column among the affected columns. -/
def firstGenerated : List Column → Option Column
  | [] => none
  | col :: rest => if col.IsGenerated then some col else firstGenerated rest

/-- Writes `v` at position `n` of a slice; a position out of range panics. -/
def setAt {α : Type} (l : List α) (n : Nat) (v : α) : Except Err (List α) :=
  if n < l.length then .ok (l.set n v) else .error Err.runtimePanic

/-- The first loop of the remapping in `buildSelectPlanOfInsert`: select output column
`i` is copied, retyped to the type of the affected column `i`, and stored with output
name `i` at the offset of that affected column. `row` holds, per target position, the
column of `schema4NewRow` and the name of `names4NewRow` (both nil at first). -/
def remapSelected (affectedValuesCols : List Column) (names : List FieldName) :
    Nat → List ExprColumn → List (Option (ExprColumn × FieldName)) →
    Except Err (List (Option (ExprColumn × FieldName)))
  | _, [], row => .ok row
  | i, selCol :: rest, row =>
    match affectedValuesCols.get? i with
    | none => .error Err.runtimePanic
    | some aff =>
      match names.get? i with
      | none => .error Err.runtimePanic
      | some name =>
        match setAt row aff.Offset (some ({ selCol with RetType := some aff.FieldType }, name)) with
        | .error e => .error e
        | .ok row => remapSelected affectedValuesCols names (i + 1) rest row

/-- The second loop of the remapping: every position still nil gets a column with a
freshly allocated id (`AllocPlanColumnID` increments the counter and returns it) and
the empty name. -/
def fillPlaceholders (emptyName : FieldName) :
    List (Option (ExprColumn × FieldName)) → Int → List (ExprColumn × FieldName) × Int
  | [], planColumnID => ([], planColumnID)
  | some entry :: rest, planColumnID =>
    let (filled, planColumnID) := fillPlaceholders emptyName rest planColumnID
    (entry :: filled, planColumnID)
  | none :: rest, planColumnID =>
    let (filled, last) := fillPlaceholders emptyName rest (planColumnID + 1)
    (({ UniqueID := planColumnID + 1, RetType := none }, emptyName) :: filled, last)

/-- Go `PlanBuilder.buildSelectPlanOfInsert`; `planColumnID` is the session counter of
plan column ids, returned with the plan. -/
def buildSelectPlanOfInsert (env : Env) (insert : InsertStmt) (insertPlan : Insert)
    (planColumnID : Int) : Except Err (Insert × Int) :=
  match getAffectCols env insert insertPlan with
  | .error e => .error e
  | .ok affectedValuesCols =>
    match env.Build insert.Select planColumnID with
    | .error e => .error e
    | .ok (selectPlan, planColumnID) =>
      if selectPlan.schema.Columns.length != affectedValuesCols.length then
        .error (Err.ErrWrongValueCountOnRow 1)
      else
        match firstGenerated affectedValuesCols with
        | some col => .error (Err.ErrBadGeneratedColumn col.Name.O insertPlan.Table.Meta.Name.O)
        | none =>
          let names := selectPlan.names
          match env.DoOptimize selectPlan planColumnID with
          | .error e => .error e
          | .ok (optimized, planColumnID) =>
            match remapSelected affectedValuesCols names 0 optimized.schema.Columns
                (List.replicate insertPlan.Table.Cols.length none) with
            | .error e => .error e
            | .ok row =>
              let (filled, planColumnID) := fillPlaceholders env.EmptyName row planColumnID
              let schema4NewRow : Schema := { Columns := filled.map Prod.fst, Keys := [] }
              let names4NewRow := filled.map Prod.snd
              .ok ({ insertPlan with
                      SelectPlan := some optimized
                      Schema4OnDuplicate := some (env.MergeSchema insertPlan.tableSchema schema4NewRow)
                      names4OnDuplicate := insertPlan.tableColNames ++ names4NewRow }, planColumnID)

/-! ### INSERT ... SET -/

/-- Modelled from the spec: `extractDefaultExpr` (not among the sources) returns the
expression when it is the bare DEFAULT placeholder, the only value permitted for a
generated column, and nil otherwise. -/
def extractDefaultExpr (node : ExprNode) : Option ExprNode :=
  match node with
  | .DefaultExpr none => some node
  | _ => none

/-- The text of a column name (`ast.ColumnName.String`), as `%s` prints it. -/
def ColumnName.text (n : ColumnName) : String :=
  let result := n.Name.L
  let result := if n.Table.L ≠ "" then n.Table.L ++ "." ++ result else result
  if n.Schema.L ≠ "" then n.Schema.L ++ "." ++ result else result

/-- The case-insensitive string of a name (`model.NewCIStr`). The lower-case form is
taken letter by letter for the ASCII letters; Go's `strings.ToLower` also lowers the
capitals outside ASCII, so the two agree on names whose capitals are ASCII. -/
def NewCIStr (s : String) : CIStr := { O := s, L := s.toLower }

/-- The first loop of `buildSetValuesOfInsert`: every assigned column is looked up among
the output names of the table; returns `colNames` and `exprCols`. -/
def findSetColumns (env : Env) (insertPlan : Insert) :
    List AstAssignment → List String → List ExprColumn → Except Err (List String × List ExprColumn)
  | [], colNames, exprCols => .ok (colNames, exprCols)
  | assign :: rest, colNames, exprCols =>
    match env.FindFieldName insertPlan.tableColNames assign.Column with
    | .error e => .error e
    | .ok idx =>
      if idx < 0 then .error (Err.cantFindColumn assign.Column.text)
      else
        match insertPlan.tableSchema.Columns.get? idx.toNat with
        | none => .error Err.runtimePanic
        | some col =>
          findSetColumns env insertPlan rest (colNames ++ [assign.Column.Name.L]) (exprCols ++ [col])

/-- The set `generatedColumns` of `buildSetValuesOfInsert`: the lower-case names of the
generated columns among the assigned columns. -/
def generatedColumnNames (tCols : List Column) : List String :=
  (tCols.filter (fun tCol => tCol.IsGenerated)).map (fun tCol => tCol.Name.L)

/-- The value of an assignment as it is compiled: `defaultExpr.Name = assign.Column` has
given the bare DEFAULT the assigned column. -/
def assignedExpr (assign : AstAssignment) : ExprNode :=
  match extractDefaultExpr assign.Expr with
  | some _ => ExprNode.DefaultExpr (some assign.Column)
  | none => assign.Expr

/-- The second loop of `buildSetValuesOfInsert` from assignment `i` on; returns
`insertPlan.SetList` and `AllAssignmentsAreConstant`. -/
def buildSetAssignments (env : Env) (insertPlan : Insert) (generatedColumns colNames : List String)
    (exprCols : List ExprColumn) :
    Nat → List AstAssignment → List Assignment → Bool → Except Err (List Assignment × Bool)
  | _, [], setList, allConst => .ok (setList, allConst)
  | i, assign :: rest, setList, allConst =>
    if assign.Column.Name.L ∈ generatedColumns then
      if (extractDefaultExpr assign.Expr).isSome then
        buildSetAssignments env insertPlan generatedColumns colNames exprCols (i + 1) rest setList allConst
      else .error (Err.ErrBadGeneratedColumn assign.Column.Name.O insertPlan.Table.Meta.Name.O)
    else
      match env.rewriteWithPreprocess (assignedExpr assign) with
      | .error e => .error e
      | .ok expr =>
        let allConst := if allConst then isConstant (some expr) else allConst
        match exprCols.get? i with
        | none => .error Err.runtimePanic
        | some col =>
          match colNames.get? i with
          | none => .error Err.runtimePanic
          | some name =>
            buildSetAssignments env insertPlan generatedColumns colNames exprCols (i + 1) rest
              (setList ++ [{ Col := col, ColName := NewCIStr name, Expr := expr }]) allConst

/-- Go `PlanBuilder.buildSetValuesOfInsert`. -/
def buildSetValuesOfInsert (env : Env) (insert : InsertStmt) (insertPlan : Insert) : Except Err Insert :=
  match findSetColumns env insertPlan insert.Setlist [] [] with
  | .error e => .error e
  | .ok (colNames, exprCols) =>
    match env.FindCols insertPlan.Table.Cols colNames insertPlan.Table.Meta.PKIsHandle with
    | .error e => .error e
    | .ok tCols =>
      match buildSetAssignments env insertPlan (generatedColumnNames tCols) colNames exprCols 0
          insert.Setlist insertPlan.SetList true with
      | .error e => .error e
      | .ok (setList, allConst) =>
        .ok { insertPlan with
                SetList := setList
                AllAssignmentsAreConstant := allConst
                Schema4OnDuplicate := some insertPlan.tableSchema
                names4OnDuplicate := insertPlan.tableColNames }

/-! ### Build -/

/-- The kinds of syntax-tree node `Build` distinguishes: the statement types of its
type switch, any node implementing `ast.DDLNode`, and every other node, with its Go type
name as `%T` prints it. -/
inductive NodeKind where
  | AdminStmt | DeallocateStmt | DeleteStmt | ExecuteStmt | ExplainStmt | ExplainForStmt
  | InsertStmt | LoadStatsStmt | PrepareStmt | SelectStmt | UnionStmt | UpdateStmt | ShowStmt
  | DoStmt | SetStmt | AnalyzeTableStmt
  | FlushStmt | UseStmt | BeginStmt | CommitStmt | RollbackStmt | CreateUserStmt | SetPwdStmt
  | GrantStmt | DropUserStmt | AlterUserStmt | RevokeStmt | KillStmt | DropStatsStmt
  | GrantRoleStmt | RevokeRoleStmt | SetRoleStmt | SetDefaultRoleStmt | ShutdownStmt
  | DDLNode (typeName : String)
  | SplitRegionStmt
  | other (typeName : String)
deriving DecidableEq

/-- A syntax-tree node: its kind and the identity of the tree. -/
structure Node where
  kind : NodeKind
  id : Nat
deriving DecidableEq

/-- The build routines `Build` dispatches to, each called with the optimizer flags `Build`
has set, and the three plans it constructs in place (`&Deallocate{Name: x.Name}`,
`buildLoadStats`, `buildPrepare`), which cannot fail. -/
structure BuildRoutines where
  buildAdmin : Nat → Node → Except Err Plan
  newDeallocate : Node → Plan
  buildDelete : Nat → Node → Except Err Plan
  buildExecute : Nat → Node → Except Err Plan
  buildExplain : Nat → Node → Except Err Plan
  buildExplainFor : Nat → Node → Except Err Plan
  buildInsert : Nat → Node → Except Err Plan
  buildLoadStats : Nat → Node → Plan
  buildPrepare : Nat → Node → Plan
  buildSelect : Nat → Node → Except Err Plan
  buildUnion : Nat → Node → Except Err Plan
  buildUpdate : Nat → Node → Except Err Plan
  buildShow : Nat → Node → Except Err Plan
  buildDo : Nat → Node → Except Err Plan
  buildSet : Nat → Node → Except Err Plan
  buildAnalyze : Nat → Node → Except Err Plan
  buildSimple : Nat → Node → Except Err Plan
  buildDDL : Nat → Node → Except Err Plan
  buildSplitRegion : Nat → Node → Except Err Plan

/-- Go `PlanBuilder.Build`: sets `b.optFlag = flagPrunColumns` and dispatches on the type
of the node. -/
def Build (r : BuildRoutines) (flagPrunColumns : Nat) (node : Node) : Except Err Plan :=
  let optFlag := flagPrunColumns
  match node.kind with
  | .AdminStmt => r.buildAdmin optFlag node
  | .DeallocateStmt => .ok (r.newDeallocate node)
  | .DeleteStmt => r.buildDelete optFlag node
  | .ExecuteStmt => r.buildExecute optFlag node
  | .ExplainStmt => r.buildExplain optFlag node
  | .ExplainForStmt => r.buildExplainFor optFlag node
  | .InsertStmt => r.buildInsert optFlag node
  | .LoadStatsStmt => .ok (r.buildLoadStats optFlag node)
  | .PrepareStmt => .ok (r.buildPrepare optFlag node)
  | .SelectStmt => r.buildSelect optFlag node
  | .UnionStmt => r.buildUnion optFlag node
  | .UpdateStmt => r.buildUpdate optFlag node
  | .ShowStmt => r.buildShow optFlag node
  | .DoStmt => r.buildDo optFlag node
  | .SetStmt => r.buildSet optFlag node
  | .AnalyzeTableStmt => r.buildAnalyze optFlag node
  | .FlushStmt | .UseStmt | .BeginStmt | .CommitStmt | .RollbackStmt | .CreateUserStmt
  | .SetPwdStmt | .GrantStmt | .DropUserStmt | .AlterUserStmt | .RevokeStmt | .KillStmt
  | .DropStatsStmt | .GrantRoleStmt | .RevokeRoleStmt | .SetRoleStmt | .SetDefaultRoleStmt
  | .ShutdownStmt => r.buildSimple optFlag node
  | .DDLNode _ => r.buildDDL optFlag node
  | .SplitRegionStmt => r.buildSplitRegion optFlag node
  | .other typeName => .error (Err.ErrUnsupportedType ("Unsupported type " ++ typeName))

/-- Whether `Build` dispatches on a kind of node. -/
def NodeKind.isDispatched : NodeKind → Bool
  | .other _ => false
  | _ => true

/-- The statement kinds `Build` hands to `buildSimple`. -/
def NodeKind.isSimple : NodeKind → Bool
  | .FlushStmt | .UseStmt | .BeginStmt | .CommitStmt | .RollbackStmt | .CreateUserStmt
  | .SetPwdStmt | .GrantStmt | .DropUserStmt | .AlterUserStmt | .RevokeStmt | .KillStmt
  | .DropStatsStmt | .GrantRoleStmt | .RevokeRoleStmt | .SetRoleStmt | .SetDefaultRoleStmt
  | .ShutdownStmt => true
  | _ => false

/-! ### The tables and statements of `TestGeneratedColumnWrite` -/

/-- A column named `name` at offset `offset`, generated when `gen` is not empty. -/
def testColumn (name : String) (offset : Nat) (gen : String) : Column :=
  { Name := { O := name, L := name }, Offset := offset, FieldType := { Tp := 3, Flag := 0 },
    GeneratedExprString := gen }

/-- `CREATE TABLE test_gc_write (a int primary key auto_increment, b int, c int as (b+8) virtual)`. -/
def testGcWrite : Table :=
  { Cols := [testColumn "a" 0 "", testColumn "b" 1 "", testColumn "c" 2 "b+8"]
    Meta := { ID := 1, Name := { O := "test_gc_write", L := "test_gc_write" }, Indices := [],
              PKIsHandle := true, TiFlashReplica := none }
    IsClusterTable := false }

/-- A column name of the syntax tree without schema and table qualifier. -/
def testColumnName (name : String) : ColumnName :=
  { Schema := { O := "", L := "" }, Table := { O := "", L := "" }, Name := { O := name, L := name } }

/-- The integer literal `v`. -/
def testLiteral (v : Int) : ExprNode := ExprNode.ValueExpr (Datum.int v) { Tp := 8, Flag := 0 }

/-- A column lookup by name, standing for `table.FindCols` in the examples. -/
def testFindCols (cols : List Column) : List String → Except Err (List Column)
  | [] => .ok []
  | name :: rest =>
    match cols.find? (fun col => decide (col.Name.O = name)) with
    | none => .error (Err.external 1)
    | some col =>
      match testFindCols cols rest with
      | .error e => .error e
      | .ok found => .ok (col :: found)

/-- The output name of column `name` of `test_gc_write`. -/
def testFieldName (name : String) : FieldName :=
  { DBName := { O := "test", L := "test" }, TblName := { O := "test_gc_write", L := "test_gc_write" },
    ColName := { O := name, L := name } }

/-- The collaborators used in the examples: defaults are NULL, a reference to a column
of `test_gc_write` compiles and any other column reference is an unknown column, every
other expression compiles to a scalar function; the SELECT texts of
`TestGeneratedColumnWrite` build to plans with the selected columns. -/
def testEnv : Env :=
  { FindCols := fun cols names _ => testFindCols cols names
    FindFieldName := fun names column =>
      .ok (if names.findIdx (fun name => decide (name.ColName.L = column.Name.L)) < names.length then
        Int.ofNat (names.findIdx (fun name => decide (name.ColName.L = column.Name.L))) else -1)
    GetColDefaultValue := fun _ => .ok Datum.null
    rewriteWithPreprocess := fun node =>
      match node with
      | .ColumnNameExpr name =>
        if name.Name.L = "a" ∨ name.Name.L = "b" ∨ name.Name.L = "c" then
          .ok (Expression.Column { UniqueID := 1, RetType := none })
        else .error (Err.ErrUnknownColumn name.Name.O "field list")
      | _ => .ok (Expression.ScalarFunction 0)
    Build := fun text planColumnID =>
      if text = "select a from test_gc_write" ∨ text = "select c from test_gc_write" then
        .ok ({ id := 1, schema := { Columns := [{ UniqueID := planColumnID + 1, RetType := none }], Keys := [] },
               names := [testFieldName "a"] }, planColumnID + 1)
      else if text = "select a, b from test_gc_write" then
        .ok ({ id := 1,
               schema := { Columns := [{ UniqueID := planColumnID + 1, RetType := none },
                                       { UniqueID := planColumnID + 2, RetType := none }], Keys := [] },
               names := [testFieldName "a", testFieldName "b"] }, planColumnID + 2)
      else .error (Err.external 2)
    DoOptimize := fun plan planColumnID => .ok (plan, planColumnID)
    MergeSchema := fun l r => { Columns := l.Columns ++ r.Columns, Keys := [] }
    EmptyName := { DBName := { O := "", L := "" }, TblName := { O := "", L := "" },
                   ColName := { O := "", L := "" } } }

/-- The Insert plan `buildInsert` starts from for `test_gc_write`. -/
def testInsertPlan (columns : List ColumnName) : Insert :=
  { Table := testGcWrite
    tableSchema := { Columns := [{ UniqueID := 1, RetType := none }, { UniqueID := 2, RetType := none },
                                 { UniqueID := 3, RetType := none }], Keys := [] }
    tableColNames := [testFieldName "a", testFieldName "b", testFieldName "c"]
    Columns := columns
    Lists := []
    SetList := []
    OnDuplicate := []
    Schema4OnDuplicate := none
    names4OnDuplicate := []
    SelectPlan := none
    IsReplace := false
    AllAssignmentsAreConstant := false }

/-- `insert into test_gc_write (columns...) values lists...`. -/
def testInsertValues (columns : List String) (lists : List (List ExprNode)) : InsertStmt :=
  { IsReplace := false, Columns := columns.map testColumnName, Lists := lists, Setlist := [],
    OnDuplicate := [], Select := "" }

/-- `insert into test_gc_write (columns...) select ...`. -/
def testInsertSelect (columns : List String) (select : String) : InsertStmt :=
  { IsReplace := false, Columns := columns.map testColumnName, Lists := [], Setlist := [],
    OnDuplicate := [], Select := select }

/-- Whether an assignment of an INSERT ... SET statement passes the second loop of
`buildSetValuesOfInsert`: a bare DEFAULT on a generated column, or a value that compiles
on another column. -/
def assignmentPasses (env : Env) (generatedColumns : List String) (assign : AstAssignment) : Prop :=
  (assign.Column.Name.L ∈ generatedColumns ∧ assign.Expr = ExprNode.DefaultExpr none) ∨
    (assign.Column.Name.L ∉ generatedColumns ∧
      ∃ expr, env.rewriteWithPreprocess (assignedExpr assign) = .ok expr)

/-- `insert into test_gc_write set column = value, ...`. -/
def testInsertSet (assignments : List (String × ExprNode)) : InsertStmt :=
  { IsReplace := false, Columns := [], Lists := [],
    Setlist := assignments.map (fun a => { Column := testColumnName a.1, Expr := a.2 }),
    OnDuplicate := [], Select := "" }

/-- Whether position `pos` of the new row is written by the remapping loop of
`buildSelectPlanOfInsert`, which runs over the first `count` affected columns. -/
def hitsOffset (affectedValuesCols : List Column) (count pos : Nat) : Prop :=
  ∃ i col, i < count ∧ affectedValuesCols.get? i = some col ∧ col.Offset = pos

/-- The placeholder column with the given id. -/
def placeholderColumn (id : Int) : ExprColumn := { UniqueID := id, RetType := none }

/-! ### Access paths -/

/-- Storage engine of a path (`kv.StoreType`); `TiKV` is the zero value. -/
inductive StoreType where
  | TiKV
  | TiFlash
  | TiDB
deriving DecidableEq

/-- Access path (`util.AccessPath`), with the fields `getPossibleAccessPaths` uses. -/
structure AccessPath where
  Index : Option IndexInfo
  IsTablePath : Bool
  StoreType : StoreType
  Forced : Bool
deriving DecidableEq

/-- Type of an index hint (`ast.IndexHintType`). -/
inductive IndexHintType where
  | HintUse
  | HintIgnore
  | HintForce
deriving DecidableEq

/-- Scope of an index hint (`ast.IndexHintScope`). -/
inductive IndexHintScope where
  | HintForScan
  | HintForJoin
  | HintForOrderBy
  | HintForGroupBy
deriving DecidableEq

/-- Index hint (`ast.IndexHint`); `IndexNames` is a nil-able slice. -/
structure IndexHint where
  IndexNames : Option (List CIStr)
  HintType : IndexHintType
  HintScope : IndexHintScope
deriving DecidableEq

/-- Go `indexHintInfo`: a comment-style index hint with the table it names. -/
structure indexHintInfo where
  dbName : CIStr
  tblName : CIStr
  indexHint : IndexHint
deriving DecidableEq

/-- Go `tableHintInfo`, the part `getPossibleAccessPaths` reads. -/
structure tableHintInfo where
  indexHintList : List indexHintInfo
deriving DecidableEq

/-- Go `isPrimaryIndex`. -/
def isPrimaryIndex (indexName : CIStr) : Bool := indexName.L = "primary"

/-- The loop of `getPathByIndexName` from position `pos` on. Paths are pointers in Go;
a path is denoted by its position in `paths`. Returns the position of the first index
path with the name, if any, and the last table path seen before it. -/
def scanPathsByIndexName (idxName : CIStr) :
    List AccessPath → Nat → Option Nat → Except Err (Option Nat × Option Nat)
  | [], _, tablePath => .ok (none, tablePath)
  | path :: rest, pos, tablePath =>
    if path.IsTablePath then scanPathsByIndexName idxName rest (pos + 1) (some pos)
    else
      match path.Index with
      | none => .error Err.runtimePanic
      | some index =>
        if index.Name.L = idxName.L then .ok (some pos, tablePath)
        else scanPathsByIndexName idxName rest (pos + 1) tablePath

/-- Go `getPathByIndexName`; the result is the position of the returned path in `paths`,
`none` for nil. -/
def getPathByIndexName (paths : List AccessPath) (idxName : CIStr) (tblInfo : TableInfo) :
    Except Err (Option Nat) :=
  match scanPathsByIndexName idxName paths 0 none with
  | .error e => .error e
  | .ok (some pos, _) => .ok (some pos)
  | .ok (none, tablePath) =>
    if isPrimaryIndex idxName && tblInfo.PKIsHandle then .ok tablePath else .ok none

/-- Modelled from the spec: `getTablePath` (not among the sources) is the table-scan path
of a path list, the first path that is a table path; the result is its position. -/
def getTablePath (paths : List AccessPath) : Option Nat :=
  let pos := paths.findIdx (fun path => path.IsTablePath)
  if pos < paths.length then some pos else none

/-- The assignment `path.Forced = true` through the pointer at position `pos`. -/
def markForced : List AccessPath → Nat → List AccessPath
  | [], _ => []
  | path :: rest, 0 => { path with Forced := true } :: rest
  | path :: rest, pos + 1 => path :: markForced rest pos

/-- The public paths built at the start of `getPossibleAccessPaths`. -/
def buildPublicPaths (tbl : Table) : List AccessPath :=
  let tp := if tbl.IsClusterTable then StoreType.TiDB else StoreType.TiKV
  let tablePath : List AccessPath := [{ Index := none, IsTablePath := true, StoreType := tp, Forced := false }]
  let flashPath : List AccessPath :=
    match tbl.Meta.TiFlashReplica with
    | some replica =>
      if replica.Available then
        [{ Index := none, IsTablePath := true, StoreType := StoreType.TiFlash, Forced := false }]
      else []
    | none => []
  let indexPaths : List AccessPath :=
    (tbl.Meta.Indices.filter (fun index => decide (index.State = SchemaState.StatePublic))).map
      (fun index => { Index := some index, IsTablePath := false, StoreType := StoreType.TiKV, Forced := false })
  tablePath ++ flashPath ++ indexPaths

/-- The local state of the hint loop of `getPossibleAccessPaths`. `publicPaths` holds the
path objects; `available` and `ignored` hold pointers to them, as positions. `warnings`
are the warnings appended to the statement context. -/
structure PathState where
  publicPaths : List AccessPath
  available : List Nat
  ignored : List Nat
  hasScanHint : Bool
  hasUseOrForce : Bool
  warnings : List Err
deriving DecidableEq

/-- The loop over the index names of one hint; `fromSyntax` is `i < indexHintsLen`.
An error is returned with the warnings appended so far. -/
def resolveHintNames (tblInfo : TableInfo) (fromSyntax : Bool) (hintType : IndexHintType) :
    List CIStr → PathState → Except (Err × List Err) PathState
  | [], st => .ok st
  | idxName :: rest, st =>
    match getPathByIndexName st.publicPaths idxName tblInfo with
    | .error e => .error (e, st.warnings)
    | .ok none =>
      let err := Err.ErrKeyDoesNotExist idxName tblInfo.Name
      if fromSyntax then .error (err, st.warnings)
      else resolveHintNames tblInfo fromSyntax hintType rest { st with warnings := st.warnings ++ [err] }
    | .ok (some path) =>
      if hintType = IndexHintType.HintIgnore then
        resolveHintNames tblInfo fromSyntax hintType rest { st with ignored := st.ignored ++ [path] }
      else
        resolveHintNames tblInfo fromSyntax hintType rest
          { st with
              hasUseOrForce := true
              publicPaths := markForced st.publicPaths path
              available := st.available ++ [path] }

/-- The body of the hint loop of `getPossibleAccessPaths` for one hint. -/
def applyIndexHint (tblInfo : TableInfo) (fromSyntax : Bool) (hint : IndexHint) (st : PathState) :
    Except (Err × List Err) PathState :=
  if hint.HintScope ≠ IndexHintScope.HintForScan then .ok st
  else
    let st := { st with hasScanHint := true }
    let st :=
      if hint.IndexNames = none ∧ hint.HintType ≠ IndexHintType.HintIgnore then
        match getTablePath st.publicPaths with
        | some path =>
          { st with
              hasUseOrForce := true
              publicPaths := markForced st.publicPaths path
              available := st.available ++ [path] }
        | none => st
      else st
    resolveHintNames tblInfo fromSyntax hint.HintType (hint.IndexNames.getD []) st

/-- The hint loop of `getPossibleAccessPaths` from hint number `i` on. -/
def applyIndexHints (tblInfo : TableInfo) (indexHintsLen : Nat) :
    Nat → List IndexHint → PathState → Except (Err × List Err) PathState
  | _, [], st => .ok st
  | i, hint :: rest, st =>
    match applyIndexHint tblInfo (decide (i < indexHintsLen)) hint st with
    | .error e => .error e
    | .ok st => applyIndexHints tblInfo indexHintsLen (i + 1) rest st

/-- The paths a list of pointers refers to. -/
def derefPaths (heap : List AccessPath) (ptrs : List Nat) : List AccessPath :=
  ptrs.filterMap (fun p => heap.get? p)

/-- The loop of `removeIgnoredPaths` over pointers into `heap`. -/
def removeIgnoredLoop (heap : List AccessPath) (ignoredPaths : List AccessPath) (tblInfo : TableInfo) :
    List Nat → Except Err (List Nat)
  | [] => .ok []
  | ptr :: rest =>
    match heap.get? ptr with
    | none => .error Err.runtimePanic
    | some path =>
      if path.IsTablePath then
        match removeIgnoredLoop heap ignoredPaths tblInfo rest with
        | .error e => .error e
        | .ok remained => .ok (ptr :: remained)
      else
        match path.Index with
        | none => .error Err.runtimePanic
        | some index =>
          match getPathByIndexName ignoredPaths index.Name tblInfo with
          | .error e => .error e
          | .ok found =>
            match removeIgnoredLoop heap ignoredPaths tblInfo rest with
            | .error e => .error e
            | .ok remained => if found = none then .ok (ptr :: remained) else .ok remained

/-- Go `removeIgnoredPaths`, on pointers into `heap`. -/
def removeIgnoredPaths (heap : List AccessPath) (paths ignoredPaths : List Nat) (tblInfo : TableInfo) :
    Except Err (List Nat) :=
  if ignoredPaths.length = 0 then .ok paths
  else removeIgnoredLoop heap (derefPaths heap ignoredPaths) tblInfo paths

/-- The comment-style index hints `getPossibleAccessPaths` appends to the syntax-level
ones: those of `b.TableHints()` (nil when the statement has no hint table) that name
the table. -/
def commentIndexHints (tableHints : Option tableHintInfo) (dbName tblName : CIStr) : List IndexHint :=
  match tableHints with
  | none => []
  | some hints =>
    (hints.indexHintList.filter
      (fun hint => decide (hint.dbName.L = dbName.L) && decide (hint.tblName.L = tblName.L))).map
      (fun hint => hint.indexHint)

/-- The end of `getPossibleAccessPaths`, after the hint loop: all public paths when no
USE or FORCE scan hint resolved, the ignored paths removed, and the table-scan fallback
when nothing is left. -/
def chooseAvailablePaths (tblInfo : TableInfo) (st : PathState) : Except Err (List AccessPath) :=
  let available :=
    if !st.hasScanHint || !st.hasUseOrForce then List.range st.publicPaths.length
    else st.available
  match removeIgnoredPaths st.publicPaths available st.ignored tblInfo with
  | .error e => .error e
  | .ok available =>
    let paths := derefPaths st.publicPaths available
    if paths.length = 0 then
      .ok [{ Index := none, IsTablePath := true, StoreType := StoreType.TiKV, Forced := false }]
    else .ok paths

/-- Go `PlanBuilder.getPossibleAccessPaths`. `tableHints` is the result of
`b.TableHints()`. Returns the result of the call and the warnings it appended to the
statement context. -/
def getPossibleAccessPaths (tableHints : Option tableHintInfo) (indexHints : List IndexHint)
    (tbl : Table) (dbName tblName : CIStr) : Except Err (List AccessPath) × List Err :=
  let tblInfo := tbl.Meta
  let publicPaths := buildPublicPaths tbl
  let indexHintsLen := indexHints.length
  let indexHints := indexHints ++ commentIndexHints tableHints dbName tblName
  let init : PathState :=
    { publicPaths := publicPaths, available := [], ignored := [],
      hasScanHint := false, hasUseOrForce := false, warnings := [] }
  match applyIndexHints tblInfo indexHintsLen 0 indexHints init with
  | .error (e, warnings) => (.error e, warnings)
  | .ok st => (chooseAvailablePaths tblInfo st, st.warnings)

/-! ### Notions used to state the properties of `getPossibleAccessPaths` -/

/-- Whether an index name of a hint resolves to an access path of the table: some public
index has the name (compared in lower case), or the name is `primary` and the primary
key of the table is the row handle. -/
def resolvesIndexName (tbl : Table) (idxName : CIStr) : Bool :=
  tbl.Meta.Indices.any
      (fun index => decide (index.State = SchemaState.StatePublic) && decide (index.Name.L = idxName.L))
    || (isPrimaryIndex idxName && tbl.Meta.PKIsHandle)

/-- A hint without the index names that do not resolve. -/
def dropMissingNames (tbl : Table) (hint : IndexHint) : IndexHint :=
  { hint with IndexNames := hint.IndexNames.map (fun names => names.filter (resolvesIndexName tbl)) }

/-- The comment-style hints without the index names that do not resolve. -/
def dropMissingCommentNames (tbl : Table) (tableHints : Option tableHintInfo) : Option tableHintInfo :=
  tableHints.map (fun hints =>
    { hints with
        indexHintList := hints.indexHintList.map
          (fun hint => { hint with indexHint := dropMissingNames tbl hint.indexHint }) })

/-- The key-does-not-exist warnings for the names of a list that do not resolve. -/
def missingWarnings (tbl : Table) (names : List CIStr) : List Err :=
  (names.filter (fun name => !resolvesIndexName tbl name)).map
    (fun name => Err.ErrKeyDoesNotExist name tbl.Meta.Name)

/-- One key-does-not-exist warning for every index name of the scan hints that does not
resolve, in hint order. -/
def missingNameWarnings (tbl : Table) : List IndexHint → List Err
  | [] => []
  | hint :: rest =>
    (if hint.HintScope = IndexHintScope.HintForScan then missingWarnings tbl (hint.IndexNames.getD [])
     else []) ++ missingNameWarnings tbl rest

/-- A path without its `Forced` mark. -/
def unforce (path : AccessPath) : AccessPath := { path with Forced := false }

/-- Every path that is not a table path carries its index. -/
def wellFormedPaths (paths : List AccessPath) : Prop :=
  ∀ path ∈ paths, path.IsTablePath = false → path.Index ≠ none

/-- The index path of a public index, as `getPossibleAccessPaths` builds it. -/
def indexPath (index : IndexInfo) : AccessPath :=
  { Index := some index, IsTablePath := false, StoreType := StoreType.TiKV, Forced := false }

/-- The invariant of the hint loop: the path objects are the public paths of the table up
to their `Forced` marks, and `available` and `ignored` point to path objects. -/
structure PathInv (tbl : Table) (st : PathState) : Prop where
  paths : st.publicPaths.map unforce = buildPublicPaths tbl
  available : ∀ p ∈ st.available, p < st.publicPaths.length
  ignored : ∀ p ∈ st.ignored, p < st.publicPaths.length

/-- The state with its warnings replaced. -/
def withWarnings (st : PathState) (warnings : List Err) : PathState :=
  { st with warnings := warnings }

/-- A table with one public index `idx`, and the hints of the examples. -/
def testIndexedTable : Table :=
  { Cols := [testColumn "a" 0 "", testColumn "b" 1 ""]
    Meta := { ID := 2, Name := { O := "t", L := "t" },
              Indices := [{ Name := { O := "idx", L := "idx" }, State := SchemaState.StatePublic }],
              PKIsHandle := false, TiFlashReplica := none }
    IsClusterTable := false }

/-- The hint `hintType INDEX (name)` with the given scope. -/
def testHint (hintType : IndexHintType) (scope : IndexHintScope) (name : String) : IndexHint :=
  { IndexNames := some [{ O := name, L := name }], HintType := hintType, HintScope := scope }

/-- The comment-style hints holding one scan hint `hintType INDEX (name)` on table `test.t`. -/
def testCommentHints (hintType : IndexHintType) (name : String) : Option tableHintInfo :=
  some { indexHintList := [{ dbName := { O := "test", L := "test" }, tblName := { O := "t", L := "t" },
                             indexHint := testHint hintType IndexHintScope.HintForScan name }] }

/-- The path an index name of a hint resolves to on the table: the result of
`getPathByIndexName` on the public paths, as a position among them. -/
def resolvePath (tbl : Table) (idxName : CIStr) : Option Nat :=
  match getPathByIndexName (buildPublicPaths tbl) idxName tbl.Meta with
  | .ok found => found
  | .error _ => none

/-- The paths a hint marks as forced: for a USE or FORCE scan hint, the table path when
the hint has no index list, then the paths its index names resolve to, in order. -/
def hintForced (tbl : Table) (hint : IndexHint) : List Nat :=
  if hint.HintScope = IndexHintScope.HintForScan ∧ hint.HintType ≠ IndexHintType.HintIgnore then
    (if hint.IndexNames = none then (getTablePath (buildPublicPaths tbl)).toList else [])
      ++ (hint.IndexNames.getD []).filterMap (resolvePath tbl)
  else []

/-- The paths a hint ignores: for an IGNORE scan hint, the paths its index names resolve
to, in order. -/
def hintIgnored (tbl : Table) (hint : IndexHint) : List Nat :=
  if hint.HintScope = IndexHintScope.HintForScan ∧ hint.HintType = IndexHintType.HintIgnore then
    (hint.IndexNames.getD []).filterMap (resolvePath tbl)
  else []

/-- The paths named by the USE and FORCE scan hints of a hint list, in hint order. -/
def forcedPaths (tbl : Table) : List IndexHint → List Nat
  | [] => []
  | hint :: rest => hintForced tbl hint ++ forcedPaths tbl rest

/-- The paths named by the IGNORE scan hints of a hint list, in hint order. -/
def ignoredPaths (tbl : Table) : List IndexHint → List Nat
  | [] => []
  | hint :: rest => hintIgnored tbl hint ++ ignoredPaths tbl rest

/-- A path with its `Forced` mark set. -/
def force (path : AccessPath) : AccessPath := { path with Forced := true }

/-- Whether the public path at a position is a table path. -/
def tablePathAt (tbl : Table) (p : Nat) : Bool :=
  match (buildPublicPaths tbl).get? p with
  | some path => path.IsTablePath
  | none => false

/-- The forced paths that stay candidates: the table paths, and the index paths that no
IGNORE scan hint names. -/
def keptPaths (tbl : Table) (hints : List IndexHint) : List Nat :=
  (forcedPaths tbl hints).filter (fun p => tablePathAt tbl p || decide (p ∉ ignoredPaths tbl hints))

/-- The table-scan path `getPossibleAccessPaths` falls back to. -/
def fallbackPath : AccessPath :=
  { Index := none, IsTablePath := true, StoreType := StoreType.TiKV, Forced := false }

/-- Whether a lookup returned no path. -/
def foundNone : Except Err (Option Nat) → Bool
  | .ok none => true
  | _ => false

/-- The test of the loop of `removeIgnoredPaths` for the path at a position. -/
def keepsPath (heap ignoredPaths : List AccessPath) (tblInfo : TableInfo) (p : Nat) : Bool :=
  match heap.get? p with
  | none => false
  | some path =>
    path.IsTablePath ||
      (match path.Index with
        | none => false
        | some index => foundNone (getPathByIndexName ignoredPaths index.Name tblInfo))

/-- A table whose primary key is the row handle, with one public index `idx`. -/
def testHandleTable : Table :=
  { Cols := [testColumn "a" 0 "", testColumn "b" 1 ""]
    Meta := { ID := 3, Name := { O := "t", L := "t" },
              Indices := [{ Name := { O := "idx", L := "idx" }, State := SchemaState.StatePublic }],
              PKIsHandle := true, TiFlashReplica := none }
    IsClusterTable := false }

/-! ### WHERE conditions -/

/-- Go `splitWhere` on a node that is not nil: the type switch and its recursion. -/
def splitWhereNode : ExprNode → List ExprNode
  | .BinaryOperationExpr op l r =>
    if op = Opcode.LogicAnd then splitWhereNode l ++ splitWhereNode r
    else [.BinaryOperationExpr op l r]
  | .ParenthesesExpr x => splitWhereNode x
  | .DefaultExpr name => [.DefaultExpr name]
  | .ValueExpr d t => [.ValueExpr d t]
  | .ColumnNameExpr name => [.ColumnNameExpr name]

/-- Go `splitWhere`; `none` is the nil expression of a statement without WHERE. -/
def splitWhere : Option ExprNode → List ExprNode
  | none => []
  | some node => splitWhereNode node

/-- Whether a node is a logical AND or a parenthesised expression, the two kinds of node
`splitWhere` takes apart. -/
def isAndOrParentheses : ExprNode → Bool
  | .BinaryOperationExpr op _ _ => decide (op = Opcode.LogicAnd)
  | .ParenthesesExpr _ => true
  | _ => false

/-- The value of a WHERE expression under a truth assignment `v` to the expressions that
are neither a logical AND nor parenthesised: AND is conjunction, parentheses are
transparent. -/
def whereValue (v : ExprNode → Bool) : ExprNode → Bool
  | .BinaryOperationExpr op l r =>
    if op = Opcode.LogicAnd then whereValue v l && whereValue v r
    else v (.BinaryOperationExpr op l r)
  | .ParenthesesExpr x => whereValue v x
  | .DefaultExpr name => v (.DefaultExpr name)
  | .ValueExpr d t => v (.ValueExpr d t)
  | .ColumnNameExpr name => v (.ColumnNameExpr name)

/-- The value of a missing or present WHERE expression; a missing one holds. -/
def whereValue? (v : ExprNode → Bool) : Option ExprNode → Bool
  | none => true
  | some node => whereValue v node

/-- The sub-expressions of an expression reached through logical ANDs and parentheses
only, the expression itself included, left to right. -/
def conjunctionNodes : ExprNode → List ExprNode
  | .BinaryOperationExpr op l r =>
    if op = Opcode.LogicAnd then
      .BinaryOperationExpr op l r :: (conjunctionNodes l ++ conjunctionNodes r)
    else [.BinaryOperationExpr op l r]
  | .ParenthesesExpr x => .ParenthesesExpr x :: conjunctionNodes x
  | .DefaultExpr name => [.DefaultExpr name]
  | .ValueExpr d t => [.ValueExpr d t]
  | .ColumnNameExpr name => [.ColumnNameExpr name]

/-! ### Join hints -/

/-- Go `hintTableInfo`. -/
structure hintTableInfo where
  dbName : CIStr
  tblName : CIStr
  selectOffset : Int
  matched : Bool
deriving DecidableEq

/-- The test of `matchTableName` on one hint entry and one table that is not nil. -/
def hintEntryMatches (curEntry table : hintTableInfo) : Bool :=
  decide (curEntry.dbName.L = table.dbName.L) && decide (curEntry.tblName.L = table.tblName.L)
    && decide (table.selectOffset = curEntry.selectOffset)

/-- The inner loop of `matchTableName` for one table: the hint entries after the loop and
whether an entry matched. A nil table skips every entry; the first matching entry is
marked and ends the loop. -/
def matchHintEntries (table : Option hintTableInfo) :
    List hintTableInfo → List hintTableInfo × Bool
  | [] => ([], false)
  | curEntry :: rest =>
    match table with
    | none => (curEntry :: (matchHintEntries table rest).1, (matchHintEntries table rest).2)
    | some t =>
      if hintEntryMatches curEntry t then ({ curEntry with matched := true } :: rest, true)
      else (curEntry :: (matchHintEntries table rest).1, (matchHintEntries table rest).2)

/-- The outer loop of `matchTableName`: `hintMatched` and the hint entries afterwards. -/
def matchTables : List (Option hintTableInfo) → Bool → List hintTableInfo →
    Bool × List hintTableInfo
  | [], hintMatched, hintTables => (hintMatched, hintTables)
  | table :: rest, hintMatched, hintTables =>
    matchTables rest (hintMatched || (matchHintEntries table hintTables).2)
      (matchHintEntries table hintTables).1

/-- Go `tableHintInfo.matchTableName`: the returned flag and the hint entries with their
`matched` marks. -/
def matchTableName (tables : List (Option hintTableInfo)) (hintTables : List hintTableInfo) :
    Bool × List hintTableInfo :=
  matchTables tables false hintTables

/-! ### ON DUPLICATE KEY UPDATE -/

/-- The original name of a column of the syntax tree with its qualifiers
(`ast.ColumnName.OrigColName`, not among the sources). -/
def ColumnName.OrigColName (n : ColumnName) : String :=
  if n.Table.O = "" then n.Name.O
  else if n.Schema.O = "" then n.Table.O ++ "." ++ n.Name.O
  else n.Schema.O ++ "." ++ n.Table.O ++ "." ++ n.Name.O

/-- The map `colMap` of `resolveOnDuplicate`: the columns of the table by lower-case
name, a later column replacing an earlier one of the same name. -/
def buildColMap : List Column → List (String × Column) → List (String × Column)
  | [], colMap => colMap
  | col :: rest, colMap => buildColMap rest (mapSet colMap col.Name.L col)

/-- The loop of `resolveOnDuplicate` over the assignments: `onDupColSet` and
`p.OnDuplicate` afterwards. A column missing from `colMap` is the nil pointer on which
`column.IsGenerated()` panics. -/
def resolveOnDuplicateLoop (env : Env) (p : Insert) (tblInfo : TableInfo)
    (yield : ExprNode → Except Err Expression) (colMap : List (String × Column)) :
    List AstAssignment → List (String × Unit) → List Assignment →
    Except Err (List (String × Unit) × List Assignment)
  | [], onDupColSet, onDuplicate => .ok (onDupColSet, onDuplicate)
  | assign :: rest, onDupColSet, onDuplicate =>
    match env.FindFieldName p.tableColNames assign.Column with
    | .error e => .error e
    | .ok idx =>
      if idx < 0 then .error (Err.ErrUnknownColumn assign.Column.OrigColName "field list")
      else
        match mapGet colMap assign.Column.Name.L with
        | none => .error Err.runtimePanic
        | some column =>
          if column.IsGenerated then
            if (extractDefaultExpr assign.Expr).isSome then
              resolveOnDuplicateLoop env p tblInfo yield colMap rest onDupColSet onDuplicate
            else .error (Err.ErrBadGeneratedColumn assign.Column.Name.O tblInfo.Name.O)
          else
            match yield (assignedExpr assign) with
            | .error e => .error e
            | .ok expr =>
              match p.tableSchema.Columns.get? idx.toNat with
              | none => .error Err.runtimePanic
              | some col =>
                match p.tableColNames.get? idx.toNat with
                | none => .error Err.runtimePanic
                | some name =>
                  resolveOnDuplicateLoop env p tblInfo yield colMap rest
                    (mapSet onDupColSet column.Name.L ())
                    (onDuplicate ++ [{ Col := col, ColName := name.ColName, Expr := expr }])

/-- Go `Insert.resolveOnDuplicate`: the returned column set and the plan with its
`OnDuplicate` list. -/
def resolveOnDuplicate (env : Env) (p : Insert) (onDup : List AstAssignment)
    (tblInfo : TableInfo) (yield : ExprNode → Except Err Expression) :
    Except Err (List (String × Unit) × Insert) :=
  match resolveOnDuplicateLoop env p tblInfo yield (buildColMap p.Table.Cols []) onDup []
      p.OnDuplicate with
  | .error e => .error e
  | .ok (onDupColSet, onDuplicate) => .ok (onDupColSet, { p with OnDuplicate := onDuplicate })

/-- Whether an assignment of an ON DUPLICATE KEY UPDATE list passes the loop of
`resolveOnDuplicate`: its column is found among the output names and in the table, and it
is a bare DEFAULT on a generated column or a value that compiles on another column. -/
def onDuplicatePasses (env : Env) (p : Insert) (yield : ExprNode → Except Err Expression)
    (assign : AstAssignment) : Prop :=
  ∃ idx column col name, env.FindFieldName p.tableColNames assign.Column = .ok idx ∧ 0 ≤ idx ∧
    mapGet (buildColMap p.Table.Cols []) assign.Column.Name.L = some column ∧
    p.tableSchema.Columns.get? idx.toNat = some col ∧
    p.tableColNames.get? idx.toNat = some name ∧
    ((column.IsGenerated = true ∧ assign.Expr = ExprNode.DefaultExpr none) ∨
      (column.IsGenerated = false ∧ ∃ expr, yield (assignedExpr assign) = .ok expr))

/-- `insert into test_gc_write ... on duplicate key update column = value, ...`: the
ON DUPLICATE KEY UPDATE list. -/
def testOnDuplicate (assignments : List (String × ExprNode)) : List AstAssignment :=
  assignments.map (fun a => { Column := testColumnName a.1, Expr := a.2 })

/-- Whether an assignment of an ON DUPLICATE KEY UPDATE list targets a generated column:
the column `colMap` holds for the lower-case name of its target is generated. -/
def targetsGenerated (p : Insert) (assign : AstAssignment) : Bool :=
  match mapGet (buildColMap p.Table.Cols []) assign.Column.Name.L with
  | some column => column.IsGenerated
  | none => false

/-! ### Handle-column tracker -/

/-- A Go slice of column pointers (`[]*expression.Column`): its backing array, by position
in the heap of arrays, and its length. The capacity is the length of the backing array;
the heap is a list of arrays whose elements are column pointers, `none` being nil. -/
structure ColSlice where
  arr : Nat
  len : Nat
deriving DecidableEq

/-- The elements of a slice. -/
def ColSlice.elems (heap : List (List (Option ExprColumn))) (s : ColSlice) :
    List (Option ExprColumn) :=
  ((heap.get? s.arr).getD []).take s.len

/-- A slice lies inside a backing array of the heap. -/
def validSlice (heap : List (List (Option ExprColumn))) (s : ColSlice) : Prop :=
  ∃ backing, heap.get? s.arr = some backing ∧ s.len ≤ backing.length

/-- Go `make([]*expression.Column, n)`: a new backing array of `n` nil pointers. -/
def makeSlice (heap : List (List (Option ExprColumn))) (n : Nat) :
    List (List (Option ExprColumn)) × ColSlice :=
  (heap ++ [List.replicate n none], { arr := heap.length, len := n })

/-- Go `copy(dst, src)`: the first `min(len(dst), len(src))` elements of `src` are
written to the start of the backing array of `dst`. -/
def copySlice (heap : List (List (Option ExprColumn))) (dst src : ColSlice) :
    List (List (Option ExprColumn)) :=
  let vals := (src.elems heap).take dst.len
  heap.set dst.arr (vals ++ ((heap.get? dst.arr).getD []).drop vals.length)

/-- Go `append(s, v...)`: in place when the capacity suffices, otherwise into a new
backing array (taken with exactly the capacity needed). -/
def appendSlice (heap : List (List (Option ExprColumn))) (s : ColSlice)
    (v : List (Option ExprColumn)) : List (List (Option ExprColumn)) × ColSlice :=
  let backing := (heap.get? s.arr).getD []
  if s.len + v.length ≤ backing.length then
    (heap.set s.arr (backing.take s.len ++ v ++ backing.drop (s.len + v.length)),
      { arr := s.arr, len := s.len + v.length })
  else
    (heap ++ [backing.take s.len ++ v], { arr := heap.length, len := s.len + v.length })

/-- Go `handleColHelper`: the stack of handle maps, each from table id to the slice of
its handle columns. -/
structure handleColHelper where
  id2HandleMapStack : List (List (Int × ColSlice))
  stackTail : Nat
deriving DecidableEq

/-- Go `handleColHelper.popMap`; an index outside the stack panics. -/
def handleColHelper.popMap (hch : handleColHelper) :
    Except Err (List (Int × ColSlice) × handleColHelper) :=
  if hch.stackTail = 0 then .error Err.runtimePanic
  else
    match hch.id2HandleMapStack.get? (hch.stackTail - 1) with
    | none => .error Err.runtimePanic
    | some ret =>
      .ok (ret, { id2HandleMapStack := hch.id2HandleMapStack.take (hch.stackTail - 1),
                  stackTail := hch.stackTail - 1 })

/-- Go `handleColHelper.pushMap`. -/
def handleColHelper.pushMap (hch : handleColHelper) (m : List (Int × ColSlice)) :
    handleColHelper :=
  { id2HandleMapStack := hch.id2HandleMapStack ++ [m], stackTail := hch.stackTail + 1 }

/-- Go `handleColHelper.tailMap`; an index outside the stack panics. -/
def handleColHelper.tailMap (hch : handleColHelper) : Except Err (List (Int × ColSlice)) :=
  if hch.stackTail = 0 then .error Err.runtimePanic
  else
    match hch.id2HandleMapStack.get? (hch.stackTail - 1) with
    | none => .error Err.runtimePanic
    | some ret => .ok ret

/-- The first loop of `mergeAndPush`, over the entries of `m1`: every column list is
copied into a new slice of `newMap`. -/
def copyEntries : List (List (Option ExprColumn)) → List (Int × ColSlice) →
    List (Int × ColSlice) → List (List (Option ExprColumn)) × List (Int × ColSlice)
  | heap, [], newMap => (heap, newMap)
  | heap, (k, v) :: rest, newMap =>
    copyEntries (copySlice (makeSlice heap v.len).1 (makeSlice heap v.len).2 v) rest
      (mapSet newMap k (makeSlice heap v.len).2)

/-- The second loop of `mergeAndPush`, over the entries of `m2`: the column list is
appended to the slice `newMap` holds for the key, or copied into a new slice. -/
def mergeEntries : List (List (Option ExprColumn)) → List (Int × ColSlice) →
    List (Int × ColSlice) → List (List (Option ExprColumn)) × List (Int × ColSlice)
  | heap, [], newMap => (heap, newMap)
  | heap, (k, v) :: rest, newMap =>
    match mapGet newMap k with
    | some s =>
      mergeEntries (appendSlice heap s (v.elems heap)).1 rest
        (mapSet newMap k (appendSlice heap s (v.elems heap)).2)
    | none =>
      mergeEntries (copySlice (makeSlice heap v.len).1 (makeSlice heap v.len).2 v) rest
        (mapSet newMap k (makeSlice heap v.len).2)

/-- Go `handleColHelper.mergeAndPush`: the heap of arrays and the helper afterwards. The
entries of a map are visited in the order of its list. -/
def handleColHelper.mergeAndPush (heap : List (List (Option ExprColumn))) (hch : handleColHelper)
    (m1 m2 : List (Int × ColSlice)) : List (List (Option ExprColumn)) × handleColHelper :=
  let first := copyEntries heap m1 []
  let second := mergeEntries first.1 m2 first.2
  (second.1, hch.pushMap second.2)

/-- The column list a handle map holds for a table id. -/
def handleCols (heap : List (List (Option ExprColumn))) (m : List (Int × ColSlice)) (k : Int) :
    Option (List (Option ExprColumn)) :=
  (mapGet m k).map (fun s => s.elems heap)

/-- The invariant of the loops of `mergeAndPush`: the arrays that existed before the call
are untouched, and the slices of `newMap` lie in arrays made during the call, one array
per key. -/
structure MergeInv (old heap : List (List (Option ExprColumn))) (newMap : List (Int × ColSlice)) :
    Prop where
  old_kept : heap.take old.length = old
  old_le : old.length ≤ heap.length
  fresh : ∀ k s, mapGet newMap k = some s → old.length ≤ s.arr ∧ validSlice heap s
  apart : ∀ k k' s s', mapGet newMap k = some s → mapGet newMap k' = some s' → k ≠ k' →
    s.arr ≠ s'.arr

/-! ### Generated columns -/

/-- Go `InsertGeneratedColumns`. -/
structure InsertGeneratedColumns where
  Columns : List ColumnName
  Exprs : List Expression
  OnDuplicates : List Assignment
deriving DecidableEq

/-- The collaborators of `resolveGeneratedColumns` that are not among the sources: the
parsed generation expression of a column (`column.GeneratedExpr`), the keys of its
dependency map (`column.Dependences`), `expression.FindFieldName`, the expression rewriter
`b.rewrite` called with the mock plan, and `expression.BuildCastFunction`. -/
structure GenEnv where
  GeneratedExpr : Column → ExprNode
  Dependences : Column → List String
  FindFieldName : List FieldName → ColumnName → Except Err Int
  rewrite : ExprNode → Plan → Except Err Expression
  BuildCastFunction : Expression → Option FieldType → Expression

/-- The column name `resolveGeneratedColumns` looks a generated column up with:
`&ast.ColumnName{Name: column.Name}`. -/
def generatedColumnName (column : Column) : ColumnName :=
  { Schema := { O := "", L := "" }, Table := { O := "", L := "" }, Name := column.Name }

/-- The loop of `resolveGeneratedColumns`; `onDups` is a nil-able map. A lookup that
finds no name returns a negative index, on which the slice access panics. -/
def resolveGeneratedLoop (g : GenEnv) (onDups : Option (List (String × Unit))) (mockPlan : Plan) :
    List Column → InsertGeneratedColumns → Except Err InsertGeneratedColumns
  | [], igc => .ok igc
  | column :: rest, igc =>
    if !column.IsGenerated then resolveGeneratedLoop g onDups mockPlan rest igc
    else
      match g.FindFieldName mockPlan.names (generatedColumnName column) with
      | .error e => .error e
      | .ok idx =>
        if idx < 0 then .error Err.runtimePanic
        else
          match mockPlan.schema.Columns.get? idx.toNat with
          | none => .error Err.runtimePanic
          | some colExpr =>
            match g.rewrite (g.GeneratedExpr column) mockPlan with
            | .error e => .error e
            | .ok compiled =>
              let expr := g.BuildCastFunction compiled colExpr.RetType
              let igc := { igc with
                Columns := igc.Columns ++ [generatedColumnName column]
                Exprs := igc.Exprs ++ [expr] }
              match onDups with
              | none => resolveGeneratedLoop g onDups mockPlan rest igc
              | some set =>
                if (g.Dependences column).any (fun dep => (mapGet set dep).isSome) then
                  resolveGeneratedLoop g onDups mockPlan rest
                    { igc with OnDuplicates := igc.OnDuplicates ++
                        [{ Col := colExpr, ColName := column.Name, Expr := expr }] }
                else resolveGeneratedLoop g onDups mockPlan rest igc

/-- Go `PlanBuilder.resolveGeneratedColumns`. On an error Go returns the columns resolved
so far with it; the caller drops them, and so does the model. -/
def resolveGeneratedColumns (g : GenEnv) (columns : List Column)
    (onDups : Option (List (String × Unit))) (mockPlan : Plan) :
    Except Err InsertGeneratedColumns :=
  resolveGeneratedLoop g onDups mockPlan columns { Columns := [], Exprs := [], OnDuplicates := [] }

/-- A rewriter for the examples: a column reference compiles when the mock plan has an
output name for it and is an unknown column otherwise, a literal is a constant, an
operation compiles when its operands do, DEFAULT does not compile. -/
def testRewrite : ExprNode → Plan → Except Err Expression
  | .ColumnNameExpr name, plan =>
    if plan.names.any (fun field => decide (field.ColName.L = name.Name.L)) then
      .ok (Expression.Column { UniqueID := 1, RetType := none })
    else .error (Err.ErrUnknownColumn name.Name.O "field list")
  | .ValueExpr d t, _ => .ok (Expression.Constant d t)
  | .BinaryOperationExpr _ l r, plan =>
    match testRewrite l plan with
    | .error e => .error e
    | .ok _ =>
      match testRewrite r plan with
      | .error e => .error e
      | .ok _ => .ok (Expression.ScalarFunction 0)
  | .ParenthesesExpr x, plan => testRewrite x plan
  | .DefaultExpr _, _ => .error (Err.external 3)

/-! ### SHOW statements -/

/-- The kinds of SHOW statement (`ast.ShowStmtType`) that `buildShow` and `buildShowSchema`
name; `other` stands for the kinds neither of them names (`ShowNone`, `ShowPlugins`, ...). -/
inductive ShowStmtType where
  | ShowEngines
  | ShowDatabases
  | ShowTables
  | ShowTableStatus
  | ShowColumns
  | ShowWarnings
  | ShowCharset
  | ShowVariables
  | ShowStatus
  | ShowCollation
  | ShowCreateTable
  | ShowCreateView
  | ShowCreateUser
  | ShowCreateDatabase
  | ShowGrants
  | ShowTriggers
  | ShowProcedureStatus
  | ShowIndex
  | ShowProcessList
  | ShowEvents
  | ShowStatsMeta
  | ShowStatsHistograms
  | ShowStatsBuckets
  | ShowStatsHealthy
  | ShowProfiles
  | ShowMasterStatus
  | ShowPrivileges
  | ShowErrors
  | ShowBindings
  | ShowPumpStatus
  | ShowDrainerStatus
  | ShowOpenTables
  | ShowAnalyzeStatus
  | ShowRegions
  | ShowBuiltins
  | other (code : Nat)
deriving DecidableEq

/-- Table name of the syntax tree (`ast.TableName`), with the fields `buildShow` reads. -/
structure ShowTableName where
  Schema : CIStr
  Name : CIStr
deriving DecidableEq

/-- LIKE pattern of the syntax tree (`ast.PatternLikeExpr`): the matched expression, which
`buildShow` fills in, and the pattern. -/
structure PatternLikeExpr where
  Expr : Option ExprNode
  Pattern : ExprNode
  Not : Bool
deriving DecidableEq

/-- SHOW statement (`ast.ShowStmt`), with the fields `buildShow` and `buildShowSchema` read;
`User` is the text `fmt.Sprintf` prints for the user identity, when there is one. -/
structure ShowStmt where
  Tp : ShowStmtType
  DBName : String
  Table : Option ShowTableName
  Full : Bool
  User : Option String
  Pattern : Option PatternLikeExpr
  Where : Option ExprNode
deriving DecidableEq

/-- The type codes of package `mysql` that the SHOW schemas use. -/
def TypeUnspecified : Nat := 0
/-- Type code `mysql.TypeTiny`. -/
def TypeTiny : Nat := 1
/-- Type code `mysql.TypeLong`. -/
def TypeLong : Nat := 3
/-- Type code `mysql.TypeDouble`. -/
def TypeDouble : Nat := 5
/-- Type code `mysql.TypeLonglong` (BIGINT). -/
def TypeLonglong : Nat := 8
/-- Type code `mysql.TypeInt24`. -/
def TypeInt24 : Nat := 9
/-- Type code `mysql.TypeDatetime`. -/
def TypeDatetime : Nat := 12
/-- Type code `mysql.TypeVarchar`. -/
def TypeVarchar : Nat := 15
/-- Type code `mysql.TypeBlob`. -/
def TypeBlob : Nat := 252
/-- Type code `mysql.TypeString`. -/
def TypeString : Nat := 254
/-- The flag bit `mysql.UnsignedFlag` (1 << 5). -/
def UnsignedFlag : Nat := 32

/-- Go `buildColumnWithName`; `infoschemaName` is the constant `infoschema.Name`. The
length, character set and collation of the field type are not modelled. -/
def buildColumnWithName (infoschemaName tableName name : String) (tp : Nat) (_size : Nat) :
    ExprColumn × FieldName :=
  let flag := if tp = TypeVarchar ∨ tp = TypeBlob then 0 else UnsignedFlag
  ({ UniqueID := 0, RetType := some { Tp := tp, Flag := flag } },
   { DBName := NewCIStr infoschemaName, TblName := NewCIStr tableName, ColName := NewCIStr name })

/-- Go `columnsWithNames`. -/
structure columnsWithNames where
  cols : List ExprColumn
  names : List FieldName
deriving DecidableEq

/-- Go `newColumnsWithNames`. -/
def newColumnsWithNames (_cap : Nat) : columnsWithNames := { cols := [], names := [] }

/-- Go `columnsWithNames.Append`. -/
def columnsWithNames.Append (cwn : columnsWithNames) (entry : ExprColumn × FieldName) :
    columnsWithNames :=
  { cols := cwn.cols ++ [entry.1], names := cwn.names ++ [entry.2] }

/-- Go `columnsWithNames.col2Schema`: `expression.NewSchema(cwn.cols...)`. -/
def columnsWithNames.col2Schema (cwn : columnsWithNames) : Schema :=
  { Columns := cwn.cols, Keys := [] }

/-- Go `buildShowProcedureSchema`. -/
def buildShowProcedureSchema (db : String) : Schema × List FieldName :=
  let tblName := "ROUTINES"
  let schema := newColumnsWithNames 11
  let schema := schema.Append (buildColumnWithName db tblName "Db" TypeVarchar 128)
  let schema := schema.Append (buildColumnWithName db tblName "Name" TypeVarchar 128)
  let schema := schema.Append (buildColumnWithName db tblName "Type" TypeVarchar 128)
  let schema := schema.Append (buildColumnWithName db tblName "Definer" TypeVarchar 128)
  let schema := schema.Append (buildColumnWithName db tblName "Modified" TypeDatetime 19)
  let schema := schema.Append (buildColumnWithName db tblName "Created" TypeDatetime 19)
  let schema := schema.Append (buildColumnWithName db tblName "Security_type" TypeVarchar 128)
  let schema := schema.Append (buildColumnWithName db tblName "Comment" TypeBlob 196605)
  let schema := schema.Append (buildColumnWithName db tblName "character_set_client" TypeVarchar 32)
  let schema := schema.Append (buildColumnWithName db tblName "collation_connection" TypeVarchar 32)
  let schema := schema.Append (buildColumnWithName db tblName "Database Collation" TypeVarchar 32)
  (schema.col2Schema, schema.names)

/-- Go `buildShowTriggerSchema`. -/
def buildShowTriggerSchema (db : String) : Schema × List FieldName :=
  let tblName := "TRIGGERS"
  let schema := newColumnsWithNames 11
  let schema := schema.Append (buildColumnWithName db tblName "Trigger" TypeVarchar 128)
  let schema := schema.Append (buildColumnWithName db tblName "Event" TypeVarchar 128)
  let schema := schema.Append (buildColumnWithName db tblName "Table" TypeVarchar 128)
  let schema := schema.Append (buildColumnWithName db tblName "Statement" TypeBlob 196605)
  let schema := schema.Append (buildColumnWithName db tblName "Timing" TypeVarchar 128)
  let schema := schema.Append (buildColumnWithName db tblName "Created" TypeDatetime 19)
  let schema := schema.Append (buildColumnWithName db tblName "sql_mode" TypeBlob 8192)
  let schema := schema.Append (buildColumnWithName db tblName "Definer" TypeVarchar 128)
  let schema := schema.Append (buildColumnWithName db tblName "character_set_client" TypeVarchar 32)
  let schema := schema.Append (buildColumnWithName db tblName "collation_connection" TypeVarchar 32)
  let schema := schema.Append (buildColumnWithName db tblName "Database Collation" TypeVarchar 32)
  (schema.col2Schema, schema.names)

/-- Go `buildShowEventsSchema`. -/
def buildShowEventsSchema (db : String) : Schema × List FieldName :=
  let tblName := "EVENTS"
  let schema := newColumnsWithNames 15
  let schema := schema.Append (buildColumnWithName db tblName "Db" TypeVarchar 128)
  let schema := schema.Append (buildColumnWithName db tblName "Name" TypeVarchar 128)
  let schema := schema.Append (buildColumnWithName db tblName "Time zone" TypeVarchar 32)
  let schema := schema.Append (buildColumnWithName db tblName "Definer" TypeVarchar 128)
  let schema := schema.Append (buildColumnWithName db tblName "Type" TypeVarchar 128)
  let schema := schema.Append (buildColumnWithName db tblName "Execute At" TypeDatetime 19)
  let schema := schema.Append (buildColumnWithName db tblName "Interval Value" TypeVarchar 128)
  let schema := schema.Append (buildColumnWithName db tblName "Interval Field" TypeVarchar 128)
  let schema := schema.Append (buildColumnWithName db tblName "Starts" TypeDatetime 19)
  let schema := schema.Append (buildColumnWithName db tblName "Ends" TypeDatetime 19)
  let schema := schema.Append (buildColumnWithName db tblName "Status" TypeVarchar 32)
  let schema := schema.Append (buildColumnWithName db tblName "Originator" TypeInt24 4)
  let schema := schema.Append (buildColumnWithName db tblName "character_set_client" TypeVarchar 32)
  let schema := schema.Append (buildColumnWithName db tblName "collation_connection" TypeVarchar 32)
  let schema := schema.Append (buildColumnWithName db tblName "Database Collation" TypeVarchar 32)
  (schema.col2Schema, schema.names)

/-- Go `buildShowWarningsSchema`. -/
def buildShowWarningsSchema (db : String) : Schema × List FieldName :=
  let tblName := "WARNINGS"
  let schema := newColumnsWithNames 3
  let schema := schema.Append (buildColumnWithName db tblName "Level" TypeVarchar 64)
  let schema := schema.Append (buildColumnWithName db tblName "Code" TypeLong 19)
  let schema := schema.Append (buildColumnWithName db tblName "Message" TypeVarchar 64)
  (schema.col2Schema, schema.names)

/-- Go `buildTableRegionsSchema`. -/
def buildTableRegionsSchema (db : String) : Schema × List FieldName :=
  let schema := newColumnsWithNames 11
  let schema := schema.Append (buildColumnWithName db "" "REGION_ID" TypeLonglong 4)
  let schema := schema.Append (buildColumnWithName db "" "START_KEY" TypeVarchar 64)
  let schema := schema.Append (buildColumnWithName db "" "END_KEY" TypeVarchar 64)
  let schema := schema.Append (buildColumnWithName db "" "LEADER_ID" TypeLonglong 4)
  let schema := schema.Append (buildColumnWithName db "" "LEADER_STORE_ID" TypeLonglong 4)
  let schema := schema.Append (buildColumnWithName db "" "PEERS" TypeVarchar 64)
  let schema := schema.Append (buildColumnWithName db "" "SCATTERING" TypeTiny 1)
  let schema := schema.Append (buildColumnWithName db "" "WRITTEN_BYTES" TypeLonglong 4)
  let schema := schema.Append (buildColumnWithName db "" "READ_BYTES" TypeLonglong 4)
  let schema := schema.Append (buildColumnWithName db "" "APPROXIMATE_SIZE(MB)" TypeLonglong 4)
  let schema := schema.Append (buildColumnWithName db "" "APPROXIMATE_KEYS" TypeLonglong 4)
  (schema.col2Schema, schema.names)

/-- The switch of `buildShowSchema` for the kinds it does not return from at once: the
column names and the column types (`names`, `ftypes`) the kind declares; both stay nil for
a kind the switch does not name. `ColDescFieldNames` is `table.ColDescFieldNames`. -/
def declaredColumns (ColDescFieldNames : Bool → List String) (s : ShowStmt) (isView : Bool) :
    List String × List Nat :=
  match s.Tp with
  | .ShowEngines => (["Engine", "Support", "Comment", "Transactions", "XA", "Savepoints"], [])
  | .ShowDatabases => (["Database"], [])
  | .ShowOpenTables =>
    (["Database", "Table", "In_use", "Name_locked"],
     [TypeVarchar, TypeVarchar, TypeLong, TypeLong])
  | .ShowTables =>
    (if s.Full then ["Tables_in_" ++ s.DBName] ++ ["Table_type"] else ["Tables_in_" ++ s.DBName],
     [])
  | .ShowTableStatus =>
    (["Name", "Engine", "Version", "Row_format", "Rows", "Avg_row_length",
      "Data_length", "Max_data_length", "Index_length", "Data_free", "Auto_increment",
      "Create_time", "Update_time", "Check_time", "Collation", "Checksum",
      "Create_options", "Comment"],
     [TypeVarchar, TypeVarchar, TypeLonglong, TypeVarchar, TypeLonglong, TypeLonglong,
      TypeLonglong, TypeLonglong, TypeLonglong, TypeLonglong, TypeLonglong,
      TypeDatetime, TypeDatetime, TypeDatetime, TypeVarchar, TypeVarchar,
      TypeVarchar, TypeVarchar])
  | .ShowColumns => (ColDescFieldNames s.Full, [])
  | .ShowCharset =>
    (["Charset", "Description", "Default collation", "Maxlen"],
     [TypeVarchar, TypeVarchar, TypeVarchar, TypeLonglong])
  | .ShowVariables => (["Variable_name", "Value"], [])
  | .ShowStatus => (["Variable_name", "Value"], [])
  | .ShowCollation =>
    (["Collation", "Charset", "Id", "Default", "Compiled", "Sortlen"],
     [TypeVarchar, TypeVarchar, TypeLonglong, TypeVarchar, TypeVarchar, TypeLonglong])
  | .ShowCreateTable =>
    if !isView then (["Table", "Create Table"], [])
    else (["View", "Create View", "character_set_client", "collation_connection"], [])
  | .ShowCreateUser =>
    match s.User with
    | some user => (["CREATE USER for " ++ user], [])
    | none => ([], [])
  | .ShowCreateView =>
    (["View", "Create View", "character_set_client", "collation_connection"], [])
  | .ShowCreateDatabase => (["Database", "Create Database"], [])
  | .ShowDrainerStatus =>
    (["NodeID", "Address", "State", "Max_Commit_Ts", "Update_Time"],
     [TypeVarchar, TypeVarchar, TypeVarchar, TypeLonglong, TypeVarchar])
  | .ShowGrants =>
    match s.User with
    | some user => (["Grants for " ++ user], [])
    | none => (["Grants for User"], [])
  | .ShowIndex =>
    (["Table", "Non_unique", "Key_name", "Seq_in_index",
      "Column_name", "Collation", "Cardinality", "Sub_part", "Packed",
      "Null", "Index_type", "Comment", "Index_comment"],
     [TypeVarchar, TypeLonglong, TypeVarchar, TypeLonglong,
      TypeVarchar, TypeVarchar, TypeLonglong, TypeLonglong,
      TypeVarchar, TypeVarchar, TypeVarchar, TypeVarchar, TypeVarchar])
  | .ShowProcessList =>
    (["Id", "User", "Host", "db", "Command", "Time", "State", "Info"],
     [TypeLonglong, TypeVarchar, TypeVarchar,
      TypeVarchar, TypeVarchar, TypeLong, TypeVarchar, TypeString])
  | .ShowPumpStatus =>
    (["NodeID", "Address", "State", "Max_Commit_Ts", "Update_Time"],
     [TypeVarchar, TypeVarchar, TypeVarchar, TypeLonglong, TypeVarchar])
  | .ShowStatsMeta =>
    (["Db_name", "Table_name", "Partition_name", "Update_time", "Modify_count", "Row_count"],
     [TypeVarchar, TypeVarchar, TypeVarchar, TypeDatetime, TypeLonglong, TypeLonglong])
  | .ShowStatsHistograms =>
    (["Db_name", "Table_name", "Partition_name", "Column_name", "Is_index", "Update_time",
      "Distinct_count", "Null_count", "Avg_col_size", "Correlation"],
     [TypeVarchar, TypeVarchar, TypeVarchar, TypeVarchar, TypeTiny, TypeDatetime,
      TypeLonglong, TypeLonglong, TypeDouble, TypeDouble])
  | .ShowStatsBuckets =>
    (["Db_name", "Table_name", "Partition_name", "Column_name", "Is_index", "Bucket_id", "Count",
      "Repeats", "Lower_Bound", "Upper_Bound"],
     [TypeVarchar, TypeVarchar, TypeVarchar, TypeVarchar, TypeTiny, TypeLonglong,
      TypeLonglong, TypeLonglong, TypeVarchar, TypeVarchar])
  | .ShowStatsHealthy =>
    (["Db_name", "Table_name", "Partition_name", "Healthy"],
     [TypeVarchar, TypeVarchar, TypeVarchar, TypeLonglong])
  | .ShowProfiles =>
    (["Query_ID", "Duration", "Query"], [TypeLong, TypeDouble, TypeVarchar])
  | .ShowMasterStatus =>
    (["File", "Position", "Binlog_Do_DB", "Binlog_Ignore_DB", "Executed_Gtid_Set"],
     [TypeVarchar, TypeLonglong, TypeVarchar, TypeVarchar, TypeVarchar])
  | .ShowPrivileges =>
    (["Privilege", "Context", "Comment"], [TypeVarchar, TypeVarchar, TypeVarchar])
  | .ShowBindings =>
    (["Original_sql", "Bind_sql", "Default_db", "Status", "Create_time", "Update_time",
      "Charset", "Collation"],
     [TypeVarchar, TypeVarchar, TypeVarchar, TypeVarchar, TypeDatetime, TypeDatetime,
      TypeVarchar, TypeVarchar])
  | .ShowAnalyzeStatus =>
    (["Table_schema", "Table_name", "Partition_name", "Job_info", "Processed_rows",
      "Start_time", "State"],
     [TypeVarchar, TypeVarchar, TypeVarchar, TypeVarchar, TypeLonglong, TypeDatetime,
      TypeVarchar])
  | .ShowBuiltins => (["Supported_builtin_functions"], [TypeVarchar])
  | _ => ([], [])

/-- The loop at the end of `buildShowSchema`, at position `i` of `names`: every name gets
an output name and a column of the listed type when types are listed and the listed type
is not `TypeUnspecified`, of type VARCHAR otherwise. `ftypes[i]` out of range panics. The
length, character set and collation of the field type are not modelled. -/
def showSchemaLoop (ftypes : List Nat) :
    Nat → List String → Schema → List FieldName → Except Err (Schema × List FieldName)
  | _, [], schema, outputNames => .ok (schema, outputNames)
  | i, name :: rest, schema, outputNames =>
    let outputNames := outputNames ++
      [{ DBName := { O := "", L := "" }, TblName := { O := "", L := "" }, ColName := NewCIStr name }]
    if ftypes.length ≠ 0 then
      match ftypes.get? i with
      | none => .error Err.runtimePanic
      | some listed =>
        let tp := if listed ≠ TypeUnspecified then listed else TypeVarchar
        showSchemaLoop ftypes (i + 1) rest
          { schema with Columns := schema.Columns ++
              [{ UniqueID := 0, RetType := some { Tp := tp, Flag := 0 } }] } outputNames
    else
      showSchemaLoop ftypes (i + 1) rest
        { schema with Columns := schema.Columns ++
            [{ UniqueID := 0, RetType := some { Tp := TypeVarchar, Flag := 0 } }] } outputNames

/-- Whether `buildShowSchema` handles the kind in its generic branch, that is, does not
return from one of the special schema builders. -/
def genericShowKind (tp : ShowStmtType) : Bool :=
  match tp with
  | .ShowProcedureStatus => false
  | .ShowTriggers => false
  | .ShowEvents => false
  | .ShowWarnings => false
  | .ShowErrors => false
  | .ShowRegions => false
  | _ => true

/-- Go `buildShowSchema`: the column info of a SHOW statement, column names and types.
`ColDescFieldNames` is `table.ColDescFieldNames`, `infoschemaName` is `infoschema.Name`. -/
def buildShowSchema (ColDescFieldNames : Bool → List String) (infoschemaName : String)
    (s : ShowStmt) (isView : Bool) : Except Err (Schema × List FieldName) :=
  match s.Tp with
  | .ShowProcedureStatus => .ok (buildShowProcedureSchema infoschemaName)
  | .ShowTriggers => .ok (buildShowTriggerSchema infoschemaName)
  | .ShowEvents => .ok (buildShowEventsSchema infoschemaName)
  | .ShowWarnings => .ok (buildShowWarningsSchema infoschemaName)
  | .ShowErrors => .ok (buildShowWarningsSchema infoschemaName)
  | .ShowRegions => .ok (buildTableRegionsSchema infoschemaName)
  | _ =>
    showSchemaLoop (declaredColumns ColDescFieldNames s isView).2 0
      (declaredColumns ColDescFieldNames s isView).1 { Columns := [], Keys := [] } []

/-- The type of a column of a schema, when it has one. -/
def columnType (col : ExprColumn) : Option Nat := col.RetType.map (fun t => t.Tp)

/-- The output name the generic branch of `buildShowSchema` gives a declared name. -/
def showFieldName (name : String) : FieldName :=
  { DBName := { O := "", L := "" }, TblName := { O := "", L := "" }, ColName := NewCIStr name }

/-- The column type of position `i` as the kind declares it: the listed type when one is
listed and is not `TypeUnspecified`, VARCHAR otherwise. -/
def declaredType (ftypes : List Nat) (i : Nat) : Nat :=
  match ftypes.get? i with
  | some listed => if listed ≠ TypeUnspecified then listed else TypeVarchar
  | none => TypeVarchar

/-- `SHOW COLLATION`. -/
def testShowCollation : ShowStmt :=
  { Tp := ShowStmtType.ShowCollation, DBName := "", Table := none, Full := false, User := none,
    Pattern := none, Where := none }

/-- The conditions `buildShow` passes to `buildSelection`: the LIKE pattern of the
statement with its matched expression filled in, or the WHERE expression. -/
inductive SelectionCond where
  | patternLike (pattern : PatternLikeExpr)
  | whereExpr (expr : ExprNode)
deriving DecidableEq

/-- The state of the plan builder and of the session that `buildShow` changes: the counter
behind `AllocPlanColumnID` and the optimisation flags `b.optFlag`. -/
structure ShowBuilderState where
  planColumnID : Int
  optFlag : Nat
deriving DecidableEq

/-- The collaborators of `buildShow` that are not among the sources. `TableIsView` is the
lookup `b.is.TableByName` followed by `Meta().IsView()`; `buildSelection` is
`b.buildSelection`, which may allocate column ids and returns a plan of its own (with a
plan id of its own) or the child it was given; `showPlanID` and `projectionPlanID` are the
plan ids `Init` gives the show plan and the projection; `flagEliminateProjection` is the
constant of that name. A plan is identified by its id, so the comparison `np != p` of the
two pointers is the comparison of the two plans. -/
structure ShowEnv where
  ColDescFieldNames : Bool → List String
  infoschemaName : String
  TableIsView : CIStr → CIStr → Except Err Bool
  buildSelection : Plan → SelectionCond → Int → Except Err (Plan × Int)
  showPlanID : Nat
  projectionPlanID : Nat
  flagEliminateProjection : Nat

/-- The loop of `buildShow` that gives every column of the schema a fresh id;
`AllocPlanColumnID` increments the counter and returns its new value. -/
def allocColumnIDs : List ExprColumn → Int → List ExprColumn × Int
  | [], planColumnID => ([], planColumnID)
  | col :: rest, planColumnID =>
    let done := allocColumnIDs rest (planColumnID + 1)
    ({ col with UniqueID := planColumnID + 1 } :: done.1, done.2)

/-- The end of `buildShow`: when a selection was put above the show plan, a projection of
the columns of the show plan, cloned with fresh ids, goes above it and the flag to
eliminate projections is set; otherwise the show plan is the result. -/
def finishShow (env : ShowEnv) (p np : Plan) (st : ShowBuilderState) :
    Except Err (Plan × ShowBuilderState) :=
  if np ≠ p then
    let cloned := allocColumnIDs p.schema.Columns st.planColumnID
    .ok ({ id := env.projectionPlanID, schema := { Columns := cloned.1, Keys := [] },
           names := np.names },
         { planColumnID := cloned.2, optFlag := st.optFlag ||| env.flagEliminateProjection })
  else .ok (p, st)

/-- The part of `buildShow` for `showStmt.Where`. -/
def buildShowWhere (env : ShowEnv) (showStmt : ShowStmt) (p np : Plan) (st : ShowBuilderState) :
    Except Err (Plan × ShowBuilderState) :=
  match showStmt.Where with
  | some cond =>
    match env.buildSelection np (SelectionCond.whereExpr cond) st.planColumnID with
    | .error e => .error e
    | .ok (np, planColumnID) => finishShow env p np { st with planColumnID := planColumnID }
  | none => finishShow env p np st

/-- The part of `buildShow` for `showStmt.Pattern`: the pattern is matched against the first
output column; `p.OutputNames()[0]` panics when there is no column. -/
def buildShowPattern (env : ShowEnv) (showStmt : ShowStmt) (p : Plan) (st : ShowBuilderState) :
    Except Err (Plan × ShowBuilderState) :=
  match showStmt.Pattern with
  | some pattern =>
    match p.names.get? 0 with
    | none => .error Err.runtimePanic
    | some first =>
      let filled : PatternLikeExpr := { pattern with Expr := some (ExprNode.ColumnNameExpr
        { Schema := { O := "", L := "" }, Table := { O := "", L := "" }, Name := first.ColName }) }
      match env.buildSelection p (SelectionCond.patternLike filled) st.planColumnID with
      | .error e => .error e
      | .ok (np, planColumnID) => buildShowWhere env showStmt p np { st with planColumnID := planColumnID }
  | none => buildShowWhere env showStmt p p st

/-- The part of `buildShow` after the switch on the kind: the schema of the kind, fresh
column ids, then the pattern and the WHERE condition. -/
def buildShowPlan (env : ShowEnv) (showStmt : ShowStmt) (isView : Bool) (st : ShowBuilderState) :
    Except Err (Plan × ShowBuilderState) :=
  match buildShowSchema env.ColDescFieldNames env.infoschemaName showStmt isView with
  | .error e => .error e
  | .ok (schema, names) =>
    let ids := allocColumnIDs schema.Columns st.planColumnID
    let p : Plan := { id := env.showPlanID, schema := { schema with Columns := ids.1 }, names := names }
    buildShowPattern env showStmt p { st with planColumnID := ids.2 }

/-- Go `PlanBuilder.buildShow`. `showStmt.Table` is a pointer, which the branch of SHOW CREATE
TABLE dereferences. A failed table lookup leaves `isView` false. -/
def buildShow (env : ShowEnv) (showStmt : ShowStmt) (st : ShowBuilderState) :
    Except Err (Plan × ShowBuilderState) :=
  match showStmt.Tp with
  | .ShowTables =>
    if showStmt.DBName = "" then .error Err.ErrNoDB else buildShowPlan env showStmt false st
  | .ShowTableStatus =>
    if showStmt.DBName = "" then .error Err.ErrNoDB else buildShowPlan env showStmt false st
  | .ShowCreateTable =>
    match showStmt.Table with
    | none => .error Err.runtimePanic
    | some table =>
      match env.TableIsView table.Schema table.Name with
      | .ok isView => buildShowPlan env showStmt isView st
      | .error _ => buildShowPlan env showStmt false st
  | _ => buildShowPlan env showStmt false st

/-- Collaborators for the examples: no table is a view, a selection is a new plan with
the names of its child, except that a condition on the column `nodb` fails with the
no-database error. -/
def testShowEnv : ShowEnv :=
  { ColDescFieldNames := fun full =>
      if full then
        ["Field", "Type", "Collation", "Null", "Key", "Default", "Extra", "Privileges", "Comment"]
      else ["Field", "Type", "Null", "Key", "Default", "Extra"]
    infoschemaName := "INFORMATION_SCHEMA"
    TableIsView := fun _ _ => .ok false
    buildSelection := fun child cond planColumnID =>
      if cond = SelectionCond.whereExpr (ExprNode.ColumnNameExpr (testColumnName "nodb")) then
        .error Err.ErrNoDB
      else .ok ({ child with id := child.id + 10 }, planColumnID)
    showPlanID := 1
    projectionPlanID := 2
    flagEliminateProjection := 8 }

/-- `SHOW TABLES` with no database selected. -/
def testShowTables : ShowStmt :=
  { Tp := ShowStmtType.ShowTables, DBName := "", Table := none, Full := false, User := none,
    Pattern := none, Where := none }

/-- `SHOW DATABASES`. -/
def testShowDatabases : ShowStmt :=
  { Tp := ShowStmtType.ShowDatabases, DBName := "", Table := none, Full := false, User := none,
    Pattern := none, Where := none }

/-- The columns the generic branch of `buildShowSchema` makes for the declared names from
position `i` on, when every type lookup is in range. -/
def showColumnsFrom (ftypes : List Nat) : Nat → List String → List ExprColumn
  | _, [] => []
  | i, _ :: rest =>
    { UniqueID := 0, RetType := some { Tp := declaredType ftypes i, Flag := 0 } } ::
      showColumnsFrom ftypes (i + 1) rest

/-! ### Calls on the handle-column tracker -/

/-- The calls that change a `handleColHelper`. -/
inductive HelperCall where
  | pushMap (m : List (Int × ColSlice))
  | mergeAndPush (m1 m2 : List (Int × ColSlice))
  | popMap
deriving DecidableEq

/-- The helper `NewPlanBuilder` makes: `&handleColHelper{id2HandleMapStack: make(..., 0)}`,
an empty stack and `stackTail` zero. -/
def emptyHelper : handleColHelper := { id2HandleMapStack := [], stackTail := 0 }

/-- A sequence of calls on a helper, with the heap of arrays; `popMap` on an empty stack
panics and ends the run. -/
def runHelperCalls : List (List (Option ExprColumn)) → handleColHelper → List HelperCall →
    Except Err (List (List (Option ExprColumn)) × handleColHelper)
  | heap, hch, [] => .ok (heap, hch)
  | heap, hch, HelperCall.pushMap m :: rest => runHelperCalls heap (hch.pushMap m) rest
  | heap, hch, HelperCall.mergeAndPush m1 m2 :: rest =>
    runHelperCalls (hch.mergeAndPush heap m1 m2).1 (hch.mergeAndPush heap m1 m2).2 rest
  | heap, hch, HelperCall.popMap :: rest =>
    match hch.popMap with
    | .error e => .error e
    | .ok (_, hch) => runHelperCalls heap hch rest

/-! ### Notions used to state the result of `getPathByIndexName` -/

/-- Whether a path is an index path whose index has the given name, the names compared in
lower case. -/
def isNamedIndexPath (idxName : CIStr) (path : AccessPath) : Bool :=
  !path.IsTablePath &&
    (match path.Index with
     | some index => decide (index.Name.L = idxName.L)
     | none => false)

/-- The position of the last table path of a list whose first position is `pos`; `tp`
when the list has none. -/
def lastTablePath : List AccessPath → Nat → Option Nat → Option Nat
  | [], _, tp => tp
  | path :: rest, pos, tp => lastTablePath rest (pos + 1) (if path.IsTablePath then some pos else tp)

/-! ### Notions used to state the result of `resolveGeneratedColumns` -/

/-- The generated columns of a column list, in the order of the list. -/
def generatedColumns (columns : List Column) : List Column :=
  columns.filter (fun column => column.IsGenerated)

/-- The schema column and the compiled, cast expression the loop of
`resolveGeneratedColumns` computes for a generated column, when its lookup and the
compilation of its generation expression succeed. -/
def resolvedColumn (g : GenEnv) (mockPlan : Plan) (column : Column) :
    Option (ExprColumn × Expression) :=
  match g.FindFieldName mockPlan.names (generatedColumnName column) with
  | .error _ => none
  | .ok idx =>
    if idx < 0 then none
    else
      match mockPlan.schema.Columns.get? idx.toNat with
      | none => none
      | some colExpr =>
        match g.rewrite (g.GeneratedExpr column) mockPlan with
        | .error _ => none
        | .ok compiled => some (colExpr, g.BuildCastFunction compiled colExpr.RetType)

/-- The expression of a generated column. -/
def resolvedExpr (g : GenEnv) (mockPlan : Plan) (column : Column) : Option Expression :=
  (resolvedColumn g mockPlan column).map (fun r => r.2)

/-- The on-duplicate assignment of a generated column. -/
def resolvedAssignment (g : GenEnv) (mockPlan : Plan) (column : Column) : Option Assignment :=
  (resolvedColumn g mockPlan column).map
    (fun r => { Col := r.1, ColName := column.Name, Expr := r.2 })

/-- Whether a column has a dependency in the on-duplicate set. -/
def dependsOnDuplicate (g : GenEnv) (set : List (String × Unit)) (column : Column) : Bool :=
  (g.Dependences column).any (fun dep => (mapGet set dep).isSome)

/-- The generated columns that get an on-duplicate assignment: none for a nil set,
otherwise those with a dependency in the set. -/
def onDuplicateColumns (g : GenEnv) (onDups : Option (List (String × Unit)))
    (generated : List Column) : List Column :=
  match onDups with
  | none => []
  | some set => generated.filter (dependsOnDuplicate g set)

/-- The table `t (a, b as (a + 1), c, d as (c + 1))` of the examples. -/
def testTwoGenerated : List Column :=
  [testColumn "a" 0 "", testColumn "b" 1 "a + 1", testColumn "c" 2 "", testColumn "d" 3 "c + 1"]

/-- The mock plan of the table of `testTwoGenerated`. -/
def testTwoGeneratedPlan : Plan :=
  { id := 0,
    schema := { Columns := [{ UniqueID := 1, RetType := none }, { UniqueID := 2, RetType := none },
                            { UniqueID := 3, RetType := none }, { UniqueID := 4, RetType := none }],
                Keys := [] },
    names := [testFieldName "a", testFieldName "b", testFieldName "c", testFieldName "d"] }

/-- The collaborators of the examples on `testTwoGenerated`: the generation expression of
a column is a reference to the column it depends on (`a` for `b`, `c` for `d`). -/
def testTwoGenEnv : GenEnv :=
  { GeneratedExpr := fun column =>
      ExprNode.ColumnNameExpr (testColumnName (if column.Name.L = "b" then "a" else "c"))
    Dependences := fun column => [if column.Name.L = "b" then "a" else "c"]
    FindFieldName := testEnv.FindFieldName
    rewrite := testRewrite
    BuildCastFunction := fun e _ => e }

/-! ### Isolation read -/

/-- The session values `filterPathByIsolationRead` reads: the engine set of
`GetIsolationReadEngines()`, the value of the system variable and its name
(`variable.TiDBIsolationReadEngines`), and the name of a store type (`StoreType.Name()`). -/
structure IsolationEnv where
  isolationReadEngines : List (StoreType × Unit)
  engineVals : String
  TiDBIsolationReadEngines : String
  Name : StoreType → String

/-- The local state of the loop of `filterPathByIsolationRead`. -/
structure IsolationState where
  paths : List AccessPath
  availableEngine : List (StoreType × Unit)
  availableEngineStr : String
deriving DecidableEq

/-- The first statement of the loop body: a store type seen for the first time is
recorded and its name is added to the list of available engines. -/
def noteEngine (env : IsolationEnv) (st : IsolationState) (path : AccessPath) : IsolationState :=
  if (mapGet st.availableEngine path.StoreType).isNone then
    { st with
        availableEngine := mapSet st.availableEngine path.StoreType ()
        availableEngineStr :=
          (if st.availableEngineStr ≠ "" then st.availableEngineStr ++ ", "
           else st.availableEngineStr) ++ env.Name path.StoreType }
  else st

/-- The second statement of the loop body, at index `i`: a path whose store type is not
in the engine set is removed, `paths = append(paths[:i], paths[i+1:]...)`. -/
def dropUnselected (env : IsolationEnv) (i : Nat) (st : IsolationState) (path : AccessPath) :
    IsolationState :=
  if (mapGet env.isolationReadEngines path.StoreType).isNone then
    { st with paths := st.paths.take i ++ st.paths.drop (i + 1) }
  else st

/-- The loop `for i := len(paths) - 1; i >= 0; i--` of `filterPathByIsolationRead`; the
first argument is `i + 1`. `paths[i]` out of range panics. -/
def isolationReadLoop (env : IsolationEnv) : Nat → IsolationState → Except Err IsolationState
  | 0, st => .ok st
  | i + 1, st =>
    match st.paths.get? i with
    | none => .error Err.runtimePanic
    | some path => isolationReadLoop env i (dropUnselected env i (noteEngine env st path) path)

/-- Go `PlanBuilder.filterPathByIsolationRead`: the paths and the error it returns. -/
def filterPathByIsolationRead (env : IsolationEnv) (paths : List AccessPath) :
    Except Err (List AccessPath × Option Err) :=
  match isolationReadLoop env paths.length
      { paths := paths, availableEngine := [], availableEngineStr := "" } with
  | .error e => .error e
  | .ok st =>
    if st.paths.length = 0 then
      .ok (st.paths, some (Err.ErrInternal
        ("Can not find access path matching '" ++ env.TiDBIsolationReadEngines ++
          "'(value: '" ++ env.engineVals ++ "'). Available values are '" ++
          st.availableEngineStr ++ "'.")))
    else .ok (st.paths, none)

/-- The paths whose store type is in the engine set, in their order. -/
def pathsOfEngines (engines : List (StoreType × Unit)) (paths : List AccessPath) :
    List AccessPath :=
  paths.filter (fun path => (mapGet engines path.StoreType).isSome)

/-- The session values of the examples: the engines TiKV and TiDB. -/
def testIsolationEnv : IsolationEnv :=
  { isolationReadEngines := [(StoreType.TiKV, ()), (StoreType.TiDB, ())]
    engineVals := "tikv, tidb"
    TiDBIsolationReadEngines := "tidb_isolation_read_engines"
    Name := fun tp =>
      match tp with
      | .TiKV => "tikv"
      | .TiFlash => "tiflash"
      | .TiDB => "tidb" }

/-! ### Partitions -/

/-- Partition definition (`model.PartitionDefinition`). -/
structure PartitionDefinition where
  ID : Int
  Name : CIStr
deriving DecidableEq

/-- Partition information of a table (`model.PartitionInfo`). -/
structure PartitionInfo where
  Definitions : List PartitionDefinition
deriving DecidableEq

/-- The inner loop of `getPhysicalIDsAndPartitionNames`: the first definition whose name
is the requested name, compared in lower case. -/
def findPartition (definitions : List PartitionDefinition) (name : CIStr) :
    Option PartitionDefinition :=
  definitions.find? (fun d => decide (d.Name.L = name.L))

/-- The outer loop of `getPhysicalIDsAndPartitionNames` over the requested names. -/
def namedPartitions (definitions : List PartitionDefinition) :
    List CIStr → List Int → List String → Except Err (List Int × List String)
  | [], ids, names => .ok (ids, names)
  | name :: rest, ids, names =>
    match findPartition definitions name with
    | some d => namedPartitions definitions rest (ids ++ [d.ID]) (names ++ [d.Name.O])
    | none =>
      .error (Err.errorf "can not found the specified partition name %s in the table definition"
        [FormatArg.str name.O])

/-- Go `getPhysicalIDsAndPartitionNames`; `pi` is `tblInfo.GetPartitionInfo()`, nil for a
table that is not partitioned. -/
def getPhysicalIDsAndPartitionNames (tblInfo : TableInfo) (pi : Option PartitionInfo)
    (partitionNames : List CIStr) : Except Err (List Int × List String) :=
  match pi with
  | none =>
    if partitionNames.length ≠ 0 then .error Err.ErrPartitionMgmtOnNonpartitioned
    else .ok ([tblInfo.ID], [""])
  | some pi =>
    if partitionNames.length = 0 then
      .ok (pi.Definitions.map (fun d => d.ID), pi.Definitions.map (fun d => d.Name.O))
    else namedPartitions pi.Definitions partitionNames [] []

/-- The partitions p0 (id 10), P1 (id 11) and a second p1 (id 12) of the examples. -/
def testPartitions : PartitionInfo :=
  { Definitions := [{ ID := 10, Name := { O := "p0", L := "p0" } },
                    { ID := 11, Name := { O := "P1", L := "p1" } },
                    { ID := 12, Name := { O := "p1", L := "p1" } }] }

/-! ### ANALYZE options -/

/-- The kinds of ANALYZE option (`ast.AnalyzeOptionType`) that `handleAnalyzeOptions`
names; `other` stands for a kind its tables do not list. -/
inductive AnalyzeOptionType where
  | AnalyzeOptNumBuckets
  | AnalyzeOptCMSketchDepth
  | AnalyzeOptCMSketchWidth
  | AnalyzeOptNumSamples
  | other (code : Nat)
deriving DecidableEq

/-- ANALYZE option (`ast.AnalyzeOpt`): its kind (`Type` in Go) and its value, a uint64. -/
structure AnalyzeOpt where
  Tp : AnalyzeOptionType
  Value : Nat
deriving DecidableEq

/-- Go `cmSketchSizeLimit = kv.TxnEntrySizeLimit / binary.MaxVarintLen32`; the first
constant is not among the sources and is a parameter, the second is 5. -/
def cmSketchSizeLimit (TxnEntrySizeLimit : Nat) : Nat := TxnEntrySizeLimit / 5

/-- Go `analyzeOptionLimit`; the sketch limits are `uint64(cmSketchSizeLimit)`. -/
def analyzeOptionLimit (TxnEntrySizeLimit : Nat) : List (AnalyzeOptionType × Nat) :=
  [(AnalyzeOptionType.AnalyzeOptNumBuckets, 1024),
   (AnalyzeOptionType.AnalyzeOptCMSketchWidth, cmSketchSizeLimit TxnEntrySizeLimit % 2 ^ 64),
   (AnalyzeOptionType.AnalyzeOptCMSketchDepth, cmSketchSizeLimit TxnEntrySizeLimit % 2 ^ 64),
   (AnalyzeOptionType.AnalyzeOptNumSamples, 100000)]

/-- Go `analyzeOptionDefault`. -/
def analyzeOptionDefault : List (AnalyzeOptionType × Nat) :=
  [(AnalyzeOptionType.AnalyzeOptNumBuckets, 256),
   (AnalyzeOptionType.AnalyzeOptCMSketchWidth, 2048),
   (AnalyzeOptionType.AnalyzeOptCMSketchDepth, 5),
   (AnalyzeOptionType.AnalyzeOptNumSamples, 10000)]

/-- The read `m[k]` of a Go map of numbers: zero for a key the map does not hold. -/
def mapValue (m : List (AnalyzeOptionType × Nat)) (k : AnalyzeOptionType) : Nat :=
  (mapGet m k).getD 0

/-- The loop of `handleAnalyzeOptions` over the options. `AnalyzeOptionString` is the
table of option names of package `ast`. -/
def handleOptionsLoop (TxnEntrySizeLimit : Nat) (AnalyzeOptionString : AnalyzeOptionType → String) :
    List AnalyzeOpt → List (AnalyzeOptionType × Nat) → Except Err (List (AnalyzeOptionType × Nat))
  | [], optMap => .ok optMap
  | opt :: rest, optMap =>
    if opt.Value = 0 ∨ opt.Value > mapValue (analyzeOptionLimit TxnEntrySizeLimit) opt.Tp then
      .error (Err.errorf "value of analyze option %s should be positive and not larger than %d"
        [FormatArg.str (AnalyzeOptionString opt.Tp),
         FormatArg.num (mapValue (analyzeOptionLimit TxnEntrySizeLimit) opt.Tp)])
    else
      handleOptionsLoop TxnEntrySizeLimit AnalyzeOptionString rest (mapSet optMap opt.Tp opt.Value)

/-- Go `handleAnalyzeOptions`. The first loop copies `analyzeOptionDefault`; the product
of the sketch width and depth is a product of uint64 values. -/
def handleAnalyzeOptions (TxnEntrySizeLimit : Nat) (AnalyzeOptionString : AnalyzeOptionType → String)
    (opts : List AnalyzeOpt) : Except Err (List (AnalyzeOptionType × Nat)) :=
  match handleOptionsLoop TxnEntrySizeLimit AnalyzeOptionString opts analyzeOptionDefault with
  | .error e => .error e
  | .ok optMap =>
    if mapValue optMap AnalyzeOptionType.AnalyzeOptCMSketchWidth *
        mapValue optMap AnalyzeOptionType.AnalyzeOptCMSketchDepth % 2 ^ 64 >
        cmSketchSizeLimit TxnEntrySizeLimit % 2 ^ 64 then
      .error (Err.errorf "cm sketch size(depth * width) should not larger than %d"
        [FormatArg.num (cmSketchSizeLimit TxnEntrySizeLimit)])
    else .ok optMap

/-- Whether an option is out of range: its value is 0 or above the limit of its kind
(1024 buckets, 100000 samples, `cmSketchSizeLimit` for the sketch width and depth, and 0
for a kind without a limit). -/
def optionOutOfRange (limit : Nat) (opt : AnalyzeOpt) : Bool :=
  decide (opt.Value = 0) ||
    decide (opt.Value >
      (match opt.Tp with
       | .AnalyzeOptNumBuckets => 1024
       | .AnalyzeOptCMSketchWidth => limit
       | .AnalyzeOptCMSketchDepth => limit
       | .AnalyzeOptNumSamples => 100000
       | .other _ => 0))

/-- The value of an option kind after the options are applied to the defaults (256
buckets, width 2048, depth 5, 10000 samples): that of the last option of the kind, the
default when there is none. -/
def overriddenValue (opts : List AnalyzeOpt) (k : AnalyzeOptionType) : Nat :=
  match opts.reverse.find? (fun opt => decide (opt.Tp = k)) with
  | some opt => opt.Value
  | none =>
    match k with
    | .AnalyzeOptNumBuckets => 256
    | .AnalyzeOptCMSketchWidth => 2048
    | .AnalyzeOptCMSketchDepth => 5
    | .AnalyzeOptNumSamples => 10000
    | .other _ => 0

/-- The names of the option kinds in the examples. -/
def testOptionString : AnalyzeOptionType → String
  | .AnalyzeOptNumBuckets => "BUCKETS"
  | .AnalyzeOptCMSketchDepth => "CMSKETCH DEPTH"
  | .AnalyzeOptCMSketchWidth => "CMSKETCH WIDTH"
  | .AnalyzeOptNumSamples => "SAMPLES"
  | .other _ => ""

/-- The options `WITH 1000 CMSKETCH WIDTH, 100 BUCKETS, 3000 CMSKETCH WIDTH`. -/
def testAnalyzeOpts : List AnalyzeOpt :=
  [{ Tp := AnalyzeOptionType.AnalyzeOptCMSketchWidth, Value := 1000 },
   { Tp := AnalyzeOptionType.AnalyzeOptNumBuckets, Value := 100 },
   { Tp := AnalyzeOptionType.AnalyzeOptCMSketchWidth, Value := 3000 }]

/-! ### SPLIT TABLE -/

/-- Split option of the syntax tree (`ast.SplitOption`). -/
structure SplitOption where
  Lower : List ExprNode
  Upper : List ExprNode
  Num : Int
  ValueLists : List (List ExprNode)
deriving DecidableEq

/-- Go `SplitRegion`, the plan of a SPLIT TABLE statement. -/
structure SplitRegion where
  TableInfo : TableInfo
  PartitionNames : List CIStr
  schema : Schema
  names : List FieldName
  Lower : List Datum
  Upper : List Datum
  Num : Int
  ValueLists : List (List Datum)
deriving DecidableEq

/-- The collaborators of `buildSplitTableRegion`: `convertValue` stands for
`b.convertValue(valueItem, mockTablePlan, pkCol)`, whose rewriter and conversions are not
among the sources, the mock plan and the handle column being those of the table of the
statement; `SplitRegionMaxNum` is the value of the global configuration;
`infoschemaName` is `infoschema.Name`. -/
structure SplitEnv where
  convertValue : ExprNode → Except Err Datum
  SplitRegionMaxNum : Int
  infoschemaName : String

/-- Go `buildSplitRegionsSchema`. -/
def buildSplitRegionsSchema (db : String) : Schema × List FieldName :=
  let schema := newColumnsWithNames 2
  let schema := schema.Append (buildColumnWithName db "" "TOTAL_SPLIT_REGION" TypeLonglong 4)
  let schema := schema.Append (buildColumnWithName db "" "SCATTER_FINISH_RATIO" TypeDouble 8)
  (schema.col2Schema, schema.names)

/-- The loop of `buildSplitTableRegion` over the value lists, at row index `i`: a list of
more than one value is rejected, then the first value is read, `valuesItem[0]`, which
panics on an empty list, and converted. -/
def splitValueLists (env : SplitEnv) :
    Nat → List (List ExprNode) → List (List Datum) → Except Err (List (List Datum))
  | _, [], values => .ok values
  | i, valuesItem :: rest, values =>
    if valuesItem.length > 1 then .error (Err.ErrWrongValueCountOnRow (i + 1))
    else
      match valuesItem.get? 0 with
      | none => .error Err.runtimePanic
      | some first =>
        match env.convertValue first with
        | .error e => .error e
        | .ok value => splitValueLists env (i + 1) rest (values ++ [[value]])

/-- The closure `checkLowerUpperValue` of `buildSplitTableRegion`. -/
def checkLowerUpperValue (env : SplitEnv) (valuesItem : List ExprNode) (name : String) :
    Except Err Datum :=
  if valuesItem.length ≠ 1 then
    .error (Err.errorf "Split table region %s value count should be 1" [FormatArg.str name])
  else
    match valuesItem.get? 0 with
    | none => .error Err.runtimePanic
    | some first => env.convertValue first

/-- Go `PlanBuilder.buildSplitTableRegion`, for the table and the partition names of the
statement. -/
def buildSplitTableRegion (env : SplitEnv) (tblInfo : TableInfo) (partitionNames : List CIStr)
    (splitOpt : SplitOption) : Except Err SplitRegion :=
  let p : SplitRegion :=
    { TableInfo := tblInfo, PartitionNames := partitionNames,
      schema := (buildSplitRegionsSchema env.infoschemaName).1,
      names := (buildSplitRegionsSchema env.infoschemaName).2,
      Lower := [], Upper := [], Num := 0, ValueLists := [] }
  if splitOpt.ValueLists.length > 0 then
    match splitValueLists env 0 splitOpt.ValueLists [] with
    | .error e => .error e
    | .ok values => .ok { p with ValueLists := values }
  else
    match checkLowerUpperValue env splitOpt.Lower "lower" with
    | .error e => .error e
    | .ok lowerValues =>
      match checkLowerUpperValue env splitOpt.Upper "upper" with
      | .error e => .error e
      | .ok upperValue =>
        if splitOpt.Num > env.SplitRegionMaxNum then
          .error (Err.errorf "Split table region num exceeded the limit %v"
            [FormatArg.str (toString env.SplitRegionMaxNum)])
        else if splitOpt.Num < 1 then
          .error (Err.errorf "Split table region num should more than 0" [])
        else .ok { p with Lower := [lowerValues], Upper := [upperValue], Num := splitOpt.Num }

/-- The collaborators of the examples: a literal converts to its value, anything else is
not a constant. -/
def testSplitEnv : SplitEnv :=
  { convertValue := fun node =>
      match node with
      | .ValueExpr d _ => .ok d
      | _ => .error (Err.external 4)
    SplitRegionMaxNum := 1000
    infoschemaName := "INFORMATION_SCHEMA" }

end core

end TinySQL

/-! # Properties -/

namespace TinySQL

/-! ## Association lists -/

theorem mapGet_mapDelete_self {κ ν : Type} [DecidableEq κ] (m : List (κ × ν)) (k : κ) :
    mapGet (mapDelete m k) k = none := by
  induction m with
  | nil => rfl
  | cons p rest ih =>
    obtain ⟨k', v⟩ := p
    by_cases h : k' = k
    · simpa [mapDelete, h] using ih
    · simpa [mapDelete, h, mapGet] using ih

theorem mapGet_mapDelete_ne {κ ν : Type} [DecidableEq κ] (m : List (κ × ν)) {k k' : κ}
    (hne : k ≠ k') : mapGet (mapDelete m k) k' = mapGet m k' := by
  induction m with
  | nil => rfl
  | cons p rest ih =>
    obtain ⟨k₀, v⟩ := p
    have ih' : mapGet (List.filter (fun p => decide (p.1 ≠ k)) rest) k' = mapGet rest k' := ih
    by_cases h : k₀ = k
    · subst h
      simp only [mapDelete, List.filter_cons, mapGet, if_neg hne, ne_eq, not_true_eq_false,
        decide_False, Bool.false_eq_true, if_false]
      exact ih'
    · by_cases h₂ : k₀ = k'
      · subst h₂
        simp [mapDelete, List.filter_cons, mapGet, h]
      · simp only [mapDelete, List.filter_cons, mapGet, ne_eq, h, not_false_eq_true,
          decide_True, if_true, if_neg h₂]
        exact ih'

theorem mapGet_mapSet_self {κ ν : Type} [DecidableEq κ] (m : List (κ × ν)) (k : κ) (v : ν) :
    mapGet (mapSet m k v) k = some v := by
  simp [mapSet, mapGet]

theorem mapGet_mapSet_ne {κ ν : Type} [DecidableEq κ] (m : List (κ × ν)) {k k' : κ} (v : ν)
    (hne : k ≠ k') : mapGet (mapSet m k v) k' = mapGet m k' := by
  simp only [mapSet, mapGet, if_neg hne]
  exact mapGet_mapDelete_ne m hne

/-! ## planner/memo: Group -/

namespace memo

theorem GetOperand_ne_any (p : LogicalPlan) : GetOperand p ≠ Operand.OperandAny := by
  unfold GetOperand
  cases p.kind <;> simp

theorem find?_erase_of_not (p : GroupExpr → Bool) (l : List GroupExpr) (e : GroupExpr)
    (hp : p e = false) : (l.erase e).find? p = l.find? p := by
  induction l with
  | nil => rfl
  | cons x rest ih =>
    by_cases hx : x = e
    · subst hx
      simp [List.find?_cons, hp]
    · have hbeq : (x == e) = false := by simpa using hx
      rw [List.erase_cons, hbeq]
      simp only [Bool.false_eq_true, if_false, List.find?_cons, ih]

theorem find?_erase_of_ne (p : GroupExpr → Bool) (l : List GroupExpr) (e e₁ : GroupExpr)
    (hfind : l.find? p = some e₁) (hne : e₁ ≠ e) : (l.erase e).find? p = some e₁ := by
  induction l with
  | nil => simp at hfind
  | cons x rest ih =>
    by_cases hx : x = e
    · subst hx
      by_cases hpx : p x = true
      · rw [List.find?_cons, hpx] at hfind
        exact absurd (Option.some.inj hfind).symm hne
      · have hpx' : p x = false := by simpa using hpx
        rw [List.find?_cons, hpx'] at hfind
        simpa using hfind
    · have hbeq : (x == e) = false := by simpa using hx
      rw [List.erase_cons, hbeq]
      simp only [Bool.false_eq_true, if_false]
      by_cases hpx : p x = true
      · rw [List.find?_cons, hpx] at hfind
        rw [List.find?_cons, hpx]
        exact hfind
      · have hpx' : p x = false := by simpa using hpx
        rw [List.find?_cons, hpx'] at hfind
        rw [List.find?_cons, hpx']
        exact ih hfind

theorem find?_erase_first (l : List GroupExpr) (e : GroupExpr)
    (hfind : l.find? (fun y => decide (GetOperand y.ExprNode = GetOperand e.ExprNode)) = some e) :
    (l.erase e).find? (fun y => decide (GetOperand y.ExprNode = GetOperand e.ExprNode))
      = nextOfKind l e := by
  induction l with
  | nil => simp at hfind
  | cons x rest ih =>
    by_cases hx : x = e
    · subst hx
      simp [nextOfKind]
    · have hbeq : (x == e) = false := by simpa using hx
      have hk : GetOperand x.ExprNode ≠ GetOperand e.ExprNode := by
        intro hk
        rw [List.find?_cons] at hfind
        simp only [hk, decide_True] at hfind
        exact hx (Option.some.inj hfind)
      rw [List.erase_cons, hbeq]
      simp only [Bool.false_eq_true, if_false, nextOfKind, if_neg hx]
      rw [List.find?_cons] at hfind ⊢
      simp only [hk, decide_False] at hfind ⊢
      exact ih hfind

theorem Group.Inv.nodup_members {g : Group} (h : g.Inv) : g.Equivalents.Nodup := by
  have := h.nodup
  rw [h.fingerprints] at this
  exact List.Nodup.of_map _ this

theorem inv_new (e : GroupExpr) (s : Schema) : (NewGroupWithSchema e s).Inv where
  fingerprints := rfl
  nodup := by simp [NewGroupWithSchema]
  firstExpr := by
    intro k
    by_cases hk : GetOperand e.ExprNode = k
    · simp [NewGroupWithSchema, mapGet, hk]
    · simp [NewGroupWithSchema, mapGet, hk]

theorem inv_insert {g : Group} (h : g.Inv) (e : GroupExpr) : (g.Insert e).1.Inv := by
  unfold Group.Insert
  by_cases hex : g.Exists e = true
  · simpa [hex] using h
  · have hnot : e.FingerPrint ∉ g.Fingerprints := by simpa [Group.Exists] using hex
    simp only [hex, Bool.false_eq_true, if_false]
    refine ⟨?_, ?_, ?_⟩
    · simp [h.fingerprints]
    · simp only
      rw [List.nodup_append]
      refine ⟨h.nodup, List.nodup_singleton _, ?_⟩
      intro a ha hb
      rw [List.mem_singleton] at hb
      subst hb
      exact hnot ha
    · intro k
      simp only [List.find?_append]
      have hk := h.firstExpr k
      cases hget : mapGet g.FirstExpr (GetOperand e.ExprNode) with
      | some first =>
        simp only
        by_cases hke : GetOperand e.ExprNode = k
        · subst hke
          rw [hk, ← h.firstExpr, hget]
          rfl
        · rw [hk]
          simp [List.find?_cons, hke]
      | none =>
        simp only
        by_cases hke : GetOperand e.ExprNode = k
        · subst hke
          rw [mapGet_mapSet_self, ← h.firstExpr, hget]
          simp [List.find?_cons]
        · rw [mapGet_mapSet_ne _ _ hke, hk]
          simp [List.find?_cons, hke]

theorem map_erase_fingerprint (l : List GroupExpr) (e : GroupExpr)
    (hnodup : (l.map GroupExpr.FingerPrint).Nodup) (hmem : e ∈ l) :
    (l.map GroupExpr.FingerPrint).filter (fun f => decide (f ≠ e.FingerPrint))
      = (l.erase e).map GroupExpr.FingerPrint := by
  induction l with
  | nil => simp at hmem
  | cons x rest ih =>
    rw [List.map_cons, List.nodup_cons] at hnodup
    by_cases hx : x = e
    · subst hx
      rw [List.erase_cons_head, List.map_cons, List.filter_cons]
      simp only [ne_eq, not_true_eq_false, decide_False, Bool.false_eq_true, if_false]
      rw [List.filter_eq_self]
      intro f hf
      have : f ≠ x.FingerPrint := fun hfx => hnodup.1 (hfx ▸ hf)
      simpa using this
    · have hbeq : (x == e) = false := by simpa using hx
      have hmem' : e ∈ rest := by
        rcases List.mem_cons.mp hmem with h | h
        · exact absurd h.symm hx
        · exact h
      have hfp : x.FingerPrint ≠ e.FingerPrint := by
        intro hfp
        exact hnodup.1 (hfp ▸ List.mem_map_of_mem _ hmem')
      rw [List.erase_cons, hbeq]
      simp only [Bool.false_eq_true, if_false, List.map_cons, List.filter_cons, ne_eq, hfp,
        not_false_eq_true, decide_True, if_true]
      rw [← ih hnodup.2 hmem']

theorem inv_delete {g : Group} (h : g.Inv) (e : GroupExpr) : (g.Delete e).Inv := by
  unfold Group.Delete
  by_cases hmem : e ∈ g.Equivalents
  · simp only [hmem, if_true]
    have hfindSome : ∃ e₁, g.Equivalents.find?
        (fun y => decide (GetOperand y.ExprNode = GetOperand e.ExprNode)) = some e₁ := by
      cases hf : g.Equivalents.find?
          (fun y => decide (GetOperand y.ExprNode = GetOperand e.ExprNode)) with
      | some e₁ => exact ⟨e₁, rfl⟩
      | none =>
        have := List.find?_eq_none.mp hf e hmem
        simp at this
    refine ⟨?_, ?_, ?_⟩
    · simp only
      rw [h.fingerprints]
      exact map_erase_fingerprint _ _ (h.fingerprints ▸ h.nodup) hmem
    · exact List.Nodup.filter _ h.nodup
    · intro k
      simp only
      by_cases hfirst : mapGet g.FirstExpr (GetOperand e.ExprNode) = some e
      · simp only [hfirst, if_true]
        have hfind := hfirst
        rw [h.firstExpr] at hfind
        have hnext := find?_erase_first g.Equivalents e hfind
        by_cases hke : GetOperand e.ExprNode = k
        · subst hke
          rw [hnext]
          cases nextOfKind g.Equivalents e with
          | some n => exact mapGet_mapSet_self _ _ _
          | none => exact mapGet_mapDelete_self _ _
        · have hpe : (fun y : GroupExpr => decide (GetOperand y.ExprNode = k)) e = false := by
            simpa using hke
          rw [find?_erase_of_not _ _ _ hpe, ← h.firstExpr]
          cases nextOfKind g.Equivalents e with
          | some n => exact mapGet_mapSet_ne _ _ hke
          | none => exact mapGet_mapDelete_ne _ hke
      · simp only [hfirst, if_false]
        by_cases hke : GetOperand e.ExprNode = k
        · subst hke
          obtain ⟨e₁, he₁⟩ := hfindSome
          have hne : e₁ ≠ e := by
            intro heq
            apply hfirst
            rw [h.firstExpr, he₁, heq]
          rw [find?_erase_of_ne _ _ _ _ he₁ hne, h.firstExpr, he₁]
        · have hpe : (fun y : GroupExpr => decide (GetOperand y.ExprNode = k)) e = false := by
            simpa using hke
          rw [find?_erase_of_not _ _ _ hpe, ← h.firstExpr]
  · simpa [hmem] using h

theorem inv_deleteAll (g : Group) : g.DeleteAll.Inv where
  fingerprints := rfl
  nodup := List.nodup_nil
  firstExpr := by intro k; rfl

theorem inv_step {g : Group} (h : g.Inv) (op : GroupOp) : (g.step op).Inv := by
  cases op with
  | Insert e => exact inv_insert h e
  | Delete e => exact inv_delete h e
  | DeleteAll => exact inv_deleteAll g

theorem inv_run {g : Group} (h : g.Inv) (ops : List GroupOp) : (g.run ops).Inv := by
  induction ops generalizing g with
  | nil => exact h
  | cons op ops ih => exact ih (inv_step h op)

theorem ledger_new (e : GroupExpr) (s : Schema) :
    LedgerInv (NewGroupWithSchema e s) 1 [(0, e)] where
  members := rfl
  sorted := List.pairwise_singleton _ _
  bound := by
    intro p hp
    rw [List.mem_singleton] at hp
    subst hp
    exact Nat.zero_lt_one

theorem ledger_step {g : Group} {t : Nat} {led : List (Nat × GroupExpr)} (hg : g.Inv)
    (h : LedgerInv g t led) (op : GroupOp) :
    LedgerInv (g.step op) (t + 1) (ledgerStep g t led op) := by
  cases op with
  | Insert e =>
    simp only [Group.step, ledgerStep]
    by_cases hex : g.Exists e = true
    · have hins : g.Insert e = (g, false) := by simp [Group.Insert, hex]
      rw [hins]
      simp only [Bool.false_eq_true, if_false]
      exact ⟨h.members, h.sorted, fun p hp => Nat.lt_succ_of_lt (h.bound p hp)⟩
    · have hins : g.Insert e = (({ g with
          Equivalents := g.Equivalents ++ [e]
          FirstExpr :=
            match mapGet g.FirstExpr (GetOperand e.ExprNode) with
            | some _ => g.FirstExpr
            | none => mapSet g.FirstExpr (GetOperand e.ExprNode) e
          Fingerprints := g.Fingerprints ++ [e.FingerPrint] } : Group), true) := by
        simp [Group.Insert, hex]
      rw [hins]
      simp only [if_true]
      refine ⟨?_, ?_, ?_⟩
      · simp [h.members]
      · rw [List.pairwise_append]
        refine ⟨h.sorted, List.pairwise_singleton _ _, ?_⟩
        intro a ha b hb
        rw [List.mem_singleton] at hb
        subst hb
        exact h.bound a ha
      · intro p hp
        rcases List.mem_append.mp hp with hp | hp
        · exact Nat.lt_succ_of_lt (h.bound p hp)
        · rw [List.mem_singleton] at hp
          subst hp
          exact Nat.lt_succ_self _
  | Delete e =>
    simp only [Group.step, ledgerStep]
    refine ⟨?_, ?_, ?_⟩
    · have hnodup : g.Equivalents.Nodup := hg.nodup_members
      have hmap : (led.filter (fun p => decide (p.2 ≠ e))).map Prod.snd
          = g.Equivalents.filter (fun x => decide (x ≠ e)) := by
        rw [← h.members, List.filter_map]
        rfl
      rw [hmap]
      unfold Group.Delete
      by_cases hmem : e ∈ g.Equivalents
      · simp only [hmem, if_true]
        rw [hnodup.erase_eq_filter]
        congr 1
        funext x
        by_cases hx : x = e <;> simp [bne, hx]
      · simp only [hmem, if_false]
        rw [List.filter_eq_self]
        intro x hx
        have : x ≠ e := fun hxe => hmem (hxe ▸ hx)
        simpa using this
    · exact List.Pairwise.filter _ h.sorted
    · intro p hp
      exact Nat.lt_succ_of_lt (h.bound p (List.mem_of_mem_filter hp))
  | DeleteAll =>
    simp only [Group.step, ledgerStep]
    exact ⟨rfl, List.Pairwise.nil, fun p hp => absurd hp (List.not_mem_nil p)⟩

theorem runLedger_spec {g : Group} {t : Nat} {led : List (Nat × GroupExpr)} (hg : g.Inv)
    (h : LedgerInv g t led) (ops : List GroupOp) :
    (runLedger g t led ops).1 = g.run ops ∧ (g.run ops).Inv ∧
      LedgerInv (g.run ops) (t + ops.length) (runLedger g t led ops).2 := by
  induction ops generalizing g t led with
  | nil => exact ⟨rfl, hg, h⟩
  | cons op ops ih =>
    have := ih (inv_step hg op) (ledger_step hg h op)
    simp only [runLedger, Group.run, List.length_cons]
    rw [show t + (ops.length + 1) = t + 1 + ops.length by omega]
    exact this

theorem history_spec (e0 : GroupExpr) (s : Schema) (ops : List GroupOp) :
    (history e0 s ops).1 = (NewGroupWithSchema e0 s).run ops ∧ (history e0 s ops).1.Inv ∧
      LedgerInv (history e0 s ops).1 (1 + ops.length) (history e0 s ops).2 := by
  have h := runLedger_spec (inv_new e0 s) (ledger_new e0 s) ops
  unfold history
  rw [h.1]
  exact ⟨rfl, h.2.1, h.2.2⟩

/-- In a ledger with increasing times, the first entry satisfying `p` is the entry
satisfying `p` with the least time. -/
theorem find?_ledger (p : GroupExpr → Bool) (led : List (Nat × GroupExpr))
    (hsorted : led.Pairwise (fun a b => a.1 < b.1)) (e : GroupExpr) :
    (led.map Prod.snd).find? p = some e ↔
      ∃ t, (t, e) ∈ led ∧ p e = true ∧
        ∀ t' e', (t', e') ∈ led → p e' = true → t ≤ t' := by
  induction led with
  | nil => simp
  | cons hd rest ih =>
    obtain ⟨t₀, e₀⟩ := hd
    rw [List.pairwise_cons] at hsorted
    rw [List.map_cons, List.find?_cons]
    by_cases hp : p e₀ = true
    · simp only [hp]
      constructor
      · intro h
        have he : e₀ = e := Option.some.inj h
        subst he
        refine ⟨t₀, List.mem_cons_self _ _, hp, ?_⟩
        intro t' e' hmem _
        rcases List.mem_cons.mp hmem with h' | h'
        · exact le_of_eq (congrArg Prod.fst h').symm
        · exact le_of_lt (hsorted.1 _ h')
      · rintro ⟨t, hmem, _, hmin⟩
        rcases List.mem_cons.mp hmem with h' | h'
        · exact congrArg some (congrArg Prod.snd h').symm
        · have h₁ : t ≤ t₀ := hmin t₀ e₀ (List.mem_cons_self _ _) hp
          have h₂ : t₀ < t := hsorted.1 _ h'
          omega
    · have hp' : p e₀ = false := by simpa using hp
      simp only [hp']
      rw [ih hsorted.2]
      constructor
      · rintro ⟨t, hmem, hpe, hmin⟩
        refine ⟨t, List.mem_cons_of_mem _ hmem, hpe, ?_⟩
        intro t' e' hmem' hpe'
        rcases List.mem_cons.mp hmem' with h' | h'
        · have : e' = e₀ := congrArg Prod.snd h'
          rw [this, hp'] at hpe'
          exact absurd hpe' (by simp)
        · exact hmin t' e' h' hpe'
      · rintro ⟨t, hmem, hpe, hmin⟩
        rcases List.mem_cons.mp hmem with h' | h'
        · have : e = e₀ := congrArg Prod.snd h'
          rw [this, hp'] at hpe
          exact absurd hpe (by simp)
        · exact ⟨t, h', hpe, fun t' e' hmem' => hmin t' e' (List.mem_cons_of_mem _ hmem')⟩

/-- Under the invariant, `GetFirstElem` answers as a scan of the member list would. -/
theorem getFirstElem_eq_find? {g : Group} (h : g.Inv) (k : Operand) :
    g.GetFirstElem k = g.Equivalents.find? (matchesOperand k) := by
  unfold Group.GetFirstElem
  by_cases hk : k = Operand.OperandAny
  · subst hk
    simp only [if_true]
    cases g.Equivalents with
    | nil => rfl
    | cons x rest => simp [matchesOperand]
  · simp only [hk, if_false]
    rw [h.firstExpr]
    congr 1
    funext y
    simp [matchesOperand, hk, kindOf]

/-- C1: for every Group and every GroupExpr whose fingerprint is already recorded in it,
`Insert` returns false and leaves the Group unchanged: the same members in the same
order, the same member count and the same fingerprint index. -/
theorem insert_recorded_fingerprint (g : Group) (e : GroupExpr)
    (h : e.FingerPrint ∈ g.Fingerprints) :
    (g.Insert e).2 = false ∧ (g.Insert e).1 = g ∧
      (g.Insert e).1.Equivalents = g.Equivalents ∧
      (g.Insert e).1.Equivalents.length = g.Equivalents.length ∧
      (g.Insert e).1.Fingerprints = g.Fingerprints := by
  have hex : g.Exists e = true := by simpa [Group.Exists] using h
  have hins : g.Insert e = (g, false) := by simp [Group.Insert, hex]
  rw [hins]
  exact ⟨rfl, rfl, rfl, rfl, rfl⟩

theorem insert_recorded_fingerprint_witness :
    (testExpr .LogicalLimit 3 "3").FingerPrint ∈ testGroup.Fingerprints ∧
      ((testGroup.Insert (testExpr .LogicalLimit 3 "3")).2 = false ∧
        (testGroup.Insert (testExpr .LogicalLimit 3 "3")).1 = testGroup ∧
        (testGroup.Insert (testExpr .LogicalLimit 3 "3")).1.Equivalents = testGroup.Equivalents ∧
        (testGroup.Insert (testExpr .LogicalLimit 3 "3")).1.Equivalents.length
          = testGroup.Equivalents.length ∧
        (testGroup.Insert (testExpr .LogicalLimit 3 "3")).1.Fingerprints = testGroup.Fingerprints) :=
  ⟨by decide, insert_recorded_fingerprint testGroup (testExpr .LogicalLimit 3 "3") (by decide)⟩

/-- C10: for every Group and every GroupExpr whose fingerprint is not recorded in it,
`Insert` returns true, appends the expression at the end of the ordered member list
(all earlier members keep their positions), increases the member count by one and
records the fingerprint, so that `Exists` is true afterwards. -/
theorem insert_fresh_fingerprint (g : Group) (e : GroupExpr)
    (h : e.FingerPrint ∉ g.Fingerprints) :
    (g.Insert e).2 = true ∧
      (g.Insert e).1.Equivalents = g.Equivalents ++ [e] ∧
      (∀ i, i < g.Equivalents.length →
        (g.Insert e).1.Equivalents.get? i = g.Equivalents.get? i) ∧
      (g.Insert e).1.Equivalents.get? g.Equivalents.length = some e ∧
      (g.Insert e).1.Equivalents.length = g.Equivalents.length + 1 ∧
      (g.Insert e).1.Fingerprints = g.Fingerprints ++ [e.FingerPrint] ∧
      (g.Insert e).1.Exists e = true := by
  have hex : g.Exists e = false := by simpa [Group.Exists] using h
  have hins : g.Insert e = (({ g with
      Equivalents := g.Equivalents ++ [e]
      FirstExpr :=
        match mapGet g.FirstExpr (GetOperand e.ExprNode) with
        | some _ => g.FirstExpr
        | none => mapSet g.FirstExpr (GetOperand e.ExprNode) e
      Fingerprints := g.Fingerprints ++ [e.FingerPrint] } : Group), true) := by
    simp [Group.Insert, hex]
  rw [hins]
  refine ⟨rfl, rfl, ?_, ?_, ?_, rfl, ?_⟩
  · intro i hi
    simp only [List.get?_eq_getElem?]
    exact List.getElem?_append_left hi
  · simp [List.get?_eq_getElem?]
  · simp
  · simp [Group.Exists]

theorem insert_fresh_fingerprint_witness :
    (testExpr .LogicalSelection 5 "5").FingerPrint ∉ testGroup.Fingerprints ∧
      ((testGroup.Insert (testExpr .LogicalSelection 5 "5")).2 = true ∧
        (testGroup.Insert (testExpr .LogicalSelection 5 "5")).1.Equivalents
          = testGroup.Equivalents ++ [testExpr .LogicalSelection 5 "5"] ∧
        (∀ i, i < testGroup.Equivalents.length →
          (testGroup.Insert (testExpr .LogicalSelection 5 "5")).1.Equivalents.get? i
            = testGroup.Equivalents.get? i) ∧
        (testGroup.Insert (testExpr .LogicalSelection 5 "5")).1.Equivalents.get?
          testGroup.Equivalents.length = some (testExpr .LogicalSelection 5 "5") ∧
        (testGroup.Insert (testExpr .LogicalSelection 5 "5")).1.Equivalents.length
          = testGroup.Equivalents.length + 1 ∧
        (testGroup.Insert (testExpr .LogicalSelection 5 "5")).1.Fingerprints
          = testGroup.Fingerprints ++ [(testExpr .LogicalSelection 5 "5").FingerPrint] ∧
        (testGroup.Insert (testExpr .LogicalSelection 5 "5")).1.Exists
          (testExpr .LogicalSelection 5 "5") = true) :=
  ⟨by decide, insert_fresh_fingerprint testGroup (testExpr .LogicalSelection 5 "5") (by decide)⟩

/-- C8: for every Group, after `DeleteAll` the member count is 0, `GetFirstElem` returns
not-found for every operand kind, the wildcard included, and `Exists` returns false for
every GroupExpr, in particular for every member before the call. -/
theorem deleteAll_clears (g : Group) :
    g.DeleteAll.Equivalents.length = 0 ∧
      (∀ k : Operand, g.DeleteAll.GetFirstElem k = none) ∧
      (∀ e : GroupExpr, g.DeleteAll.Exists e = false) := by
  refine ⟨rfl, ?_, ?_⟩
  · intro k
    unfold Group.GetFirstElem
    by_cases hk : k = Operand.OperandAny
    · simp [hk, Group.DeleteAll]
    · simp [hk, Group.DeleteAll, mapGet]
  · intro e
    simp [Group.Exists, Group.DeleteAll]

/-- C9: in every Group built by `NewGroupWithSchema` and any calls of `Insert`, `Delete`
and `DeleteAll`: if `e` is a member, `Delete e` removes exactly `e` (the member count
decreases by one, `Exists e` becomes false, every other member stays present, recorded
and in the same relative order); if `e` is not a member, `Delete e` leaves the Group
unchanged; and `Delete` is idempotent. -/
theorem delete_removes_exactly (e0 : GroupExpr) (s : Schema) (ops : List GroupOp)
    (g : Group) (hg : g = (NewGroupWithSchema e0 s).run ops) (e : GroupExpr) :
    (e ∈ g.Equivalents →
        (g.Delete e).Equivalents.length + 1 = g.Equivalents.length ∧
        (g.Delete e).Exists e = false ∧
        e ∉ (g.Delete e).Equivalents ∧
        (g.Delete e).Equivalents = g.Equivalents.filter (fun x => decide (x ≠ e)) ∧
        (∀ x, x ∈ g.Equivalents → x ≠ e →
          x ∈ (g.Delete e).Equivalents ∧ (g.Delete e).Exists x = true)) ∧
      (e ∉ g.Equivalents → g.Delete e = g) ∧
      (g.Delete e).Delete e = g.Delete e := by
  have hinv : g.Inv := hg ▸ inv_run (inv_new e0 s) ops
  have hnodup : g.Equivalents.Nodup := hinv.nodup_members
  have hfilter : g.Equivalents.erase e = g.Equivalents.filter (fun x => decide (x ≠ e)) := by
    rw [hnodup.erase_eq_filter]
    congr 1
    funext x
    by_cases hx : x = e <;> simp [bne, hx]
  have hnotmem : e ∉ g.Equivalents.erase e := by
    rw [hfilter]
    simp
  have hnoop : ∀ g' : Group, e ∉ g'.Equivalents → g'.Delete e = g' := by
    intro g' hmem
    simp [Group.Delete, hmem]
  refine ⟨?_, hnoop g, ?_⟩
  · intro hmem
    have hEq : (g.Delete e).Equivalents = g.Equivalents.erase e := by
      simp [Group.Delete, hmem]
    have hFp : (g.Delete e).Fingerprints
        = g.Fingerprints.filter (fun f => decide (f ≠ e.FingerPrint)) := by
      simp [Group.Delete, hmem]
    refine ⟨?_, ?_, ?_, ?_, ?_⟩
    · rw [hEq, List.length_erase_of_mem hmem]
      have : 0 < g.Equivalents.length := List.length_pos_of_mem hmem
      omega
    · simp [Group.Exists, hFp]
    · rw [hEq]
      exact hnotmem
    · rw [hEq, hfilter]
    · intro x hx hne
      refine ⟨?_, ?_⟩
      · rw [hEq]
        exact (List.mem_erase_of_ne hne).mpr hx
      · have hfp : x.FingerPrint ≠ e.FingerPrint := by
          intro hfp
          have hn : (g.Equivalents.map GroupExpr.FingerPrint).Nodup :=
            hinv.fingerprints ▸ hinv.nodup
          exact hne (List.inj_on_of_nodup_map hn hx hmem hfp)
        have hxfp : x.FingerPrint ∈ g.Fingerprints := by
          rw [hinv.fingerprints]
          exact List.mem_map_of_mem _ hx
        simp [Group.Exists, hFp, hxfp, hfp]
  · by_cases hmem : e ∈ g.Equivalents
    · apply hnoop
      have hEq : (g.Delete e).Equivalents = g.Equivalents.erase e := by
        simp [Group.Delete, hmem]
      rw [hEq]
      exact hnotmem
    · rw [hnoop g hmem, hnoop g hmem]

theorem delete_removes_exactly_witness :
    testGroup = (NewGroupWithSchema (testExpr .LogicalProjection 0 "0") testSchema).run
        [.Insert (testExpr .LogicalLimit 1 "1"), .Insert (testExpr .LogicalProjection 2 "2"),
         .Insert (testExpr .LogicalLimit 3 "3"), .Insert (testExpr .LogicalProjection 4 "4")] ∧
      testExpr .LogicalLimit 1 "1" ∈ testGroup.Equivalents ∧
      (testGroup.Delete (testExpr .LogicalLimit 1 "1")).Equivalents.length + 1
        = testGroup.Equivalents.length ∧
      (testGroup.Delete (testExpr .LogicalLimit 1 "1")).Exists (testExpr .LogicalLimit 1 "1")
        = false ∧
      (testGroup.Delete (testExpr .LogicalLimit 1 "1")).Delete (testExpr .LogicalLimit 1 "1")
        = testGroup.Delete (testExpr .LogicalLimit 1 "1") :=
  have h := delete_removes_exactly (testExpr .LogicalProjection 0 "0") testSchema _ testGroup rfl
    (testExpr .LogicalLimit 1 "1")
  have hmem : testExpr .LogicalLimit 1 "1" ∈ testGroup.Equivalents := by decide
  ⟨rfl, hmem, (h.1 hmem).1, (h.1 hmem).2.1, h.2.2⟩

/-- C6: in every Group reached from `NewGroupWithSchema` by any interleaving of `Insert`
and `Delete` (and `DeleteAll`), `GetFirstElem` with the wildcard kind returns the
earliest-inserted member that is still present (the ledger entry with the least
insertion time), whatever its operator kind, and returns not-found exactly when the
Group has no members. -/
theorem getFirstElem_any_earliest (e0 : GroupExpr) (s : Schema) (ops : List GroupOp) :
    (history e0 s ops).1 = (NewGroupWithSchema e0 s).run ops ∧
      (history e0 s ops).2.map Prod.snd = (history e0 s ops).1.Equivalents ∧
      (∀ e, (history e0 s ops).1.GetFirstElem Operand.OperandAny = some e ↔
        ∃ t, (t, e) ∈ (history e0 s ops).2 ∧
          ∀ t' e', (t', e') ∈ (history e0 s ops).2 → t ≤ t') ∧
      ((history e0 s ops).1.GetFirstElem Operand.OperandAny = none ↔
        (history e0 s ops).1.Equivalents.length = 0) := by
  obtain ⟨hrun, hinv, hled⟩ := history_spec e0 s ops
  refine ⟨hrun, hled.members, ?_, ?_⟩
  · intro e
    rw [getFirstElem_eq_find? hinv, ← hled.members, find?_ledger _ _ hled.sorted]
    constructor
    · rintro ⟨t, hmem, _, hmin⟩
      exact ⟨t, hmem, fun t' e' h' => hmin t' e' h' (by simp [matchesOperand])⟩
    · rintro ⟨t, hmem, hmin⟩
      exact ⟨t, hmem, by simp [matchesOperand], fun t' e' h' _ => hmin t' e' h'⟩
  · unfold Group.GetFirstElem
    simp only [if_true]
    cases (history e0 s ops).1.Equivalents with
    | nil => simp
    | cons x rest => simp

/-- C7: in every Group reached from `NewGroupWithSchema` by any interleaving of `Insert`
and `Delete` (and `DeleteAll`), for every operand kind `k`, `GetFirstElem k` returns the
earliest-inserted surviving member matching `k` (the ledger entry of least insertion
time among those matching; a kind other than the wildcard matches the members of that kind), and
not-found exactly when no surviving member matches; the answer is always a current
member, and after deleting it the answer is the first matching member among the
survivors in their original order. -/
theorem getFirstElem_earliest_of_kind (e0 : GroupExpr) (s : Schema) (ops : List GroupOp)
    (k : Operand) :
    (history e0 s ops).1 = (NewGroupWithSchema e0 s).run ops ∧
      (history e0 s ops).2.map Prod.snd = (history e0 s ops).1.Equivalents ∧
      (k ≠ Operand.OperandAny → ∀ e, (matchesOperand k e = true ↔ GetOperand e.ExprNode = k)) ∧
      (∀ e, (history e0 s ops).1.GetFirstElem k = some e ↔
        ∃ t, (t, e) ∈ (history e0 s ops).2 ∧ matchesOperand k e = true ∧
          ∀ t' e', (t', e') ∈ (history e0 s ops).2 → matchesOperand k e' = true → t ≤ t') ∧
      ((history e0 s ops).1.GetFirstElem k = none ↔
        ∀ e ∈ (history e0 s ops).1.Equivalents, matchesOperand k e = false) ∧
      (∀ e, (history e0 s ops).1.GetFirstElem k = some e →
        e ∈ (history e0 s ops).1.Equivalents ∧
        ((history e0 s ops).1.Delete e).GetFirstElem k ≠ some e ∧
        ((history e0 s ops).1.Delete e).GetFirstElem k =
          ((history e0 s ops).1.Equivalents.filter (fun x => decide (x ≠ e))).find?
            (matchesOperand k)) := by
  obtain ⟨hrun, hinv, hled⟩ := history_spec e0 s ops
  refine ⟨hrun, hled.members, ?_, ?_, ?_, ?_⟩
  · intro hk e
    simp [matchesOperand, hk, kindOf]
  · intro e
    rw [getFirstElem_eq_find? hinv, ← hled.members, find?_ledger _ _ hled.sorted]
  · rw [getFirstElem_eq_find? hinv, List.find?_eq_none]
    constructor
    · intro h e he
      simpa using h e he
    · intro h e he
      simp [h e he]
  · intro e he
    rw [getFirstElem_eq_find? hinv] at he
    have hmem : e ∈ (history e0 s ops).1.Equivalents := List.mem_of_find?_eq_some he
    have hnodup := hinv.nodup_members
    have hEq : ((history e0 s ops).1.Delete e).Equivalents
        = (history e0 s ops).1.Equivalents.filter (fun x => decide (x ≠ e)) := by
      have : ((history e0 s ops).1.Delete e).Equivalents
          = (history e0 s ops).1.Equivalents.erase e := by
        simp [Group.Delete, hmem]
      rw [this, hnodup.erase_eq_filter]
      congr 1
      funext x
      by_cases hx : x = e <;> simp [bne, hx]
    have hfind : ((history e0 s ops).1.Delete e).GetFirstElem k =
        ((history e0 s ops).1.Equivalents.filter (fun x => decide (x ≠ e))).find?
          (matchesOperand k) := by
      rw [getFirstElem_eq_find? (inv_delete hinv e), hEq]
    refine ⟨hmem, ?_, hfind⟩
    rw [hfind]
    intro hsome
    have := List.mem_of_find?_eq_some hsome
    simp at this

/-- `TestGroupGetFirstElem`: projection, limit, projection, limit, projection. -/
theorem test_GroupGetFirstElem :
    testGroup.GetFirstElem .OperandProjection = some (testExpr .LogicalProjection 0 "0") ∧
      testGroup.GetFirstElem .OperandLimit = some (testExpr .LogicalLimit 1 "1") ∧
      testGroup.GetFirstElem .OperandAny = some (testExpr .LogicalProjection 0 "0") := by
  decide

/-- `TestFirstElemAfterDelete`: two limits; the index advances and then empties. -/
theorem test_FirstElemAfterDelete :
    ((NewGroupWithSchema (testExpr .LogicalLimit 0 "0") testSchema).run
        [.Insert (testExpr .LogicalLimit 1 "1")]).GetFirstElem .OperandLimit
      = some (testExpr .LogicalLimit 0 "0") ∧
    ((NewGroupWithSchema (testExpr .LogicalLimit 0 "0") testSchema).run
        [.Insert (testExpr .LogicalLimit 1 "1"),
         .Delete (testExpr .LogicalLimit 0 "0")]).GetFirstElem .OperandLimit
      = some (testExpr .LogicalLimit 1 "1") ∧
    ((NewGroupWithSchema (testExpr .LogicalLimit 0 "0") testSchema).run
        [.Insert (testExpr .LogicalLimit 1 "1"), .Delete (testExpr .LogicalLimit 0 "0"),
         .Delete (testExpr .LogicalLimit 1 "1")]).GetFirstElem .OperandLimit = none := by
  decide

/-- C11: for every GroupExpr `e` and schema `s`, `NewGroupWithSchema e s` is a Group with
exactly one member, `e`, exactly one recorded fingerprint, that of `e`, `Prop.Schema`
equal to `s`, `Explored` false and an empty implementation cache. -/
theorem newGroupWithSchema_fields (e : GroupExpr) (s : Schema) :
    (NewGroupWithSchema e s).Equivalents.length = 1 ∧
      (NewGroupWithSchema e s).Equivalents = [e] ∧
      (NewGroupWithSchema e s).Equivalents.head? = some e ∧
      (NewGroupWithSchema e s).Fingerprints.length = 1 ∧
      (NewGroupWithSchema e s).Fingerprints = [e.FingerPrint] ∧
      (NewGroupWithSchema e s).GroupProp.Schema = s ∧
      (NewGroupWithSchema e s).Explored = false ∧
      (NewGroupWithSchema e s).ImplMap = [] ∧
      (∀ prop, (NewGroupWithSchema e s).GetImpl prop = none) ∧
      (NewGroupWithSchema e s).Exists e = true ∧
      ∀ k, (NewGroupWithSchema e s).GetFirstElem k = if matchesOperand k e then some e else none := by
  refine ⟨rfl, rfl, rfl, rfl, rfl, rfl, rfl, rfl, fun _ => rfl, ?_, ?_⟩
  · simp [Group.Exists, NewGroupWithSchema]
  · intro k
    rw [getFirstElem_eq_find? (inv_new e s)]
    simp [NewGroupWithSchema, List.find?_cons]
    cases matchesOperand k e <;> rfl

/-- C13: for every Group, properties `p`, `q` and implementations: on a Group with no
cached implementation `GetImpl q` is not-found; after `InsertImpl p i`, `GetImpl q`
returns `i` when `q` is structurally equal to `p` and otherwise what it returned before;
a later `InsertImpl` for an equal property overwrites the earlier entry. -/
theorem getImpl_insertImpl (g : Group) (p q : PhysicalProperty) (i j : Implementation) :
    (g.ImplMap = [] → g.GetImpl q = none) ∧
      (g.InsertImpl p i).GetImpl p = some i ∧
      (q = p → (g.InsertImpl p i).GetImpl q = some i) ∧
      (q ≠ p → (g.InsertImpl p i).GetImpl q = g.GetImpl q) ∧
      ((g.InsertImpl p i).InsertImpl p j).GetImpl p = some j ∧
      (q ≠ p → ((g.InsertImpl p i).InsertImpl p j).GetImpl q = g.GetImpl q) ∧
      (g.InsertImpl p i).Equivalents = g.Equivalents ∧
      (g.InsertImpl p i).Fingerprints = g.Fingerprints := by
  refine ⟨?_, ?_, ?_, ?_, ?_, ?_, rfl, rfl⟩
  · intro h
    simp [Group.GetImpl, h, mapGet]
  · exact mapGet_mapSet_self _ _ _
  · intro h
    subst h
    exact mapGet_mapSet_self _ _ _
  · intro h
    exact mapGet_mapSet_ne _ _ (fun hpq => h hpq.symm)
  · exact mapGet_mapSet_self _ _ _
  · intro h
    have h' : p ≠ q := fun hpq => h hpq.symm
    show mapGet (mapSet (mapSet g.ImplMap p i) p j) q = mapGet g.ImplMap q
    rw [mapGet_mapSet_ne _ _ h', mapGet_mapSet_ne _ _ h']

/-- `TestGetInsertGroupImpl`: a miss, a hit for the equal property, a miss for another. -/
theorem test_GetInsertGroupImpl :
    (NewGroupWithSchema (testExpr .LogicalLimit 0 "0") testSchema).GetImpl testEmptyProp = none ∧
      ((NewGroupWithSchema (testExpr .LogicalLimit 0 "0") testSchema).InsertImpl testEmptyProp
        { plan := 1, cost := 0 }).GetImpl { Items := [] } = some { plan := 1, cost := 0 } ∧
      ((NewGroupWithSchema (testExpr .LogicalLimit 0 "0") testSchema).InsertImpl testEmptyProp
        { plan := 1, cost := 0 }).GetImpl testOrderProp = none := by
  decide

/-- C12: in every Group reachable from `NewGroupWithSchema` by any sequence of `Insert`,
`Delete` and `DeleteAll`, the fingerprint index holds exactly the fingerprints of the
current members: no two members share a fingerprint, every member's fingerprint is
recorded, every recorded fingerprint is that of a current member, and the fingerprint of
a member is no longer recorded once it is deleted; so `Exists e`, the membership test
through the index, is true exactly when a current member has the fingerprint of `e`: it
is true for every current member, and, a fingerprint standing for one representation, it
is true for `e` exactly when `e` is a current member. -/
theorem fingerprint_index_exact (e0 : GroupExpr) (s : Schema) (ops : List GroupOp)
    (g : Group) (hg : g = (NewGroupWithSchema e0 s).run ops) :
    g.Fingerprints = g.Equivalents.map GroupExpr.FingerPrint ∧
      g.Fingerprints.Nodup ∧
      (∀ a ∈ g.Equivalents, ∀ b ∈ g.Equivalents, a.FingerPrint = b.FingerPrint → a = b) ∧
      (∀ a ∈ g.Equivalents, a.FingerPrint ∈ g.Fingerprints) ∧
      (∀ f ∈ g.Fingerprints, ∃ a ∈ g.Equivalents, a.FingerPrint = f) ∧
      (∀ e ∈ g.Equivalents, e.FingerPrint ∉ (g.Delete e).Fingerprints) ∧
      (∀ e, g.Exists e = true ↔ ∃ a ∈ g.Equivalents, a.FingerPrint = e.FingerPrint) ∧
      (∀ e, e ∈ g.Equivalents → g.Exists e = true) ∧
      (∀ e, (∀ a ∈ g.Equivalents, a.FingerPrint = e.FingerPrint → a = e) →
        (g.Exists e = true ↔ e ∈ g.Equivalents)) := by
  have hinv : g.Inv := hg ▸ inv_run (inv_new e0 s) ops
  have hn : (g.Equivalents.map GroupExpr.FingerPrint).Nodup := hinv.fingerprints ▸ hinv.nodup
  have hex : ∀ e, g.Exists e = true ↔ ∃ a ∈ g.Equivalents, a.FingerPrint = e.FingerPrint := by
    intro e
    simp only [Group.Exists, decide_eq_true_eq, hinv.fingerprints, List.mem_map]
  refine ⟨hinv.fingerprints, hinv.nodup, ?_, ?_, ?_, ?_, hex, ?_, ?_⟩
  · intro a ha b hb hab
    exact List.inj_on_of_nodup_map hn ha hb hab
  · intro a ha
    rw [hinv.fingerprints]
    exact List.mem_map_of_mem _ ha
  · intro f hf
    rw [hinv.fingerprints] at hf
    exact List.mem_map.mp hf
  · intro e he
    simp [Group.Delete, he]
  · intro e he
    exact (hex e).mpr ⟨e, he, rfl⟩
  · intro e huniq
    rw [hex]
    constructor
    · rintro ⟨a, ha, hfp⟩
      exact huniq a ha hfp ▸ ha
    · intro he
      exact ⟨e, he, rfl⟩

theorem fingerprint_index_exact_witness :
    testGroup.Fingerprints = testGroup.Equivalents.map GroupExpr.FingerPrint ∧
      testGroup.Fingerprints.Nodup ∧
      (testGroup.Exists (testExpr .LogicalLimit 3 "3") = true ↔
        ∃ a ∈ testGroup.Equivalents, a.FingerPrint = (testExpr .LogicalLimit 3 "3").FingerPrint) :=
  have h := fingerprint_index_exact (testExpr .LogicalProjection 0 "0") testSchema _ testGroup rfl
  ⟨h.1, h.2.1, h.2.2.2.2.2.2.1 _⟩

end memo

/-! ## planner/core: INSERT ... VALUES -/

namespace core

theorem rowBefore_cons (prev : Option (List ExprNode)) (r : List ExprNode)
    (rest : List (List ExprNode)) (m : Nat) :
    rowBefore (some r) rest m = rowBefore prev (r :: rest) (m + 1) := by
  cases m with
  | zero => simp [rowBefore]
  | succ m => simp [rowBefore]

/-- While the values of a row compile, the inner loop moves on to the next value. -/
theorem buildValuesItems_advance (env : Env) (ip : Insert) (aff cols : List Column) :
    ∀ (m : Nat) (row : List ExprNode) (j0 : Nat) (acc : List Expression) (c : Bool),
      m ≤ row.length →
      (∀ m' v, m' < m → row.get? m' = some v →
        ∀ acc c, ∃ res, buildValueItem env ip aff cols (j0 + m') v acc c = .ok res) →
      ∃ acc' c', buildValuesItems env ip aff cols j0 row acc c
        = buildValuesItems env ip aff cols (j0 + m) (row.drop m) acc' c' := by
  intro m
  induction m with
  | zero =>
    intro row j0 acc c _ _
    exact ⟨acc, c, by simp⟩
  | succ m ih =>
    intro row j0 acc c hlen h
    cases row with
    | nil => simp at hlen
    | cons v rest =>
      obtain ⟨res, hres⟩ := h 0 v (Nat.succ_pos m) rfl acc c
      obtain ⟨acc₁, c₁⟩ := res
      have hstep : buildValuesItems env ip aff cols j0 (v :: rest) acc c
          = buildValuesItems env ip aff cols (j0 + 1) rest acc₁ c₁ := by
        simp only [Nat.add_zero] at hres
        simp only [buildValuesItems, hres]
      have hlen' : m ≤ rest.length := by simpa using hlen
      obtain ⟨acc', c', h'⟩ := ih rest (j0 + 1) acc₁ c₁ hlen' (by
        intro m' v' hm' hget acc c
        have := h (m' + 1) v' (Nat.succ_lt_succ hm') (by simpa using hget) acc c
        rw [show j0 + 1 + m' = j0 + (m' + 1) by omega]
        exact this)
      refine ⟨acc', c', ?_⟩
      rw [hstep, h', show j0 + 1 + m = j0 + (m + 1) by omega]
      rfl

/-- While the rows have matching lengths and compile, the outer loop moves on to the
next row. -/
theorem buildValuesRows_advance (env : Env) (ip : Insert) (aff cols : List Column) :
    ∀ (n : Nat) (rows : List (List ExprNode)) (i0 : Nat) (prev : Option (List ExprNode))
      (lists : List (List Expression)) (c : Bool),
      n ≤ rows.length →
      (∀ m r, m < n → rows.get? m = some r →
        rowLengthMismatch (i0 + m) (rowBefore prev rows m) r = false ∧
        ∀ c, ∃ res, buildValuesItems env ip aff cols 0 r [] c = .ok res) →
      ∃ lists' c', buildValuesRows env ip aff cols i0 prev rows lists c
        = buildValuesRows env ip aff cols (i0 + n) (rowBefore prev rows n) (rows.drop n) lists' c' := by
  intro n
  induction n with
  | zero =>
    intro rows i0 prev lists c _ _
    exact ⟨lists, c, by simp [rowBefore]⟩
  | succ n ih =>
    intro rows i0 prev lists c hlen h
    cases rows with
    | nil => simp at hlen
    | cons r rest =>
      obtain ⟨hmis, hok⟩ := h 0 r (Nat.succ_pos n) rfl
      obtain ⟨res, hres⟩ := hok c
      obtain ⟨el, c₁⟩ := res
      have hmis' : rowLengthMismatch i0 prev r = false := by
        simpa [rowBefore] using hmis
      have hstep : buildValuesRows env ip aff cols i0 prev (r :: rest) lists c
          = buildValuesRows env ip aff cols (i0 + 1) (some r) rest (lists ++ [el]) c₁ := by
        simp only [buildValuesRows, hmis', hres, Bool.false_eq_true, if_false]
      have hlen' : n ≤ rest.length := by simpa using hlen
      obtain ⟨lists', c', h'⟩ := ih rest (i0 + 1) (some r) (lists ++ [el]) c₁ hlen' (by
        intro m r' hm hget
        have := h (m + 1) r' (Nat.succ_lt_succ hm) (by simpa using hget)
        rw [show i0 + 1 + m = i0 + (m + 1) by omega, rowBefore_cons prev r rest m]
        exact this)
      refine ⟨lists', c', ?_⟩
      rw [hstep, h', show i0 + 1 + n = i0 + (n + 1) by omega, rowBefore_cons prev r rest n]
      rfl

/-- The result of `buildValuesListOfInsert` once its outer loop has returned. -/
theorem buildValuesListOfInsert_eq (env : Env) (insert : InsertStmt) (ip : Insert)
    (aff : List Column) (first : List ExprNode) (rest : List (List ExprNode))
    (haff : getAffectCols env insert ip = .ok aff) (hlists : insert.Lists = first :: rest)
    (hfirst : ¬((insert.Columns ≠ [] ∨ first ≠ []) ∧ first.length ≠ aff.length)) :
    buildValuesListOfInsert env insert ip =
      match buildValuesRows env ip aff ip.Table.Cols 0 none insert.Lists ip.Lists true with
      | .error e => .error e
      | .ok (lists, allConst) =>
        .ok { ip with
                Lists := lists
                AllAssignmentsAreConstant := allConst
                Schema4OnDuplicate := some ip.tableSchema
                names4OnDuplicate := ip.tableColNames } := by
  have hcond : ((decide (insert.Columns.length > 0) || decide (first.length > 0))
      && (first.length != aff.length)) = false := by
    rw [Bool.eq_false_iff]
    intro hc
    apply hfirst
    simp only [Bool.and_eq_true, Bool.or_eq_true, decide_eq_true_eq, bne_iff_ne, ne_eq,
      List.length_pos] at hc
    exact hc
  unfold buildValuesListOfInsert
  rw [haff]
  simp only [hlists, hcond, Bool.false_eq_true, if_false]

/-- The outer loop of `buildValuesListOfInsert` reaches row `i` when the rows before it
have matching lengths and compile. -/
theorem buildValuesRows_reaches (env : Env) (insert : InsertStmt) (ip : Insert)
    (aff : List Column) (i : Nat) (row : List ExprNode)
    (hrow : insert.Lists.get? i = some row)
    (hmin : ∀ k r r', 0 < k → k < i → insert.Lists.get? (k - 1) = some r →
      insert.Lists.get? k = some r' → r.length = r'.length)
    (hok : ∀ k r, k < i → insert.Lists.get? k = some r →
      ∀ c, ∃ res, buildValuesItems env ip aff ip.Table.Cols 0 r [] c = .ok res) :
    ∃ lists c, buildValuesRows env ip aff ip.Table.Cols 0 none insert.Lists ip.Lists true
      = buildValuesRows env ip aff ip.Table.Cols i (rowBefore none insert.Lists i)
          (row :: insert.Lists.drop (i + 1)) lists c := by
  have hi : i < insert.Lists.length := by
    rw [List.get?_eq_getElem?] at hrow
    exact (List.getElem?_eq_some_iff.mp hrow).1
  obtain ⟨lists, c, h⟩ := buildValuesRows_advance env ip aff ip.Table.Cols i insert.Lists 0 none
    ip.Lists true (Nat.le_of_lt hi) (by
      intro m r hm hget
      refine ⟨?_, hok m r hm hget⟩
      cases m with
      | zero => simp [rowBefore, rowLengthMismatch]
      | succ m =>
        have hm' : m < insert.Lists.length := by omega
        have hprev : insert.Lists.get? m = some (insert.Lists.get ⟨m, hm'⟩) := List.get?_eq_get hm'
        have hlen := hmin (m + 1) (insert.Lists.get ⟨m, hm'⟩) r (Nat.succ_pos m) hm
          (by rw [Nat.add_sub_cancel]; exact hprev) hget
        rw [List.get?_eq_getElem?] at hprev
        simp only [rowBefore, Nat.succ_ne_zero, if_false, Nat.add_sub_cancel,
          List.get?_eq_getElem?, hprev, rowLengthMismatch, hlen, bne_self_eq_false,
          Bool.and_false])
  refine ⟨lists, c, ?_⟩
  rw [h, Nat.zero_add]
  congr 1
  rw [List.drop_eq_getElem_cons hi]
  rw [List.get?_eq_getElem?] at hrow
  rw [(List.getElem?_eq_some_iff.mp hrow).2]

/-- C2: the wrong-value-count error of `buildValuesListOfInsert` carries the 1-based
index of the first offending row: row 1 when a column list or a non-empty first value
list is given and the first row's length differs from the number of affected columns,
and otherwise row `i + 1` for the smallest `i > 0` whose value list has a different
length from row `i - 1`, provided the rows before it compiled. -/
theorem wrong_value_count_row (env : Env) (insert : InsertStmt) (ip : Insert)
    (aff : List Column) (first : List ExprNode) (rest : List (List ExprNode))
    (haff : getAffectCols env insert ip = .ok aff) (hlists : insert.Lists = first :: rest) :
    ((insert.Columns ≠ [] ∨ first ≠ []) → first.length ≠ aff.length →
        buildValuesListOfInsert env insert ip = .error (Err.ErrWrongValueCountOnRow 1)) ∧
      (∀ i prevRow row, 0 < i → insert.Lists.get? (i - 1) = some prevRow →
        insert.Lists.get? i = some row → prevRow.length ≠ row.length →
        ¬((insert.Columns ≠ [] ∨ first ≠ []) ∧ first.length ≠ aff.length) →
        (∀ k r r', 0 < k → k < i → insert.Lists.get? (k - 1) = some r →
          insert.Lists.get? k = some r' → r.length = r'.length) →
        (∀ k r, k < i → insert.Lists.get? k = some r →
          ∀ c, ∃ res, buildValuesItems env ip aff ip.Table.Cols 0 r [] c = .ok res) →
        buildValuesListOfInsert env insert ip = .error (Err.ErrWrongValueCountOnRow (i + 1))) := by
  refine ⟨?_, ?_⟩
  · intro hcond hlen
    have hc : ((decide (insert.Columns.length > 0) || decide (first.length > 0))
        && (first.length != aff.length)) = true := by
      simp only [Bool.and_eq_true, Bool.or_eq_true, decide_eq_true_eq, bne_iff_ne, ne_eq,
        List.length_pos]
      exact ⟨hcond, hlen⟩
    unfold buildValuesListOfInsert
    rw [haff]
    simp only [hlists, hc, if_true]
  · intro i prevRow row hi hprev hrow hne hfirst hmin hok
    rw [buildValuesListOfInsert_eq env insert ip aff first rest haff hlists hfirst]
    obtain ⟨lists, c, h⟩ := buildValuesRows_reaches env insert ip aff i row hrow hmin hok
    have hbefore : rowBefore none insert.Lists i = some prevRow := by
      unfold rowBefore
      rw [if_neg (Nat.pos_iff_ne_zero.mp hi)]
      exact hprev
    have hmis : rowLengthMismatch i (some prevRow) row = true := by
      simp [rowLengthMismatch, hi, hne]
    rw [h, hbefore]
    simp only [buildValuesRows, hmis, if_true]

theorem wrong_value_count_row_witness :
    buildValuesListOfInsert testEnv (testInsertValues [] [[testLiteral 1, testLiteral 1]])
        (testInsertPlan []) = .error (Err.ErrWrongValueCountOnRow 1) ∧
      buildValuesListOfInsert testEnv
        (testInsertValues ["a", "b"] [[testLiteral 1, testLiteral 1], [testLiteral 1]])
        (testInsertPlan (["a", "b"].map testColumnName)) = .error (Err.ErrWrongValueCountOnRow 2) :=
  ⟨(wrong_value_count_row testEnv (testInsertValues [] [[testLiteral 1, testLiteral 1]])
      (testInsertPlan []) testGcWrite.Cols [testLiteral 1, testLiteral 1] [] rfl rfl).1
      (Or.inr (by simp)) (by decide),
   (wrong_value_count_row testEnv
      (testInsertValues ["a", "b"] [[testLiteral 1, testLiteral 1], [testLiteral 1]])
      (testInsertPlan (["a", "b"].map testColumnName))
      [testColumn "a" 0 "", testColumn "b" 1 ""] [testLiteral 1, testLiteral 1] [[testLiteral 1]]
      rfl rfl).2 1 [testLiteral 1, testLiteral 1] [testLiteral 1] (by decide) rfl rfl
      (by decide) (by decide) (by intro k r r' h0 h1; omega)
      (by
        intro k r hk hget c
        have hk0 : k = 0 := by omega
        subst hk0
        have hr : r = [testLiteral 1, testLiteral 1] := by
          have : some [testLiteral 1, testLiteral 1] = some r := hget
          exact (Option.some.inj this).symm
        subst hr
        cases c <;> exact ⟨_, rfl⟩)⟩

/-- The value at position `j` of a generated column: only the bare DEFAULT passes. -/
theorem buildValueItem_generated (env : Env) (ip : Insert) (aff cols : List Column) (j : Nat)
    (col : Column) (v : ExprNode) (hcol : aff.get? j = some col) (hgen : col.IsGenerated = true)
    (acc : List Expression) (c : Bool) :
    (v = .DefaultExpr none → buildValueItem env ip aff cols j v acc c = .ok (acc, false)) ∧
      (v ≠ .DefaultExpr none →
        (isComputedValue v = true → ∃ x, env.rewriteWithPreprocess v = .ok x) →
        buildValueItem env ip aff cols j v acc c
          = .error (Err.ErrBadGeneratedColumn col.Name.O ip.Table.Meta.Name.O)) ∧
      (∀ e, isComputedValue v = true → env.rewriteWithPreprocess v = .error e →
        buildValueItem env ip aff cols j v acc c = .error e) := by
  rw [List.get?_eq_getElem?] at hcol
  refine ⟨?_, ?_, ?_⟩
  · intro hv
    subst hv
    cases c <;> simp [buildValueItem, hcol, evalValueItem, hgen]
  · intro hv hrw
    cases v with
    | DefaultExpr name =>
      cases name with
      | none => exact absurd rfl hv
      | some n => simp [buildValueItem, hcol, evalValueItem, hgen]
    | ValueExpr d t => simp [buildValueItem, hcol, evalValueItem, hgen]
    | ColumnNameExpr n =>
      obtain ⟨x, hx⟩ := hrw rfl
      simp [buildValueItem, hcol, evalValueItem, hx, hgen]
    | BinaryOperationExpr op l r =>
      obtain ⟨x, hx⟩ := hrw rfl
      simp [buildValueItem, hcol, evalValueItem, hx, hgen]
    | ParenthesesExpr x' =>
      obtain ⟨x, hx⟩ := hrw rfl
      simp [buildValueItem, hcol, evalValueItem, hx, hgen]
  · intro e hcomp hrw
    cases v with
    | DefaultExpr name => simp [isComputedValue] at hcomp
    | ValueExpr d t => simp [isComputedValue] at hcomp
    | ColumnNameExpr n => simp [buildValueItem, hcol, evalValueItem, hrw]
    | BinaryOperationExpr op l r => simp [buildValueItem, hcol, evalValueItem, hrw]
    | ParenthesesExpr x' => simp [buildValueItem, hcol, evalValueItem, hrw]

/-- The first value that fails decides the result of `buildValuesListOfInsert`. -/
theorem buildValuesListOfInsert_error_at (env : Env) (insert : InsertStmt) (ip : Insert)
    (aff : List Column) (first : List ExprNode) (rest : List (List ExprNode))
    (haff : getAffectCols env insert ip = .ok aff) (hlists : insert.Lists = first :: rest)
    (hfirst : ¬((insert.Columns ≠ [] ∨ first ≠ []) ∧ first.length ≠ aff.length))
    (i j : Nat) (row : List ExprNode) (v : ExprNode)
    (hrow : insert.Lists.get? i = some row) (hv : row.get? j = some v)
    (hmin : ∀ k r r', 0 < k → k ≤ i → insert.Lists.get? (k - 1) = some r →
      insert.Lists.get? k = some r' → r.length = r'.length)
    (hok : ∀ k r, k < i → insert.Lists.get? k = some r →
      ∀ c, ∃ res, buildValuesItems env ip aff ip.Table.Cols 0 r [] c = .ok res)
    (hitems : ∀ m v', m < j → row.get? m = some v' →
      ∀ acc c, ∃ res, buildValueItem env ip aff ip.Table.Cols m v' acc c = .ok res)
    (e : Err) (herr : ∀ acc c, buildValueItem env ip aff ip.Table.Cols j v acc c = .error e) :
    buildValuesListOfInsert env insert ip = .error e := by
  rw [buildValuesListOfInsert_eq env insert ip aff first rest haff hlists hfirst]
  obtain ⟨lists, c, h⟩ := buildValuesRows_reaches env insert ip aff i row hrow
    (fun k r r' h0 hk => hmin k r r' h0 (Nat.le_of_lt hk)) hok
  have hmis : rowLengthMismatch i (rowBefore none insert.Lists i) row = false := by
    cases i with
    | zero => simp [rowBefore, rowLengthMismatch]
    | succ i =>
      have hlt : i + 1 < insert.Lists.length := by
        rw [List.get?_eq_getElem?] at hrow
        exact (List.getElem?_eq_some_iff.mp hrow).1
      have hi' : i < insert.Lists.length := by omega
      have hprev : insert.Lists.get? i = some (insert.Lists.get ⟨i, hi'⟩) := List.get?_eq_get hi'
      have hlen := hmin (i + 1) (insert.Lists.get ⟨i, hi'⟩) row (Nat.succ_pos i) (Nat.le_refl _)
        (by rw [Nat.add_sub_cancel]; exact hprev) hrow
      rw [List.get?_eq_getElem?] at hprev
      simp only [rowBefore, Nat.succ_ne_zero, if_false, Nat.add_sub_cancel,
        List.get?_eq_getElem?, hprev, rowLengthMismatch, hlen, bne_self_eq_false,
        Bool.and_false]
  have hj : j < row.length := by
    rw [List.get?_eq_getElem?] at hv
    exact (List.getElem?_eq_some_iff.mp hv).1
  obtain ⟨acc', c', hitem⟩ := buildValuesItems_advance env ip aff ip.Table.Cols j row 0 [] c
    (Nat.le_of_lt hj) (by
      intro m v' hm hget acc c
      rw [Nat.zero_add]
      exact hitems m v' hm hget acc c)
  have hdrop : row.drop j = v :: row.drop (j + 1) := by
    rw [List.drop_eq_getElem_cons hj]
    rw [List.get?_eq_getElem?] at hv
    rw [(List.getElem?_eq_some_iff.mp hv).2]
  have hrowErr : buildValuesItems env ip aff ip.Table.Cols 0 row [] c = .error e := by
    rw [hitem, hdrop, Nat.zero_add]
    simp only [buildValuesItems, herr]
  rw [h]
  simp only [buildValuesRows, hmis, hrowErr, Bool.false_eq_true, if_false]

/-- C3 (as stated, refuted): in `insert into test_gc_write (c) values (x)` the only value
targets the generated column `c` and is not the bare DEFAULT, yet the build fails with
the rewriter's unknown-column error and not with the bad-generated-column error. -/
theorem generated_column_rewrite_error_first :
    getAffectCols testEnv
          (testInsertValues ["c"] [[ExprNode.ColumnNameExpr (testColumnName "x")]])
          (testInsertPlan (["c"].map testColumnName)) = .ok [testColumn "c" 2 "b+8"] ∧
      (testColumn "c" 2 "b+8").IsGenerated = true ∧
      ExprNode.ColumnNameExpr (testColumnName "x") ≠ ExprNode.DefaultExpr none ∧
      buildValuesListOfInsert testEnv
          (testInsertValues ["c"] [[ExprNode.ColumnNameExpr (testColumnName "x")]])
          (testInsertPlan (["c"].map testColumnName))
        = .error (Err.ErrUnknownColumn "x" "field list") ∧
      buildValuesListOfInsert testEnv
          (testInsertValues ["c"] [[ExprNode.ColumnNameExpr (testColumnName "x")]])
          (testInsertPlan (["c"].map testColumnName))
        ≠ .error (Err.ErrBadGeneratedColumn "c" "test_gc_write") := by
  refine ⟨rfl, rfl, by simp, rfl, ?_⟩
  have h : buildValuesListOfInsert testEnv
      (testInsertValues ["c"] [[ExprNode.ColumnNameExpr (testColumnName "x")]])
      (testInsertPlan (["c"].map testColumnName))
      = .error (Err.ErrUnknownColumn "x" "field list") := rfl
  rw [h]
  simp

/-- C3 (amended): for every value position of an INSERT ... VALUES statement that the
build reaches (the count checks up to its row pass, the earlier rows and the earlier
values of its row compile) and whose target column is a generated column: a bare
DEFAULT is accepted and contributes no expression to the row's expression list; a
DEFAULT(col), a literal and a computed expression that compiles make
`buildValuesListOfInsert` fail with the bad-generated-column error; a computed
expression that does not compile makes it fail with the rewriter's error. -/
theorem generated_column_value (env : Env) (insert : InsertStmt) (ip : Insert)
    (aff : List Column) (first : List ExprNode) (rest : List (List ExprNode))
    (haff : getAffectCols env insert ip = .ok aff) (hlists : insert.Lists = first :: rest)
    (hfirst : ¬((insert.Columns ≠ [] ∨ first ≠ []) ∧ first.length ≠ aff.length))
    (i j : Nat) (row : List ExprNode) (v : ExprNode) (col : Column)
    (hrow : insert.Lists.get? i = some row) (hv : row.get? j = some v)
    (hcol : aff.get? j = some col) (hgen : col.IsGenerated = true)
    (hmin : ∀ k r r', 0 < k → k ≤ i → insert.Lists.get? (k - 1) = some r →
      insert.Lists.get? k = some r' → r.length = r'.length)
    (hok : ∀ k r, k < i → insert.Lists.get? k = some r →
      ∀ c, ∃ res, buildValuesItems env ip aff ip.Table.Cols 0 r [] c = .ok res)
    (hitems : ∀ m v', m < j → row.get? m = some v' →
      ∀ acc c, ∃ res, buildValueItem env ip aff ip.Table.Cols m v' acc c = .ok res) :
    (v = .DefaultExpr none →
        ∀ acc c, buildValueItem env ip aff ip.Table.Cols j v acc c = .ok (acc, false)) ∧
      (v ≠ .DefaultExpr none →
        (isComputedValue v = true → ∃ x, env.rewriteWithPreprocess v = .ok x) →
        buildValuesListOfInsert env insert ip
          = .error (Err.ErrBadGeneratedColumn col.Name.O ip.Table.Meta.Name.O)) ∧
      (∀ e, isComputedValue v = true → env.rewriteWithPreprocess v = .error e →
        buildValuesListOfInsert env insert ip = .error e) := by
  refine ⟨?_, ?_, ?_⟩
  · intro hd acc c
    exact (buildValueItem_generated env ip aff ip.Table.Cols j col v hcol hgen acc c).1 hd
  · intro hd hrw
    exact buildValuesListOfInsert_error_at env insert ip aff first rest haff hlists hfirst i j row v
      hrow hv hmin hok hitems _
      (fun acc c => (buildValueItem_generated env ip aff ip.Table.Cols j col v hcol hgen acc c).2.1 hd hrw)
  · intro e hcomp hrw
    exact buildValuesListOfInsert_error_at env insert ip aff first rest haff hlists hfirst i j row v
      hrow hv hmin hok hitems e
      (fun acc c =>
        (buildValueItem_generated env ip aff ip.Table.Cols j col v hcol hgen acc c).2.2 e hcomp hrw)

theorem generated_column_value_witness :
    buildValuesListOfInsert testEnv
        (testInsertValues ["a", "b", "c"] [[testLiteral 1, testLiteral 1, testLiteral 1]])
        (testInsertPlan (["a", "b", "c"].map testColumnName))
      = .error (Err.ErrBadGeneratedColumn "c" "test_gc_write") :=
  (generated_column_value testEnv
    (testInsertValues ["a", "b", "c"] [[testLiteral 1, testLiteral 1, testLiteral 1]])
    (testInsertPlan (["a", "b", "c"].map testColumnName)) testGcWrite.Cols
    [testLiteral 1, testLiteral 1, testLiteral 1] [] rfl rfl (by decide)
    0 2 [testLiteral 1, testLiteral 1, testLiteral 1] (testLiteral 1) (testColumn "c" 2 "b+8")
    rfl rfl rfl rfl
    (by intro k r r' h0 h1; omega)
    (by intro k r hk; omega)
    (by
      intro m v' hm hget acc c
      have hcases : m = 0 ∨ m = 1 := by omega
      rcases hcases with h | h
      · subst h
        have hv' : v' = testLiteral 1 := (Option.some.inj hget).symm
        subst hv'
        exact ⟨_, rfl⟩
      · subst h
        have hv' : v' = testLiteral 1 := (Option.some.inj hget).symm
        subst hv'
        exact ⟨_, rfl⟩)).2.1 (by decide) (by intro h; exact absurd h (by decide))

/-! ## planner/core: INSERT ... SELECT -/

theorem firstGenerated_eq_none (aff : List Column) :
    firstGenerated aff = none ↔ ∀ col ∈ aff, col.IsGenerated = false := by
  induction aff with
  | nil => simp [firstGenerated]
  | cons col rest ih =>
    by_cases h : col.IsGenerated = true
    · simp [firstGenerated, h]
    · have h' : col.IsGenerated = false := by simpa using h
      simp [firstGenerated, h', ih]

theorem firstGenerated_some (aff : List Column) (col : Column)
    (h : firstGenerated aff = some col) : col ∈ aff ∧ col.IsGenerated = true := by
  induction aff with
  | nil => simp [firstGenerated] at h
  | cons c rest ih =>
    by_cases hc : c.IsGenerated = true
    · simp only [firstGenerated, hc, if_true] at h
      have : c = col := Option.some.inj h
      subst this
      exact ⟨List.mem_cons_self _ _, hc⟩
    · have hc' : c.IsGenerated = false := by simpa using hc
      simp only [firstGenerated, hc', Bool.false_eq_true, if_false] at h
      exact ⟨List.mem_cons_of_mem _ (ih h).1, (ih h).2⟩

theorem setAt_ok {α : Type} (l : List α) (n : Nat) (v : α) (h : n < l.length) :
    setAt l n v = .ok (l.set n v) := by
  simp [setAt, h]

/-- The first remapping loop does not panic when the affected columns and the output
names cover the selected columns and every offset lies inside the target row. -/
theorem remapSelected_ok (aff : List Column) (names : List FieldName) :
    ∀ (sel : List ExprColumn) (i : Nat) (row : List (Option (ExprColumn × FieldName))),
      i + sel.length ≤ aff.length → i + sel.length ≤ names.length →
      (∀ col ∈ aff, col.Offset < row.length) →
      ∃ row', remapSelected aff names i sel row = .ok row' ∧ row'.length = row.length := by
  intro sel
  induction sel with
  | nil =>
    intro i row _ _ _
    exact ⟨row, rfl, rfl⟩
  | cons selCol rest ih =>
    intro i row haff hnames hoff
    simp only [List.length_cons] at haff hnames
    have hi : i < aff.length := by omega
    have hn : i < names.length := by omega
    have hget : aff.get? i = some (aff.get ⟨i, hi⟩) := List.get?_eq_get hi
    have hname : names.get? i = some (names.get ⟨i, hn⟩) := List.get?_eq_get hn
    have hlt : (aff.get ⟨i, hi⟩).Offset < row.length := hoff _ (List.get_mem aff i hi)
    obtain ⟨row', hrow', hlen'⟩ := ih (i + 1)
      (row.set (aff.get ⟨i, hi⟩).Offset
        (some ({ selCol with RetType := some (aff.get ⟨i, hi⟩).FieldType }, names.get ⟨i, hn⟩)))
      (by omega) (by omega) (by intro col hcol; rw [List.length_set]; exact hoff col hcol)
    refine ⟨row', ?_, ?_⟩
    · simp only [remapSelected, hget, hname, setAt_ok _ _ _ hlt]
      exact hrow'
    · rw [hlen', List.length_set]

/-- C4: for every INSERT ... SELECT statement whose select output has exactly as many
columns as the affected target columns, `buildSelectPlanOfInsert` fails with the
bad-generated-column error if and only if at least one affected target column is a
generated column (the optimizer raising no such error of its own); the error names the
first generated column, and with no generated column the build succeeds whenever the
optimizer does and keeps the output shape. -/
theorem select_insert_generated_iff (env : Env) (insert : InsertStmt) (ip : Insert)
    (n n₁ : Int) (aff : List Column) (selectPlan : Plan)
    (haff : getAffectCols env insert ip = .ok aff)
    (hbuild : env.Build insert.Select n = .ok (selectPlan, n₁))
    (hlen : selectPlan.schema.Columns.length = aff.length)
    (hopt : ∀ c t, env.DoOptimize selectPlan n₁ ≠ .error (Err.ErrBadGeneratedColumn c t)) :
    ((∃ c t, buildSelectPlanOfInsert env insert ip n = .error (Err.ErrBadGeneratedColumn c t)) ↔
        ∃ col ∈ aff, col.IsGenerated = true) ∧
      (∀ col, firstGenerated aff = some col →
        buildSelectPlanOfInsert env insert ip n
          = .error (Err.ErrBadGeneratedColumn col.Name.O ip.Table.Meta.Name.O)) ∧
      ((∀ col ∈ aff, col.IsGenerated = false) →
        ∀ optimized n₂, env.DoOptimize selectPlan n₁ = .ok (optimized, n₂) →
          optimized.schema.Columns.length = aff.length → selectPlan.names.length = aff.length →
          (∀ col ∈ aff, col.Offset < ip.Table.Cols.length) →
          ∃ plan n₃, buildSelectPlanOfInsert env insert ip n = .ok (plan, n₃) ∧
            plan.SelectPlan = some optimized) := by
  have hne : (selectPlan.schema.Columns.length != aff.length) = false := by simp [hlen]
  have hgenErr : ∀ col, firstGenerated aff = some col →
      buildSelectPlanOfInsert env insert ip n
        = .error (Err.ErrBadGeneratedColumn col.Name.O ip.Table.Meta.Name.O) := by
    intro col hcol
    unfold buildSelectPlanOfInsert
    rw [haff]
    simp only [hbuild, hne, hcol, Bool.false_eq_true, if_false]
  refine ⟨⟨?_, ?_⟩, hgenErr, ?_⟩
  · rintro ⟨c, t, hres⟩
    cases hfg : firstGenerated aff with
    | some col => exact ⟨col, firstGenerated_some aff col hfg⟩
    | none =>
      exfalso
      unfold buildSelectPlanOfInsert at hres
      rw [haff] at hres
      simp only [hbuild, hne, hfg, Bool.false_eq_true, if_false] at hres
      cases hdo : env.DoOptimize selectPlan n₁ with
      | error e =>
        rw [hdo] at hres
        simp only [Except.error.injEq] at hres
        exact hopt c t (hres ▸ hdo)
      | ok res =>
        obtain ⟨optimized, n₂⟩ := res
        rw [hdo] at hres
        simp only at hres
        cases hremap : remapSelected aff selectPlan.names 0 optimized.schema.Columns
            (List.replicate ip.Table.Cols.length none) with
        | error e =>
          rw [hremap] at hres
          simp only [Except.error.injEq] at hres
          subst hres
          revert hremap
          generalize (List.replicate ip.Table.Cols.length none :
            List (Option (ExprColumn × FieldName))) = row
          generalize (0 : Nat) = i
          generalize optimized.schema.Columns = sel
          intro hremap
          induction sel generalizing i row with
          | nil => simp [remapSelected] at hremap
          | cons selCol rest ih =>
            simp only [remapSelected] at hremap
            cases hget : aff.get? i with
            | none => rw [hget] at hremap; simp at hremap
            | some a =>
              rw [hget] at hremap
              cases hname : selectPlan.names.get? i with
              | none => rw [hname] at hremap; simp at hremap
              | some name =>
                rw [hname] at hremap
                simp only at hremap
                by_cases hlt : a.Offset < row.length
                · rw [setAt_ok _ _ _ hlt] at hremap
                  exact ih _ _ hremap
                · simp [setAt, hlt] at hremap
        | ok row =>
          rw [hremap] at hres
          simp at hres
  · rintro ⟨col, hmem, hgen⟩
    cases hfg : firstGenerated aff with
    | some col' => exact ⟨_, _, hgenErr col' hfg⟩
    | none =>
      have := (firstGenerated_eq_none aff).mp hfg col hmem
      rw [hgen] at this
      exact absurd this (by simp)
  · intro hnone optimized n₂ hdo hlenOpt hnames hoff
    have hfg := (firstGenerated_eq_none aff).mpr hnone
    obtain ⟨row, hrow, _⟩ := remapSelected_ok aff selectPlan.names optimized.schema.Columns 0
      (List.replicate ip.Table.Cols.length none) (by omega) (by omega)
      (by intro col hcol; rw [List.length_replicate]; exact hoff col hcol)
    unfold buildSelectPlanOfInsert
    rw [haff]
    simp only [hbuild, hne, hfg, hdo, hrow, Bool.false_eq_true, if_false]
    exact ⟨_, _, rfl, rfl⟩

theorem select_insert_generated_iff_witness :
    buildSelectPlanOfInsert testEnv (testInsertSelect ["c"] "select a from test_gc_write")
        (testInsertPlan (["c"].map testColumnName)) 10
      = .error (Err.ErrBadGeneratedColumn "c" "test_gc_write") ∧
    ∃ plan n, buildSelectPlanOfInsert testEnv (testInsertSelect ["b"] "select c from test_gc_write")
        (testInsertPlan (["b"].map testColumnName)) 10 = .ok (plan, n) ∧
      plan.SelectPlan = some { id := 1, schema := { Columns := [{ UniqueID := 11, RetType := none }], Keys := [] },
                               names := [testFieldName "a"] } :=
  ⟨(select_insert_generated_iff testEnv (testInsertSelect ["c"] "select a from test_gc_write")
      (testInsertPlan (["c"].map testColumnName)) 10 11 [testColumn "c" 2 "b+8"]
      { id := 1, schema := { Columns := [{ UniqueID := 11, RetType := none }], Keys := [] },
        names := [testFieldName "a"] }
      rfl rfl rfl (by intro c t h; exact absurd h (by simp [testEnv]))).2.1 _ rfl,
   (select_insert_generated_iff testEnv (testInsertSelect ["b"] "select c from test_gc_write")
      (testInsertPlan (["b"].map testColumnName)) 10 11 [testColumn "b" 1 ""]
      { id := 1, schema := { Columns := [{ UniqueID := 11, RetType := none }], Keys := [] },
        names := [testFieldName "a"] }
      rfl rfl rfl (by intro c t h; exact absurd h (by simp [testEnv]))).2.2
      (by decide) _ 11 rfl rfl rfl (by decide)⟩

/-! ## planner/core: access paths and index hints -/

theorem scan_unforce (name : CIStr) (l : List AccessPath) (pos : Nat) (tp : Option Nat) :
    scanPathsByIndexName name (l.map unforce) pos tp = scanPathsByIndexName name l pos tp := by
  induction l generalizing pos tp with
  | nil => rfl
  | cons path rest ih =>
    simp only [List.map_cons, scanPathsByIndexName, unforce]
    by_cases ht : path.IsTablePath = true
    · simp only [ht, if_true]
      exact ih _ _
    · simp only [ht, Bool.false_eq_true, if_false]
      cases path.Index with
      | none => rfl
      | some index =>
        simp only
        by_cases hn : index.Name.L = name.L
        · simp only [hn, if_true]
        · simp only [hn, if_false]
          exact ih _ _

theorem scan_ok_of_wellFormed (name : CIStr) (l : List AccessPath) (hwf : wellFormedPaths l)
    (pos : Nat) (tp : Option Nat) : ∃ r, scanPathsByIndexName name l pos tp = .ok r := by
  induction l generalizing pos tp with
  | nil => exact ⟨_, rfl⟩
  | cons path rest ih =>
    have hrest : wellFormedPaths rest := fun q hq => hwf q (List.mem_cons_of_mem _ hq)
    simp only [scanPathsByIndexName]
    by_cases ht : path.IsTablePath = true
    · simp only [ht, if_true]
      exact ih hrest _ _
    · have ht' : path.IsTablePath = false := by simpa using ht
      simp only [ht', Bool.false_eq_true, if_false]
      cases hidx : path.Index with
      | none => exact absurd hidx (hwf path (List.mem_cons_self _ _) ht')
      | some index =>
        simp only
        by_cases hn : index.Name.L = name.L
        · simp only [hn, if_true]
          exact ⟨_, rfl⟩
        · simp only [hn, if_false]
          exact ih hrest _ _

theorem scan_bounds (name : CIStr) (l : List AccessPath) (pos : Nat) (tp : Option Nat)
    (found t : Option Nat) (h : scanPathsByIndexName name l pos tp = .ok (found, t))
    (htp : ∀ x, tp = some x → x < pos) :
    (∀ p, found = some p → p < pos + l.length) ∧ (∀ x, t = some x → x < pos + l.length) := by
  induction l generalizing pos tp with
  | nil =>
    simp only [scanPathsByIndexName, Except.ok.injEq, Prod.mk.injEq] at h
    obtain ⟨h₁, h₂⟩ := h
    subst h₁ h₂
    exact ⟨fun p hp => by simp at hp, fun x hx => by simpa using htp x hx⟩
  | cons path rest ih =>
    simp only [scanPathsByIndexName] at h
    simp only [List.length_cons]
    by_cases ht : path.IsTablePath = true
    · simp only [ht, if_true] at h
      have := ih (pos + 1) (some pos) h (by
        intro x hx
        have : pos = x := Option.some.inj hx
        omega)
      exact ⟨fun p hp => by have := this.1 p hp; omega, fun x hx => by have := this.2 x hx; omega⟩
    · simp only [ht, Bool.false_eq_true, if_false] at h
      cases hidx : path.Index with
      | none => rw [hidx] at h; simp at h
      | some index =>
        rw [hidx] at h
        simp only at h
        by_cases hn : index.Name.L = name.L
        · simp only [hn, if_true, Except.ok.injEq, Prod.mk.injEq] at h
          obtain ⟨h₁, h₂⟩ := h
          subst h₁ h₂
          refine ⟨fun p hp => ?_, fun x hx => ?_⟩
          · have : pos = p := Option.some.inj hp
            omega
          · have := htp x hx
            omega
        · simp only [hn, if_false] at h
          have := ih (pos + 1) tp h (fun x hx => by have := htp x hx; omega)
          exact ⟨fun p hp => by have := this.1 p hp; omega, fun x hx => by have := this.2 x hx; omega⟩

theorem getPathByIndexName_lt (l : List AccessPath) (name : CIStr) (tblInfo : TableInfo) (p : Nat)
    (h : getPathByIndexName l name tblInfo = .ok (some p)) : p < l.length := by
  unfold getPathByIndexName at h
  cases hs : scanPathsByIndexName name l 0 none with
  | error e => rw [hs] at h; simp at h
  | ok r =>
    obtain ⟨found, t⟩ := r
    have hb := scan_bounds name l 0 none found t hs (fun x hx => by simp at hx)
    rw [hs] at h
    cases found with
    | some q =>
      simp only [Except.ok.injEq, Option.some.injEq] at h
      subst h
      simpa using hb.1 q rfl
    | none =>
      simp only at h
      by_cases hc : (isPrimaryIndex name && tblInfo.PKIsHandle) = true
      · simp only [hc, if_true, Except.ok.injEq] at h
        simpa using hb.2 p h
      · simp only [hc, Bool.false_eq_true, if_false, Except.ok.injEq] at h
        simp at h

theorem getPathByIndexName_ok_of_wellFormed (l : List AccessPath) (hwf : wellFormedPaths l)
    (name : CIStr) (tblInfo : TableInfo) : ∃ r, getPathByIndexName l name tblInfo = .ok r := by
  obtain ⟨⟨found, t⟩, hs⟩ := scan_ok_of_wellFormed name l hwf 0 none
  unfold getPathByIndexName
  rw [hs]
  cases found with
  | some q => exact ⟨_, rfl⟩
  | none =>
    simp only
    by_cases hc : (isPrimaryIndex name && tblInfo.PKIsHandle) = true
    · simp only [hc, if_true]
      exact ⟨_, rfl⟩
    · simp only [hc, Bool.false_eq_true, if_false]
      exact ⟨_, rfl⟩

/-- Scanning index paths only: the table path seen before is kept, and a path is found
exactly when some index has the name. -/
theorem scan_indexPaths (name : CIStr) (idxs : List IndexInfo) (pos : Nat) (tp : Option Nat) :
    ∃ found, scanPathsByIndexName name (idxs.map indexPath) pos tp = .ok (found, tp) ∧
      found.isSome = idxs.any (fun index => decide (index.Name.L = name.L)) := by
  induction idxs generalizing pos with
  | nil => exact ⟨none, rfl, rfl⟩
  | cons index rest ih =>
    simp only [List.map_cons, scanPathsByIndexName, indexPath, Bool.false_eq_true, if_false,
      List.any_cons]
    by_cases hn : index.Name.L = name.L
    · simp only [hn, if_true, decide_True, Bool.true_or]
      exact ⟨some pos, rfl, rfl⟩
    · simp only [hn, if_false, decide_False, Bool.false_or]
      exact ih (pos + 1)

theorem buildPublicPaths_eq (tbl : Table) :
    ∃ tablePaths : List AccessPath, tablePaths ≠ [] ∧
      (∀ path ∈ tablePaths, path.IsTablePath = true) ∧
      buildPublicPaths tbl = tablePaths ++
        (tbl.Meta.Indices.filter (fun index => decide (index.State = SchemaState.StatePublic))).map
          indexPath := by
  have hmain : ∀ replica : Option TiFlashReplicaInfo, tbl.Meta.TiFlashReplica = replica →
      ∃ tablePaths : List AccessPath, tablePaths ≠ [] ∧
        (∀ path ∈ tablePaths, path.IsTablePath = true) ∧
        buildPublicPaths tbl = tablePaths ++
          (tbl.Meta.Indices.filter (fun index => decide (index.State = SchemaState.StatePublic))).map
            indexPath := by
    intro replica hrep
    cases replica with
    | none =>
      refine ⟨[{ Index := none, IsTablePath := true,
                 StoreType := if tbl.IsClusterTable then StoreType.TiDB else StoreType.TiKV,
                 Forced := false }], by simp, ?_, ?_⟩
      · intro path hpath
        rw [List.mem_singleton] at hpath
        subst hpath
        rfl
      · simp only [buildPublicPaths, hrep, List.append_nil]
        rfl
    | some replica =>
      by_cases ha : replica.Available = true
      · refine ⟨[{ Index := none, IsTablePath := true,
                   StoreType := if tbl.IsClusterTable then StoreType.TiDB else StoreType.TiKV,
                   Forced := false },
                 { Index := none, IsTablePath := true, StoreType := StoreType.TiFlash,
                   Forced := false }], by simp, ?_, ?_⟩
        · intro path hpath
          simp only [List.mem_cons, List.mem_singleton, List.not_mem_nil, or_false] at hpath
          rcases hpath with h | h <;> subst h <;> rfl
        · simp only [buildPublicPaths, hrep, ha, if_true]
          rfl
      · refine ⟨[{ Index := none, IsTablePath := true,
                   StoreType := if tbl.IsClusterTable then StoreType.TiDB else StoreType.TiKV,
                   Forced := false }], by simp, ?_, ?_⟩
        · intro path hpath
          rw [List.mem_singleton] at hpath
          subst hpath
          rfl
        · simp only [buildPublicPaths, hrep, ha, Bool.false_eq_true, if_false, List.append_nil]
          rfl
  exact hmain _ rfl

/-- Scanning table paths followed by other paths: the last table path is remembered. -/
theorem scan_tablePaths (name : CIStr) (tablePaths rest : List AccessPath)
    (htable : ∀ path ∈ tablePaths, path.IsTablePath = true) (pos : Nat) (tp : Option Nat) :
    ∃ tp', scanPathsByIndexName name (tablePaths ++ rest) pos tp
        = scanPathsByIndexName name rest (pos + tablePaths.length) tp' ∧
      (tablePaths ≠ [] ∨ tp.isSome → tp'.isSome) := by
  induction tablePaths generalizing pos tp with
  | nil => exact ⟨tp, by simp, by intro h; rcases h with h | h; exact absurd rfl h; exact h⟩
  | cons path more ih =>
    have hpath : path.IsTablePath = true := htable path (List.mem_cons_self _ _)
    obtain ⟨tp', h₁, h₂⟩ := ih (fun q hq => htable q (List.mem_cons_of_mem _ hq)) (pos + 1) (some pos)
    refine ⟨tp', ?_, fun _ => h₂ (Or.inr rfl)⟩
    rw [List.cons_append, List.length_cons,
      show pos + (more.length + 1) = pos + 1 + more.length by omega, ← h₁]
    simp only [scanPathsByIndexName, hpath, if_true]

theorem wellFormed_buildPublicPaths (tbl : Table) : wellFormedPaths (buildPublicPaths tbl) := by
  obtain ⟨tablePaths, _, htable, heq⟩ := buildPublicPaths_eq tbl
  rw [heq]
  intro path hpath hnot
  rcases List.mem_append.mp hpath with h | h
  · rw [htable path h] at hnot
    exact absurd hnot (by simp)
  · obtain ⟨index, _, hidx⟩ := List.mem_map.mp h
    rw [← hidx]
    simp [indexPath]

/-- On the public paths of a table an index name finds a path exactly when it resolves. -/
theorem getPathByIndexName_public (tbl : Table) (name : CIStr) :
    ∃ r, getPathByIndexName (buildPublicPaths tbl) name tbl.Meta = .ok r ∧
      r.isSome = resolvesIndexName tbl name := by
  obtain ⟨tablePaths, hne, htable, heq⟩ := buildPublicPaths_eq tbl
  obtain ⟨tp', hscan, htp⟩ := scan_tablePaths name tablePaths
    ((tbl.Meta.Indices.filter (fun index => decide (index.State = SchemaState.StatePublic))).map
      indexPath) htable 0 none
  obtain ⟨found, hfound, hsome⟩ := scan_indexPaths name
    (tbl.Meta.Indices.filter (fun index => decide (index.State = SchemaState.StatePublic)))
    (0 + tablePaths.length) tp'
  have htp' : tp'.isSome = true := htp (Or.inl hne)
  have hany : found.isSome = tbl.Meta.Indices.any
      (fun index => decide (index.State = SchemaState.StatePublic) && decide (index.Name.L = name.L)) := by
    rw [hsome, List.any_filter]
  unfold getPathByIndexName
  rw [heq, hscan, hfound]
  unfold resolvesIndexName
  rw [← hany]
  cases found with
  | some q => exact ⟨_, rfl, by simp⟩
  | none =>
    simp only
    by_cases hc : (isPrimaryIndex name && tbl.Meta.PKIsHandle) = true
    · simp only [hc, if_true]
      exact ⟨_, rfl, by simp [htp']⟩
    · simp only [hc, Bool.false_eq_true, if_false]
      exact ⟨_, rfl, by simp [hc]⟩

theorem markForced_unforce (l : List AccessPath) (p : Nat) :
    (markForced l p).map unforce = l.map unforce := by
  induction l generalizing p with
  | nil => rfl
  | cons path rest ih =>
    cases p with
    | zero => simp [markForced, unforce]
    | succ p => simp [markForced, ih]

theorem markForced_length (l : List AccessPath) (p : Nat) :
    (markForced l p).length = l.length := by
  have := congrArg List.length (markForced_unforce l p)
  simpa using this

/-- Under the loop invariant a lookup in the path objects answers as the table does. -/
theorem getPathByIndexName_inv (tbl : Table) (st : PathState) (hinv : PathInv tbl st)
    (name : CIStr) :
    ∃ r, getPathByIndexName st.publicPaths name tbl.Meta = .ok r ∧
      r.isSome = resolvesIndexName tbl name ∧
      ∀ p, r = some p → p < st.publicPaths.length := by
  obtain ⟨r, hr, hsome⟩ := getPathByIndexName_public tbl name
  have heq : getPathByIndexName st.publicPaths name tbl.Meta
      = getPathByIndexName (buildPublicPaths tbl) name tbl.Meta := by
    unfold getPathByIndexName
    rw [← hinv.paths, scan_unforce]
  rw [← heq] at hr
  exact ⟨r, hr, hsome, fun p hp => getPathByIndexName_lt _ _ _ _ (hp ▸ hr)⟩

theorem pathInv_ignore {tbl : Table} {st : PathState} (hinv : PathInv tbl st) (p : Nat)
    (hp : p < st.publicPaths.length) : PathInv tbl { st with ignored := st.ignored ++ [p] } where
  paths := hinv.paths
  available := hinv.available
  ignored := by
    intro q hq
    rcases List.mem_append.mp hq with h | h
    · exact hinv.ignored q h
    · rw [List.mem_singleton] at h
      subst h
      exact hp

theorem pathInv_force {tbl : Table} {st : PathState} (hinv : PathInv tbl st) (p : Nat)
    (hp : p < st.publicPaths.length) :
    PathInv tbl { st with
      hasUseOrForce := true
      publicPaths := markForced st.publicPaths p
      available := st.available ++ [p] } where
  paths := by
    simp only
    rw [markForced_unforce]
    exact hinv.paths
  available := by
    intro q hq
    simp only [markForced_length]
    rcases List.mem_append.mp hq with h | h
    · exact hinv.available q h
    · rw [List.mem_singleton] at h
      subst h
      exact hp
  ignored := by
    intro q hq
    simp only [markForced_length]
    exact hinv.ignored q hq

/-- The names of a comment-style hint: every name that does not resolve appends one
warning and leaves the rest of the state as it is. -/
theorem resolveHintNames_comment (tbl : Table) (ty : IndexHintType) (names : List CIStr) :
    ∀ st : PathState, PathInv tbl st →
      ∃ st', resolveHintNames tbl.Meta false ty names st = .ok st' ∧ PathInv tbl st' ∧
        st'.warnings = st.warnings ++ missingWarnings tbl names ∧
        ∀ w, resolveHintNames tbl.Meta false ty (names.filter (resolvesIndexName tbl))
          (withWarnings st w) = .ok (withWarnings st' w) := by
  induction names with
  | nil =>
    intro st hinv
    exact ⟨st, rfl, hinv, by simp [missingWarnings], fun w => rfl⟩
  | cons name rest ih =>
    intro st hinv
    obtain ⟨r, hr, hsome, hlt⟩ := getPathByIndexName_inv tbl st hinv name
    cases r with
    | none =>
      have hres : resolvesIndexName tbl name = false := by simpa using hsome.symm
      obtain ⟨st', h₁, h₂, h₃, h₄⟩ := ih
        { st with warnings := st.warnings ++ [Err.ErrKeyDoesNotExist name tbl.Meta.Name] }
        ⟨hinv.paths, hinv.available, hinv.ignored⟩
      refine ⟨st', ?_, h₂, ?_, ?_⟩
      · simp only [resolveHintNames, hr, Bool.false_eq_true, if_false]
        exact h₁
      · rw [h₃]
        simp [missingWarnings, hres]
      · intro w
        simp only [List.filter_cons, hres, Bool.false_eq_true, if_false]
        exact h₄ w
    | some p =>
      have hres : resolvesIndexName tbl name = true := by simpa using hsome.symm
      have hp := hlt p rfl
      by_cases hty : ty = IndexHintType.HintIgnore
      · obtain ⟨st', h₁, h₂, h₃, h₄⟩ := ih { st with ignored := st.ignored ++ [p] }
          (pathInv_ignore hinv p hp)
        refine ⟨st', ?_, h₂, ?_, ?_⟩
        · simp only [resolveHintNames, hr, hty, if_true]
          rw [← hty]
          exact h₁
        · rw [h₃]
          simp [missingWarnings, hres]
        · intro w
          have hr' : getPathByIndexName (withWarnings st w).publicPaths name tbl.Meta
              = .ok (some p) := hr
          simp only [List.filter_cons, hres, if_true, resolveHintNames, hr', hty]
          rw [← hty]
          exact h₄ w
      · obtain ⟨st', h₁, h₂, h₃, h₄⟩ := ih
          { st with
              hasUseOrForce := true
              publicPaths := markForced st.publicPaths p
              available := st.available ++ [p] }
          (pathInv_force hinv p hp)
        refine ⟨st', ?_, h₂, ?_, ?_⟩
        · simp only [resolveHintNames, hr, hty, if_false]
          exact h₁
        · rw [h₃]
          simp [missingWarnings, hres]
        · intro w
          have hr' : getPathByIndexName (withWarnings st w).publicPaths name tbl.Meta
              = .ok (some p) := hr
          simp only [List.filter_cons, hres, if_true, resolveHintNames, hr', hty, if_false]
          exact h₄ w

/-- The names of a syntax-level hint: the first name that does not resolve is a hard
error; when all resolve the warnings are untouched. -/
theorem resolveHintNames_statement (tbl : Table) (ty : IndexHintType) (names : List CIStr) :
    ∀ st : PathState, PathInv tbl st →
      ((∀ name ∈ names, resolvesIndexName tbl name = true) →
        ∃ st', resolveHintNames tbl.Meta true ty names st = .ok st' ∧ PathInv tbl st' ∧
          st'.warnings = st.warnings) ∧
      ((∃ name ∈ names, resolvesIndexName tbl name = false) →
        ∃ name ∈ names, resolvesIndexName tbl name = false ∧
          resolveHintNames tbl.Meta true ty names st
            = .error (Err.ErrKeyDoesNotExist name tbl.Meta.Name, st.warnings)) := by
  induction names with
  | nil =>
    intro st hinv
    exact ⟨fun _ => ⟨st, rfl, hinv, rfl⟩, fun ⟨n, hn, _⟩ => absurd hn (List.not_mem_nil n)⟩
  | cons name rest ih =>
    intro st hinv
    obtain ⟨r, hr, hsome, hlt⟩ := getPathByIndexName_inv tbl st hinv name
    cases r with
    | none =>
      have hres : resolvesIndexName tbl name = false := by simpa using hsome.symm
      refine ⟨?_, ?_⟩
      · intro hall
        have := hall name (List.mem_cons_self _ _)
        rw [hres] at this
        exact absurd this (by simp)
      · intro _
        refine ⟨name, List.mem_cons_self _ _, hres, ?_⟩
        simp only [resolveHintNames, hr, if_true]
    | some p =>
      have hres : resolvesIndexName tbl name = true := by simpa using hsome.symm
      have hp := hlt p rfl
      have hstep : ∃ st₁, PathInv tbl st₁ ∧ st₁.warnings = st.warnings ∧
          resolveHintNames tbl.Meta true ty (name :: rest) st
            = resolveHintNames tbl.Meta true ty rest st₁ := by
        by_cases hty : ty = IndexHintType.HintIgnore
        · refine ⟨{ st with ignored := st.ignored ++ [p] }, pathInv_ignore hinv p hp, rfl, ?_⟩
          simp only [resolveHintNames, hr, hty, if_true]
        · refine ⟨_, pathInv_force hinv p hp, rfl, ?_⟩
          simp only [resolveHintNames, hr, hty, if_false]
      obtain ⟨st₁, hinv₁, hw₁, heq⟩ := hstep
      obtain ⟨ihok, iherr⟩ := ih st₁ hinv₁
      refine ⟨?_, ?_⟩
      · intro hall
        obtain ⟨st', h₁, h₂, h₃⟩ := ihok (fun n hn => hall n (List.mem_cons_of_mem _ hn))
        exact ⟨st', heq ▸ h₁, h₂, h₃.trans hw₁⟩
      · rintro ⟨n, hn, hbad⟩
        have hn' : n ∈ rest := by
          rcases List.mem_cons.mp hn with h | h
          · rw [h, hres] at hbad
            exact absurd hbad (by simp)
          · exact h
        obtain ⟨m, hm, hmbad, herr⟩ := iherr ⟨n, hn', hbad⟩
        exact ⟨m, List.mem_cons_of_mem _ hm, hmbad, by rw [heq, herr, hw₁]⟩

theorem getTablePath_lt (l : List AccessPath) (p : Nat) (h : getTablePath l = some p) :
    p < l.length := by
  unfold getTablePath at h
  by_cases hlt : l.findIdx (fun path => path.IsTablePath) < l.length
  · simp only [hlt, if_true, Option.some.injEq] at h
    exact h ▸ hlt
  · simp [hlt] at h

/-- The state of `applyIndexHint` before the loop over the index names. -/
theorem applyIndexHint_scan (tblInfo : TableInfo) (fromSyntax : Bool) (hint : IndexHint)
    (st : PathState) (hscan : hint.HintScope = IndexHintScope.HintForScan) (tbl : Table)
    (hinv : PathInv tbl st) :
    ∃ st₁, PathInv tbl st₁ ∧ st₁.warnings = st.warnings ∧
      applyIndexHint tblInfo fromSyntax hint st
        = resolveHintNames tblInfo fromSyntax hint.HintType (hint.IndexNames.getD []) st₁ ∧
      ∀ (f : List CIStr → List CIStr) w, applyIndexHint tblInfo fromSyntax
          { hint with IndexNames := hint.IndexNames.map f } (withWarnings st w)
        = resolveHintNames tblInfo fromSyntax hint.HintType
            ((hint.IndexNames.map f).getD []) (withWarnings st₁ w) := by
  have hnone : ∀ f : List CIStr → List CIStr,
      (hint.IndexNames.map f = none) = (hint.IndexNames = none) := by
    intro f
    cases hint.IndexNames <;> simp
  by_cases hc : hint.IndexNames = none ∧ hint.HintType ≠ IndexHintType.HintIgnore
  · cases hget : getTablePath st.publicPaths with
    | some p =>
      have hp := getTablePath_lt _ _ hget
      refine ⟨{ st with
          hasScanHint := true, hasUseOrForce := true,
          publicPaths := markForced st.publicPaths p, available := st.available ++ [p] },
        ?_, rfl, ?_, ?_⟩
      · have := pathInv_force hinv p hp
        exact ⟨this.paths, this.available, this.ignored⟩
      · simp only [applyIndexHint, hscan, ne_eq, not_true_eq_false, if_false, hc, and_self,
          not_false_eq_true, if_true, hget]
      · intro f w
        simp [applyIndexHint, hscan, hc, withWarnings, hget]
    | none =>
      refine ⟨{ st with hasScanHint := true }, ⟨hinv.paths, hinv.available, hinv.ignored⟩, rfl,
        ?_, ?_⟩
      · simp only [applyIndexHint, hscan, ne_eq, not_true_eq_false, if_false, hc, and_self,
          not_false_eq_true, if_true, hget]
      · intro f w
        simp [applyIndexHint, hscan, hc, withWarnings, hget]
  · refine ⟨{ st with hasScanHint := true }, ⟨hinv.paths, hinv.available, hinv.ignored⟩, rfl,
      ?_, ?_⟩
    · simp only [applyIndexHint, hscan, ne_eq, not_true_eq_false, if_false, hc]
    · intro f w
      simp only [applyIndexHint, hscan, ne_eq, not_true_eq_false, if_false, hnone, hc,
        withWarnings]

theorem getD_map_filter (names : Option (List CIStr)) (q : CIStr → Bool) :
    (names.map (fun l => l.filter q)).getD [] = (names.getD []).filter q := by
  cases names <;> rfl

/-- One comment-style hint: it never fails, appends one warning per name that does not
resolve, and otherwise acts as the hint without those names. -/
theorem applyIndexHint_comment (tbl : Table) (hint : IndexHint) (st : PathState)
    (hinv : PathInv tbl st) :
    ∃ st', applyIndexHint tbl.Meta false hint st = .ok st' ∧ PathInv tbl st' ∧
      st'.warnings = st.warnings ++ missingNameWarnings tbl [hint] ∧
      ∀ w, applyIndexHint tbl.Meta false (dropMissingNames tbl hint) (withWarnings st w)
        = .ok (withWarnings st' w) := by
  by_cases hscan : hint.HintScope = IndexHintScope.HintForScan
  · obtain ⟨st₁, hinv₁, hw₁, heq, hdrop⟩ := applyIndexHint_scan tbl.Meta false hint st hscan tbl hinv
    obtain ⟨st', h₁, h₂, h₃, h₄⟩ :=
      resolveHintNames_comment tbl hint.HintType (hint.IndexNames.getD []) st₁ hinv₁
    refine ⟨st', heq ▸ h₁, h₂, ?_, ?_⟩
    · rw [h₃, hw₁]
      simp [missingNameWarnings, hscan]
    · intro w
      have := hdrop (fun l => l.filter (resolvesIndexName tbl)) w
      rw [getD_map_filter] at this
      unfold dropMissingNames
      rw [this]
      exact h₄ w
  · refine ⟨st, ?_, hinv, ?_, ?_⟩
    · simp [applyIndexHint, hscan]
    · simp [missingNameWarnings, hscan]
    · intro w
      simp [applyIndexHint, dropMissingNames, hscan]

/-- One syntax-level hint: a scan hint with a name that does not resolve is a hard error
naming such a name; otherwise the hint is applied and the warnings are untouched. -/
theorem applyIndexHint_statement (tbl : Table) (hint : IndexHint) (st : PathState)
    (hinv : PathInv tbl st) :
    ((hint.HintScope = IndexHintScope.HintForScan →
        ∀ name ∈ hint.IndexNames.getD [], resolvesIndexName tbl name = true) →
      ∃ st', applyIndexHint tbl.Meta true hint st = .ok st' ∧ PathInv tbl st' ∧
        st'.warnings = st.warnings) ∧
    (hint.HintScope = IndexHintScope.HintForScan →
      (∃ name ∈ hint.IndexNames.getD [], resolvesIndexName tbl name = false) →
      ∃ name ∈ hint.IndexNames.getD [], resolvesIndexName tbl name = false ∧
        applyIndexHint tbl.Meta true hint st
          = .error (Err.ErrKeyDoesNotExist name tbl.Meta.Name, st.warnings)) := by
  by_cases hscan : hint.HintScope = IndexHintScope.HintForScan
  · obtain ⟨st₁, hinv₁, hw₁, heq, _⟩ := applyIndexHint_scan tbl.Meta true hint st hscan tbl hinv
    obtain ⟨hok, herr⟩ :=
      resolveHintNames_statement tbl hint.HintType (hint.IndexNames.getD []) st₁ hinv₁
    refine ⟨?_, ?_⟩
    · intro hall
      obtain ⟨st', h₁, h₂, h₃⟩ := hok (hall hscan)
      exact ⟨st', heq ▸ h₁, h₂, h₃.trans hw₁⟩
    · intro _ hbad
      obtain ⟨name, hn, hnbad, he⟩ := herr hbad
      exact ⟨name, hn, hnbad, by rw [heq, he, hw₁]⟩
  · refine ⟨?_, fun h => absurd h hscan⟩
    intro _
    exact ⟨st, by simp [applyIndexHint, hscan], hinv, rfl⟩

/-- The comment-style hints, applied after the syntax-level ones, never fail. -/
theorem applyIndexHints_comment (tbl : Table) (len : Nat) (hints : List IndexHint) :
    ∀ (i : Nat) (st : PathState), len ≤ i → PathInv tbl st →
      ∃ st', applyIndexHints tbl.Meta len i hints st = .ok st' ∧ PathInv tbl st' ∧
        st'.warnings = st.warnings ++ missingNameWarnings tbl hints ∧
        ∀ w, applyIndexHints tbl.Meta len i (hints.map (dropMissingNames tbl)) (withWarnings st w)
          = .ok (withWarnings st' w) := by
  induction hints with
  | nil =>
    intro i st _ hinv
    exact ⟨st, rfl, hinv, by simp [missingNameWarnings], fun w => rfl⟩
  | cons hint rest ih =>
    intro i st hi hinv
    have hflag : decide (i < len) = false := by simpa using hi
    obtain ⟨st₁, h₁, hinv₁, hw₁, hd₁⟩ := applyIndexHint_comment tbl hint st hinv
    obtain ⟨st', h₂, hinv₂, hw₂, hd₂⟩ := ih (i + 1) st₁ (by omega) hinv₁
    refine ⟨st', ?_, hinv₂, ?_, ?_⟩
    · simp only [applyIndexHints, hflag, h₁]
      exact h₂
    · rw [hw₂, hw₁]
      simp [missingNameWarnings]
    · intro w
      simp only [List.map_cons, applyIndexHints, hflag, hd₁ w]
      exact hd₂ w

/-- The syntax-level hints followed by further hints: a scan hint with a name that does
not resolve is a hard error; otherwise the loop goes on with the further hints. -/
theorem applyIndexHints_statement (tbl : Table) (len : Nat) (hints : List IndexHint) :
    ∀ (i : Nat) (st : PathState), i + hints.length ≤ len → PathInv tbl st →
      ((∀ hint ∈ hints, hint.HintScope = IndexHintScope.HintForScan →
          ∀ name ∈ hint.IndexNames.getD [], resolvesIndexName tbl name = true) →
        ∃ st', PathInv tbl st' ∧ st'.warnings = st.warnings ∧
          ∀ more, applyIndexHints tbl.Meta len i (hints ++ more) st
            = applyIndexHints tbl.Meta len (i + hints.length) more st') ∧
      ((∃ hint ∈ hints, hint.HintScope = IndexHintScope.HintForScan ∧
          ∃ name ∈ hint.IndexNames.getD [], resolvesIndexName tbl name = false) →
        ∃ hint ∈ hints, hint.HintScope = IndexHintScope.HintForScan ∧
          ∃ name ∈ hint.IndexNames.getD [], resolvesIndexName tbl name = false ∧
            ∀ more, applyIndexHints tbl.Meta len i (hints ++ more) st
              = .error (Err.ErrKeyDoesNotExist name tbl.Meta.Name, st.warnings)) := by
  induction hints with
  | nil =>
    intro i st _ hinv
    exact ⟨fun _ => ⟨st, hinv, rfl, by simp⟩, fun ⟨h, hh, _⟩ => absurd hh (List.not_mem_nil h)⟩
  | cons hint rest ih =>
    intro i st hi hinv
    simp only [List.length_cons] at hi
    have hflag : decide (i < len) = true := by
      simp only [decide_eq_true_eq]
      omega
    obtain ⟨hok, herr⟩ := applyIndexHint_statement tbl hint st hinv
    by_cases hgood : hint.HintScope = IndexHintScope.HintForScan →
        ∀ name ∈ hint.IndexNames.getD [], resolvesIndexName tbl name = true
    · obtain ⟨st₁, h₁, hinv₁, hw₁⟩ := hok hgood
      obtain ⟨ihok, iherr⟩ := ih (i + 1) st₁ (by omega) hinv₁
      have hstep : ∀ more, applyIndexHints tbl.Meta len i (hint :: rest ++ more) st
          = applyIndexHints tbl.Meta len (i + 1) (rest ++ more) st₁ := by
        intro more
        rw [List.cons_append]
        simp only [applyIndexHints, hflag, h₁]
      refine ⟨?_, ?_⟩
      · intro hall
        obtain ⟨st', h₂, h₃, h₄⟩ := ihok (fun h hh => hall h (List.mem_cons_of_mem _ hh))
        refine ⟨st', h₂, h₃.trans hw₁, ?_⟩
        intro more
        rw [hstep, h₄, List.length_cons, show i + 1 + rest.length = i + (rest.length + 1) by omega]
      · rintro ⟨h, hh, hscan, name, hn, hbad⟩
        have hrest : h ∈ rest := by
          rcases List.mem_cons.mp hh with heq | hmem
          · subst heq
            have := hgood hscan name hn
            rw [hbad] at this
            exact absurd this (by simp)
          · exact hmem
        obtain ⟨h', hh', hscan', name', hn', hbad', he⟩ := iherr ⟨h, hrest, hscan, name, hn, hbad⟩
        exact ⟨h', List.mem_cons_of_mem _ hh', hscan', name', hn', hbad',
          fun more => by rw [hstep, he, hw₁]⟩
    · have hbadHint : hint.HintScope = IndexHintScope.HintForScan ∧
          ∃ name ∈ hint.IndexNames.getD [], resolvesIndexName tbl name = false := by
        by_contra hcon
        apply hgood
        intro hscan name hn
        by_contra hne
        apply hcon
        exact ⟨hscan, name, hn, by simpa using hne⟩
      obtain ⟨name, hn, hbad, he⟩ := herr hbadHint.1 hbadHint.2
      refine ⟨?_, ?_⟩
      · intro hall
        exact absurd (hall hint (List.mem_cons_self _ _)) hgood
      · intro _
        refine ⟨hint, List.mem_cons_self _ _, hbadHint.1, name, hn, hbad, ?_⟩
        intro more
        rw [List.cons_append]
        simp only [applyIndexHints, hflag, he]

theorem wellFormed_of_unforce (l : List AccessPath) (h : wellFormedPaths (l.map unforce)) :
    wellFormedPaths l := by
  intro path hpath hnot
  exact h (unforce path) (List.mem_map_of_mem _ hpath) hnot

theorem wellFormed_deref (heap : List AccessPath) (h : wellFormedPaths heap) (ptrs : List Nat) :
    wellFormedPaths (derefPaths heap ptrs) := by
  intro path hpath hnot
  obtain ⟨p, _, hp⟩ := List.mem_filterMap.mp hpath
  exact h path (List.get?_mem hp) hnot

theorem removeIgnoredLoop_ok (heap ign : List AccessPath) (tblInfo : TableInfo)
    (hheap : wellFormedPaths heap) (hign : wellFormedPaths ign) (ptrs : List Nat)
    (hptrs : ∀ p ∈ ptrs, p < heap.length) :
    ∃ r, removeIgnoredLoop heap ign tblInfo ptrs = .ok r := by
  induction ptrs with
  | nil => exact ⟨[], rfl⟩
  | cons ptr rest ih =>
    obtain ⟨r, hr⟩ := ih (fun p hp => hptrs p (List.mem_cons_of_mem _ hp))
    have hlt : ptr < heap.length := hptrs ptr (List.mem_cons_self _ _)
    have hget : heap.get? ptr = some (heap.get ⟨ptr, hlt⟩) := List.get?_eq_get hlt
    simp only [removeIgnoredLoop, hget, hr]
    by_cases ht : (heap.get ⟨ptr, hlt⟩).IsTablePath = true
    · simp only [ht, if_true]
      exact ⟨_, rfl⟩
    · have ht' : (heap.get ⟨ptr, hlt⟩).IsTablePath = false := by simpa using ht
      simp only [ht', Bool.false_eq_true, if_false]
      cases hidx : (heap.get ⟨ptr, hlt⟩).Index with
      | none => exact absurd hidx (hheap _ (List.get_mem heap ptr hlt) ht')
      | some index =>
        obtain ⟨found, hfound⟩ := getPathByIndexName_ok_of_wellFormed ign hign index.Name tblInfo
        simp only [hfound]
        by_cases hf : found = none
        · simp only [hf, if_true]
          exact ⟨_, rfl⟩
        · simp only [hf, if_false]
          exact ⟨_, rfl⟩

/-- Under the loop invariant the end of `getPossibleAccessPaths` returns paths. -/
theorem chooseAvailablePaths_ok (tbl : Table) (st : PathState) (hinv : PathInv tbl st) :
    ∃ paths, chooseAvailablePaths tbl.Meta st = .ok paths := by
  have hwf : wellFormedPaths st.publicPaths :=
    wellFormed_of_unforce _ (hinv.paths ▸ wellFormed_buildPublicPaths tbl)
  have hremove : ∀ ptrs : List Nat, (∀ p ∈ ptrs, p < st.publicPaths.length) →
      ∃ r, removeIgnoredPaths st.publicPaths ptrs st.ignored tbl.Meta = .ok r := by
    intro ptrs hptrs
    unfold removeIgnoredPaths
    by_cases h0 : st.ignored.length = 0
    · simp only [h0, if_true]
      exact ⟨_, rfl⟩
    · simp only [h0, if_false]
      exact removeIgnoredLoop_ok _ _ _ hwf (wellFormed_deref _ hwf _) ptrs hptrs
  unfold chooseAvailablePaths
  by_cases hc : (!st.hasScanHint || !st.hasUseOrForce) = true
  · obtain ⟨r, hr⟩ := hremove (List.range st.publicPaths.length)
      (fun p hp => List.mem_range.mp hp)
    simp only [hc, if_true, hr]
    by_cases hl : (derefPaths st.publicPaths r).length = 0
    · simp only [hl, if_true]
      exact ⟨_, rfl⟩
    · simp only [hl, if_false]
      exact ⟨_, rfl⟩
  · obtain ⟨r, hr⟩ := hremove st.available hinv.available
    simp only [hc, Bool.false_eq_true, if_false, hr]
    by_cases hl : (derefPaths st.publicPaths r).length = 0
    · simp only [hl, if_true]
      exact ⟨_, rfl⟩
    · simp only [hl, if_false]
      exact ⟨_, rfl⟩

theorem buildPublicPaths_unforce (tbl : Table) :
    (buildPublicPaths tbl).map unforce = buildPublicPaths tbl := by
  have h : ∀ path ∈ buildPublicPaths tbl, unforce path = path := by
    obtain ⟨tablePaths, _, _, heq⟩ := buildPublicPaths_eq tbl
    intro path hpath
    unfold buildPublicPaths at hpath
    simp only [List.mem_append, List.mem_singleton, List.mem_map] at hpath
    rcases hpath with (h | h) | h
    · subst h
      rfl
    · cases hrep : tbl.Meta.TiFlashReplica with
      | none => rw [hrep] at h; simp at h
      | some replica =>
        rw [hrep] at h
        by_cases ha : replica.Available = true
        · simp only [ha, if_true, List.mem_singleton] at h
          subst h
          rfl
        · simp [ha] at h
    · obtain ⟨index, _, hidx⟩ := h
      subst hidx
      rfl
  calc (buildPublicPaths tbl).map unforce = (buildPublicPaths tbl).map id :=
        List.map_congr_left h
    _ = buildPublicPaths tbl := List.map_id _

theorem commentIndexHints_drop (tbl : Table) (tableHints : Option tableHintInfo)
    (dbName tblName : CIStr) :
    commentIndexHints (dropMissingCommentNames tbl tableHints) dbName tblName
      = (commentIndexHints tableHints dbName tblName).map (dropMissingNames tbl) := by
  cases tableHints with
  | none => rfl
  | some hints =>
    simp only [dropMissingCommentNames, Option.map_some', commentIndexHints, List.filter_map,
      List.map_map]
    rfl

theorem pathInv_init (tbl : Table) :
    PathInv tbl { publicPaths := buildPublicPaths tbl, available := [], ignored := [],
                  hasScanHint := false, hasUseOrForce := false, warnings := [] } where
  paths := buildPublicPaths_unforce tbl
  available := fun p hp => absurd hp (List.not_mem_nil p)
  ignored := fun p hp => absurd hp (List.not_mem_nil p)

/-- C5 (as stated, refuted): the syntax-level hint `FORCE INDEX FOR JOIN (nosuch)` names an
index that does not exist on the table, yet `getPossibleAccessPaths` returns the public
paths without error or warning, because hints of another scope than scan are skipped. -/
theorem join_scope_hint_missing_index_skipped :
    (∀ index ∈ testIndexedTable.Meta.Indices, index.Name.L ≠ "nosuch") ∧
      getPossibleAccessPaths none
          [testHint IndexHintType.HintForce IndexHintScope.HintForJoin "nosuch"]
          testIndexedTable { O := "test", L := "test" } { O := "t", L := "t" }
        = (.ok [{ Index := none, IsTablePath := true, StoreType := StoreType.TiKV, Forced := false },
                indexPath { Name := { O := "idx", L := "idx" }, State := SchemaState.StatePublic }],
           []) := by
  refine ⟨by decide, rfl⟩

/-- C5 (amended): for every table and hint list, if a syntax-level index hint of scan
scope names an index that does not resolve on the table (no public index has the name,
and it is not `primary` on a table whose primary key is the row handle),
`getPossibleAccessPaths` returns an error for such a name and no paths; hints of another
scope are skipped; and if every name of the syntax-level scan hints resolves, the call
succeeds, appends one warning for every name of the comment-style scan hints that does
not resolve, and returns the paths it returns without those names. -/
theorem scan_hint_missing_index (tableHints : Option tableHintInfo) (indexHints : List IndexHint)
    (tbl : Table) (dbName tblName : CIStr) :
    (∀ name, (∀ index ∈ tbl.Meta.Indices, index.Name.L ≠ name.L) →
        ¬(isPrimaryIndex name = true ∧ tbl.Meta.PKIsHandle = true) →
        resolvesIndexName tbl name = false) ∧
      ((∃ hint ∈ indexHints, hint.HintScope = IndexHintScope.HintForScan ∧
          ∃ name ∈ hint.IndexNames.getD [], resolvesIndexName tbl name = false) →
        ∃ hint ∈ indexHints, hint.HintScope = IndexHintScope.HintForScan ∧
          ∃ name ∈ hint.IndexNames.getD [], resolvesIndexName tbl name = false ∧
            getPossibleAccessPaths tableHints indexHints tbl dbName tblName
              = (.error (Err.ErrKeyDoesNotExist name tbl.Meta.Name), [])) ∧
      ((∀ hint ∈ indexHints, hint.HintScope = IndexHintScope.HintForScan →
          ∀ name ∈ hint.IndexNames.getD [], resolvesIndexName tbl name = true) →
        ∃ paths, getPossibleAccessPaths tableHints indexHints tbl dbName tblName
            = (.ok paths, missingNameWarnings tbl (commentIndexHints tableHints dbName tblName)) ∧
          getPossibleAccessPaths (dropMissingCommentNames tbl tableHints) indexHints tbl dbName
              tblName = (.ok paths, [])) ∧
      (∀ (fromSyntax : Bool) (hint : IndexHint) (st : PathState),
        hint.HintScope ≠ IndexHintScope.HintForScan →
        applyIndexHint tbl.Meta fromSyntax hint st = .ok st) := by
  obtain ⟨hok, herr⟩ := applyIndexHints_statement tbl indexHints.length indexHints 0 _
    (by omega) (pathInv_init tbl)
  refine ⟨?_, ?_, ?_, ?_⟩
  · intro name hno hprim
    unfold resolvesIndexName
    rw [Bool.or_eq_false_iff]
    refine ⟨?_, ?_⟩
    · rw [List.any_eq_false]
      intro index hindex
      simp [hno index hindex]
    · rw [Bool.and_eq_false_iff]
      by_cases h₁ : isPrimaryIndex name = true
      · right
        by_contra h₂
        exact hprim ⟨h₁, by simpa using h₂⟩
      · left
        simpa using h₁
  · intro hbad
    obtain ⟨hint, hh, hscan, name, hn, hnbad, he⟩ := herr hbad
    refine ⟨hint, hh, hscan, name, hn, hnbad, ?_⟩
    unfold getPossibleAccessPaths
    simp only [he]
  · intro hall
    obtain ⟨st₁, hinv₁, hw₁, heq⟩ := hok hall
    obtain ⟨st₂, h₂, hinv₂, hw₂, hdrop⟩ := applyIndexHints_comment tbl indexHints.length
      (commentIndexHints tableHints dbName tblName) (0 + indexHints.length) st₁ (by omega) hinv₁
    obtain ⟨paths, hpaths⟩ := chooseAvailablePaths_ok tbl st₂ hinv₂
    refine ⟨paths, ?_, ?_⟩
    · unfold getPossibleAccessPaths
      simp only [heq, h₂, hpaths, hw₂, hw₁, List.nil_append]
    · have hst₁ : withWarnings st₁ [] = st₁ := by
        cases st₁
        simp only [withWarnings] at hw₁ ⊢
        simp only [PathState.mk.injEq, true_and]
        exact hw₁.symm
      have hrun := hdrop []
      rw [hst₁] at hrun
      have hchoose : chooseAvailablePaths tbl.Meta (withWarnings st₂ []) = .ok paths := hpaths
      unfold getPossibleAccessPaths
      simp only [heq, commentIndexHints_drop, hrun, hchoose]
      rfl
  · intro fromSyntax hint st hscope
    simp [applyIndexHint, hscope]

theorem scan_hint_missing_index_witness :
    getPossibleAccessPaths none [testHint IndexHintType.HintForce IndexHintScope.HintForScan "nosuch"]
        testIndexedTable { O := "test", L := "test" } { O := "t", L := "t" }
      = (.error (Err.ErrKeyDoesNotExist { O := "nosuch", L := "nosuch" } { O := "t", L := "t" }), []) ∧
    ∃ paths, getPossibleAccessPaths (testCommentHints IndexHintType.HintUse "nosuch") []
        testIndexedTable { O := "test", L := "test" } { O := "t", L := "t" }
      = (.ok paths, [Err.ErrKeyDoesNotExist { O := "nosuch", L := "nosuch" } { O := "t", L := "t" }]) := by
  refine ⟨?_, ?_⟩
  · obtain ⟨hint, hh, _, name, hn, _, he⟩ :=
      (scan_hint_missing_index none
        [testHint IndexHintType.HintForce IndexHintScope.HintForScan "nosuch"]
        testIndexedTable { O := "test", L := "test" } { O := "t", L := "t" }).2.1
        ⟨_, List.mem_singleton.mpr rfl, rfl, { O := "nosuch", L := "nosuch" },
          List.mem_singleton.mpr rfl, by decide⟩
    rw [List.mem_singleton] at hh
    subst hh
    have hname : name = { O := "nosuch", L := "nosuch" } := List.mem_singleton.mp hn
    subst hname
    exact he
  · obtain ⟨paths, h, _⟩ :=
      (scan_hint_missing_index (testCommentHints IndexHintType.HintUse "nosuch") []
        testIndexedTable { O := "test", L := "test" } { O := "t", L := "t" }).2.2.1
        (fun hint hh => absurd hh (List.not_mem_nil hint))
    exact ⟨paths, h⟩

/-! ## planner/core: Build -/

/-- C14: for every syntax-tree node whose kind is none of the kinds `Build` dispatches
on, `Build` returns no plan and the unsupported-type error whose message names the type
of the node; for every dispatched kind `Build` returns what the corresponding build
routine returns (the plan itself for the three routines that cannot fail). -/
theorem build_dispatch (r : BuildRoutines) (flag : Nat) (node : Node) :
    (∀ t, node.kind = .other t →
        Build r flag node = .error (Err.ErrUnsupportedType ("Unsupported type " ++ t))) ∧
      (node.kind.isDispatched = false → ∃ t, node.kind = .other t) ∧
      (node.kind = .AdminStmt → Build r flag node = r.buildAdmin flag node) ∧
      (node.kind = .DeleteStmt → Build r flag node = r.buildDelete flag node) ∧
      (node.kind = .ExecuteStmt → Build r flag node = r.buildExecute flag node) ∧
      (node.kind = .ExplainStmt → Build r flag node = r.buildExplain flag node) ∧
      (node.kind = .ExplainForStmt → Build r flag node = r.buildExplainFor flag node) ∧
      (node.kind = .InsertStmt → Build r flag node = r.buildInsert flag node) ∧
      (node.kind = .SelectStmt → Build r flag node = r.buildSelect flag node) ∧
      (node.kind = .UnionStmt → Build r flag node = r.buildUnion flag node) ∧
      (node.kind = .UpdateStmt → Build r flag node = r.buildUpdate flag node) ∧
      (node.kind = .ShowStmt → Build r flag node = r.buildShow flag node) ∧
      (node.kind = .DoStmt → Build r flag node = r.buildDo flag node) ∧
      (node.kind = .SetStmt → Build r flag node = r.buildSet flag node) ∧
      (node.kind = .AnalyzeTableStmt → Build r flag node = r.buildAnalyze flag node) ∧
      (node.kind = .SplitRegionStmt → Build r flag node = r.buildSplitRegion flag node) ∧
      (node.kind = .DeallocateStmt → Build r flag node = .ok (r.newDeallocate node)) ∧
      (node.kind = .LoadStatsStmt → Build r flag node = .ok (r.buildLoadStats flag node)) ∧
      (node.kind = .PrepareStmt → Build r flag node = .ok (r.buildPrepare flag node)) ∧
      (node.kind.isSimple = true → Build r flag node = r.buildSimple flag node) ∧
      (∀ t, node.kind = .DDLNode t → Build r flag node = r.buildDDL flag node) := by
  refine ⟨?_, ?_, ?_, ?_, ?_, ?_, ?_, ?_, ?_, ?_, ?_, ?_, ?_, ?_, ?_, ?_, ?_, ?_, ?_, ?_, ?_⟩
  · intro t h
    simp [Build, h]
  · intro h
    cases hk : node.kind <;> simp [hk, NodeKind.isDispatched] at h ⊢
  · intro h
    simp [Build, h]
  · intro h
    simp [Build, h]
  · intro h
    simp [Build, h]
  · intro h
    simp [Build, h]
  · intro h
    simp [Build, h]
  · intro h
    simp [Build, h]
  · intro h
    simp [Build, h]
  · intro h
    simp [Build, h]
  · intro h
    simp [Build, h]
  · intro h
    simp [Build, h]
  · intro h
    simp [Build, h]
  · intro h
    simp [Build, h]
  · intro h
    simp [Build, h]
  · intro h
    simp [Build, h]
  · intro h
    simp [Build, h]
  · intro h
    simp [Build, h]
  · intro h
    simp [Build, h]
  · intro h
    cases hk : node.kind <;> simp [hk, NodeKind.isSimple] at h <;> simp [Build, hk]
  · intro t h
    simp [Build, h]

/-! ## planner/core: INSERT ... SELECT, continued -/

/-- C18: for every INSERT ... SELECT statement whose select output column count differs
from the number of affected target columns, `buildSelectPlanOfInsert` fails with
wrong-value-count on row 1, whether or not an affected target column is generated: the
count check comes before the generated-column check. -/
theorem select_count_check_first (env : Env) (insert : InsertStmt) (ip : Insert)
    (n n₁ : Int) (aff : List Column) (selectPlan : Plan)
    (haff : getAffectCols env insert ip = .ok aff)
    (hbuild : env.Build insert.Select n = .ok (selectPlan, n₁))
    (hlen : selectPlan.schema.Columns.length ≠ aff.length) :
    buildSelectPlanOfInsert env insert ip n = .error (Err.ErrWrongValueCountOnRow 1) := by
  have hne : (selectPlan.schema.Columns.length != aff.length) = true := by simpa using hlen
  unfold buildSelectPlanOfInsert
  rw [haff]
  simp only [hbuild, hne, if_true]

theorem select_count_check_first_witness :
    firstGenerated [testColumn "c" 2 "b+8"] = some (testColumn "c" 2 "b+8") ∧
      buildSelectPlanOfInsert testEnv (testInsertSelect ["c"] "select a, b from test_gc_write")
          (testInsertPlan (["c"].map testColumnName)) 10
        = .error (Err.ErrWrongValueCountOnRow 1) :=
  ⟨rfl, select_count_check_first testEnv (testInsertSelect ["c"] "select a, b from test_gc_write")
    (testInsertPlan (["c"].map testColumnName)) 10 12 [testColumn "c" 2 "b+8"]
    { id := 1,
      schema := { Columns := [{ UniqueID := 11, RetType := none }, { UniqueID := 12, RetType := none }],
                  Keys := [] },
      names := [testFieldName "a", testFieldName "b"] }
    rfl rfl (by decide)⟩

/-! ## planner/core: INSERT ... SET -/

theorem extractDefaultExpr_isSome (node : ExprNode) :
    (extractDefaultExpr node).isSome = true ↔ node = ExprNode.DefaultExpr none := by
  cases node with
  | DefaultExpr name => cases name <;> simp [extractDefaultExpr]
  | ValueExpr d t => simp [extractDefaultExpr]
  | ColumnNameExpr n => simp [extractDefaultExpr]
  | BinaryOperationExpr op l r => simp [extractDefaultExpr]
  | ParenthesesExpr x => simp [extractDefaultExpr]

/-- The first loop of `buildSetValuesOfInsert` collects one name and one column per
assignment. -/
theorem findSetColumns_spec (env : Env) (ip : Insert) (assigns : List AstAssignment) :
    ∀ (cn : List String) (ec : List ExprColumn) (cn' : List String) (ec' : List ExprColumn),
      findSetColumns env ip assigns cn ec = .ok (cn', ec') →
      cn' = cn ++ assigns.map (fun a => a.Column.Name.L) ∧
        ec'.length = ec.length + assigns.length := by
  induction assigns with
  | nil =>
    intro cn ec cn' ec' h
    simp only [findSetColumns, Except.ok.injEq, Prod.mk.injEq] at h
    obtain ⟨h₁, h₂⟩ := h
    subst h₁ h₂
    simp
  | cons a rest ih =>
    intro cn ec cn' ec' h
    simp only [findSetColumns] at h
    cases hf : env.FindFieldName ip.tableColNames a.Column with
    | error e => rw [hf] at h; simp at h
    | ok idx =>
      rw [hf] at h
      simp only at h
      by_cases hneg : idx < 0
      · simp [hneg] at h
      · simp only [hneg, if_false] at h
        cases hcol : ip.tableSchema.Columns.get? idx.toNat with
        | none => rw [hcol] at h; simp at h
        | some col =>
          rw [hcol] at h
          obtain ⟨h₁, h₂⟩ := ih _ _ _ _ h
          refine ⟨?_, ?_⟩
          · rw [h₁]
            simp
          · rw [h₂]
            simp only [List.length_append, List.length_cons, List.length_nil]
            omega

/-- While the assignments pass, the second loop of `buildSetValuesOfInsert` moves on. -/
theorem buildSetAssignments_advance (env : Env) (ip : Insert) (gen cn : List String)
    (ec : List ExprColumn) :
    ∀ (m : Nat) (assigns : List AstAssignment) (i : Nat) (setList : List Assignment) (c : Bool),
      m ≤ assigns.length → i + assigns.length ≤ ec.length → i + assigns.length ≤ cn.length →
      (∀ k a, k < m → assigns.get? k = some a → assignmentPasses env gen a) →
      ∃ setList' c', buildSetAssignments env ip gen cn ec i assigns setList c
        = buildSetAssignments env ip gen cn ec (i + m) (assigns.drop m) setList' c' := by
  intro m
  induction m with
  | zero =>
    intro assigns i setList c _ _ _ _
    exact ⟨setList, c, by simp⟩
  | succ m ih =>
    intro assigns i setList c hlen hec hcn h
    cases assigns with
    | nil => simp at hlen
    | cons a rest =>
      simp only [List.length_cons] at hlen hec hcn
      have hrest : ∀ k a', k < m → rest.get? k = some a' → assignmentPasses env gen a' := by
        intro k a' hk hget
        exact h (k + 1) a' (Nat.succ_lt_succ hk) (by simpa using hget)
      have hstep : ∃ setList₁ c₁, buildSetAssignments env ip gen cn ec i (a :: rest) setList c
          = buildSetAssignments env ip gen cn ec (i + 1) rest setList₁ c₁ := by
        rcases h 0 a (Nat.succ_pos m) rfl with ⟨hgen, hdef⟩ | ⟨hgen, expr, hexpr⟩
        · refine ⟨setList, c, ?_⟩
          have hsome : (extractDefaultExpr a.Expr).isSome = true :=
            (extractDefaultExpr_isSome a.Expr).mpr hdef
          simp only [buildSetAssignments, hgen, if_true, hsome]
        · have hi : i < ec.length := by omega
          have hi' : i < cn.length := by omega
          have hcol : ec.get? i = some (ec.get ⟨i, hi⟩) := List.get?_eq_get hi
          have hname : cn.get? i = some (cn.get ⟨i, hi'⟩) := List.get?_eq_get hi'
          simp only [buildSetAssignments, hgen, if_false, hexpr, hcol, hname]
          exact ⟨_, _, rfl⟩
      obtain ⟨setList₁, c₁, hstep⟩ := hstep
      obtain ⟨setList', c', h'⟩ := ih rest (i + 1) setList₁ c₁ (by omega) (by omega) (by omega) hrest
      refine ⟨setList', c', ?_⟩
      rw [hstep, h', show i + 1 + m = i + (m + 1) by omega]
      rfl

/-- What a successful second loop of `buildSetValuesOfInsert` has appended. -/
theorem buildSetAssignments_ok (env : Env) (ip : Insert) (gen cn : List String)
    (ec : List ExprColumn) (names : List String) :
    ∀ (assigns : List AstAssignment) (i : Nat) (setList : List Assignment) (c : Bool)
      (setList' : List Assignment) (c' : Bool),
      cn = names ++ assigns.map (fun a => a.Column.Name.L) → i = names.length →
      buildSetAssignments env ip gen cn ec i assigns setList c = .ok (setList', c') →
      (∀ a ∈ assigns, a.Column.Name.L ∈ gen → a.Expr = ExprNode.DefaultExpr none) ∧
        ∃ entries, setList' = setList ++ entries ∧
          List.Forall₂
            (fun a entry => entry.ColName = NewCIStr a.Column.Name.L ∧
              env.rewriteWithPreprocess (assignedExpr a) = .ok entry.Expr)
            (assigns.filter (fun a => decide (a.Column.Name.L ∉ gen))) entries := by
  intro assigns
  induction assigns generalizing names with
  | nil =>
    intro i setList c setList' c' _ _ h
    simp only [buildSetAssignments, Except.ok.injEq, Prod.mk.injEq] at h
    exact ⟨fun a ha => absurd ha (List.not_mem_nil a), [], by simp [h.1], List.Forall₂.nil⟩
  | cons a rest ih =>
    intro i setList c setList' c' hcn hi h
    have hcn' : cn = (names ++ [a.Column.Name.L]) ++ rest.map (fun a => a.Column.Name.L) := by
      rw [hcn]
      simp
    have hi' : i + 1 = (names ++ [a.Column.Name.L]).length := by
      simp [hi]
    simp only [buildSetAssignments] at h
    by_cases hgen : a.Column.Name.L ∈ gen
    · simp only [hgen, if_true] at h
      by_cases hsome : (extractDefaultExpr a.Expr).isSome = true
      · simp only [hsome, if_true] at h
        obtain ⟨h₁, entries, h₂, h₃⟩ := ih _ _ _ _ _ _ hcn' hi' h
        refine ⟨?_, entries, h₂, ?_⟩
        · intro a' ha' hg'
          rcases List.mem_cons.mp ha' with heq | hmem
          · subst heq
            exact (extractDefaultExpr_isSome _).mp hsome
          · exact h₁ a' hmem hg'
        · simpa [List.filter_cons, hgen] using h₃
      · simp [hsome] at h
    · simp only [hgen, if_false] at h
      cases hexpr : env.rewriteWithPreprocess (assignedExpr a) with
      | error e => rw [hexpr] at h; simp at h
      | ok expr =>
        rw [hexpr] at h
        simp only at h
        cases hcol : ec.get? i with
        | none => rw [hcol] at h; simp at h
        | some col =>
          rw [hcol] at h
          simp only at h
          have hname : cn.get? i = some a.Column.Name.L := by
            rw [hcn, hi, List.get?_eq_getElem?, List.getElem?_append_right (le_refl _)]
            simp
          rw [hname] at h
          simp only at h
          obtain ⟨h₁, entries, h₂, h₃⟩ := ih _ _ _ _ _ _ hcn' hi' h
          refine ⟨?_, { Col := col, ColName := NewCIStr a.Column.Name.L, Expr := expr } :: entries,
            ?_, ?_⟩
          · intro a' ha' hg'
            rcases List.mem_cons.mp ha' with heq | hmem
            · subst heq
              exact absurd hg' hgen
            · exact h₁ a' hmem hg'
          · rw [h₂]
            simp
          · simp only [List.filter_cons, hgen, not_false_eq_true, decide_True, if_true]
            exact List.Forall₂.cons ⟨rfl, hexpr⟩ h₃

/-- C20, as stated, fails: in `insert into test_gc_write set c = 1, nosuch = 1` the first
assignment targets the generated column `c` with a literal, yet `buildSetValuesOfInsert`
fails with the can't-find-column error of the first loop, not with the
bad-generated-column error. -/
theorem set_generated_unknown_column_first :
    (testColumn "c" 2 "b+8").IsGenerated = true ∧
      testLiteral 1 ≠ ExprNode.DefaultExpr none ∧
      buildSetValuesOfInsert testEnv
          (testInsertSet [("c", testLiteral 1), ("nosuch", testLiteral 1)]) (testInsertPlan [])
        = .error (Err.cantFindColumn "nosuch") :=
  ⟨by decide, by decide, rfl⟩

/-- C20, amended: for an INSERT ... SET statement whose assigned columns are all found
(the first loop and `FindCols` succeed), an assignment to a generated column whose value
is not the bare DEFAULT, reached with every earlier assignment passing (a bare DEFAULT on
a generated column, or a value that compiles on another column), makes
`buildSetValuesOfInsert` fail with the bad-generated-column error naming the column and
the table; and when `buildSetValuesOfInsert` succeeds, every assignment to a generated
column is a bare DEFAULT and adds no entry, and the plan's SetList is the old one followed
by exactly one entry per other assignment, in statement order, each holding the lower-case
column name and the compiled value. -/
theorem set_generated_column (env : Env) (insert : InsertStmt) (ip : Insert)
    (colNames : List String) (exprCols : List ExprColumn) (tCols : List Column)
    (hfind : findSetColumns env ip insert.Setlist [] [] = .ok (colNames, exprCols))
    (hcols : env.FindCols ip.Table.Cols colNames ip.Table.Meta.PKIsHandle = .ok tCols) :
    (∀ i assign, insert.Setlist.get? i = some assign →
        assign.Column.Name.L ∈ generatedColumnNames tCols →
        assign.Expr ≠ ExprNode.DefaultExpr none →
        (∀ k a, k < i → insert.Setlist.get? k = some a →
          assignmentPasses env (generatedColumnNames tCols) a) →
        buildSetValuesOfInsert env insert ip
          = .error (Err.ErrBadGeneratedColumn assign.Column.Name.O ip.Table.Meta.Name.O)) ∧
      (∀ plan, buildSetValuesOfInsert env insert ip = .ok plan →
        (∀ a ∈ insert.Setlist, a.Column.Name.L ∈ generatedColumnNames tCols →
          a.Expr = ExprNode.DefaultExpr none) ∧
        ∃ entries, plan.SetList = ip.SetList ++ entries ∧
          List.Forall₂
            (fun a entry => entry.ColName = NewCIStr a.Column.Name.L ∧
              env.rewriteWithPreprocess (assignedExpr a) = .ok entry.Expr)
            (insert.Setlist.filter (fun a => decide (a.Column.Name.L ∉ generatedColumnNames tCols)))
            entries) := by
  obtain ⟨hcn, hec⟩ := findSetColumns_spec env ip insert.Setlist [] [] colNames exprCols hfind
  refine ⟨?_, ?_⟩
  · intro i assign hget hgen hdef hpass
    rw [List.get?_eq_getElem?] at hget
    obtain ⟨hi, hget'⟩ := List.getElem?_eq_some_iff.mp hget
    have hcnlen : colNames.length = insert.Setlist.length := by
      rw [hcn]
      simp
    obtain ⟨setList', c', hadv⟩ := buildSetAssignments_advance env ip (generatedColumnNames tCols)
      colNames exprCols i insert.Setlist 0 ip.SetList true (Nat.le_of_lt hi)
      (by simp only [List.length_nil] at hec; omega) (by omega) hpass
    have hnot : ¬ (extractDefaultExpr assign.Expr).isSome = true := fun h =>
      hdef ((extractDefaultExpr_isSome _).mp h)
    simp only [buildSetValuesOfInsert, hfind, hcols, hadv]
    rw [List.drop_eq_getElem_cons hi, hget']
    simp [buildSetAssignments, hgen, hnot]
  · intro plan hplan
    simp only [buildSetValuesOfInsert, hfind, hcols] at hplan
    cases hloop : buildSetAssignments env ip (generatedColumnNames tCols) colNames exprCols 0
        insert.Setlist ip.SetList true with
    | error e => rw [hloop] at hplan; simp at hplan
    | ok res =>
      obtain ⟨setList, allConst⟩ := res
      rw [hloop] at hplan
      simp only [Except.ok.injEq] at hplan
      obtain ⟨h₁, entries, h₂, h₃⟩ := buildSetAssignments_ok env ip (generatedColumnNames tCols)
        colNames exprCols [] insert.Setlist 0 ip.SetList true setList allConst hcn rfl hloop
      refine ⟨h₁, entries, ?_, h₃⟩
      rw [← hplan]
      exact h₂

theorem set_generated_column_witness :
    buildSetValuesOfInsert testEnv
        (testInsertSet [("a", testLiteral 1), ("b", testLiteral 1), ("c", testLiteral 1)])
        (testInsertPlan [])
      = .error (Err.ErrBadGeneratedColumn "c" "test_gc_write") :=
  (set_generated_column testEnv
    (testInsertSet [("a", testLiteral 1), ("b", testLiteral 1), ("c", testLiteral 1)])
    (testInsertPlan []) ["a", "b", "c"]
    [{ UniqueID := 1, RetType := none }, { UniqueID := 2, RetType := none },
      { UniqueID := 3, RetType := none }]
    testGcWrite.Cols rfl rfl).1 2 { Column := testColumnName "c", Expr := testLiteral 1 } rfl
    (by decide) (by decide)
    (by
      intro k a hk hget
      have hcases : k = 0 ∨ k = 1 := by omega
      rcases hcases with h | h
      · subst h
        have ha : a = { Column := testColumnName "a", Expr := testLiteral 1 } :=
          (Option.some.inj hget).symm
        subst ha
        exact Or.inr ⟨by decide, _, rfl⟩
      · subst h
        have ha : a = { Column := testColumnName "b", Expr := testLiteral 1 } :=
          (Option.some.inj hget).symm
        subst ha
        exact Or.inr ⟨by decide, _, rfl⟩)

/-! ## planner/core: access paths, the candidates -/

theorem scan_congr (n m : CIStr) (h : n.L = m.L) (l : List AccessPath) (pos : Nat)
    (tp : Option Nat) : scanPathsByIndexName n l pos tp = scanPathsByIndexName m l pos tp := by
  induction l generalizing pos tp with
  | nil => rfl
  | cons path rest ih =>
    simp only [scanPathsByIndexName, h, ih]

theorem getPathByIndexName_congr (l : List AccessPath) (n m : CIStr) (h : n.L = m.L)
    (tblInfo : TableInfo) : getPathByIndexName l n tblInfo = getPathByIndexName l m tblInfo := by
  simp only [getPathByIndexName, scan_congr n m h, isPrimaryIndex, h]

/-- What the loop of `getPathByIndexName` returns: a found path is an index path with the
name; the table path is the one given or a table path of the list; when nothing is found
no index path of the list has the name. -/
theorem scan_spec (name : CIStr) (l : List AccessPath) (pos : Nat) (tp : Option Nat)
    (found t : Option Nat) (h : scanPathsByIndexName name l pos tp = .ok (found, t)) :
    (∀ q, found = some q → pos ≤ q ∧ ∃ path index, l.get? (q - pos) = some path ∧
        path.IsTablePath = false ∧ path.Index = some index ∧ index.Name.L = name.L) ∧
      (∀ x, t = some x → tp = some x ∨
        (pos ≤ x ∧ ∃ path, l.get? (x - pos) = some path ∧ path.IsTablePath = true)) ∧
      (found = none → ∀ path ∈ l, path.IsTablePath = false →
        ∀ index, path.Index = some index → index.Name.L ≠ name.L) := by
  induction l generalizing pos tp with
  | nil =>
    simp only [scanPathsByIndexName, Except.ok.injEq, Prod.mk.injEq] at h
    obtain ⟨h₁, h₂⟩ := h
    subst h₁ h₂
    refine ⟨fun q hq => by simp at hq, fun x hx => Or.inl hx, fun _ path hpath => ?_⟩
    exact absurd hpath (List.not_mem_nil path)
  | cons path rest ih =>
    simp only [scanPathsByIndexName] at h
    by_cases ht : path.IsTablePath = true
    · simp only [ht, if_true] at h
      obtain ⟨h₁, h₂, h₃⟩ := ih (pos + 1) (some pos) h
      refine ⟨?_, ?_, ?_⟩
      · intro q hq
        obtain ⟨hle, p', index, hget, hrest⟩ := h₁ q hq
        refine ⟨by omega, p', index, ?_, hrest⟩
        have hq' : q - pos = (q - (pos + 1)) + 1 := by omega
        rw [hq', List.get?_cons_succ]
        exact hget
      · intro x hx
        rcases h₂ x hx with hsome | ⟨hle, p', hget, hp'⟩
        · have hxp : pos = x := Option.some.inj hsome
          subst hxp
          exact Or.inr ⟨le_refl _, path, by simp, ht⟩
        · refine Or.inr ⟨by omega, p', ?_, hp'⟩
          have hx' : x - pos = (x - (pos + 1)) + 1 := by omega
          rw [hx', List.get?_cons_succ]
          exact hget
      · intro hnone p' hp' hnt index hidx
        rcases List.mem_cons.mp hp' with heq | hmem
        · subst heq
          rw [ht] at hnt
          exact absurd hnt (by decide)
        · exact h₃ hnone p' hmem hnt index hidx
    · have ht' : path.IsTablePath = false := by simpa using ht
      simp only [ht', Bool.false_eq_true, if_false] at h
      cases hidx : path.Index with
      | none => rw [hidx] at h; simp at h
      | some index =>
        rw [hidx] at h
        simp only at h
        by_cases hname : index.Name.L = name.L
        · simp only [hname, if_true, Except.ok.injEq, Prod.mk.injEq] at h
          obtain ⟨h₁, h₂⟩ := h
          subst h₁ h₂
          refine ⟨?_, fun x hx => Or.inl hx, fun hnone => by simp at hnone⟩
          intro q hq
          have hqp : pos = q := Option.some.inj hq
          subst hqp
          exact ⟨le_refl _, path, index, by simp, ht', hidx, hname⟩
        · simp only [hname, if_false] at h
          obtain ⟨h₁, h₂, h₃⟩ := ih (pos + 1) tp h
          refine ⟨?_, ?_, ?_⟩
          · intro q hq
            obtain ⟨hle, p', index', hget, hrest⟩ := h₁ q hq
            refine ⟨by omega, p', index', ?_, hrest⟩
            have hq' : q - pos = (q - (pos + 1)) + 1 := by omega
            rw [hq', List.get?_cons_succ]
            exact hget
          · intro x hx
            rcases h₂ x hx with hsome | ⟨hle, p', hget, hp'⟩
            · exact Or.inl hsome
            · refine Or.inr ⟨by omega, p', ?_, hp'⟩
              have hx' : x - pos = (x - (pos + 1)) + 1 := by omega
              rw [hx', List.get?_cons_succ]
              exact hget
          · intro hnone p' hp' hnt index' hidx'
            rcases List.mem_cons.mp hp' with heq | hmem
            · subst heq
              rw [hidx] at hidx'
              have hii : index = index' := Option.some.inj hidx'
              subst hii
              exact hname
            · exact h₃ hnone p' hmem hnt index' hidx'

/-- What `getPathByIndexName` returns: an index path with the name, or, when no index
path has the name, the name is `primary` and the primary key is the handle, a table path. -/
theorem getPathByIndexName_some (l : List AccessPath) (name : CIStr) (tblInfo : TableInfo)
    (q : Nat) (h : getPathByIndexName l name tblInfo = .ok (some q)) :
    ∃ path, l.get? q = some path ∧
      ((path.IsTablePath = false ∧ ∃ index, path.Index = some index ∧ index.Name.L = name.L) ∨
        (path.IsTablePath = true ∧ isPrimaryIndex name = true ∧ tblInfo.PKIsHandle = true ∧
          ∀ path' ∈ l, path'.IsTablePath = false →
            ∀ index, path'.Index = some index → index.Name.L ≠ name.L)) := by
  unfold getPathByIndexName at h
  cases hscan : scanPathsByIndexName name l 0 none with
  | error e => rw [hscan] at h; simp at h
  | ok res =>
    obtain ⟨found, t⟩ := res
    obtain ⟨h₁, h₂, h₃⟩ := scan_spec name l 0 none found t hscan
    rw [hscan] at h
    cases found with
    | some q' =>
      simp only [Except.ok.injEq, Option.some.injEq] at h
      subst h
      obtain ⟨_, path, index, hget, hnt, hidx, hname⟩ := h₁ q' rfl
      exact ⟨path, by simpa using hget, Or.inl ⟨hnt, index, hidx, hname⟩⟩
    | none =>
      simp only at h
      by_cases hc : (isPrimaryIndex name && tblInfo.PKIsHandle) = true
      · simp only [hc, if_true, Except.ok.injEq] at h
        rcases h₂ q h with hsome | ⟨_, path, hget, ht⟩
        · simp at hsome
        · simp only [Bool.and_eq_true] at hc
          exact ⟨path, by simpa using hget, Or.inr ⟨ht, hc.1, hc.2, h₃ rfl⟩⟩
      · simp only [hc, Bool.false_eq_true, if_false, Except.ok.injEq] at h
        simp at h

/-- A lookup that returns no path: no index path of the list has the name. -/
theorem getPathByIndexName_none (l : List AccessPath) (name : CIStr) (tblInfo : TableInfo)
    (h : getPathByIndexName l name tblInfo = .ok none) :
    ∀ path ∈ l, path.IsTablePath = false →
      ∀ index, path.Index = some index → index.Name.L ≠ name.L := by
  unfold getPathByIndexName at h
  cases hscan : scanPathsByIndexName name l 0 none with
  | error e => rw [hscan] at h; simp at h
  | ok res =>
    obtain ⟨found, t⟩ := res
    obtain ⟨_, _, h₃⟩ := scan_spec name l 0 none found t hscan
    rw [hscan] at h
    cases found with
    | some q' => simp at h
    | none => exact h₃ rfl

theorem getPathByIndexName_resolve (tbl : Table) (st : PathState) (hinv : PathInv tbl st)
    (name : CIStr) :
    getPathByIndexName st.publicPaths name tbl.Meta = .ok (resolvePath tbl name) := by
  obtain ⟨r, hr, _⟩ := getPathByIndexName_public tbl name
  have heq : getPathByIndexName st.publicPaths name tbl.Meta
      = getPathByIndexName (buildPublicPaths tbl) name tbl.Meta := by
    unfold getPathByIndexName
    rw [← hinv.paths, scan_unforce]
  rw [heq, hr]
  simp only [resolvePath, hr]

theorem findIdx_unforce (l : List AccessPath) :
    (l.map unforce).findIdx (fun path => path.IsTablePath)
      = l.findIdx (fun path => path.IsTablePath) := by
  induction l with
  | nil => rfl
  | cons path rest ih =>
    simp only [List.map_cons, List.findIdx_cons, ih]
    rfl

theorem getTablePath_unforce (l : List AccessPath) :
    getTablePath (l.map unforce) = getTablePath l := by
  simp only [getTablePath, findIdx_unforce, List.length_map]

theorem getTablePath_inv (tbl : Table) (st : PathState) (hinv : PathInv tbl st) :
    getTablePath st.publicPaths = getTablePath (buildPublicPaths tbl) := by
  rw [← hinv.paths, getTablePath_unforce]

/-- The names of an IGNORE hint, when the loop over them succeeds: the paths they resolve
to are appended to the ignored paths and nothing else changes but the warnings. -/
theorem resolveHintNames_ignore (tbl : Table) (fromSyntax : Bool) (names : List CIStr) :
    ∀ st st' : PathState, PathInv tbl st →
      resolveHintNames tbl.Meta fromSyntax IndexHintType.HintIgnore names st = .ok st' →
      PathInv tbl st' ∧ st'.hasScanHint = st.hasScanHint ∧
        st'.hasUseOrForce = st.hasUseOrForce ∧ st'.available = st.available ∧
        st'.publicPaths = st.publicPaths ∧
        st'.ignored = st.ignored ++ names.filterMap (resolvePath tbl) := by
  induction names with
  | nil =>
    intro st st' hinv h
    simp only [resolveHintNames, Except.ok.injEq] at h
    subst h
    exact ⟨hinv, rfl, rfl, rfl, rfl, by simp⟩
  | cons name rest ih =>
    intro st st' hinv h
    simp only [resolveHintNames, getPathByIndexName_resolve tbl st hinv name] at h
    cases hres : resolvePath tbl name with
    | none =>
      rw [hres] at h
      simp only at h
      cases fromSyntax with
      | true => simp at h
      | false =>
        simp only [Bool.false_eq_true, if_false] at h
        have hinv' : PathInv tbl { st with warnings :=
            st.warnings ++ [Err.ErrKeyDoesNotExist name tbl.Meta.Name] } :=
          ⟨hinv.paths, hinv.available, hinv.ignored⟩
        obtain ⟨h₁, h₂, h₃, h₄, h₅, h₆⟩ := ih _ _ hinv' h
        exact ⟨h₁, h₂, h₃, h₄, h₅, by simpa [List.filterMap_cons, hres] using h₆⟩
    | some p =>
      rw [hres] at h
      simp only [if_true] at h
      have hp : p < st.publicPaths.length :=
        getPathByIndexName_lt _ _ _ _ (hres ▸ getPathByIndexName_resolve tbl st hinv name)
      obtain ⟨h₁, h₂, h₃, h₄, h₅, h₆⟩ := ih _ _ (pathInv_ignore hinv p hp) h
      exact ⟨h₁, h₂, h₃, h₄, h₅, by simpa [List.filterMap_cons, hres] using h₆⟩

/-- The names of a USE or FORCE hint, when the loop over them succeeds: the paths they
resolve to are marked forced and appended to the available paths. -/
theorem resolveHintNames_force (tbl : Table) (fromSyntax : Bool) (ty : IndexHintType)
    (hty : ty ≠ IndexHintType.HintIgnore) (names : List CIStr) :
    ∀ st st' : PathState, PathInv tbl st →
      resolveHintNames tbl.Meta fromSyntax ty names st = .ok st' →
      PathInv tbl st' ∧ st'.hasScanHint = st.hasScanHint ∧
        st'.hasUseOrForce = (st.hasUseOrForce || !(names.filterMap (resolvePath tbl)).isEmpty) ∧
        st'.available = st.available ++ names.filterMap (resolvePath tbl) ∧
        st'.publicPaths = (names.filterMap (resolvePath tbl)).foldl markForced st.publicPaths ∧
        st'.ignored = st.ignored := by
  induction names with
  | nil =>
    intro st st' hinv h
    simp only [resolveHintNames, Except.ok.injEq] at h
    subst h
    exact ⟨hinv, rfl, by simp, by simp, rfl, rfl⟩
  | cons name rest ih =>
    intro st st' hinv h
    simp only [resolveHintNames, getPathByIndexName_resolve tbl st hinv name] at h
    cases hres : resolvePath tbl name with
    | none =>
      rw [hres] at h
      simp only at h
      cases fromSyntax with
      | true => simp at h
      | false =>
        simp only [Bool.false_eq_true, if_false] at h
        have hinv' : PathInv tbl { st with warnings :=
            st.warnings ++ [Err.ErrKeyDoesNotExist name tbl.Meta.Name] } :=
          ⟨hinv.paths, hinv.available, hinv.ignored⟩
        obtain ⟨h₁, h₂, h₃, h₄, h₅, h₆⟩ := ih _ _ hinv' h
        refine ⟨h₁, h₂, ?_, ?_, ?_, h₆⟩
        · simpa [List.filterMap_cons, hres] using h₃
        · simpa [List.filterMap_cons, hres] using h₄
        · simpa [List.filterMap_cons, hres] using h₅
    | some p =>
      rw [hres] at h
      simp only [hty, if_false] at h
      have hp : p < st.publicPaths.length :=
        getPathByIndexName_lt _ _ _ _ (hres ▸ getPathByIndexName_resolve tbl st hinv name)
      obtain ⟨h₁, h₂, h₃, h₄, h₅, h₆⟩ := ih _ _ (pathInv_force hinv p hp) h
      refine ⟨h₁, h₂, ?_, ?_, ?_, h₆⟩
      · simpa [List.filterMap_cons, hres] using h₃
      · simpa [List.filterMap_cons, hres] using h₄
      · simpa [List.filterMap_cons, hres] using h₅

/-- One hint, when it is applied without error: the paths it forces and the paths it
ignores are appended, and the forced ones are marked. -/
theorem applyIndexHint_spec (tbl : Table) (fromSyntax : Bool) (hint : IndexHint)
    (st st' : PathState) (hinv : PathInv tbl st)
    (h : applyIndexHint tbl.Meta fromSyntax hint st = .ok st') :
    PathInv tbl st' ∧
      st'.hasScanHint = (st.hasScanHint || decide (hint.HintScope = IndexHintScope.HintForScan)) ∧
      st'.hasUseOrForce = (st.hasUseOrForce || !(hintForced tbl hint).isEmpty) ∧
      st'.available = st.available ++ hintForced tbl hint ∧
      st'.publicPaths = (hintForced tbl hint).foldl markForced st.publicPaths ∧
      st'.ignored = st.ignored ++ hintIgnored tbl hint := by
  by_cases hscope : hint.HintScope = IndexHintScope.HintForScan
  · have hinv₀ : PathInv tbl { st with hasScanHint := true } :=
      ⟨hinv.paths, hinv.available, hinv.ignored⟩
    by_cases hty : hint.HintType = IndexHintType.HintIgnore
    · simp only [applyIndexHint, hscope, ne_eq, not_true_eq_false, if_false, hty, and_false] at h
      obtain ⟨h₁, h₂, h₃, h₄, h₅, h₆⟩ := resolveHintNames_ignore tbl fromSyntax _ _ _ hinv₀ h
      refine ⟨h₁, ?_, ?_, ?_, ?_, ?_⟩
      · simp [h₂, hscope]
      · simp [h₃, hintForced, hty]
      · simp [h₄, hintForced, hty]
      · simp [h₅, hintForced, hty]
      · simp [h₆, hintIgnored, hty, hscope]
    · by_cases hnames : hint.IndexNames = none
      · simp only [applyIndexHint, hscope, ne_eq, not_true_eq_false, if_false, hty,
          not_false_eq_true, and_true, hnames, if_true, getTablePath_inv tbl _ hinv₀] at h
        cases htp : getTablePath (buildPublicPaths tbl) with
        | none =>
          rw [htp] at h
          obtain ⟨h₁, h₂, h₃, h₄, h₅, h₆⟩ :=
            resolveHintNames_force tbl fromSyntax _ hty _ _ _ hinv₀ h
          refine ⟨h₁, ?_, ?_, ?_, ?_, ?_⟩
          · simp [h₂, hscope]
          · simp [h₃, hintForced, hty, hscope, hnames, htp]
          · simp [h₄, hintForced, hty, hscope, hnames, htp]
          · simp [h₅, hintForced, hty, hscope, hnames, htp]
          · simp [h₆, hintIgnored, hty]
        | some p =>
          rw [htp] at h
          have hp : p < st.publicPaths.length :=
            getTablePath_lt _ _ (by rw [getTablePath_inv tbl st hinv]; exact htp)
          have hinv₁ := pathInv_force hinv₀ p hp
          obtain ⟨h₁, h₂, h₃, h₄, h₅, h₆⟩ :=
            resolveHintNames_force tbl fromSyntax _ hty _ _ _ hinv₁ h
          refine ⟨h₁, ?_, ?_, ?_, ?_, ?_⟩
          · simp [h₂, hscope]
          · simp [h₃, hintForced, hty, hscope, hnames, htp]
          · simp [h₄, hintForced, hty, hscope, hnames, htp]
          · simp [h₅, hintForced, hty, hscope, hnames, htp]
          · simp [h₆, hintIgnored, hty]
      · simp only [applyIndexHint, hscope, ne_eq, not_true_eq_false, if_false, hty,
          not_false_eq_true, and_true, hnames] at h
        obtain ⟨h₁, h₂, h₃, h₄, h₅, h₆⟩ :=
          resolveHintNames_force tbl fromSyntax _ hty _ _ _ hinv₀ h
        refine ⟨h₁, ?_, ?_, ?_, ?_, ?_⟩
        · simp [h₂, hscope]
        · simp [h₃, hintForced, hty, hscope, hnames]
        · simp [h₄, hintForced, hty, hscope, hnames]
        · simp [h₅, hintForced, hty, hscope, hnames]
        · simp [h₆, hintIgnored, hty]
  · simp only [applyIndexHint, ne_eq, hscope, not_false_eq_true, if_true, Except.ok.injEq] at h
    subst h
    refine ⟨hinv, ?_, ?_, ?_, ?_, ?_⟩
    · simp [hscope]
    · simp [hintForced, hscope]
    · simp [hintForced, hscope]
    · simp [hintForced, hscope]
    · simp [hintIgnored, hscope]

/-- The hint loop, when it ends without error: the forced paths and the ignored paths of
the hints are appended in hint order, and the forced ones are marked. -/
theorem applyIndexHints_spec (tbl : Table) (len : Nat) (hints : List IndexHint) :
    ∀ (i : Nat) (st st' : PathState), PathInv tbl st →
      applyIndexHints tbl.Meta len i hints st = .ok st' →
      PathInv tbl st' ∧
        st'.hasScanHint = (st.hasScanHint ||
          hints.any (fun hint => decide (hint.HintScope = IndexHintScope.HintForScan))) ∧
        st'.hasUseOrForce = (st.hasUseOrForce || !(forcedPaths tbl hints).isEmpty) ∧
        st'.available = st.available ++ forcedPaths tbl hints ∧
        st'.publicPaths = (forcedPaths tbl hints).foldl markForced st.publicPaths ∧
        st'.ignored = st.ignored ++ ignoredPaths tbl hints := by
  induction hints with
  | nil =>
    intro i st st' hinv h
    simp only [applyIndexHints, Except.ok.injEq] at h
    subst h
    exact ⟨hinv, by simp, by simp [forcedPaths], by simp [forcedPaths], rfl, by simp [ignoredPaths]⟩
  | cons hint rest ih =>
    intro i st st' hinv h
    simp only [applyIndexHints] at h
    cases hone : applyIndexHint tbl.Meta (decide (i < len)) hint st with
    | error e => rw [hone] at h; simp at h
    | ok st₁ =>
      rw [hone] at h
      obtain ⟨g₁, g₂, g₃, g₄, g₅, g₆⟩ := applyIndexHint_spec tbl _ hint st st₁ hinv hone
      obtain ⟨h₁, h₂, h₃, h₄, h₅, h₆⟩ := ih _ _ _ g₁ h
      refine ⟨h₁, ?_, ?_, ?_, ?_, ?_⟩
      · rw [h₂, g₂]
        simp [Bool.or_assoc]
      · rw [h₃, g₃]
        cases st.hasUseOrForce <;> cases hf : hintForced tbl hint <;> simp [forcedPaths, hf]
      · rw [h₄, g₄]
        simp [forcedPaths]
      · rw [h₅, g₅]
        simp [forcedPaths, List.foldl_append]
      · rw [h₆, g₆]
        simp [ignoredPaths]

theorem forcedPaths_scan (tbl : Table) (hints : List IndexHint)
    (h : forcedPaths tbl hints ≠ []) :
    hints.any (fun hint => decide (hint.HintScope = IndexHintScope.HintForScan)) = true := by
  induction hints with
  | nil => exact absurd rfl h
  | cons hint rest ih =>
    by_cases hscope : hint.HintScope = IndexHintScope.HintForScan
    · simp [hscope]
    · have hnil : hintForced tbl hint = [] := by simp [hintForced, hscope]
      simp only [forcedPaths, hnil, List.nil_append] at h
      simp [ih h]

theorem markForced_get? (l : List AccessPath) (q p : Nat) :
    (markForced l q).get? p = (l.get? p).map (fun path => if p = q then force path else path) := by
  induction l generalizing q p with
  | nil => simp [markForced]
  | cons path rest ih =>
    cases q with
    | zero =>
      cases p with
      | zero => simp [markForced, force]
      | succ p => simp [markForced]
    | succ q =>
      cases p with
      | zero => simp [markForced]
      | succ p =>
        simp only [markForced, List.get?_cons_succ, ih, Nat.succ_inj']

/-- The marks of the loop: the path at a position is the original one, forced when the
position is among the marked ones. -/
theorem foldl_markForced_get? (marked : List Nat) (p : Nat) :
    ∀ l : List AccessPath, (marked.foldl markForced l).get? p
      = (l.get? p).map (fun path => if p ∈ marked then force path else path) := by
  induction marked with
  | nil =>
    intro l
    simp
  | cons q rest ih =>
    intro l
    rw [List.foldl_cons, ih, markForced_get?]
    cases l.get? p with
    | none => rfl
    | some path =>
      simp only [Option.map_some', Option.some.injEq, List.mem_cons]
      by_cases hpq : p = q
      · by_cases hrest : p ∈ rest
        · simp [hpq, hrest, force]
        · simp [hpq, force]
      · simp [hpq]

/-- The loop of `removeIgnoredPaths`, when it ends without error, keeps the pointers that
pass its test. -/
theorem removeIgnoredLoop_eq (heap ign : List AccessPath) (tblInfo : TableInfo)
    (ptrs r : List Nat) (h : removeIgnoredLoop heap ign tblInfo ptrs = .ok r) :
    r = ptrs.filter (keepsPath heap ign tblInfo) := by
  induction ptrs generalizing r with
  | nil =>
    simp only [removeIgnoredLoop, Except.ok.injEq] at h
    simp [← h]
  | cons ptr rest ih =>
    simp only [removeIgnoredLoop] at h
    cases hget : heap.get? ptr with
    | none => rw [hget] at h; simp at h
    | some path =>
      rw [hget] at h
      simp only at h
      by_cases ht : path.IsTablePath = true
      · simp only [ht, if_true] at h
        cases hrest : removeIgnoredLoop heap ign tblInfo rest with
        | error e => rw [hrest] at h; simp at h
        | ok remained =>
          rw [hrest] at h
          simp only [Except.ok.injEq] at h
          have hk : keepsPath heap ign tblInfo ptr = true := by
            simp only [keepsPath, hget, ht, Bool.true_or]
          rw [← h, ih remained hrest, List.filter_cons, hk]
          rfl
      · have ht' : path.IsTablePath = false := by simpa using ht
        simp only [ht', Bool.false_eq_true, if_false] at h
        cases hidx : path.Index with
        | none => rw [hidx] at h; simp at h
        | some index =>
          rw [hidx] at h
          simp only at h
          cases hfound : getPathByIndexName ign index.Name tblInfo with
          | error e => rw [hfound] at h; simp at h
          | ok found =>
            rw [hfound] at h
            simp only at h
            cases hrest : removeIgnoredLoop heap ign tblInfo rest with
            | error e => rw [hrest] at h; simp at h
            | ok remained =>
              rw [hrest] at h
              simp only at h
              cases found with
              | none =>
                simp only [if_true, Except.ok.injEq] at h
                have hk : keepsPath heap ign tblInfo ptr = true := by
                  simp only [keepsPath, hget, ht', hidx, hfound, foundNone, Bool.false_or]
                rw [← h, ih remained hrest, List.filter_cons, hk]
                rfl
              | some q =>
                simp only [reduceCtorEq, if_false, Except.ok.injEq] at h
                have hk : keepsPath heap ign tblInfo ptr = false := by
                  simp only [keepsPath, hget, ht', hidx, hfound, foundNone, Bool.false_or]
                rw [← h, ih remained hrest, List.filter_cons, hk]
                rfl

theorem resolvePath_some (tbl : Table) (name : CIStr) (q : Nat)
    (h : resolvePath tbl name = some q) :
    getPathByIndexName (buildPublicPaths tbl) name tbl.Meta = .ok (some q) := by
  unfold resolvePath at h
  cases hres : getPathByIndexName (buildPublicPaths tbl) name tbl.Meta with
  | error e => rw [hres] at h; simp at h
  | ok found =>
    rw [hres] at h
    simp only at h
    rw [h]

theorem resolvePath_congr (tbl : Table) (n m : CIStr) (h : n.L = m.L) :
    resolvePath tbl n = resolvePath tbl m := by
  simp only [resolvePath, getPathByIndexName_congr _ n m h]

theorem get?_of_unforce (heap l : List AccessPath) (h : heap.map unforce = l) (p : Nat)
    (path : AccessPath) (hget : heap.get? p = some path) : l.get? p = some (unforce path) := by
  rw [← h, List.get?_eq_getElem?, List.getElem?_map, ← List.get?_eq_getElem?, hget]
  rfl

theorem mem_derefPaths (heap : List AccessPath) (ptrs : List Nat) (path : AccessPath) :
    path ∈ derefPaths heap ptrs ↔ ∃ q ∈ ptrs, heap.get? q = some path := by
  simp only [derefPaths, List.mem_filterMap]

/-- The path an index name resolves to is an index path with the name, or a table path
and the name is `primary`. -/
theorem resolvePath_spec (tbl : Table) (heap : List AccessPath)
    (hheap : heap.map unforce = buildPublicPaths tbl) (name : CIStr) (q : Nat)
    (path : AccessPath) (hres : resolvePath tbl name = some q) (hget : heap.get? q = some path) :
    (path.IsTablePath = false ∧ ∃ index, path.Index = some index ∧ index.Name.L = name.L) ∨
      (path.IsTablePath = true ∧ isPrimaryIndex name = true ∧ tbl.Meta.PKIsHandle = true) := by
  obtain ⟨path₀, hget₀, hcase⟩ := getPathByIndexName_some _ _ _ q (resolvePath_some tbl name q hres)
  rw [get?_of_unforce heap _ hheap q path hget] at hget₀
  have hp : unforce path = path₀ := Option.some.inj hget₀
  subst hp
  rcases hcase with ⟨hnt, index, hidx, hname⟩ | ⟨ht, hprim, hpk, _⟩
  · exact Or.inl ⟨hnt, index, hidx, hname⟩
  · exact Or.inr ⟨ht, hprim, hpk⟩

theorem isPrimaryIndex_eq (n m : CIStr) (hn : isPrimaryIndex n = true)
    (hm : isPrimaryIndex m = true) : n.L = m.L := by
  simp only [isPrimaryIndex, decide_eq_true_eq] at hn hm
  rw [hn, hm]

/-- The test of `removeIgnoredPaths` on an index path that an index name resolves to: it
is kept exactly when it is not among the ignored paths. -/
theorem keepsPath_index (tbl : Table) (heap : List AccessPath) (ign : List Nat)
    (hheap : heap.map unforce = buildPublicPaths tbl)
    (hign : ∀ q ∈ ign, ∃ name, resolvePath tbl name = some q)
    (p : Nat) (path : AccessPath) (hget : heap.get? p = some path)
    (hnt : path.IsTablePath = false) (name : CIStr) (hp : resolvePath tbl name = some p) :
    keepsPath heap (derefPaths heap ign) tbl.Meta p = decide (p ∉ ign) := by
  have hwf : wellFormedPaths heap :=
    wellFormed_of_unforce _ (hheap ▸ wellFormed_buildPublicPaths tbl)
  obtain ⟨index, hidx, hname⟩ : ∃ index, path.Index = some index ∧ index.Name.L = name.L := by
    rcases resolvePath_spec tbl heap hheap name p path hp hget with ⟨_, h⟩ | ⟨ht, _⟩
    · exact h
    · rw [hnt] at ht
      exact absurd ht (by decide)
  simp only [keepsPath, hget, hnt, hidx, Bool.false_or]
  by_cases hmem : p ∈ ign
  · simp only [hmem, not_true_eq_false, decide_False]
    cases hres : getPathByIndexName (derefPaths heap ign) index.Name tbl.Meta with
    | error e => rfl
    | ok found =>
      cases found with
      | some k => rfl
      | none =>
        exact absurd rfl (getPathByIndexName_none _ _ _ hres path
          ((mem_derefPaths heap ign path).mpr ⟨p, hmem, hget⟩) hnt index hidx)
  · simp only [hmem, not_false_eq_true, decide_True]
    obtain ⟨found, hres⟩ := getPathByIndexName_ok_of_wellFormed (derefPaths heap ign)
      (wellFormed_deref heap hwf ign) index.Name tbl.Meta
    rw [hres]
    cases found with
    | none => rfl
    | some k =>
      exfalso
      obtain ⟨path', hget', hcase⟩ := getPathByIndexName_some _ _ _ k hres
      obtain ⟨q, hq, hgetq⟩ := (mem_derefPaths heap ign path').mp (List.get?_mem hget')
      obtain ⟨n₂, hn₂⟩ := hign q hq
      have hL : n₂.L = name.L := by
        rcases hcase with ⟨hnt', index', hidx', hname'⟩ | ⟨ht', hprim, _, _⟩
        · rcases resolvePath_spec tbl heap hheap n₂ q path' hn₂ hgetq with
            ⟨_, index₂, hidx₂, hname₂⟩ | ⟨ht₂, _⟩
          · rw [hidx'] at hidx₂
            have hii : index' = index₂ := Option.some.inj hidx₂
            subst hii
            rw [← hname₂, hname', hname]
          · rw [hnt'] at ht₂
            exact absurd ht₂ (by decide)
        · rcases resolvePath_spec tbl heap hheap n₂ q path' hn₂ hgetq with
            ⟨hnt₂, _⟩ | ⟨_, hprim₂, _⟩
          · rw [ht'] at hnt₂
            exact absurd hnt₂ (by decide)
          · rw [isPrimaryIndex_eq n₂ index.Name hprim₂ hprim, hname]
      have hpq : some q = some p := by
        rw [← hn₂, ← hp]
        exact resolvePath_congr tbl n₂ name hL
      have hqp : q = p := Option.some.inj hpq
      subst hqp
      exact hmem hq

theorem keepsPath_table (heap ign : List AccessPath) (tblInfo : TableInfo) (p : Nat)
    (path : AccessPath) (hget : heap.get? p = some path) (ht : path.IsTablePath = true) :
    keepsPath heap ign tblInfo p = true := by
  simp only [keepsPath, hget, ht, Bool.true_or]

theorem getTablePath_some (l : List AccessPath) (p : Nat) (h : getTablePath l = some p) :
    ∃ path, l.get? p = some path ∧ path.IsTablePath = true := by
  unfold getTablePath at h
  by_cases hlt : l.findIdx (fun path => path.IsTablePath) < l.length
  · simp only [hlt, if_true, Option.some.injEq] at h
    subst h
    exact ⟨l.get ⟨_, hlt⟩, List.get?_eq_get hlt, List.findIdx_getElem⟩
  · simp [hlt] at h

theorem hintForced_mem (tbl : Table) (hint : IndexHint) (p : Nat)
    (h : p ∈ hintForced tbl hint) :
    getTablePath (buildPublicPaths tbl) = some p ∨ ∃ name, resolvePath tbl name = some p := by
  unfold hintForced at h
  by_cases hc : hint.HintScope = IndexHintScope.HintForScan ∧
      hint.HintType ≠ IndexHintType.HintIgnore
  · rw [if_pos hc] at h
    rcases List.mem_append.mp h with h₁ | h₂
    · by_cases hn : hint.IndexNames = none
      · rw [if_pos hn] at h₁
        exact Or.inl (Option.mem_toList.mp h₁)
      · rw [if_neg hn] at h₁
        exact absurd h₁ (List.not_mem_nil p)
    · obtain ⟨name, _, hname⟩ := List.mem_filterMap.mp h₂
      exact Or.inr ⟨name, hname⟩
  · rw [if_neg hc] at h
    exact absurd h (List.not_mem_nil p)

theorem forcedPaths_mem (tbl : Table) (hints : List IndexHint) (p : Nat)
    (h : p ∈ forcedPaths tbl hints) :
    getTablePath (buildPublicPaths tbl) = some p ∨ ∃ name, resolvePath tbl name = some p := by
  induction hints with
  | nil => exact absurd h (List.not_mem_nil p)
  | cons hint rest ih =>
    rcases List.mem_append.mp h with h₁ | h₂
    · exact hintForced_mem tbl hint p h₁
    · exact ih h₂

theorem ignoredPaths_mem (tbl : Table) (hints : List IndexHint) (q : Nat) :
    q ∈ ignoredPaths tbl hints ↔
      ∃ hint ∈ hints, hint.HintScope = IndexHintScope.HintForScan ∧
        hint.HintType = IndexHintType.HintIgnore ∧
        ∃ name ∈ hint.IndexNames.getD [], resolvePath tbl name = some q := by
  induction hints with
  | nil => simp [ignoredPaths]
  | cons hint rest ih =>
    simp only [ignoredPaths, List.mem_append, ih, List.mem_cons, exists_eq_or_imp]
    apply or_congr_left
    unfold hintIgnored
    by_cases hc : hint.HintScope = IndexHintScope.HintForScan ∧
        hint.HintType = IndexHintType.HintIgnore
    · rw [if_pos hc]
      simp only [List.mem_filterMap, hc.1, hc.2, true_and]
    · rw [if_neg hc]
      constructor
      · intro h
        exact absurd h (List.not_mem_nil q)
      · rintro ⟨h₁, h₂, _⟩
        exact absurd ⟨h₁, h₂⟩ hc

/-- The end of `getPossibleAccessPaths`, when it returns paths: the pointers that pass the
test of `removeIgnoredPaths`, dereferenced, or the table-scan fallback when there is none. -/
theorem chooseAvailablePaths_spec (tblInfo : TableInfo) (st : PathState) (paths : List AccessPath)
    (hvalid : ∀ p ∈ st.available, p < st.publicPaths.length)
    (hwf : wellFormedPaths st.publicPaths)
    (h : chooseAvailablePaths tblInfo st = .ok paths) :
    paths =
      if derefPaths st.publicPaths
          ((if (!st.hasScanHint || !st.hasUseOrForce) = true then List.range st.publicPaths.length
            else st.available).filter
            (keepsPath st.publicPaths (derefPaths st.publicPaths st.ignored) tblInfo)) = []
      then [fallbackPath]
      else derefPaths st.publicPaths
          ((if (!st.hasScanHint || !st.hasUseOrForce) = true then List.range st.publicPaths.length
            else st.available).filter
            (keepsPath st.publicPaths (derefPaths st.publicPaths st.ignored) tblInfo)) := by
  have hptrs : ∀ p ∈ (if (!st.hasScanHint || !st.hasUseOrForce) = true
      then List.range st.publicPaths.length else st.available), p < st.publicPaths.length := by
    intro p hp
    by_cases hc : (!st.hasScanHint || !st.hasUseOrForce) = true
    · rw [if_pos hc] at hp
      exact List.mem_range.mp hp
    · rw [if_neg hc] at hp
      exact hvalid p hp
  have hremove : ∀ r, removeIgnoredPaths st.publicPaths
      (if (!st.hasScanHint || !st.hasUseOrForce) = true then List.range st.publicPaths.length
        else st.available) st.ignored tblInfo = .ok r →
      r = (if (!st.hasScanHint || !st.hasUseOrForce) = true then List.range st.publicPaths.length
        else st.available).filter
          (keepsPath st.publicPaths (derefPaths st.publicPaths st.ignored) tblInfo) := by
    intro r hr
    unfold removeIgnoredPaths at hr
    by_cases h0 : st.ignored.length = 0
    · rw [if_pos h0] at hr
      have hnil : st.ignored = [] := List.length_eq_zero.mp h0
      simp only [Except.ok.injEq] at hr
      rw [← hr, hnil]
      symm
      apply List.filter_eq_self.mpr
      intro p hp
      have hlt := hptrs p hp
      have hget : st.publicPaths.get? p = some (st.publicPaths.get ⟨p, hlt⟩) :=
        List.get?_eq_get hlt
      by_cases ht : (st.publicPaths.get ⟨p, hlt⟩).IsTablePath = true
      · exact keepsPath_table _ _ _ p _ hget ht
      · have ht' : (st.publicPaths.get ⟨p, hlt⟩).IsTablePath = false := by simpa using ht
        cases hidx : (st.publicPaths.get ⟨p, hlt⟩).Index with
        | none => exact absurd hidx (hwf _ (List.get_mem _ p hlt) ht')
        | some index =>
          simp only [keepsPath, hget, ht', hidx, Bool.false_or, derefPaths, List.filterMap_nil,
            getPathByIndexName, scanPathsByIndexName]
          by_cases hc : (isPrimaryIndex index.Name && tblInfo.PKIsHandle) = true
          · simp only [hc, if_true, foundNone]
          · simp only [hc, Bool.false_eq_true, if_false, foundNone]
    · rw [if_neg h0] at hr
      exact removeIgnoredLoop_eq _ _ _ _ _ hr
  unfold chooseAvailablePaths at h
  simp only [] at h
  cases hr : removeIgnoredPaths st.publicPaths
      (if (!st.hasScanHint || !st.hasUseOrForce) = true then List.range st.publicPaths.length
        else st.available) st.ignored tblInfo with
  | error e => rw [hr] at h; simp at h
  | ok r =>
    rw [hr] at h
    simp only at h
    rw [← hremove r hr]
    by_cases hl : (derefPaths st.publicPaths r).length = 0
    · rw [if_pos hl] at h
      rw [if_pos (List.length_eq_zero.mp hl)]
      exact (Except.ok.inj h).symm
    · rw [if_neg hl] at h
      rw [if_neg (fun hnil => hl (List.length_eq_zero.mpr hnil))]
      exact (Except.ok.inj h).symm

/-- A successful call of `getPossibleAccessPaths`: the state its hint loop ends in. -/
theorem getPossibleAccessPaths_spec (tableHints : Option tableHintInfo)
    (indexHints : List IndexHint) (tbl : Table) (dbName tblName : CIStr)
    (paths : List AccessPath)
    (hok : (getPossibleAccessPaths tableHints indexHints tbl dbName tblName).1 = .ok paths) :
    ∃ st, applyIndexHints tbl.Meta indexHints.length 0
          (indexHints ++ commentIndexHints tableHints dbName tblName)
          { publicPaths := buildPublicPaths tbl, available := [], ignored := [],
            hasScanHint := false, hasUseOrForce := false, warnings := [] } = .ok st ∧
      PathInv tbl st ∧
      st.available = forcedPaths tbl (indexHints ++ commentIndexHints tableHints dbName tblName) ∧
      st.ignored = ignoredPaths tbl (indexHints ++ commentIndexHints tableHints dbName tblName) ∧
      st.publicPaths = (forcedPaths tbl
        (indexHints ++ commentIndexHints tableHints dbName tblName)).foldl markForced
          (buildPublicPaths tbl) ∧
      (!st.hasScanHint || !st.hasUseOrForce) = (forcedPaths tbl
        (indexHints ++ commentIndexHints tableHints dbName tblName)).isEmpty ∧
      chooseAvailablePaths tbl.Meta st = .ok paths := by
  unfold getPossibleAccessPaths at hok
  simp only [] at hok
  cases hloop : applyIndexHints tbl.Meta indexHints.length 0
      (indexHints ++ commentIndexHints tableHints dbName tblName)
      { publicPaths := buildPublicPaths tbl, available := [], ignored := [],
        hasScanHint := false, hasUseOrForce := false, warnings := [] } with
  | error e =>
    rw [hloop] at hok
    simp at hok
  | ok st =>
    rw [hloop] at hok
    simp only at hok
    obtain ⟨h₁, h₂, h₃, h₄, h₅, h₆⟩ := applyIndexHints_spec tbl _ _ _ _ _ (pathInv_init tbl) hloop
    refine ⟨st, rfl, h₁, by simpa using h₄, by simpa using h₆, h₅, ?_, hok⟩
    rw [h₂, h₃]
    cases hf : forcedPaths tbl (indexHints ++ commentIndexHints tableHints dbName tblName) with
    | nil => simp
    | cons p rest =>
      have hscan := forcedPaths_scan tbl
        (indexHints ++ commentIndexHints tableHints dbName tblName) (by rw [hf]; simp)
      simp [hscan]

theorem resolvesIndexName_of_resolvePath (tbl : Table) (name : CIStr) (q : Nat)
    (h : resolvePath tbl name = some q) : resolvesIndexName tbl name = true := by
  obtain ⟨r, hr, hsome⟩ := getPathByIndexName_public tbl name
  rw [resolvePath_some tbl name q h] at hr
  rw [← hsome, ← Except.ok.inj hr]
  rfl

theorem fallback_ne_nil (candidates : List AccessPath) :
    (if candidates = [] then [fallbackPath] else candidates) ≠ [] := by
  by_cases h : candidates = []
  · simp [h]
  · simp [h]

theorem mem_fallback (candidates : List AccessPath) (path : AccessPath)
    (h : path ∈ (if candidates = [] then [fallbackPath] else candidates)) :
    path = fallbackPath ∨ path ∈ candidates := by
  by_cases hc : candidates = []
  · rw [if_pos hc] at h
    exact Or.inl (List.mem_singleton.mp h)
  · rw [if_neg hc] at h
    exact Or.inr h

/-- C17: whenever `getPossibleAccessPaths` returns without error its result is not empty;
when the hint loop has ended and `removeIgnoredPaths` leaves no candidate, the result is
exactly the one table-scan path, not an error; and `USE INDEX (i)` together with
`IGNORE INDEX (i)`, for an index `i` of the table, is such a case. -/
theorem nonempty_or_table_scan (tableHints : Option tableHintInfo) (indexHints : List IndexHint)
    (tbl : Table) (dbName tblName : CIStr) :
    (∀ paths, (getPossibleAccessPaths tableHints indexHints tbl dbName tblName).1 = .ok paths →
        paths ≠ []) ∧
      (∀ st, applyIndexHints tbl.Meta indexHints.length 0
            (indexHints ++ commentIndexHints tableHints dbName tblName)
            { publicPaths := buildPublicPaths tbl, available := [], ignored := [],
              hasScanHint := false, hasUseOrForce := false, warnings := [] } = .ok st →
        removeIgnoredPaths st.publicPaths
            (if !st.hasScanHint || !st.hasUseOrForce then List.range st.publicPaths.length
              else st.available) st.ignored tbl.Meta = .ok [] →
        getPossibleAccessPaths tableHints indexHints tbl dbName tblName
          = (.ok [fallbackPath], st.warnings)) ∧
      (∀ (name : CIStr) (q : Nat) (path : AccessPath), resolvePath tbl name = some q →
        (buildPublicPaths tbl).get? q = some path → path.IsTablePath = false →
        getPossibleAccessPaths none
            [{ IndexNames := some [name], HintType := IndexHintType.HintUse,
               HintScope := IndexHintScope.HintForScan },
             { IndexNames := some [name], HintType := IndexHintType.HintIgnore,
               HintScope := IndexHintScope.HintForScan }] tbl dbName tblName
          = (.ok [fallbackPath], [])) := by
  refine ⟨?_, ?_, ?_⟩
  · intro paths hok
    obtain ⟨st, _, hinv, _, _, _, _, hchoose⟩ :=
      getPossibleAccessPaths_spec tableHints indexHints tbl dbName tblName paths hok
    have hwf : wellFormedPaths st.publicPaths :=
      wellFormed_of_unforce _ (hinv.paths ▸ wellFormed_buildPublicPaths tbl)
    have hspec := chooseAvailablePaths_spec tbl.Meta st paths hinv.available hwf hchoose
    rw [hspec]
    exact fallback_ne_nil _
  · intro st hloop hremove
    unfold getPossibleAccessPaths
    simp only [hloop]
    unfold chooseAvailablePaths
    simp only [hremove]
    rfl
  · intro name q path hres hget hnt
    have hresolves := resolvesIndexName_of_resolvePath tbl name q hres
    obtain ⟨st', hinv', hwarn, hrun⟩ := (applyIndexHints_statement tbl 2
      [{ IndexNames := some [name], HintType := IndexHintType.HintUse,
         HintScope := IndexHintScope.HintForScan },
       { IndexNames := some [name], HintType := IndexHintType.HintIgnore,
         HintScope := IndexHintScope.HintForScan }] 0 _ (le_refl _) (pathInv_init tbl)).1
      (by
        intro hint hhint _ n hn
        simp only [List.mem_cons, List.mem_singleton, List.not_mem_nil, or_false] at hhint
        rcases hhint with h | h
        · subst h
          simp only [Option.getD_some, List.mem_singleton] at hn
          rw [hn]
          exact hresolves
        · subst h
          simp only [Option.getD_some, List.mem_singleton] at hn
          rw [hn]
          exact hresolves)
    have hrun' : applyIndexHints tbl.Meta
        [({ IndexNames := some [name], HintType := IndexHintType.HintUse,
            HintScope := IndexHintScope.HintForScan } : IndexHint),
         { IndexNames := some [name], HintType := IndexHintType.HintIgnore,
           HintScope := IndexHintScope.HintForScan }].length 0
        [{ IndexNames := some [name], HintType := IndexHintType.HintUse,
           HintScope := IndexHintScope.HintForScan },
         { IndexNames := some [name], HintType := IndexHintType.HintIgnore,
           HintScope := IndexHintScope.HintForScan }]
        { publicPaths := buildPublicPaths tbl, available := [], ignored := [],
          hasScanHint := false, hasUseOrForce := false, warnings := [] } = .ok st' := by
      have h := hrun []
      rw [List.append_nil] at h
      exact h.trans rfl
    obtain ⟨paths, hpaths⟩ := chooseAvailablePaths_ok tbl st' hinv'
    have hcall : getPossibleAccessPaths none
        [{ IndexNames := some [name], HintType := IndexHintType.HintUse,
           HintScope := IndexHintScope.HintForScan },
         { IndexNames := some [name], HintType := IndexHintType.HintIgnore,
           HintScope := IndexHintScope.HintForScan }] tbl dbName tblName = (.ok paths, []) := by
      unfold getPossibleAccessPaths
      simp only [commentIndexHints, List.append_nil]
      rw [hrun']
      simp only [hpaths, hwarn]
    rw [hcall]
    obtain ⟨st, _, hinv, havail, hign, _, hcond, hchoose⟩ :=
      getPossibleAccessPaths_spec none _ tbl dbName tblName paths (by rw [hcall])
    have hwf : wellFormedPaths st.publicPaths :=
      wellFormed_of_unforce _ (hinv.paths ▸ wellFormed_buildPublicPaths tbl)
    have hspec := chooseAvailablePaths_spec tbl.Meta st paths hinv.available hwf hchoose
    have hforced : forcedPaths tbl
        ([{ IndexNames := some [name], HintType := IndexHintType.HintUse,
            HintScope := IndexHintScope.HintForScan },
          { IndexNames := some [name], HintType := IndexHintType.HintIgnore,
            HintScope := IndexHintScope.HintForScan }] ++ commentIndexHints none dbName tblName)
        = [q] := by
      simp [forcedPaths, hintForced, commentIndexHints, hres]
    have hignored : ignoredPaths tbl
        ([{ IndexNames := some [name], HintType := IndexHintType.HintUse,
            HintScope := IndexHintScope.HintForScan },
          { IndexNames := some [name], HintType := IndexHintType.HintIgnore,
            HintScope := IndexHintScope.HintForScan }] ++ commentIndexHints none dbName tblName)
        = [q] := by
      simp [ignoredPaths, hintIgnored, commentIndexHints, hres]
    rw [hforced] at havail hcond
    rw [hignored] at hign
    have hq : q < st.publicPaths.length := hinv.available q (by rw [havail]; simp)
    have hgetq : st.publicPaths.get? q = some (st.publicPaths.get ⟨q, hq⟩) := List.get?_eq_get hq
    have hnt' : (st.publicPaths.get ⟨q, hq⟩).IsTablePath = false := by
      have h₀ := get?_of_unforce _ _ hinv.paths q _ hgetq
      rw [hget] at h₀
      have h₁ : path = unforce (st.publicPaths.get ⟨q, hq⟩) := Option.some.inj h₀
      rw [h₁] at hnt
      exact hnt
    have hkeep := keepsPath_index tbl st.publicPaths st.ignored hinv.paths
      (by
        intro x hx
        rw [hign, List.mem_singleton] at hx
        exact ⟨name, hx ▸ hres⟩)
      q _ hgetq hnt' name hres
    have hkeep' : keepsPath st.publicPaths (derefPaths st.publicPaths st.ignored) tbl.Meta q
        = false := by
      rw [hkeep, hign]
      simp
    have hcond' : (!st.hasScanHint || !st.hasUseOrForce) = false := by
      rw [hcond]
      rfl
    have hfilter : List.filter
        (keepsPath st.publicPaths (derefPaths st.publicPaths st.ignored) tbl.Meta) [q] = [] := by
      rw [List.filter_cons, hkeep']
      rfl
    rw [hspec, hcond', havail]
    simp only [Bool.false_eq_true, if_false, hfilter]
    rfl

theorem nonempty_or_table_scan_witness :
    getPossibleAccessPaths none
        [testHint IndexHintType.HintUse IndexHintScope.HintForScan "idx",
         testHint IndexHintType.HintIgnore IndexHintScope.HintForScan "idx"]
        testIndexedTable { O := "test", L := "test" } { O := "t", L := "t" }
      = (.ok [fallbackPath], []) :=
  (nonempty_or_table_scan none [] testIndexedTable { O := "test", L := "test" }
    { O := "t", L := "t" }).2.2 { O := "idx", L := "idx" } 1
    (indexPath { Name := { O := "idx", L := "idx" }, State := SchemaState.StatePublic })
    rfl rfl rfl

/-- The test of `removeIgnoredPaths` fails on an index path that has the name of an
ignored index path. -/
theorem keepsPath_ignored (heap : List AccessPath) (ign : List Nat) (tblInfo : TableInfo)
    (p q : Nat) (path target : AccessPath) (index index' : IndexInfo)
    (hget : heap.get? p = some path) (hnt : path.IsTablePath = false)
    (hidx : path.Index = some index) (hq : q ∈ ign) (hgetq : heap.get? q = some target)
    (hntq : target.IsTablePath = false) (hidxq : target.Index = some index')
    (hname : index'.Name.L = index.Name.L) :
    keepsPath heap (derefPaths heap ign) tblInfo p = false := by
  simp only [keepsPath, hget, hnt, hidx, Bool.false_or]
  cases hres : getPathByIndexName (derefPaths heap ign) index.Name tblInfo with
  | error e => rfl
  | ok found =>
    cases found with
    | some k => rfl
    | none =>
      exact absurd hname (getPathByIndexName_none _ _ _ hres target
        ((mem_derefPaths heap ign target).mpr ⟨q, hq, hgetq⟩) hntq index' hidxq)

theorem get?_unforce_of (heap l : List AccessPath) (h : heap.map unforce = l) (q : Nat)
    (target : AccessPath) (hget : l.get? q = some target) :
    ∃ path, heap.get? q = some path ∧ unforce path = target := by
  have hlt : q < heap.length := by
    have h₁ : q < l.length := by
      rw [List.get?_eq_getElem?] at hget
      exact (List.getElem?_eq_some_iff.mp hget).1
    rw [← h, List.length_map] at h₁
    exact h₁
  refine ⟨heap.get ⟨q, hlt⟩, List.get?_eq_get hlt, ?_⟩
  have h₂ := get?_of_unforce heap l h q _ (List.get?_eq_get hlt)
  rw [hget] at h₂
  exact (Option.some.inj h₂).symm

/-- C16, as stated, fails: on a table whose primary key is the row handle,
`IGNORE INDEX (primary)` resolves to the table path (position 0 of the public paths), and
that path is still the first of the returned candidates; only the index path could have
been removed. -/
theorem ignore_primary_keeps_handle_path :
    resolvePath testHandleTable { O := "primary", L := "primary" } = some 0 ∧
      (buildPublicPaths testHandleTable).get? 0 = some fallbackPath ∧
      getPossibleAccessPaths none
          [testHint IndexHintType.HintIgnore IndexHintScope.HintForScan "primary"]
          testHandleTable { O := "test", L := "test" } { O := "t", L := "t" }
        = (.ok [fallbackPath,
                indexPath { Name := { O := "idx", L := "idx" }, State := SchemaState.StatePublic }],
           []) :=
  ⟨rfl, rfl, rfl⟩

/-- C16, amended: for every table and hint list on which `getPossibleAccessPaths`
succeeds, every index path that a name of an IGNORE scan hint resolves to is absent from
the returned candidates (no returned path is that path, forced or not); a table path is
never removed: when no USE or FORCE scan hint names a path, every public table path is
returned, also the one `primary` resolves to on a table whose primary key is the row
handle. -/
theorem ignored_index_paths_absent (tableHints : Option tableHintInfo)
    (indexHints : List IndexHint) (tbl : Table) (dbName tblName : CIStr)
    (paths : List AccessPath)
    (hok : (getPossibleAccessPaths tableHints indexHints tbl dbName tblName).1 = .ok paths) :
    (∀ hint ∈ indexHints ++ commentIndexHints tableHints dbName tblName,
        hint.HintScope = IndexHintScope.HintForScan →
        hint.HintType = IndexHintType.HintIgnore →
        ∀ name ∈ hint.IndexNames.getD [], ∀ (q : Nat) (target : AccessPath),
          resolvePath tbl name = some q → (buildPublicPaths tbl).get? q = some target →
          target.IsTablePath = false → ∀ path ∈ paths, unforce path ≠ target) ∧
      (forcedPaths tbl (indexHints ++ commentIndexHints tableHints dbName tblName) = [] →
        ∀ path ∈ buildPublicPaths tbl, path.IsTablePath = true → path ∈ paths) := by
  obtain ⟨st, _, hinv, havail, hign, hheap, hcond, hchoose⟩ :=
    getPossibleAccessPaths_spec tableHints indexHints tbl dbName tblName paths hok
  have hwf : wellFormedPaths st.publicPaths :=
    wellFormed_of_unforce _ (hinv.paths ▸ wellFormed_buildPublicPaths tbl)
  have hspec := chooseAvailablePaths_spec tbl.Meta st paths hinv.available hwf hchoose
  refine ⟨?_, ?_⟩
  · intro hint hhint hscope hty name hname q target hres hget hnt path hpath heq
    have hq : q ∈ st.ignored := by
      rw [hign]
      exact (ignoredPaths_mem tbl _ q).mpr ⟨hint, hhint, hscope, hty, name, hname, hres⟩
    obtain ⟨pathq, hgetq, huq⟩ := get?_unforce_of _ _ hinv.paths q target hget
    have hntq : pathq.IsTablePath = false := by
      rw [← huq] at hnt
      exact hnt
    have hnt' : path.IsTablePath = false := by
      rw [← heq] at hnt
      exact hnt
    cases hidxq : pathq.Index with
    | none => exact absurd hidxq (hwf pathq (List.get?_mem hgetq) hntq)
    | some index =>
      have hidx : path.Index = some index := by
        have h₁ : (unforce path).Index = (unforce pathq).Index := by rw [heq, huq]
        exact h₁.trans hidxq
      rw [hspec] at hpath
      rcases mem_fallback _ path hpath with hpath | hpath
      · rw [hpath] at hnt'
        exact absurd hnt' (by decide)
      · obtain ⟨p, hp, hgetp⟩ := (mem_derefPaths _ _ path).mp hpath
        have hkeep : keepsPath st.publicPaths (derefPaths st.publicPaths st.ignored) tbl.Meta p
            = true := (List.mem_filter.mp hp).2
        rw [keepsPath_ignored st.publicPaths st.ignored tbl.Meta p q path pathq index index
          hgetp hnt' hidx hq hgetq hntq hidxq rfl] at hkeep
        exact absurd hkeep (by decide)
  · intro hnil path hpath ht
    rw [hnil] at hcond hheap
    simp only [List.foldl_nil] at hheap
    have hcond' : (!st.hasScanHint || !st.hasUseOrForce) = true := by
      rw [hcond]
      rfl
    obtain ⟨p, hgetp⟩ := List.get?_of_mem hpath
    have hlt : p < (buildPublicPaths tbl).length := by
      rw [List.get?_eq_getElem?] at hgetp
      exact (List.getElem?_eq_some_iff.mp hgetp).1
    have hmem : path ∈ derefPaths st.publicPaths
        (List.filter (keepsPath st.publicPaths (derefPaths st.publicPaths st.ignored) tbl.Meta)
          (List.range st.publicPaths.length)) := by
      refine (mem_derefPaths _ _ path).mpr ⟨p, List.mem_filter.mpr ⟨?_, ?_⟩, ?_⟩
      · rw [hheap]
        exact List.mem_range.mpr hlt
      · exact keepsPath_table _ _ _ p path (by rw [hheap]; exact hgetp) ht
      · rw [hheap]
        exact hgetp
    rw [hspec]
    simp only [hcond', if_true]
    rw [if_neg (List.ne_nil_of_mem hmem)]
    exact hmem

theorem ignored_index_paths_absent_witness :
    getPossibleAccessPaths none
        [testHint IndexHintType.HintIgnore IndexHintScope.HintForScan "idx"] testIndexedTable
        { O := "test", L := "test" } { O := "t", L := "t" } = (.ok [fallbackPath], []) ∧
      unforce fallbackPath
        ≠ indexPath { Name := { O := "idx", L := "idx" }, State := SchemaState.StatePublic } :=
  ⟨rfl, (ignored_index_paths_absent none
    [testHint IndexHintType.HintIgnore IndexHintScope.HintForScan "idx"] testIndexedTable
    { O := "test", L := "test" } { O := "t", L := "t" } [fallbackPath] rfl).1
    (testHint IndexHintType.HintIgnore IndexHintScope.HintForScan "idx")
    (List.mem_append_left _ (List.mem_singleton.mpr rfl)) rfl rfl
    { O := "idx", L := "idx" } (List.mem_singleton.mpr rfl) 1
    (indexPath { Name := { O := "idx", L := "idx" }, State := SchemaState.StatePublic })
    rfl rfl rfl fallbackPath (List.mem_singleton.mpr rfl)⟩

theorem filterMap_congr_mem {α β : Type} (f g : α → Option β) (l : List α)
    (h : ∀ x ∈ l, f x = g x) : l.filterMap f = l.filterMap g := by
  induction l with
  | nil => rfl
  | cons x rest ih =>
    have hx := h x (List.mem_cons_self _ _)
    have hrest := ih (fun y hy => h y (List.mem_cons_of_mem _ hy))
    simp only [List.filterMap_cons, hx, hrest]

theorem filter_congr_mem {α : Type} (f g : α → Bool) (l : List α)
    (h : ∀ x ∈ l, f x = g x) : l.filter f = l.filter g := by
  induction l with
  | nil => rfl
  | cons x rest ih =>
    have hx := h x (List.mem_cons_self _ _)
    have hrest := ih (fun y hy => h y (List.mem_cons_of_mem _ hy))
    simp only [List.filter_cons, hx, hrest]

/-- C15, as stated, fails: on a table whose primary key is the row handle,
`USE INDEX (primary)` names the table path and `IGNORE INDEX (primary)` ignores the same
path, so the named paths minus the ignored ones are none; yet the returned candidate is
that table path, forced, not a fallback. -/
theorem use_and_ignore_primary_keeps_path :
    forcedPaths testHandleTable
        [testHint IndexHintType.HintUse IndexHintScope.HintForScan "primary",
         testHint IndexHintType.HintIgnore IndexHintScope.HintForScan "primary"] = [0] ∧
      ignoredPaths testHandleTable
        [testHint IndexHintType.HintUse IndexHintScope.HintForScan "primary",
         testHint IndexHintType.HintIgnore IndexHintScope.HintForScan "primary"] = [0] ∧
      getPossibleAccessPaths none
          [testHint IndexHintType.HintUse IndexHintScope.HintForScan "primary",
           testHint IndexHintType.HintIgnore IndexHintScope.HintForScan "primary"]
          testHandleTable { O := "test", L := "test" } { O := "t", L := "t" }
        = (.ok [force fallbackPath], []) :=
  ⟨rfl, rfl, rfl⟩

/-- C15, amended: for every table and hint list on which `getPossibleAccessPaths`
succeeds, every path named by a USE or FORCE scan hint (the table path for a hint without
index list, the path each index name resolves to otherwise) has Forced = true when the
hint loop ends; and if at least one such path was named, the candidates before the
full-scan fallback are exactly the named paths, in hint order, without the index paths
that an IGNORE scan hint names (a named table path stays even if ignored), each forced,
rather than all public paths; the fallback path is returned when none is left. -/
theorem forced_candidates (tableHints : Option tableHintInfo) (indexHints : List IndexHint)
    (tbl : Table) (dbName tblName : CIStr) (paths : List AccessPath)
    (hok : (getPossibleAccessPaths tableHints indexHints tbl dbName tblName).1 = .ok paths) :
    (∃ st, applyIndexHints tbl.Meta indexHints.length 0
          (indexHints ++ commentIndexHints tableHints dbName tblName)
          { publicPaths := buildPublicPaths tbl, available := [], ignored := [],
            hasScanHint := false, hasUseOrForce := false, warnings := [] } = .ok st ∧
        st.available = forcedPaths tbl (indexHints ++ commentIndexHints tableHints dbName tblName) ∧
        ∀ p ∈ forcedPaths tbl (indexHints ++ commentIndexHints tableHints dbName tblName),
          ∃ path, (buildPublicPaths tbl).get? p = some path ∧
            st.publicPaths.get? p = some (force path)) ∧
      (forcedPaths tbl (indexHints ++ commentIndexHints tableHints dbName tblName) ≠ [] →
        (keptPaths tbl (indexHints ++ commentIndexHints tableHints dbName tblName) ≠ [] →
          paths = (keptPaths tbl (indexHints ++ commentIndexHints tableHints dbName tblName)).filterMap
            (fun p => ((buildPublicPaths tbl).get? p).map force)) ∧
        (keptPaths tbl (indexHints ++ commentIndexHints tableHints dbName tblName) = [] →
          paths = [fallbackPath])) := by
  obtain ⟨st, hloop, hinv, havail, hign, hheap, hcond, hchoose⟩ :=
    getPossibleAccessPaths_spec tableHints indexHints tbl dbName tblName paths hok
  have hwf : wellFormedPaths st.publicPaths :=
    wellFormed_of_unforce _ (hinv.paths ▸ wellFormed_buildPublicPaths tbl)
  have hspec := chooseAvailablePaths_spec tbl.Meta st paths hinv.available hwf hchoose
  have hlen : st.publicPaths.length = (buildPublicPaths tbl).length := by
    rw [← hinv.paths, List.length_map]
  have hmark : ∀ p ∈ forcedPaths tbl (indexHints ++ commentIndexHints tableHints dbName tblName),
      ∃ path, (buildPublicPaths tbl).get? p = some path ∧
        st.publicPaths.get? p = some (force path) := by
    intro p hp
    have hlt : p < (buildPublicPaths tbl).length := by
      rw [← hlen]
      exact hinv.available p (havail ▸ hp)
    refine ⟨(buildPublicPaths tbl).get ⟨p, hlt⟩, List.get?_eq_get hlt, ?_⟩
    rw [hheap, foldl_markForced_get?, List.get?_eq_get hlt]
    simp only [Option.map_some', hp, if_true]
  have hfilter : List.filter
      (keepsPath st.publicPaths (derefPaths st.publicPaths st.ignored) tbl.Meta) st.available
      = keptPaths tbl (indexHints ++ commentIndexHints tableHints dbName tblName) := by
    unfold keptPaths
    rw [havail]
    apply filter_congr_mem
    intro p hp
    obtain ⟨path, hget₀, hget⟩ := hmark p hp
    have htable : tablePathAt tbl p = path.IsTablePath := by
      simp only [tablePathAt, hget₀]
    by_cases ht : path.IsTablePath = true
    · rw [keepsPath_table _ _ _ p (force path) hget ht, htable, ht]
      rfl
    · have ht' : path.IsTablePath = false := by simpa using ht
      rcases forcedPaths_mem tbl _ p hp with htp | ⟨name, hname⟩
      · obtain ⟨path', hget', ht''⟩ := getTablePath_some _ p htp
        rw [hget₀] at hget'
        rw [Option.some.inj hget'] at ht
        exact absurd ht'' ht
      · rw [keepsPath_index tbl st.publicPaths st.ignored hinv.paths
          (by
            intro q hq
            rw [hign] at hq
            obtain ⟨_, _, _, _, n, _, hn⟩ := (ignoredPaths_mem tbl _ q).mp hq
            exact ⟨n, hn⟩)
          p (force path) hget ht' name hname, htable, ht', hign]
        rfl
  have hderef : derefPaths st.publicPaths
      (keptPaths tbl (indexHints ++ commentIndexHints tableHints dbName tblName))
      = (keptPaths tbl (indexHints ++ commentIndexHints tableHints dbName tblName)).filterMap
          (fun p => ((buildPublicPaths tbl).get? p).map force) := by
    unfold derefPaths
    apply filterMap_congr_mem
    intro p hp
    obtain ⟨path, hget₀, hget⟩ := hmark p (List.mem_filter.mp hp).1
    rw [hget, hget₀]
    rfl
  refine ⟨⟨st, hloop, havail, hmark⟩, ?_⟩
  intro hne
  have hcond' : (!st.hasScanHint || !st.hasUseOrForce) = false := by
    rw [hcond]
    cases hf : forcedPaths tbl (indexHints ++ commentIndexHints tableHints dbName tblName) with
    | nil => exact absurd hf hne
    | cons p rest => rfl
  rw [hcond'] at hspec
  simp only [Bool.false_eq_true, if_false, hfilter] at hspec
  refine ⟨?_, ?_⟩
  · intro hkept
    have hne' : derefPaths st.publicPaths
        (keptPaths tbl (indexHints ++ commentIndexHints tableHints dbName tblName)) ≠ [] := by
      cases hk : keptPaths tbl (indexHints ++ commentIndexHints tableHints dbName tblName) with
      | nil => exact absurd hk hkept
      | cons p rest =>
        have hp : p ∈ keptPaths tbl (indexHints ++ commentIndexHints tableHints dbName tblName) := by
          rw [hk]
          exact List.mem_cons_self _ _
        obtain ⟨path, _, hget⟩ := hmark p (List.mem_filter.mp hp).1
        rw [← hk]
        exact List.ne_nil_of_mem ((mem_derefPaths _ _ (force path)).mpr ⟨p, hp, hget⟩)
    rw [if_neg hne'] at hspec
    rw [hspec, hderef]
  · intro hkept
    rw [hkept] at hspec
    rw [hspec]
    rfl

theorem forced_candidates_witness :
    [force (indexPath { Name := { O := "idx", L := "idx" }, State := SchemaState.StatePublic })]
      = (keptPaths testIndexedTable
          ([testHint IndexHintType.HintForce IndexHintScope.HintForScan "idx"]
            ++ commentIndexHints none { O := "test", L := "test" } { O := "t", L := "t" })).filterMap
          (fun p => ((buildPublicPaths testIndexedTable).get? p).map force) :=
  ((forced_candidates none [testHint IndexHintType.HintForce IndexHintScope.HintForScan "idx"]
    testIndexedTable { O := "test", L := "test" } { O := "t", L := "t" }
    [force (indexPath { Name := { O := "idx", L := "idx" }, State := SchemaState.StatePublic })]
    rfl).2 (by decide)).1 (by decide)

/-! ## planner/core: INSERT ... SELECT, the new-row schema -/

/-- The first remapping loop, when it ends without panic: the row keeps its length, a
position no affected column points to is untouched, and the last selected column written
to a position stays there, retyped and named. -/
theorem remapSelected_spec (aff : List Column) (names : List FieldName) :
    ∀ (sel : List ExprColumn) (i : Nat) (row row' : List (Option (ExprColumn × FieldName))),
      remapSelected aff names i sel row = .ok row' →
      row'.length = row.length ∧
        (∀ pos, (∀ k a, k < sel.length → aff.get? (i + k) = some a → a.Offset ≠ pos) →
          row'.get? pos = row.get? pos) ∧
        (∀ k selCol a name, sel.get? k = some selCol → aff.get? (i + k) = some a →
          names.get? (i + k) = some name →
          (∀ m a', k < m → m < sel.length → aff.get? (i + m) = some a' → a'.Offset ≠ a.Offset) →
          row'.get? a.Offset = some (some ({ selCol with RetType := some a.FieldType }, name))) := by
  intro sel
  induction sel with
  | nil =>
    intro i row row' h
    simp only [remapSelected, Except.ok.injEq] at h
    subst h
    exact ⟨rfl, fun _ _ => rfl, fun k selCol a name hk => by simp at hk⟩
  | cons selCol rest ih =>
    intro i row row' h
    simp only [remapSelected] at h
    cases haff : aff.get? i with
    | none => rw [haff] at h; simp at h
    | some a₀ =>
      rw [haff] at h
      simp only at h
      cases hname : names.get? i with
      | none => rw [hname] at h; simp at h
      | some n₀ =>
        rw [hname] at h
        simp only at h
        by_cases hlt : a₀.Offset < row.length
        · rw [setAt_ok _ _ _ hlt] at h
          simp only at h
          obtain ⟨h₁, h₂, h₃⟩ := ih (i + 1) _ row' h
          have hshift : ∀ k, i + 1 + k = i + (k + 1) := fun k => by omega
          refine ⟨?_, ?_, ?_⟩
          · rw [h₁, List.length_set]
          · intro pos hpos
            have hne : a₀.Offset ≠ pos := hpos 0 a₀ (Nat.succ_pos _) (by simpa using haff)
            rw [h₂ pos (fun k a hk ha => hpos (k + 1) a (Nat.succ_lt_succ hk) (hshift k ▸ ha))]
            simp only [List.get?_eq_getElem?]
            exact List.getElem?_set_ne hne
          · intro k selCol' a name hk ha hn hlater
            cases k with
            | zero =>
              simp only [List.get?_cons_zero, Option.some.injEq] at hk
              subst hk
              rw [Nat.add_zero, haff] at ha
              rw [Nat.add_zero, hname] at hn
              have ha' : a₀ = a := Option.some.inj ha
              have hn' : n₀ = name := Option.some.inj hn
              subst ha' hn'
              rw [h₂ a₀.Offset (fun m a' hm ha' =>
                hlater (m + 1) a' (Nat.succ_pos _) (Nat.succ_lt_succ hm) (hshift m ▸ ha'))]
              simp only [List.get?_eq_getElem?]
              rw [List.getElem?_set_self hlt]
            | succ k =>
              simp only [List.get?_cons_succ] at hk
              exact h₃ k selCol' a name hk ((hshift k).symm ▸ ha) ((hshift k).symm ▸ hn)
                (fun m a' hkm hm ha' => hlater (m + 1) a' (Nat.succ_lt_succ hkm)
                  (Nat.succ_lt_succ hm) (hshift m ▸ ha'))
        · simp [setAt, hlt] at h

/-- The second remapping loop: the row keeps its length, the written positions keep
their entries, and every nil position gets a placeholder with the empty name and an id
allocated after the given counter, later positions getting later ids. -/
theorem fillPlaceholders_spec (emptyName : FieldName) :
    ∀ (row : List (Option (ExprColumn × FieldName))) (pid : Int),
      (fillPlaceholders emptyName row pid).1.length = row.length ∧
        pid ≤ (fillPlaceholders emptyName row pid).2 ∧
        (∀ pos entry, row.get? pos = some (some entry) →
          (fillPlaceholders emptyName row pid).1.get? pos = some entry) ∧
        (∀ pos, row.get? pos = some none →
          ∃ id, pid < id ∧ id ≤ (fillPlaceholders emptyName row pid).2 ∧
            (fillPlaceholders emptyName row pid).1.get? pos = some (placeholderColumn id, emptyName) ∧
            ∀ pos', pos < pos' → row.get? pos' = some none →
              ∃ id', id < id' ∧
                (fillPlaceholders emptyName row pid).1.get? pos'
                  = some (placeholderColumn id', emptyName)) := by
  intro row
  induction row with
  | nil =>
    intro pid
    simp [fillPlaceholders]
  | cons head rest ih =>
    intro pid
    cases head with
    | some entry =>
      obtain ⟨h₁, h₂, h₃, h₄⟩ := ih pid
      simp only [fillPlaceholders]
      refine ⟨by simp [h₁], h₂, ?_, ?_⟩
      · intro pos entry' hpos
        cases pos with
        | zero =>
          simp only [List.get?_cons_zero, Option.some.injEq] at hpos
          simp [hpos]
        | succ pos =>
          simp only [List.get?_cons_succ] at hpos ⊢
          exact h₃ pos entry' hpos
      · intro pos hpos
        cases pos with
        | zero => simp at hpos
        | succ pos =>
          simp only [List.get?_cons_succ] at hpos
          obtain ⟨id, g₁, g₂, g₃, g₄⟩ := h₄ pos hpos
          refine ⟨id, g₁, g₂, by simpa using g₃, ?_⟩
          intro pos' hlt hpos'
          cases pos' with
          | zero => omega
          | succ pos' =>
            simp only [List.get?_cons_succ] at hpos' ⊢
            exact g₄ pos' (by omega) hpos'
    | none =>
      obtain ⟨h₁, h₂, h₃, h₄⟩ := ih (pid + 1)
      simp only [fillPlaceholders]
      refine ⟨by simp [h₁], by omega, ?_, ?_⟩
      · intro pos entry' hpos
        cases pos with
        | zero => simp at hpos
        | succ pos =>
          simp only [List.get?_cons_succ] at hpos ⊢
          exact h₃ pos entry' hpos
      · intro pos hpos
        cases pos with
        | zero =>
          refine ⟨pid + 1, by omega, h₂, rfl, ?_⟩
          intro pos' hlt hpos'
          cases pos' with
          | zero => omega
          | succ pos' =>
            simp only [List.get?_cons_succ] at hpos' ⊢
            obtain ⟨id', g₁, _, g₃, _⟩ := h₄ pos' hpos'
            exact ⟨id', g₁, g₃⟩
        | succ pos =>
          simp only [List.get?_cons_succ] at hpos
          obtain ⟨id, g₁, g₂, g₃, g₄⟩ := h₄ pos hpos
          refine ⟨id, by omega, g₂, by simpa using g₃, ?_⟩
          intro pos' hlt hpos'
          cases pos' with
          | zero => omega
          | succ pos' =>
            simp only [List.get?_cons_succ] at hpos' ⊢
            exact g₄ pos' (by omega) hpos'

/-- C19, as stated, fails: `insert into test_gc_write (a, a) select a, b from
test_gc_write` builds, both affected columns have offset 0, and the entry at position 0
of the new row is select output column 1 (id 2, named `b`), not select output column 0
(id 1, named `a`). -/
theorem duplicate_offset_last_wins :
    getAffectCols testEnv (testInsertSelect ["a", "a"] "select a, b from test_gc_write")
        (testInsertPlan (["a", "a"].map testColumnName))
      = .ok [testColumn "a" 0 "", testColumn "a" 0 ""] ∧
      (buildSelectPlanOfInsert testEnv
          (testInsertSelect ["a", "a"] "select a, b from test_gc_write")
          (testInsertPlan (["a", "a"].map testColumnName)) 0).toOption.map
        (fun r => (r.1.Schema4OnDuplicate.map (fun s => s.Columns.drop 3),
          r.1.names4OnDuplicate.drop 3))
      = some (some [{ UniqueID := 2, RetType := some { Tp := 3, Flag := 0 } },
                    placeholderColumn 3, placeholderColumn 4],
              [testFieldName "b", testEnv.EmptyName, testEnv.EmptyName]) :=
  ⟨rfl, rfl⟩

/-- C19, amended: for every successful INSERT ... SELECT build over a table with n
columns, the new-row schema and its name list both have exactly n entries; for each
select output column i of the optimized plan such that no later select output column is
written to the same offset, the entry at position affectedValuesCols[i].Offset is select
output column i retyped to the target column's type and named by select output name i;
every position not hit by an affected column holds a placeholder column with an id
allocated after the build of the select plan, later positions holding later ids, with
the empty name; the on-duplicate schema is `MergeSchema` of the table schema and this
new-row schema and the names are the table names followed by the new-row names, which is
2n columns and 2n names when `MergeSchema` concatenates and the plan's table schema and
names have n entries. -/
theorem new_row_schema (env : Env) (insert : InsertStmt) (ip : Insert) (n n₁ n₂ n' : Int)
    (aff : List Column) (selectPlan optimized : Plan) (plan : Insert)
    (haff : getAffectCols env insert ip = .ok aff)
    (hbuild : env.Build insert.Select n = .ok (selectPlan, n₁))
    (hopt : env.DoOptimize selectPlan n₁ = .ok (optimized, n₂))
    (h : buildSelectPlanOfInsert env insert ip n = .ok (plan, n')) :
    ∃ newCols newNames,
      plan.Schema4OnDuplicate
          = some (env.MergeSchema ip.tableSchema { Columns := newCols, Keys := [] }) ∧
        plan.names4OnDuplicate = ip.tableColNames ++ newNames ∧
        newCols.length = ip.Table.Cols.length ∧ newNames.length = ip.Table.Cols.length ∧
        (∀ i selCol col name, optimized.schema.Columns.get? i = some selCol →
          aff.get? i = some col → selectPlan.names.get? i = some name →
          (∀ m col', i < m → m < optimized.schema.Columns.length → aff.get? m = some col' →
            col'.Offset ≠ col.Offset) →
          newCols.get? col.Offset = some { selCol with RetType := some col.FieldType } ∧
            newNames.get? col.Offset = some name) ∧
        (∀ pos, pos < ip.Table.Cols.length →
          ¬ hitsOffset aff optimized.schema.Columns.length pos →
          ∃ id, n₂ < id ∧ id ≤ n' ∧ newCols.get? pos = some (placeholderColumn id) ∧
            newNames.get? pos = some env.EmptyName ∧
            ∀ pos', pos < pos' → pos' < ip.Table.Cols.length →
              ¬ hitsOffset aff optimized.schema.Columns.length pos' →
              ∃ id', id < id' ∧ newCols.get? pos' = some (placeholderColumn id')) ∧
        ((∀ l r, (env.MergeSchema l r).Columns = l.Columns ++ r.Columns) →
          ip.tableSchema.Columns.length = ip.Table.Cols.length →
          ip.tableColNames.length = ip.Table.Cols.length →
          ∃ schema, plan.Schema4OnDuplicate = some schema ∧
            schema.Columns = ip.tableSchema.Columns ++ newCols ∧
            schema.Columns.length = 2 * ip.Table.Cols.length ∧
            plan.names4OnDuplicate.length = 2 * ip.Table.Cols.length) := by
  unfold buildSelectPlanOfInsert at h
  simp only [haff, hbuild] at h
  by_cases hlen : (selectPlan.schema.Columns.length != aff.length) = true
  · simp [hlen] at h
  · simp only [hlen, Bool.false_eq_true, if_false] at h
    cases hgen : firstGenerated aff with
    | some col => rw [hgen] at h; simp at h
    | none =>
      rw [hgen] at h
      simp only [hopt] at h
      cases hremap : remapSelected aff selectPlan.names 0 optimized.schema.Columns
          (List.replicate ip.Table.Cols.length none) with
      | error e => rw [hremap] at h; simp at h
      | ok row =>
        rw [hremap] at h
        simp only [Except.ok.injEq, Prod.mk.injEq] at h
        obtain ⟨hplan, hn'⟩ := h
        obtain ⟨r₁, r₂, r₃⟩ := remapSelected_spec aff selectPlan.names _ 0 _ row hremap
        obtain ⟨f₁, f₂, f₃, f₄⟩ := fillPlaceholders_spec env.EmptyName row n₂
        have hrowlen : row.length = ip.Table.Cols.length := by
          rw [r₁, List.length_replicate]
        have hnil : ∀ pos, pos < ip.Table.Cols.length →
            ¬ hitsOffset aff optimized.schema.Columns.length pos → row.get? pos = some none := by
          intro pos hpos hhit
          rw [r₂ pos (fun k a hk ha hoff => hhit ⟨k, a, hk, by simpa using ha, hoff⟩)]
          simp [List.get?_eq_getElem?, List.getElem?_replicate, hpos]
        refine ⟨(fillPlaceholders env.EmptyName row n₂).1.map Prod.fst,
          (fillPlaceholders env.EmptyName row n₂).1.map Prod.snd, ?_, ?_, ?_, ?_, ?_, ?_, ?_⟩
        · rw [← hplan]
        · rw [← hplan]
        · rw [List.length_map, f₁, hrowlen]
        · rw [List.length_map, f₁, hrowlen]
        · intro i selCol col name hsel hcol hname hlater
          have hrow := r₃ i selCol col name hsel (by simpa using hcol) (by simpa using hname)
            (fun m col' him hm hc => hlater m col' him hm (by simpa using hc))
          have hfill := f₃ col.Offset _ hrow
          simp only [List.get?_eq_getElem?, List.getElem?_map] at hfill ⊢
          rw [hfill]
          exact ⟨rfl, rfl⟩
        · intro pos hpos hhit
          obtain ⟨id, g₁, g₂, g₃, g₄⟩ := f₄ pos (hnil pos hpos hhit)
          refine ⟨id, g₁, hn' ▸ g₂, ?_, ?_, ?_⟩
          · simp only [List.get?_eq_getElem?, List.getElem?_map] at g₃ ⊢
            rw [g₃]
            rfl
          · simp only [List.get?_eq_getElem?, List.getElem?_map] at g₃ ⊢
            rw [g₃]
            rfl
          · intro pos' hlt hpos' hhit'
            obtain ⟨id', k₁, k₂⟩ := g₄ pos' hlt (hnil pos' hpos' hhit')
            refine ⟨id', k₁, ?_⟩
            simp only [List.get?_eq_getElem?, List.getElem?_map] at k₂ ⊢
            rw [k₂]
            rfl
        · intro hmerge htable hnames
          refine ⟨_, by rw [← hplan], hmerge _ _, ?_, ?_⟩
          · rw [hmerge, List.length_append, List.length_map, f₁, hrowlen, htable]
            omega
          · rw [← hplan]
            simp only [List.length_append, List.length_map, f₁, hrowlen, hnames]
            omega

theorem new_row_schema_witness :
    ∃ (newCols : List ExprColumn) (newNames : List FieldName),
      newCols.length = 3 ∧ newNames.length = 3 ∧
        newCols.get? 0 = some { UniqueID := 1, RetType := some { Tp := 3, Flag := 0 } } ∧
        newNames.get? 0 = some (testFieldName "a") := by
  obtain ⟨newCols, newNames, _, _, h₁, h₂, h₃, _⟩ :=
    new_row_schema testEnv (testInsertSelect ["a"] "select a from test_gc_write")
      (testInsertPlan (["a"].map testColumnName)) 0 1 1 3 [testColumn "a" 0 ""]
      { id := 1, schema := { Columns := [{ UniqueID := 1, RetType := none }], Keys := [] },
        names := [testFieldName "a"] }
      { id := 1, schema := { Columns := [{ UniqueID := 1, RetType := none }], Keys := [] },
        names := [testFieldName "a"] }
      { Table := testGcWrite
        tableSchema := { Columns := [{ UniqueID := 1, RetType := none },
                                     { UniqueID := 2, RetType := none },
                                     { UniqueID := 3, RetType := none }], Keys := [] }
        tableColNames := [testFieldName "a", testFieldName "b", testFieldName "c"]
        Columns := ["a"].map testColumnName
        Lists := []
        SetList := []
        OnDuplicate := []
        Schema4OnDuplicate := some
          { Columns := [{ UniqueID := 1, RetType := none }, { UniqueID := 2, RetType := none },
                        { UniqueID := 3, RetType := none },
                        { UniqueID := 1, RetType := some { Tp := 3, Flag := 0 } },
                        { UniqueID := 2, RetType := none }, { UniqueID := 3, RetType := none }],
            Keys := [] }
        names4OnDuplicate := [testFieldName "a", testFieldName "b", testFieldName "c",
                              testFieldName "a", testEnv.EmptyName, testEnv.EmptyName]
        SelectPlan := some
          { id := 1, schema := { Columns := [{ UniqueID := 1, RetType := none }], Keys := [] },
            names := [testFieldName "a"] }
        IsReplace := false
        AllAssignmentsAreConstant := false }
      rfl rfl rfl rfl
  have h := h₃ 0 { UniqueID := 1, RetType := none } (testColumn "a" 0 "") (testFieldName "a")
    rfl rfl rfl (by intro m col' h₀ hm; simp at hm; omega)
  exact ⟨newCols, newNames, h₁, h₂, h.1, h.2⟩

/-! ## planner/core: splitWhere -/

theorem splitWhereNode_filter (e : ExprNode) :
    splitWhereNode e = (conjunctionNodes e).filter (fun c => !isAndOrParentheses c) := by
  induction e with
  | DefaultExpr name => rfl
  | ValueExpr d t => rfl
  | ColumnNameExpr name => rfl
  | BinaryOperationExpr op l r ihl ihr =>
    by_cases hop : op = Opcode.LogicAnd
    · subst hop
      simp [splitWhereNode, conjunctionNodes, List.filter_cons, isAndOrParentheses, ihl, ihr]
    · simp [splitWhereNode, conjunctionNodes, List.filter_cons, isAndOrParentheses, hop]
  | ParenthesesExpr x ih =>
    simp [splitWhereNode, conjunctionNodes, List.filter_cons, isAndOrParentheses, ih]

theorem splitWhereNode_all (v : ExprNode → Bool) (e : ExprNode) :
    (splitWhereNode e).all v = whereValue v e := by
  induction e with
  | DefaultExpr name => simp [splitWhereNode, whereValue]
  | ValueExpr d t => simp [splitWhereNode, whereValue]
  | ColumnNameExpr name => simp [splitWhereNode, whereValue]
  | BinaryOperationExpr op l r ihl ihr =>
    by_cases hop : op = Opcode.LogicAnd
    · subst hop
      simp [splitWhereNode, whereValue, List.all_append, ihl, ihr]
    · simp [splitWhereNode, whereValue, hop]
  | ParenthesesExpr x ih =>
    simp [splitWhereNode, whereValue, ih]

/-- C27: for every WHERE expression `e`, `splitWhere e` is the left-to-right list of the
sub-expressions of `e` reached through logical ANDs and parentheses only (the maximal
ones) that are neither a logical AND nor parenthesised, empty for a missing expression;
so `splitWhere (l AND r) = splitWhere l ++ splitWhere r`, `splitWhere ((x)) =
splitWhere x`, an expression of another kind is its own single condition, and under every
truth assignment to those sub-expressions the conjunction of the list is the value of
`e`. -/
theorem splitWhere_conjuncts :
    splitWhere none = [] ∧
      (∀ l r, splitWhere (some (.BinaryOperationExpr Opcode.LogicAnd l r))
        = splitWhere (some l) ++ splitWhere (some r)) ∧
      (∀ x, splitWhere (some (.ParenthesesExpr x)) = splitWhere (some x)) ∧
      (∀ e, isAndOrParentheses e = false → splitWhere (some e) = [e]) ∧
      (∀ e, splitWhere (some e)
        = (conjunctionNodes e).filter (fun c => !isAndOrParentheses c)) ∧
      (∀ e, ∀ c ∈ splitWhere (some e),
        isAndOrParentheses c = false ∧ c ∈ conjunctionNodes e) ∧
      (∀ (v : ExprNode → Bool) (e : Option ExprNode),
        (splitWhere e).all v = whereValue? v e) := by
  refine ⟨rfl, ?_, ?_, ?_, ?_, ?_, ?_⟩
  · intro l r
    simp [splitWhere, splitWhereNode]
  · intro x
    simp [splitWhere, splitWhereNode]
  · intro e he
    cases e with
    | DefaultExpr name => rfl
    | ValueExpr d t => rfl
    | ColumnNameExpr name => rfl
    | BinaryOperationExpr op l r =>
      have hop : op ≠ Opcode.LogicAnd := by simpa [isAndOrParentheses] using he
      simp [splitWhere, splitWhereNode, hop]
    | ParenthesesExpr x => simp [isAndOrParentheses] at he
  · intro e
    exact splitWhereNode_filter e
  · intro e c hc
    have h : c ∈ (conjunctionNodes e).filter (fun c => !isAndOrParentheses c) := by
      rw [← splitWhereNode_filter]
      exact hc
    obtain ⟨hmem, hnot⟩ := List.mem_filter.mp h
    exact ⟨by simpa using hnot, hmem⟩
  · intro v e
    cases e with
    | none => rfl
    | some node => exact splitWhereNode_all v node

/-- `a = 1 AND (b = 2 AND c)` splits into `a = 1`, `b = 2`, `c`. -/
theorem test_splitWhere :
    splitWhere (some (.BinaryOperationExpr Opcode.LogicAnd
        (.BinaryOperationExpr Opcode.EQ (.ColumnNameExpr (testColumnName "a")) (testLiteral 1))
        (.ParenthesesExpr (.BinaryOperationExpr Opcode.LogicAnd
          (.BinaryOperationExpr Opcode.EQ (.ColumnNameExpr (testColumnName "b")) (testLiteral 2))
          (.ColumnNameExpr (testColumnName "c"))))))
      = [.BinaryOperationExpr Opcode.EQ (.ColumnNameExpr (testColumnName "a")) (testLiteral 1),
         .BinaryOperationExpr Opcode.EQ (.ColumnNameExpr (testColumnName "b")) (testLiteral 2),
         .ColumnNameExpr (testColumnName "c")] := by
  decide

/-! ## planner/core: matchTableName -/

theorem matchHintEntries_keys (table : Option hintTableInfo) (l : List hintTableInfo) :
    (matchHintEntries table l).1.map (fun e => (e.dbName, e.tblName, e.selectOffset))
      = l.map (fun e => (e.dbName, e.tblName, e.selectOffset)) := by
  induction l with
  | nil => rfl
  | cons entry rest ih =>
    cases table with
    | none =>
      simp only [matchHintEntries, List.map_cons]
      rw [ih]
    | some t =>
      by_cases hm : hintEntryMatches entry t = true
      · simp [matchHintEntries, hm]
      · simp only [matchHintEntries, hm, Bool.false_eq_true, if_false, List.map_cons]
        rw [ih]

theorem matchHintEntries_matched (table : Option hintTableInfo) (l : List hintTableInfo) :
    (matchHintEntries table l).2
      = match table with
        | none => false
        | some t => l.any (fun e => hintEntryMatches e t) := by
  induction l with
  | nil => cases table <;> rfl
  | cons entry rest ih =>
    cases table with
    | none =>
      simp only [matchHintEntries]
      exact ih
    | some t =>
      by_cases hm : hintEntryMatches entry t = true
      · simp [matchHintEntries, hm]
      · simp only [matchHintEntries, hm, Bool.false_eq_true, if_false, List.any_cons,
          Bool.false_or]
        rw [ih]

theorem any_hintEntryMatches_congr (t : hintTableInfo) :
    ∀ l l' : List hintTableInfo,
      l.map (fun e => (e.dbName, e.tblName, e.selectOffset))
        = l'.map (fun e => (e.dbName, e.tblName, e.selectOffset)) →
      l.any (fun e => hintEntryMatches e t) = l'.any (fun e => hintEntryMatches e t) := by
  intro l
  induction l with
  | nil =>
    intro l' h
    cases l' with
    | nil => rfl
    | cons e rest => simp at h
  | cons e rest ih =>
    intro l' h
    cases l' with
    | nil => simp at h
    | cons e' rest' =>
      simp only [List.map_cons, List.cons.injEq, Prod.mk.injEq] at h
      obtain ⟨⟨h₁, h₂, h₃⟩, hrest⟩ := h
      have hany := ih rest' hrest
      have hhead : hintEntryMatches e t = hintEntryMatches e' t := by
        simp only [hintEntryMatches, h₁, h₂, h₃]
      rw [List.any_cons, List.any_cons, hany, hhead]

theorem matchTables_spec (tables : List (Option hintTableInfo)) :
    ∀ (b : Bool) (l : List hintTableInfo),
      (matchTables tables b l).1
          = (b || tables.any (fun table =>
              match table with
              | none => false
              | some t => l.any (fun e => hintEntryMatches e t))) ∧
        (matchTables tables b l).2.map (fun e => (e.dbName, e.tblName, e.selectOffset))
          = l.map (fun e => (e.dbName, e.tblName, e.selectOffset)) := by
  induction tables with
  | nil =>
    intro b l
    simp [matchTables]
  | cons table rest ih =>
    intro b l
    obtain ⟨h₁, h₂⟩ := ih (b || (matchHintEntries table l).2) (matchHintEntries table l).1
    have hkeys := matchHintEntries_keys table l
    refine ⟨?_, ?_⟩
    · have hany : (rest.any fun table' =>
            match table' with
            | none => false
            | some t => (matchHintEntries table l).1.any (fun e => hintEntryMatches e t))
          = rest.any fun table' =>
            match table' with
            | none => false
            | some t => l.any (fun e => hintEntryMatches e t) := by
        congr 1
        funext table'
        cases table' with
        | none => rfl
        | some t => exact any_hintEntryMatches_congr t _ _ hkeys
      show (matchTables rest (b || (matchHintEntries table l).2) (matchHintEntries table l).1).1
        = _
      rw [h₁, hany, matchHintEntries_matched, List.any_cons, Bool.or_assoc]
    · simp only [matchTables]
      rw [h₂, hkeys]

/-- C28: for every list of candidate tables and every hint-table list, `matchTableName`
returns true if and only if some candidate table that is not nil has the lower-cased
database name, the lower-cased table name and the select-block offset of some entry of
the hint list, so one matching table is enough; the hint entries keep their names and
offsets (only `matched` marks are set). -/
theorem matchTableName_iff (tables : List (Option hintTableInfo))
    (hintTables : List hintTableInfo) :
    ((matchTableName tables hintTables).1 = true ↔
        ∃ t, some t ∈ tables ∧ ∃ entry ∈ hintTables,
          entry.dbName.L = t.dbName.L ∧ entry.tblName.L = t.tblName.L ∧
            t.selectOffset = entry.selectOffset) ∧
      (matchTableName tables hintTables).2.map (fun e => (e.dbName, e.tblName, e.selectOffset))
        = hintTables.map (fun e => (e.dbName, e.tblName, e.selectOffset)) := by
  obtain ⟨h₁, h₂⟩ := matchTables_spec tables false hintTables
  refine ⟨?_, h₂⟩
  unfold matchTableName
  rw [h₁]
  simp only [Bool.false_or, List.any_eq_true]
  constructor
  · rintro ⟨table, hmem, h⟩
    cases table with
    | none => simp at h
    | some t =>
      simp only [List.any_eq_true, hintEntryMatches, Bool.and_eq_true, decide_eq_true_eq] at h
      obtain ⟨entry, hentry, ⟨hdb, htbl⟩, hoff⟩ := h
      exact ⟨t, hmem, entry, hentry, hdb, htbl, hoff⟩
  · rintro ⟨t, hmem, entry, hentry, hdb, htbl, hoff⟩
    refine ⟨some t, hmem, ?_⟩
    simp only [List.any_eq_true, hintEntryMatches, Bool.and_eq_true, decide_eq_true_eq]
    exact ⟨entry, hentry, ⟨hdb, htbl⟩, hoff⟩

/-! ## planner/core: INSERT ... VALUES, the rows of a successful build -/

/-- A successful outer loop of `buildValuesListOfInsert`: every row has the length of the
row before it, and one expression list per row has been appended, in row order. -/
theorem buildValuesRows_ok (env : Env) (ip : Insert) (aff cols : List Column) :
    ∀ (rows : List (List ExprNode)) (i : Nat) (prev : Option (List ExprNode))
      (lists : List (List Expression)) (c : Bool) (lists' : List (List Expression)) (c' : Bool),
      buildValuesRows env ip aff cols i prev rows lists c = .ok (lists', c') →
      (∀ p, prev = some p → 0 < i → ∀ row ∈ rows, row.length = p.length) ∧
        (∀ first rest, rows = first :: rest → ∀ row ∈ rest, row.length = first.length) ∧
        ∃ added, lists' = lists ++ added ∧
          List.Forall₂
            (fun row exprs => ∃ c₀ c₁, buildValuesItems env ip aff cols 0 row [] c₀ = .ok (exprs, c₁))
            rows added := by
  intro rows
  induction rows with
  | nil =>
    intro i prev lists c lists' c' h
    simp only [buildValuesRows, Except.ok.injEq, Prod.mk.injEq] at h
    refine ⟨fun _ _ _ row hrow => absurd hrow (List.not_mem_nil row),
      fun first rest hnil => by simp at hnil, [], by simp [h.1], List.Forall₂.nil⟩
  | cons r rest ih =>
    intro i prev lists c lists' c' h
    simp only [buildValuesRows] at h
    by_cases hmis : rowLengthMismatch i prev r = true
    · simp [hmis] at h
    · simp only [hmis, Bool.false_eq_true, if_false] at h
      cases hitems : buildValuesItems env ip aff cols 0 r [] c with
      | error e => rw [hitems] at h; simp at h
      | ok res =>
        obtain ⟨exprs, c₁⟩ := res
        rw [hitems] at h
        simp only at h
        obtain ⟨h₁, _, added, h₃, h₄⟩ := ih (i + 1) (some r) _ c₁ lists' c' h
        have hrest : ∀ row ∈ rest, row.length = r.length :=
          h₁ r rfl (Nat.succ_pos i)
        refine ⟨?_, ?_, exprs :: added, ?_, List.Forall₂.cons ⟨c, c₁, hitems⟩ h₄⟩
        · intro p hp hi row hrow
          have hr : r.length = p.length := by
            subst hp
            have hm : rowLengthMismatch i (some p) r = false := by simpa using hmis
            simp only [rowLengthMismatch, Bool.and_eq_false_iff, decide_eq_false_iff_not,
              bne_eq_false_iff_eq] at hm
            rcases hm with hm | hm
            · exact absurd hi hm
            · exact hm.symm
          rcases List.mem_cons.mp hrow with heq | hmem
          · rw [heq, hr]
          · rw [hrest row hmem, hr]
        · intro first rest' hcons row hrow
          simp only [List.cons.injEq] at hcons
          obtain ⟨hf, hr⟩ := hcons
          subst hf hr
          exact hrest row hrow
        · rw [h₃]
          simp

/-- C22: for every INSERT ... VALUES statement with a column list or a non-empty first
value list, if `buildValuesListOfInsert` succeeds then every value list has exactly as
many values as there are affected columns, and the plan's `Lists` is the old one followed
by exactly one expression list per input row, in row order, each the compiled values of
its row. -/
theorem values_rows_match (env : Env) (insert : InsertStmt) (ip plan : Insert)
    (hcond : insert.Columns ≠ [] ∨ ∃ first, insert.Lists.head? = some first ∧ first ≠ [])
    (h : buildValuesListOfInsert env insert ip = .ok plan) :
    ∃ aff, getAffectCols env insert ip = .ok aff ∧
      (∀ row ∈ insert.Lists, row.length = aff.length) ∧
      ∃ exprLists, plan.Lists = ip.Lists ++ exprLists ∧
        exprLists.length = insert.Lists.length ∧
        List.Forall₂
          (fun row exprs => ∃ c₀ c₁,
            buildValuesItems env ip aff ip.Table.Cols 0 row [] c₀ = .ok (exprs, c₁))
          insert.Lists exprLists := by
  unfold buildValuesListOfInsert at h
  cases haff : getAffectCols env insert ip with
  | error e => rw [haff] at h; simp at h
  | ok aff =>
    rw [haff] at h
    simp only at h
    cases hlists : insert.Lists with
    | nil => rw [hlists] at h; simp at h
    | cons first rest =>
      rw [hlists] at h
      simp only at h
      have hc : (decide (insert.Columns.length > 0) || decide (first.length > 0)) = true := by
        rcases hcond with hcols | ⟨f, hf, hne⟩
        · simp [List.length_pos, hcols]
        · rw [hlists] at hf
          simp only [List.head?_cons, Option.some.injEq] at hf
          subst hf
          simp [List.length_pos, hne]
      by_cases hlen : (first.length != aff.length) = true
      · simp [hc, hlen] at h
      · simp only [hc, hlen, Bool.and_false, Bool.false_eq_true, if_false] at h
        have hlen' : first.length = aff.length := by simpa using hlen
        cases hrows : buildValuesRows env ip aff ip.Table.Cols 0 none (first :: rest) ip.Lists
            true with
        | error e => rw [hrows] at h; simp at h
        | ok res =>
          obtain ⟨lists, allConst⟩ := res
          rw [hrows] at h
          simp only [Except.ok.injEq] at h
          obtain ⟨_, h₂, added, h₃, h₄⟩ := buildValuesRows_ok env ip aff ip.Table.Cols _ _ _ _ _ _ _ hrows
          refine ⟨aff, rfl, ?_, added, ?_, ?_, h₄⟩
          · intro row hrow
            rcases List.mem_cons.mp hrow with heq | hmem
            · rw [heq, hlen']
            · rw [h₂ first rest rfl row hmem, hlen']
          · rw [← h]
            exact h₃
          · exact (List.Forall₂.length_eq h₄).symm

theorem values_rows_match_witness :
    ∃ exprLists, exprLists.length = 2 ∧
      ({ (testInsertPlan (["a", "b"].map testColumnName)) with
          Lists := [[Expression.Constant (Datum.int 1) { Tp := 8, Flag := 0 },
                     Expression.Constant (Datum.int 2) { Tp := 8, Flag := 0 }],
                    [Expression.Constant (Datum.int 3) { Tp := 8, Flag := 0 },
                     Expression.Constant (Datum.int 4) { Tp := 8, Flag := 0 }]],
          AllAssignmentsAreConstant := true,
          Schema4OnDuplicate := some (testInsertPlan []).tableSchema,
          names4OnDuplicate := (testInsertPlan []).tableColNames } : Insert).Lists
        = (testInsertPlan (["a", "b"].map testColumnName)).Lists ++ exprLists := by
  obtain ⟨aff, _, _, exprLists, h₁, h₂, _⟩ :=
    values_rows_match testEnv
      (testInsertValues ["a", "b"] [[testLiteral 1, testLiteral 2], [testLiteral 3, testLiteral 4]])
      (testInsertPlan (["a", "b"].map testColumnName))
      { (testInsertPlan (["a", "b"].map testColumnName)) with
          Lists := [[Expression.Constant (Datum.int 1) { Tp := 8, Flag := 0 },
                     Expression.Constant (Datum.int 2) { Tp := 8, Flag := 0 }],
                    [Expression.Constant (Datum.int 3) { Tp := 8, Flag := 0 },
                     Expression.Constant (Datum.int 4) { Tp := 8, Flag := 0 }]],
          AllAssignmentsAreConstant := true,
          Schema4OnDuplicate := some (testInsertPlan []).tableSchema,
          names4OnDuplicate := (testInsertPlan []).tableColNames }
      (Or.inl (by decide)) rfl
  exact ⟨exprLists, h₂, h₁⟩

theorem getAffectCols_no_columns (env : Env) (insert : InsertStmt) (ip : Insert)
    (hcols : insert.Columns = []) : ∃ aff, getAffectCols env insert ip = .ok aff := by
  unfold getAffectCols
  by_cases hset : insert.Setlist.length = 0
  · simp [hcols, hset]
  · simp [hcols, hset]

/-- The outer loop of `buildValuesListOfInsert` on empty value lists: one empty
expression list per row. -/
theorem buildValuesRows_empty (env : Env) (ip : Insert) (aff cols : List Column) :
    ∀ (rows : List (List ExprNode)) (i : Nat) (prev : Option (List ExprNode))
      (lists : List (List Expression)) (c : Bool),
      (∀ row ∈ rows, row = []) → (prev = none ∨ prev = some []) →
      buildValuesRows env ip aff cols i prev rows lists c
        = .ok (lists ++ rows.map (fun _ => []), c) := by
  intro rows
  induction rows with
  | nil =>
    intro i prev lists c _ _
    simp [buildValuesRows]
  | cons r rest ih =>
    intro i prev lists c hall hprev
    have hr : r = [] := hall r (List.mem_cons_self _ _)
    subst hr
    have hmis : rowLengthMismatch i prev [] = false := by
      rcases hprev with h | h
      · subst h
        rfl
      · subst h
        simp [rowLengthMismatch]
    simp only [buildValuesRows, hmis, Bool.false_eq_true, if_false, buildValuesItems]
    rw [ih (i + 1) (some []) _ c (fun row hrow => hall row (List.mem_cons_of_mem _ hrow))
      (Or.inr rfl)]
    simp

/-- C23: for every table, an INSERT ... VALUES statement with no column list whose value
lists are all empty builds without error, whatever the columns of the table, and the
plan gets one empty expression list per row; a statement that mixes an empty and a
non-empty value list is rejected, with the wrong-value-count error at the first
non-empty list when the first list is empty. -/
theorem empty_value_lists (env : Env) (insert : InsertStmt) (ip : Insert)
    (hcols : insert.Columns = []) (hne : insert.Lists ≠ []) :
    ((∀ row ∈ insert.Lists, row = []) →
        ∃ plan, buildValuesListOfInsert env insert ip = .ok plan ∧
          plan.Lists = ip.Lists ++ insert.Lists.map (fun _ => [])) ∧
      ((∃ row₁ ∈ insert.Lists, row₁ = []) → (∃ row₂ ∈ insert.Lists, row₂ ≠ []) →
        ∃ e, buildValuesListOfInsert env insert ip = .error e) ∧
      (∀ i row, insert.Lists.get? i = some row → row ≠ [] →
        (∀ k r, k < i → insert.Lists.get? k = some r → r = []) → 0 < i →
        buildValuesListOfInsert env insert ip = .error (Err.ErrWrongValueCountOnRow (i + 1))) := by
  obtain ⟨aff, haff⟩ := getAffectCols_no_columns env insert ip hcols
  cases hlists : insert.Lists with
  | nil => exact absurd hlists hne
  | cons first rest =>
    refine ⟨?_, ?_, ?_⟩
    · intro hall
      have hfirst : first = [] := hall first (List.mem_cons_self _ _)
      rw [buildValuesListOfInsert_eq env insert ip aff first rest haff hlists
        (by
          rintro ⟨h | h, _⟩
          · exact h hcols
          · exact h hfirst)]
      rw [hlists, buildValuesRows_empty env ip aff ip.Table.Cols _ 0 none ip.Lists true hall
        (Or.inl rfl)]
      exact ⟨_, rfl, rfl⟩
    · rintro ⟨row₁, hrow₁, hempty⟩ ⟨row₂, hrow₂, hnonempty⟩
      cases hres : buildValuesListOfInsert env insert ip with
      | error e => exact ⟨e, rfl⟩
      | ok plan =>
        exfalso
        unfold buildValuesListOfInsert at hres
        rw [haff] at hres
        simp only [hlists] at hres
        by_cases hc : ((decide (insert.Columns.length > 0) || decide (first.length > 0))
            && (first.length != aff.length)) = true
        · simp [hc] at hres
        · simp only [hc, Bool.false_eq_true, if_false] at hres
          cases hrows : buildValuesRows env ip aff ip.Table.Cols 0 none (first :: rest) ip.Lists
              true with
          | error e => rw [hrows] at hres; simp at hres
          | ok res =>
            obtain ⟨_, h₂, _⟩ := buildValuesRows_ok env ip aff ip.Table.Cols _ _ _ _ _ _ _ hrows
            have hsame : ∀ row ∈ first :: rest, row.length = first.length := by
              intro row hrow
              rcases List.mem_cons.mp hrow with heq | hmem
              · rw [heq]
              · exact h₂ first rest rfl row hmem
            have h₁ := hsame row₁ hrow₁
            have h₂' := hsame row₂ hrow₂
            rw [hempty] at h₁
            rw [← h₁] at h₂'
            exact hnonempty (List.length_eq_zero.mp h₂')
    · intro i row hrow hnonempty hbefore hi
      have hfirst : first = [] := hbefore 0 first hi rfl
      have hnot : ¬((insert.Columns ≠ [] ∨ first ≠ []) ∧ first.length ≠ aff.length) := by
        rintro ⟨h | h, _⟩
        · exact h hcols
        · exact h hfirst
      rw [buildValuesListOfInsert_eq env insert ip aff first rest haff hlists hnot, hlists]
      have hilt : i < (first :: rest).length := by
        rw [List.get?_eq_getElem?] at hrow
        exact (List.getElem?_eq_some_iff.mp hrow).1
      have hget : (first :: rest)[i] = row := by
        rw [List.get?_eq_getElem?] at hrow
        exact (List.getElem?_eq_some_iff.mp hrow).2
      have htake : ∀ r ∈ (first :: rest).take i, r = [] := by
        intro r hr
        obtain ⟨k, hk, hkget⟩ := List.getElem_of_mem hr
        have hk' : k < i := by
          rw [List.length_take] at hk
          omega
        apply hbefore k r hk'
        rw [List.get?_eq_getElem?, ← hkget, List.getElem_take]
        exact List.getElem?_eq_getElem (by omega)
      have hsplit : first :: rest = (first :: rest).take i ++ row :: (first :: rest).drop (i + 1) := by
        rw [← hget, ← List.drop_eq_getElem_cons hilt, List.take_append_drop]
      have hloop : ∀ (front : List (List ExprNode)) (back : List (List ExprNode)) (i₀ : Nat)
          (prev : Option (List ExprNode)) (lists : List (List Expression)) (c : Bool),
          (∀ r ∈ front, r = []) → (prev = none ∨ prev = some []) →
          buildValuesRows env ip aff ip.Table.Cols i₀ prev (front ++ back) lists c
            = buildValuesRows env ip aff ip.Table.Cols (i₀ + front.length)
                (if front = [] then prev else some []) back (lists ++ front.map (fun _ => [])) c := by
        intro front
        induction front with
        | nil =>
          intro back i₀ prev lists c _ _
          simp
        | cons r front ih =>
          intro back i₀ prev lists c hall hprev
          have hr : r = [] := hall r (List.mem_cons_self _ _)
          subst hr
          have hmis : rowLengthMismatch i₀ prev [] = false := by
            rcases hprev with h | h
            · subst h
              rfl
            · subst h
              simp [rowLengthMismatch]
          rw [List.cons_append]
          simp only [buildValuesRows, hmis, Bool.false_eq_true, if_false, buildValuesItems]
          rw [ih back (i₀ + 1) (some []) _ c
            (fun r hr => hall r (List.mem_cons_of_mem _ hr)) (Or.inr rfl)]
          have hlen : i₀ + 1 + front.length = i₀ + ([] :: front).length := by
            simp only [List.length_cons]
            omega
          rw [hlen]
          congr 1
          · by_cases hf : front = []
            · simp [hf]
            · simp [hf]
          · simp
      rw [hsplit, hloop _ _ 0 none ip.Lists true htake (Or.inl rfl)]
      have hlen : ((first :: rest).take i).length = i := by
        rw [List.length_take]
        omega
      have hfront : (first :: rest).take i ≠ [] := by
        intro h
        rw [h] at hlen
        simp only [List.length_nil] at hlen
        omega
      rw [hlen, if_neg hfront]
      have hmis : rowLengthMismatch i (some []) row = true := by
        have hpos : 0 < row.length := List.length_pos.mpr hnonempty
        simp only [rowLengthMismatch, List.length_nil, Bool.and_eq_true,
          decide_eq_true_eq, bne_iff_ne, ne_eq]
        exact ⟨hi, by omega⟩
      simp only [buildValuesRows, Nat.zero_add, hmis, if_true]

theorem empty_value_lists_witness :
    ∃ plan, buildValuesListOfInsert testEnv (testInsertValues [] [[], []]) (testInsertPlan [])
        = .ok plan ∧
      plan.Lists = (testInsertPlan []).Lists ++ [[], []] :=
  (empty_value_lists testEnv (testInsertValues [] [[], []]) (testInsertPlan []) rfl
    (by decide)).1
    (by
      intro row hrow
      simp only [testInsertValues, List.mem_cons, List.mem_singleton, List.not_mem_nil,
        or_false, or_self] at hrow
      exact hrow)

/-! ## planner/core: ON DUPLICATE KEY UPDATE -/

theorem buildColMap_keys (cols : List Column) :
    ∀ colMap : List (String × Column), (∀ entry ∈ colMap, entry.2.Name.L = entry.1) →
      ∀ entry ∈ buildColMap cols colMap, entry.2.Name.L = entry.1 := by
  induction cols with
  | nil =>
    intro colMap h
    exact h
  | cons col rest ih =>
    intro colMap h
    apply ih
    intro entry hentry
    simp only [mapSet, mapDelete, List.mem_cons, List.mem_filter] at hentry
    rcases hentry with heq | ⟨hmem, _⟩
    · rw [heq]
    · exact h entry hmem

theorem mapGet_mem {κ ν : Type} [DecidableEq κ] (m : List (κ × ν)) (k : κ) (v : ν)
    (h : mapGet m k = some v) : (k, v) ∈ m := by
  induction m with
  | nil => simp [mapGet] at h
  | cons entry rest ih =>
    obtain ⟨k', v'⟩ := entry
    by_cases hk : k' = k
    · simp only [mapGet, hk, if_true, Option.some.injEq] at h
      rw [hk, h]
      exact List.mem_cons_self _ _
    · simp only [mapGet, hk, if_false] at h
      exact List.mem_cons_of_mem _ (ih h)

theorem colMap_name (cols : List Column) (key : String) (column : Column)
    (h : mapGet (buildColMap cols []) key = some column) : column.Name.L = key :=
  buildColMap_keys cols [] (fun entry hentry => absurd hentry (List.not_mem_nil entry))
    (key, column) (mapGet_mem _ _ _ h)

/-- While the assignments pass, the loop of `resolveOnDuplicate` moves on. -/
theorem resolveOnDuplicateLoop_advance (env : Env) (p : Insert) (tblInfo : TableInfo)
    (yield : ExprNode → Except Err Expression) :
    ∀ (m : Nat) (onDup : List AstAssignment) (set : List (String × Unit))
      (onDuplicate : List Assignment),
      m ≤ onDup.length →
      (∀ k a, k < m → onDup.get? k = some a → onDuplicatePasses env p yield a) →
      ∃ set' onDuplicate',
        resolveOnDuplicateLoop env p tblInfo yield (buildColMap p.Table.Cols []) onDup set
            onDuplicate
          = resolveOnDuplicateLoop env p tblInfo yield (buildColMap p.Table.Cols [])
              (onDup.drop m) set' onDuplicate' := by
  intro m
  induction m with
  | zero =>
    intro onDup set onDuplicate _ _
    exact ⟨set, onDuplicate, by simp⟩
  | succ m ih =>
    intro onDup set onDuplicate hlen h
    cases onDup with
    | nil => simp at hlen
    | cons a rest =>
      simp only [List.length_cons] at hlen
      have hstep : ∃ set₁ onDuplicate₁,
          resolveOnDuplicateLoop env p tblInfo yield (buildColMap p.Table.Cols []) (a :: rest) set
              onDuplicate
            = resolveOnDuplicateLoop env p tblInfo yield (buildColMap p.Table.Cols []) rest set₁
                onDuplicate₁ := by
        obtain ⟨idx, column, col, name, hfind, hidx, hcol, hget, hname, hcase⟩ :=
          h 0 a (Nat.succ_pos m) rfl
        have hneg : ¬ idx < 0 := by omega
        rcases hcase with ⟨hgen, hdef⟩ | ⟨hgen, expr, hexpr⟩
        · have hsome : (extractDefaultExpr a.Expr).isSome = true :=
            (extractDefaultExpr_isSome a.Expr).mpr hdef
          exact ⟨set, onDuplicate, by
            simp only [resolveOnDuplicateLoop, hfind, hneg, if_false, hcol, hgen, if_true, hsome]⟩
        · exact ⟨mapSet set column.Name.L (),
            onDuplicate ++ [{ Col := col, ColName := name.ColName, Expr := expr }], by
            simp only [resolveOnDuplicateLoop, hfind, hneg, if_false, hcol, hgen,
              Bool.false_eq_true, hexpr, hget, hname]⟩
      obtain ⟨set₁, onDuplicate₁, hstep⟩ := hstep
      obtain ⟨set', onDuplicate', h'⟩ := ih rest set₁ onDuplicate₁ (by omega)
        (fun k a' hk hget => h (k + 1) a' (Nat.succ_lt_succ hk) (by simpa using hget))
      exact ⟨set', onDuplicate', by rw [hstep, h']; rfl⟩

/-- What a successful loop of `resolveOnDuplicate` has done: every assignment to a
generated column is a bare DEFAULT, the set has got the names of the other assigned
columns, and one entry per other assignment has been appended, in order. -/
theorem resolveOnDuplicateLoop_ok (env : Env) (p : Insert) (tblInfo : TableInfo)
    (yield : ExprNode → Except Err Expression) :
    ∀ (onDup : List AstAssignment) (set : List (String × Unit)) (onDuplicate : List Assignment)
      (set' : List (String × Unit)) (onDuplicate' : List Assignment),
      resolveOnDuplicateLoop env p tblInfo yield (buildColMap p.Table.Cols []) onDup set
          onDuplicate = .ok (set', onDuplicate') →
      (∀ a ∈ onDup, targetsGenerated p a = true → a.Expr = ExprNode.DefaultExpr none) ∧
        (∀ k, (mapGet set' k).isSome = true ↔
          ((mapGet set k).isSome = true ∨
            ∃ a ∈ onDup, targetsGenerated p a = false ∧ a.Column.Name.L = k)) ∧
        ∃ entries, onDuplicate' = onDuplicate ++ entries ∧
          List.Forall₂ (fun a entry => yield (assignedExpr a) = .ok entry.Expr)
            (onDup.filter (fun a => !targetsGenerated p a)) entries := by
  intro onDup
  induction onDup with
  | nil =>
    intro set onDuplicate set' onDuplicate' h
    simp only [resolveOnDuplicateLoop, Except.ok.injEq, Prod.mk.injEq] at h
    obtain ⟨h₁, h₂⟩ := h
    subst h₁ h₂
    exact ⟨fun a ha => absurd ha (List.not_mem_nil a), fun k => by simp,
      [], by simp, List.Forall₂.nil⟩
  | cons a rest ih =>
    intro set onDuplicate set' onDuplicate' h
    simp only [resolveOnDuplicateLoop] at h
    cases hfind : env.FindFieldName p.tableColNames a.Column with
    | error e => rw [hfind] at h; simp at h
    | ok idx =>
      rw [hfind] at h
      simp only at h
      by_cases hneg : idx < 0
      · simp [hneg] at h
      · simp only [hneg, if_false] at h
        cases hcol : mapGet (buildColMap p.Table.Cols []) a.Column.Name.L with
        | none => rw [hcol] at h; simp at h
        | some column =>
          rw [hcol] at h
          simp only at h
          have hname : column.Name.L = a.Column.Name.L := colMap_name _ _ _ hcol
          by_cases hgen : column.IsGenerated = true
          · have htarget : targetsGenerated p a = true := by
              simp only [targetsGenerated, hcol, hgen]
            simp only [hgen, if_true] at h
            by_cases hsome : (extractDefaultExpr a.Expr).isSome = true
            · simp only [hsome, if_true] at h
              obtain ⟨h₁, h₂, entries, h₃, h₄⟩ := ih _ _ _ _ h
              refine ⟨?_, ?_, entries, h₃, ?_⟩
              · intro a' ha' hg'
                rcases List.mem_cons.mp ha' with heq | hmem
                · subst heq
                  exact (extractDefaultExpr_isSome _).mp hsome
                · exact h₁ a' hmem hg'
              · intro k
                rw [h₂ k]
                constructor
                · rintro (hk | ⟨a', ha', hg', hk⟩)
                  · exact Or.inl hk
                  · exact Or.inr ⟨a', List.mem_cons_of_mem _ ha', hg', hk⟩
                · rintro (hk | ⟨a', ha', hg', hk⟩)
                  · exact Or.inl hk
                  · rcases List.mem_cons.mp ha' with heq | hmem
                    · subst heq
                      rw [htarget] at hg'
                      exact absurd hg' (by decide)
                    · exact Or.inr ⟨a', hmem, hg', hk⟩
              · simpa [List.filter_cons, htarget] using h₄
            · simp [hsome] at h
          · have hgen' : column.IsGenerated = false := by simpa using hgen
            have htarget : targetsGenerated p a = false := by
              simp only [targetsGenerated, hcol, hgen']
            simp only [hgen', Bool.false_eq_true, if_false] at h
            cases hexpr : yield (assignedExpr a) with
            | error e => rw [hexpr] at h; simp at h
            | ok expr =>
              rw [hexpr] at h
              simp only at h
              cases hget : p.tableSchema.Columns.get? idx.toNat with
              | none => rw [hget] at h; simp at h
              | some col =>
                rw [hget] at h
                simp only at h
                cases hfield : p.tableColNames.get? idx.toNat with
                | none => rw [hfield] at h; simp at h
                | some field =>
                  rw [hfield] at h
                  simp only at h
                  obtain ⟨h₁, h₂, entries, h₃, h₄⟩ := ih _ _ _ _ h
                  refine ⟨?_, ?_,
                    { Col := col, ColName := field.ColName, Expr := expr } :: entries, ?_, ?_⟩
                  · intro a' ha' hg'
                    rcases List.mem_cons.mp ha' with heq | hmem
                    · subst heq
                      rw [htarget] at hg'
                      exact absurd hg' (by decide)
                    · exact h₁ a' hmem hg'
                  · intro k
                    rw [h₂ k]
                    constructor
                    · rintro (hk | ⟨a', ha', hg', hk⟩)
                      · by_cases hkey : column.Name.L = k
                        · exact Or.inr ⟨a, List.mem_cons_self _ _, htarget, hname ▸ hkey⟩
                        · rw [mapGet_mapSet_ne _ _ hkey] at hk
                          exact Or.inl hk
                      · exact Or.inr ⟨a', List.mem_cons_of_mem _ ha', hg', hk⟩
                    · rintro (hk | ⟨a', ha', hg', hk⟩)
                      · by_cases hkey : column.Name.L = k
                        · subst hkey
                          rw [mapGet_mapSet_self]
                          exact Or.inl rfl
                        · rw [mapGet_mapSet_ne _ _ hkey]
                          exact Or.inl hk
                      · rcases List.mem_cons.mp ha' with heq | hmem
                        · subst heq
                          rw [← hk, ← hname, mapGet_mapSet_self]
                          exact Or.inl rfl
                        · exact Or.inr ⟨a', hmem, hg', hk⟩
                  · rw [h₃]
                    simp
                  · simp only [List.filter_cons, htarget, Bool.not_false, if_true]
                    exact List.Forall₂.cons hexpr h₄

/-- C21, as stated, fails: in `... on duplicate key update nosuch = 1, c = 1` the second
assignment is the first that targets a generated column with a value other than DEFAULT,
yet `resolveOnDuplicate` fails with the unknown-column error of the first assignment, not
with the bad-generated-column error. -/
theorem on_duplicate_unknown_column_first :
    targetsGenerated (testInsertPlan []) { Column := testColumnName "c", Expr := testLiteral 1 }
        = true ∧
      testLiteral 1 ≠ ExprNode.DefaultExpr none ∧
      resolveOnDuplicate testEnv (testInsertPlan [])
          (testOnDuplicate [("nosuch", testLiteral 1), ("c", testLiteral 1)]) testGcWrite.Meta
          testEnv.rewriteWithPreprocess
        = .error (Err.ErrUnknownColumn "nosuch" "field list") :=
  ⟨by decide, by decide, rfl⟩

/-- C21, amended: for every ON DUPLICATE KEY UPDATE list, an assignment that targets a
generated column with a value other than the bare DEFAULT, found among the output names
and reached with every earlier assignment passing (its column found, and a bare DEFAULT
on a generated column or a value that compiles on another column), makes
`resolveOnDuplicate` fail with the bad-generated-column error naming the column and the
table; and when `resolveOnDuplicate` succeeds, every assignment to a generated column is
a bare DEFAULT, skipped (its column is not in the returned set and it adds no entry to
`OnDuplicate`), the returned set contains exactly the lower-cased names of the assigned
non-generated columns, and `OnDuplicate` is extended by one entry per such assignment, in
order. -/
theorem on_duplicate_generated (env : Env) (p : Insert) (onDup : List AstAssignment)
    (tblInfo : TableInfo) (yield : ExprNode → Except Err Expression) :
    (∀ i assign idx, onDup.get? i = some assign →
        env.FindFieldName p.tableColNames assign.Column = .ok idx → 0 ≤ idx →
        targetsGenerated p assign = true → assign.Expr ≠ ExprNode.DefaultExpr none →
        (∀ k a, k < i → onDup.get? k = some a → onDuplicatePasses env p yield a) →
        resolveOnDuplicate env p onDup tblInfo yield
          = .error (Err.ErrBadGeneratedColumn assign.Column.Name.O tblInfo.Name.O)) ∧
      (∀ onDupColSet plan, resolveOnDuplicate env p onDup tblInfo yield = .ok (onDupColSet, plan) →
        (∀ a ∈ onDup, targetsGenerated p a = true → a.Expr = ExprNode.DefaultExpr none) ∧
        (∀ k, (mapGet onDupColSet k).isSome = true ↔
          ∃ a ∈ onDup, targetsGenerated p a = false ∧ a.Column.Name.L = k) ∧
        ∃ entries, plan.OnDuplicate = p.OnDuplicate ++ entries ∧
          List.Forall₂ (fun a entry => yield (assignedExpr a) = .ok entry.Expr)
            (onDup.filter (fun a => !targetsGenerated p a)) entries) := by
  refine ⟨?_, ?_⟩
  · intro i assign idx hget hfind hidx htarget hdef hpass
    rw [List.get?_eq_getElem?] at hget
    obtain ⟨hi, hget'⟩ := List.getElem?_eq_some_iff.mp hget
    obtain ⟨set', onDuplicate', hadv⟩ := resolveOnDuplicateLoop_advance env p tblInfo yield i onDup
      [] p.OnDuplicate (Nat.le_of_lt hi) hpass
    have hneg : ¬ idx < 0 := by omega
    have hnot : ¬ (extractDefaultExpr assign.Expr).isSome = true := fun h =>
      hdef ((extractDefaultExpr_isSome _).mp h)
    unfold targetsGenerated at htarget
    cases hcol : mapGet (buildColMap p.Table.Cols []) assign.Column.Name.L with
    | none => rw [hcol] at htarget; simp at htarget
    | some column =>
      rw [hcol] at htarget
      simp only at htarget
      unfold resolveOnDuplicate
      rw [hadv, List.drop_eq_getElem_cons hi, hget']
      simp [resolveOnDuplicateLoop, hfind, hneg, hcol, htarget, hnot]
  · intro onDupColSet plan h
    unfold resolveOnDuplicate at h
    cases hloop : resolveOnDuplicateLoop env p tblInfo yield (buildColMap p.Table.Cols []) onDup []
        p.OnDuplicate with
    | error e => rw [hloop] at h; simp at h
    | ok res =>
      obtain ⟨set', onDuplicate'⟩ := res
      rw [hloop] at h
      simp only [Except.ok.injEq, Prod.mk.injEq] at h
      obtain ⟨hset, hplan⟩ := h
      obtain ⟨h₁, h₂, entries, h₃, h₄⟩ := resolveOnDuplicateLoop_ok env p tblInfo yield _ _ _ _ _ hloop
      refine ⟨h₁, ?_, entries, ?_, h₄⟩
      · intro k
        rw [← hset, h₂ k]
        simp [mapGet]
      · rw [← hplan]
        exact h₃

theorem on_duplicate_generated_witness :
    resolveOnDuplicate testEnv (testInsertPlan (["a", "b"].map testColumnName))
        (testOnDuplicate [("c", testLiteral 1)]) testGcWrite.Meta testEnv.rewriteWithPreprocess
      = .error (Err.ErrBadGeneratedColumn "c" "test_gc_write") :=
  (on_duplicate_generated testEnv (testInsertPlan (["a", "b"].map testColumnName))
    (testOnDuplicate [("c", testLiteral 1)]) testGcWrite.Meta testEnv.rewriteWithPreprocess).1
    0 { Column := testColumnName "c", Expr := testLiteral 1 } 2 rfl rfl (by decide) (by decide)
    (by decide) (by intro k a hk; omega)

/-! ## planner/core: access paths, USE INDEX without index list -/

theorem buildPublicPaths_cons (tbl : Table) :
    ∃ rest, buildPublicPaths tbl
      = { Index := none, IsTablePath := true,
          StoreType := if tbl.IsClusterTable then StoreType.TiDB else StoreType.TiKV,
          Forced := false } :: rest := by
  unfold buildPublicPaths
  exact ⟨_, rfl⟩

/-- C26: for every table, a single scan hint of type USE or FORCE INDEX without index list
(the nil name list the omitted list leaves), given in the statement or in a comment, means
"use no indexes": `getPossibleAccessPaths` returns only the table-scan path of the table,
marked forced, no index path, and no warning. -/
theorem use_index_without_names (tableHints : Option tableHintInfo)
    (indexHints : List IndexHint) (tbl : Table) (dbName tblName : CIStr) (hint : IndexHint)
    (hsingle : indexHints ++ commentIndexHints tableHints dbName tblName = [hint])
    (hscope : hint.HintScope = IndexHintScope.HintForScan)
    (hnames : hint.IndexNames = none)
    (hty : hint.HintType = IndexHintType.HintUse ∨ hint.HintType = IndexHintType.HintForce) :
    getPossibleAccessPaths tableHints indexHints tbl dbName tblName
      = (.ok [{ Index := none, IsTablePath := true,
                StoreType := if tbl.IsClusterTable then StoreType.TiDB else StoreType.TiKV,
                Forced := true }], []) := by
  obtain ⟨rest, hpub⟩ := buildPublicPaths_cons tbl
  have hty' : hint.HintType ≠ IndexHintType.HintIgnore := by
    rcases hty with h | h <;> rw [h] <;> decide
  have htp : getTablePath (buildPublicPaths tbl) = some 0 := by
    rw [hpub]
    simp [getTablePath, List.findIdx_cons]
  have hone : ∀ fromSyntax, applyIndexHint tbl.Meta fromSyntax hint
      { publicPaths := buildPublicPaths tbl, available := [], ignored := [],
        hasScanHint := false, hasUseOrForce := false, warnings := [] }
      = .ok { publicPaths := markForced (buildPublicPaths tbl) 0, available := [0], ignored := [],
              hasScanHint := true, hasUseOrForce := true, warnings := [] } := by
    intro fromSyntax
    simp [applyIndexHint, hscope, hnames, hty', htp, resolveHintNames]
  unfold getPossibleAccessPaths
  simp only [hsingle, applyIndexHints, hone]
  simp only [chooseAvailablePaths, removeIgnoredPaths, Bool.not_true, Bool.or_self,
    Bool.false_eq_true, if_false, List.length_nil, if_true]
  rw [hpub]
  simp [derefPaths, markForced]

theorem use_index_without_names_witness :
    getPossibleAccessPaths none
        [{ IndexNames := none, HintType := IndexHintType.HintUse,
           HintScope := IndexHintScope.HintForScan }]
        testIndexedTable { O := "test", L := "test" } { O := "t", L := "t" }
      = (.ok [force fallbackPath], []) :=
  use_index_without_names none _ testIndexedTable { O := "test", L := "test" }
    { O := "t", L := "t" }
    { IndexNames := none, HintType := IndexHintType.HintUse,
      HintScope := IndexHintScope.HintForScan }
    rfl rfl rfl (Or.inl rfl)

/-! ## planner/core: the handle-column tracker -/

theorem elems_length (heap : List (List (Option ExprColumn))) (s : ColSlice)
    (h : validSlice heap s) : (s.elems heap).length = s.len := by
  obtain ⟨backing, hget, hlen⟩ := h
  simp only [ColSlice.elems, hget, Option.getD_some, List.length_take]
  omega

theorem validSlice_lt (heap : List (List (Option ExprColumn))) (s : ColSlice)
    (h : validSlice heap s) : s.arr < heap.length := by
  obtain ⟨backing, hget, _⟩ := h
  rw [List.get?_eq_getElem?] at hget
  exact (List.getElem?_eq_some_iff.mp hget).1

theorem get?_append_heap (heap more : List (List (Option ExprColumn))) (i : Nat)
    (h : i < heap.length) : (heap ++ more).get? i = heap.get? i := by
  simp only [List.get?_eq_getElem?]
  exact List.getElem?_append_left h

theorem elems_append_heap (heap more : List (List (Option ExprColumn))) (s : ColSlice)
    (h : s.arr < heap.length) : s.elems (heap ++ more) = s.elems heap := by
  simp only [ColSlice.elems, get?_append_heap heap more s.arr h]

theorem validSlice_append_heap (heap more : List (List (Option ExprColumn))) (s : ColSlice)
    (h : validSlice heap s) : validSlice (heap ++ more) s := by
  obtain ⟨backing, hget, hlen⟩ := h
  exact ⟨backing, by rw [get?_append_heap heap more s.arr (validSlice_lt heap s ⟨backing, hget, hlen⟩), hget], hlen⟩

theorem set_append_last {α : Type} (l : List α) (x y : α) :
    (l ++ [x]).set l.length y = l ++ [y] := by
  induction l with
  | nil => rfl
  | cons a rest ih => simp [List.set, ih]

theorem get?_set_other (heap : List (List (Option ExprColumn))) (i j : Nat)
    (x : List (Option ExprColumn)) (h : j ≠ i) : (heap.set j x).get? i = heap.get? i := by
  simp only [List.get?_eq_getElem?]
  exact List.getElem?_set_ne h

theorem take_set_ge {α : Type} (l : List α) (n j : Nat) (x : α) (h : n ≤ j) :
    (l.set j x).take n = l.take n := by
  induction l generalizing n j with
  | nil => simp
  | cons a rest ih =>
    cases n with
    | zero => simp
    | succ n =>
      cases j with
      | zero => omega
      | succ j =>
        simp only [List.set_cons_succ, List.take_succ_cons, List.cons.injEq, true_and]
        exact ih n j (by omega)

theorem take_append_ge {α : Type} (l more : List α) (n : Nat) (h : n ≤ l.length) :
    (l ++ more).take n = l.take n := by
  rw [List.take_append_eq_append_take]
  have h0 : n - l.length = 0 := by omega
  simp [h0]

/-- Go `make` followed by `copy` of a slice: one new array holding the elements. -/
theorem clone_eq (heap : List (List (Option ExprColumn))) (v : ColSlice)
    (h : validSlice heap v) :
    copySlice (makeSlice heap v.len).1 (makeSlice heap v.len).2 v = heap ++ [v.elems heap] := by
  have hlt := validSlice_lt heap v h
  have hlen := elems_length heap v h
  simp only [copySlice, makeSlice, elems_append_heap heap _ v hlt]
  have htake : (v.elems heap).take v.len = v.elems heap := by
    rw [← hlen]
    exact List.take_length _
  have hget : (heap ++ [List.replicate v.len (none : Option ExprColumn)]).get? heap.length
      = some (List.replicate v.len none) := by
    simp [List.get?_eq_getElem?]
  rw [htake, hget, hlen]
  simp only [Option.getD_some, List.drop_replicate, Nat.sub_self, List.replicate_zero,
    List.append_nil]
  exact set_append_last heap _ _

/-- Go `append` on a slice: the new slice holds the old elements followed by the new
ones. -/
theorem appendSlice_elems (heap : List (List (Option ExprColumn))) (s : ColSlice)
    (v : List (Option ExprColumn)) (h : validSlice heap s) :
    (appendSlice heap s v).2.elems (appendSlice heap s v).1 = s.elems heap ++ v ∧
      validSlice (appendSlice heap s v).1 (appendSlice heap s v).2 ∧
      ((appendSlice heap s v).2.arr = s.arr ∨ (appendSlice heap s v).2.arr = heap.length) ∧
      heap.length ≤ (appendSlice heap s v).1.length := by
  obtain ⟨backing, hget, hlen⟩ := h
  have hlt := validSlice_lt heap s ⟨backing, hget, hlen⟩
  have hl : (backing.take s.len ++ v).length = s.len + v.length := by
    simp only [List.length_append, List.length_take]
    omega
  by_cases hcap : s.len + v.length ≤ backing.length
  · have happ : appendSlice heap s v
        = (heap.set s.arr (backing.take s.len ++ v ++ backing.drop (s.len + v.length)),
            { arr := s.arr, len := s.len + v.length }) := by
      simp only [appendSlice, hget, Option.getD_some, hcap, if_true]
    have hset : (heap.set s.arr (backing.take s.len ++ v ++ backing.drop (s.len + v.length))).get?
        s.arr = some (backing.take s.len ++ v ++ backing.drop (s.len + v.length)) := by
      simp only [List.get?_eq_getElem?]
      rw [List.getElem?_set_self hlt]
    rw [happ]
    refine ⟨?_, ⟨_, hset, ?_⟩, Or.inl rfl, ?_⟩
    · show ((List.get? _ s.arr).getD []).take (s.len + v.length) = _
      rw [hset]
      show List.take (s.len + v.length) _ = ((heap.get? s.arr).getD []).take s.len ++ v
      rw [hget]
      simp only [Option.getD_some]
      rw [← hl, List.take_append_of_le_length (le_refl _), List.take_length]
    · show s.len + v.length ≤ _
      simp only [List.length_append, List.length_take, List.length_drop]
      omega
    · show heap.length ≤ (heap.set _ _).length
      rw [List.length_set]
  · have happ : appendSlice heap s v
        = (heap ++ [backing.take s.len ++ v], { arr := heap.length, len := s.len + v.length }) := by
      simp only [appendSlice, hget, Option.getD_some, hcap, if_false]
    have hlast : (heap ++ [backing.take s.len ++ v]).get? heap.length
        = some (backing.take s.len ++ v) := by
      simp [List.get?_eq_getElem?]
    rw [happ]
    refine ⟨?_, ⟨_, hlast, ?_⟩, Or.inr rfl, ?_⟩
    · show ((List.get? _ heap.length).getD []).take (s.len + v.length) = _
      rw [hlast]
      show List.take (s.len + v.length) _ = ((heap.get? s.arr).getD []).take s.len ++ v
      rw [hget]
      simp only [Option.getD_some]
      rw [← hl, List.take_length]
    · show s.len + v.length ≤ _
      omega
    · show heap.length ≤ (heap ++ _).length
      simp

/-- Go `append` on a slice leaves the other arrays as they are. -/
theorem appendSlice_frame (heap : List (List (Option ExprColumn))) (s : ColSlice)
    (v : List (Option ExprColumn)) (i : Nat) (hi : i < heap.length) (hne : i ≠ s.arr) :
    (appendSlice heap s v).1.get? i = heap.get? i := by
  unfold appendSlice
  simp only
  split
  · exact get?_set_other heap i s.arr _ (fun h => hne h.symm)
  · exact get?_append_heap heap _ i hi

theorem appendSlice_take (heap : List (List (Option ExprColumn))) (s : ColSlice)
    (v : List (Option ExprColumn)) (n : Nat) (hn : n ≤ s.arr) (hle : n ≤ heap.length) :
    (appendSlice heap s v).1.take n = heap.take n := by
  unfold appendSlice
  simp only
  split
  · exact take_set_ge heap n s.arr _ hn
  · exact take_append_ge heap _ n hle

theorem mergeInv_old_slice {old heap : List (List (Option ExprColumn))}
    {newMap : List (Int × ColSlice)} (hinv : MergeInv old heap newMap) (v : ColSlice)
    (hv : validSlice old v) : validSlice heap v ∧ v.elems heap = v.elems old := by
  have hlt := validSlice_lt old v hv
  have hget : heap.get? v.arr = old.get? v.arr := by
    have h₁ : (heap.take old.length).get? v.arr = heap.get? v.arr := by
      simp only [List.get?_eq_getElem?]
      exact List.getElem?_take_of_lt hlt
    rw [← h₁, hinv.old_kept]
  obtain ⟨backing, hb, hlen⟩ := hv
  exact ⟨⟨backing, by rw [hget, hb], hlen⟩, by simp only [ColSlice.elems, hget]⟩

/-- One `make` and `copy` step of `mergeAndPush`: the invariant is kept and the key holds
a copy of the column list. -/
theorem mergeInv_clone {old heap : List (List (Option ExprColumn))}
    {newMap : List (Int × ColSlice)} (hinv : MergeInv old heap newMap) (k : Int) (v : ColSlice)
    (hv : validSlice old v) :
    MergeInv old (copySlice (makeSlice heap v.len).1 (makeSlice heap v.len).2 v)
        (mapSet newMap k (makeSlice heap v.len).2) ∧
      ∀ k', handleCols (copySlice (makeSlice heap v.len).1 (makeSlice heap v.len).2 v)
          (mapSet newMap k (makeSlice heap v.len).2) k'
        = if k' = k then some (v.elems old) else handleCols heap newMap k' := by
  obtain ⟨hvalid, helems⟩ := mergeInv_old_slice hinv v hv
  rw [clone_eq heap v hvalid, helems]
  have hlen := elems_length old v hv
  have hlast : (heap ++ [v.elems old]).get? heap.length = some (v.elems old) := by
    simp [List.get?_eq_getElem?]
  have hnew : validSlice (heap ++ [v.elems old]) (makeSlice heap v.len).2 :=
    ⟨v.elems old, hlast, by rw [hlen]; exact le_refl _⟩
  refine ⟨⟨?_, ?_, ?_, ?_⟩, ?_⟩
  · rw [take_append_ge heap _ _ hinv.old_le]
    exact hinv.old_kept
  · simp only [List.length_append, List.length_singleton]
    exact Nat.le_succ_of_le hinv.old_le
  · intro k' s' hs'
    by_cases hk : k = k'
    · subst hk
      rw [mapGet_mapSet_self] at hs'
      rw [← Option.some.inj hs']
      exact ⟨hinv.old_le, hnew⟩
    · rw [mapGet_mapSet_ne _ _ hk] at hs'
      obtain ⟨h₁, h₂⟩ := hinv.fresh k' s' hs'
      exact ⟨h₁, validSlice_append_heap heap _ s' h₂⟩
  · intro k₁ k₂ s₁ s₂ h₁ h₂ hne
    by_cases hk₁ : k = k₁
    · subst hk₁
      rw [mapGet_mapSet_self] at h₁
      rw [mapGet_mapSet_ne _ _ hne] at h₂
      have hlt := validSlice_lt heap s₂ (hinv.fresh k₂ s₂ h₂).2
      rw [← Option.some.inj h₁]
      show heap.length ≠ s₂.arr
      omega
    · rw [mapGet_mapSet_ne _ _ hk₁] at h₁
      by_cases hk₂ : k = k₂
      · subst hk₂
        rw [mapGet_mapSet_self] at h₂
        have hlt := validSlice_lt heap s₁ (hinv.fresh k₁ s₁ h₁).2
        rw [← Option.some.inj h₂]
        show s₁.arr ≠ heap.length
        omega
      · rw [mapGet_mapSet_ne _ _ hk₂] at h₂
        exact hinv.apart k₁ k₂ s₁ s₂ h₁ h₂ hne
  · intro k'
    by_cases hk : k' = k
    · subst hk
      simp only [handleCols, mapGet_mapSet_self, Option.map_some', if_true]
      show some (((List.get? _ heap.length).getD []).take v.len) = _
      rw [hlast, Option.getD_some, ← hlen, List.take_length]
    · have hk' : k ≠ k' := fun h => hk h.symm
      simp only [handleCols, mapGet_mapSet_ne _ _ hk', hk, if_false]
      cases hs : mapGet newMap k' with
      | none => rfl
      | some s' =>
        have hlt := validSlice_lt heap s' (hinv.fresh k' s' hs).2
        simp only [Option.map_some', elems_append_heap heap _ s' hlt]

/-- One `append` step of `mergeAndPush`: the invariant is kept and the key holds its
column list followed by the appended one. -/
theorem mergeInv_append {old heap : List (List (Option ExprColumn))}
    {newMap : List (Int × ColSlice)} (hinv : MergeInv old heap newMap) (k : Int) (s : ColSlice)
    (vals : List (Option ExprColumn)) (hs : mapGet newMap k = some s) :
    MergeInv old (appendSlice heap s vals).1 (mapSet newMap k (appendSlice heap s vals).2) ∧
      ∀ k', handleCols (appendSlice heap s vals).1
          (mapSet newMap k (appendSlice heap s vals).2) k'
        = if k' = k then some (s.elems heap ++ vals) else handleCols heap newMap k' := by
  obtain ⟨hfresh, hvalid⟩ := hinv.fresh k s hs
  obtain ⟨a₁, a₂, a₃, a₄⟩ := appendSlice_elems heap s vals hvalid
  have hslt := validSlice_lt heap s hvalid
  have hother : ∀ k' s', k ≠ k' → mapGet newMap k' = some s' →
      s'.arr ≠ s.arr ∧ s'.arr < heap.length ∧
        (appendSlice heap s vals).1.get? s'.arr = heap.get? s'.arr := by
    intro k' s' hne hs'
    have hne' : s'.arr ≠ s.arr := fun h => hinv.apart k k' s s' hs hs' hne h.symm
    have hlt := validSlice_lt heap s' (hinv.fresh k' s' hs').2
    exact ⟨hne', hlt, appendSlice_frame heap s vals s'.arr hlt hne'⟩
  refine ⟨⟨?_, ?_, ?_, ?_⟩, ?_⟩
  · rw [appendSlice_take heap s vals _ hfresh hinv.old_le]
    exact hinv.old_kept
  · exact Nat.le_trans hinv.old_le a₄
  · intro k' s' hs'
    by_cases hk : k = k'
    · subst hk
      rw [mapGet_mapSet_self] at hs'
      rw [← Option.some.inj hs']
      refine ⟨?_, a₂⟩
      rcases a₃ with h | h
      · rw [h]
        exact hfresh
      · rw [h]
        exact hinv.old_le
    · rw [mapGet_mapSet_ne _ _ hk] at hs'
      obtain ⟨_, _, hget⟩ := hother k' s' hk hs'
      obtain ⟨h₁, backing, hb, hlen⟩ := hinv.fresh k' s' hs'
      exact ⟨h₁, backing, by rw [hget, hb], hlen⟩
  · intro k₁ k₂ s₁ s₂ h₁ h₂ hne
    by_cases hk₁ : k = k₁
    · subst hk₁
      rw [mapGet_mapSet_self] at h₁
      rw [mapGet_mapSet_ne _ _ hne] at h₂
      obtain ⟨hne', hlt, _⟩ := hother k₂ s₂ hne h₂
      rw [← Option.some.inj h₁]
      rcases a₃ with h | h
      · rw [h]
        exact fun h' => hne' h'.symm
      · rw [h]
        omega
    · rw [mapGet_mapSet_ne _ _ hk₁] at h₁
      by_cases hk₂ : k = k₂
      · subst hk₂
        rw [mapGet_mapSet_self] at h₂
        obtain ⟨hne', hlt, _⟩ := hother k₁ s₁ hk₁ h₁
        rw [← Option.some.inj h₂]
        rcases a₃ with h | h
        · rw [h]
          exact hne'
        · rw [h]
          omega
      · rw [mapGet_mapSet_ne _ _ hk₂] at h₂
        exact hinv.apart k₁ k₂ s₁ s₂ h₁ h₂ hne
  · intro k'
    by_cases hk : k' = k
    · subst hk
      simp only [handleCols, mapGet_mapSet_self, Option.map_some', if_true, a₁]
    · have hk' : k ≠ k' := fun h => hk h.symm
      simp only [handleCols, mapGet_mapSet_ne _ _ hk', hk, if_false]
      cases hs' : mapGet newMap k' with
      | none => rfl
      | some s' =>
        obtain ⟨_, _, hget⟩ := hother k' s' hk' hs'
        simp only [Option.map_some', ColSlice.elems, hget]

theorem mapGet_none_of_not_mem {κ ν : Type} [DecidableEq κ] (m : List (κ × ν)) (k : κ)
    (h : k ∉ m.map Prod.fst) : mapGet m k = none := by
  induction m with
  | nil => rfl
  | cons entry rest ih =>
    obtain ⟨k', v⟩ := entry
    simp only [List.map_cons, List.mem_cons, not_or] at h
    have hne : ¬ k' = k := fun heq => h.1 heq.symm
    simp only [mapGet, hne, if_false]
    exact ih h.2

/-- The first loop of `mergeAndPush`: every key of `m1` holds a copy of its column list,
the other keys are as before. -/
theorem copyEntries_spec (old : List (List (Option ExprColumn))) :
    ∀ (entries : List (Int × ColSlice)) (heap : List (List (Option ExprColumn)))
      (newMap : List (Int × ColSlice)),
      MergeInv old heap newMap → (∀ entry ∈ entries, validSlice old entry.2) →
      (entries.map Prod.fst).Nodup →
      MergeInv old (copyEntries heap entries newMap).1 (copyEntries heap entries newMap).2 ∧
        ∀ k, handleCols (copyEntries heap entries newMap).1 (copyEntries heap entries newMap).2 k
          = match mapGet entries k with
            | some v => some (v.elems old)
            | none => handleCols heap newMap k := by
  intro entries
  induction entries with
  | nil =>
    intro heap newMap hinv _ _
    exact ⟨hinv, fun k => rfl⟩
  | cons entry rest ih =>
    intro heap newMap hinv hvalid hnodup
    obtain ⟨k, v⟩ := entry
    simp only [List.map_cons, List.nodup_cons] at hnodup
    obtain ⟨h₁, h₂⟩ := mergeInv_clone hinv k v (hvalid (k, v) (List.mem_cons_self _ _))
    obtain ⟨g₁, g₂⟩ := ih _ _ h₁ (fun e he => hvalid e (List.mem_cons_of_mem _ he)) hnodup.2
    refine ⟨g₁, ?_⟩
    intro k'
    show handleCols (copyEntries _ rest _).1 (copyEntries _ rest _).2 k' = _
    rw [g₂ k', h₂ k']
    by_cases hk : k = k'
    · subst hk
      simp only [mapGet, if_true, mapGet_none_of_not_mem rest k hnodup.1]
    · have hk' : ¬ k' = k := fun h => hk h.symm
      simp only [mapGet, hk, hk', if_false]

/-- The second loop of `mergeAndPush`: every key of `m2` holds what it held before, if
anything, followed by its column list of `m2`; the other keys are as before. -/
theorem mergeEntries_spec (old : List (List (Option ExprColumn))) :
    ∀ (entries : List (Int × ColSlice)) (heap : List (List (Option ExprColumn)))
      (newMap : List (Int × ColSlice)),
      MergeInv old heap newMap → (∀ entry ∈ entries, validSlice old entry.2) →
      (entries.map Prod.fst).Nodup →
      MergeInv old (mergeEntries heap entries newMap).1 (mergeEntries heap entries newMap).2 ∧
        ∀ k, handleCols (mergeEntries heap entries newMap).1 (mergeEntries heap entries newMap).2 k
          = match mapGet entries k with
            | some v => some ((handleCols heap newMap k).getD [] ++ v.elems old)
            | none => handleCols heap newMap k := by
  intro entries
  induction entries with
  | nil =>
    intro heap newMap hinv _ _
    exact ⟨hinv, fun k => rfl⟩
  | cons entry rest ih =>
    intro heap newMap hinv hvalid hnodup
    obtain ⟨k, v⟩ := entry
    simp only [List.map_cons, List.nodup_cons] at hnodup
    have hv := hvalid (k, v) (List.mem_cons_self _ _)
    have hstep : ∃ heap₁ newMap₁, mergeEntries heap ((k, v) :: rest) newMap
          = mergeEntries heap₁ rest newMap₁ ∧ MergeInv old heap₁ newMap₁ ∧
        ∀ k', handleCols heap₁ newMap₁ k'
          = if k' = k then some ((handleCols heap newMap k).getD [] ++ v.elems old)
            else handleCols heap newMap k' := by
      cases hs : mapGet newMap k with
      | some s =>
        obtain ⟨h₁, h₂⟩ := mergeInv_append hinv k s (v.elems heap) hs
        refine ⟨_, _, by simp only [mergeEntries, hs], h₁, ?_⟩
        intro k'
        rw [h₂ k', (mergeInv_old_slice hinv v hv).2]
        simp only [handleCols, hs, Option.map_some', Option.getD_some]
      | none =>
        obtain ⟨h₁, h₂⟩ := mergeInv_clone hinv k v hv
        refine ⟨_, _, by simp only [mergeEntries, hs], h₁, ?_⟩
        intro k'
        rw [h₂ k']
        simp only [handleCols, hs, Option.map_none', Option.getD_none, List.nil_append]
    obtain ⟨heap₁, newMap₁, heq, h₁, h₂⟩ := hstep
    obtain ⟨g₁, g₂⟩ := ih _ _ h₁ (fun e he => hvalid e (List.mem_cons_of_mem _ he)) hnodup.2
    rw [heq]
    refine ⟨g₁, ?_⟩
    intro k'
    rw [g₂ k', h₂ k']
    by_cases hk : k = k'
    · subst hk
      simp only [mapGet, if_true, mapGet_none_of_not_mem rest k hnodup.1]
    · have hk' : ¬ k' = k := fun h => hk h.symm
      simp only [mapGet, hk, hk', if_false]

/-- C24: for all handle maps `m1` and `m2` (each key once, their column lists in the
heap), `mergeAndPush m1 m2` pushes one new map: a key is in it exactly when it is in `m1`
or in `m2`; a key of only one map maps to that map's column list, a key of both to the
list of `m1` followed by the list of `m2`; the lists of the new map lie in arrays made by
the call, and every array that existed before, hence `m1`, `m2` and every map already on
the stack, is left unchanged. -/
theorem mergeAndPush_union (heap : List (List (Option ExprColumn))) (hch : handleColHelper)
    (m1 m2 : List (Int × ColSlice))
    (hkeys₁ : (m1.map Prod.fst).Nodup) (hkeys₂ : (m2.map Prod.fst).Nodup)
    (hvalid₁ : ∀ entry ∈ m1, validSlice heap entry.2)
    (hvalid₂ : ∀ entry ∈ m2, validSlice heap entry.2) :
    ∃ newMap,
      (hch.mergeAndPush heap m1 m2).2.id2HandleMapStack = hch.id2HandleMapStack ++ [newMap] ∧
      (hch.mergeAndPush heap m1 m2).2.stackTail = hch.stackTail + 1 ∧
      (∀ k, (mapGet newMap k).isSome = ((mapGet m1 k).isSome || (mapGet m2 k).isSome)) ∧
      (∀ k, handleCols (hch.mergeAndPush heap m1 m2).1 newMap k
        = match handleCols heap m1 k, handleCols heap m2 k with
          | some cols₁, some cols₂ => some (cols₁ ++ cols₂)
          | some cols₁, none => some cols₁
          | none, some cols₂ => some cols₂
          | none, none => none) ∧
      (∀ k s, mapGet newMap k = some s → heap.length ≤ s.arr) ∧
      (hch.mergeAndPush heap m1 m2).1.take heap.length = heap ∧
      (∀ s, validSlice heap s → s.elems (hch.mergeAndPush heap m1 m2).1 = s.elems heap) := by
  have hinit : MergeInv heap heap [] :=
    ⟨List.take_length heap, le_refl _, fun k s hs => by simp [mapGet] at hs,
      fun k k' s s' hs => by simp [mapGet] at hs⟩
  obtain ⟨c₁, c₂⟩ := copyEntries_spec heap m1 heap [] hinit hvalid₁ hkeys₁
  obtain ⟨g₁, g₂⟩ := mergeEntries_spec heap m2 _ _ c₁ hvalid₂ hkeys₂
  have hcols : ∀ k, handleCols (hch.mergeAndPush heap m1 m2).1
      (mergeEntries (copyEntries heap m1 []).1 m2 (copyEntries heap m1 []).2).2 k
      = match handleCols heap m1 k, handleCols heap m2 k with
        | some cols₁, some cols₂ => some (cols₁ ++ cols₂)
        | some cols₁, none => some cols₁
        | none, some cols₂ => some cols₂
        | none, none => none := by
    intro k
    show handleCols (mergeEntries _ m2 _).1 (mergeEntries _ m2 _).2 k = _
    rw [g₂ k, c₂ k]
    cases h₁ : mapGet m1 k <;> cases h₂ : mapGet m2 k <;>
      simp [handleCols, h₁, h₂, mapGet]
  refine ⟨(mergeEntries (copyEntries heap m1 []).1 m2 (copyEntries heap m1 []).2).2,
    rfl, rfl, ?_, hcols, ?_, g₁.old_kept, ?_⟩
  · intro k
    have h := congrArg Option.isSome (hcols k)
    simp only [handleCols, Option.isSome_map'] at h
    rw [h]
    cases h₁ : mapGet m1 k <;> cases h₂ : mapGet m2 k <;> simp
  · intro k s hs
    exact (g₁.fresh k s hs).1
  · intro s hs
    exact (mergeInv_old_slice g₁ s hs).2

theorem mergeAndPush_union_witness :
    ∃ newMap,
      (handleColHelper.mergeAndPush
          [[some (placeholderColumn 1)], [some (placeholderColumn 2)], [some (placeholderColumn 3)]]
          { id2HandleMapStack := [], stackTail := 0 }
          [(1, { arr := 0, len := 1 }), (2, { arr := 1, len := 1 })]
          [(2, { arr := 2, len := 1 })]).2.id2HandleMapStack = [] ++ [newMap] ∧
        handleCols
          (handleColHelper.mergeAndPush
            [[some (placeholderColumn 1)], [some (placeholderColumn 2)], [some (placeholderColumn 3)]]
            { id2HandleMapStack := [], stackTail := 0 }
            [(1, { arr := 0, len := 1 }), (2, { arr := 1, len := 1 })]
            [(2, { arr := 2, len := 1 })]).1 newMap 2
          = some [some (placeholderColumn 2), some (placeholderColumn 3)] := by
  obtain ⟨newMap, h₁, _, _, h₂, _⟩ :=
    mergeAndPush_union
      [[some (placeholderColumn 1)], [some (placeholderColumn 2)], [some (placeholderColumn 3)]]
      { id2HandleMapStack := [], stackTail := 0 }
      [(1, { arr := 0, len := 1 }), (2, { arr := 1, len := 1 })]
      [(2, { arr := 2, len := 1 })]
      (by decide) (by decide)
      (by
        intro entry hentry
        simp only [List.mem_cons, List.mem_singleton, List.not_mem_nil, or_false] at hentry
        rcases hentry with h | h
        · subst h
          exact ⟨_, rfl, by decide⟩
        · subst h
          exact ⟨_, rfl, by decide⟩)
      (by
        intro entry hentry
        simp only [List.mem_singleton] at hentry
        subst hentry
        exact ⟨_, rfl, by decide⟩)
  exact ⟨newMap, h₁, h₂ 2⟩


/-! ### SHOW statements -/

/-- A kind that declares column types declares as many types as names. -/
theorem declaredColumns_types_length (ColDescFieldNames : Bool → List String) (s : ShowStmt)
    (isView : Bool) :
    (declaredColumns ColDescFieldNames s isView).2 = [] ∨
      (declaredColumns ColDescFieldNames s isView).2.length =
        (declaredColumns ColDescFieldNames s isView).1.length := by
  unfold declaredColumns
  split <;> first
    | (left; rfl)
    | (right; rfl)
    | (left; split <;> rfl)

/-- The number of columns `showColumnsFrom` makes. -/
theorem showColumnsFrom_length (ftypes : List Nat) (names : List String) (i : Nat) :
    (showColumnsFrom ftypes i names).length = names.length := by
  induction names generalizing i with
  | nil => rfl
  | cons name rest ih => simp only [showColumnsFrom, List.length_cons, ih]

/-- The column `showColumnsFrom` makes at a position. -/
theorem showColumnsFrom_get? (ftypes : List Nat) (names : List String) (i k : Nat)
    (hk : k < names.length) :
    (showColumnsFrom ftypes i names).get? k =
      some { UniqueID := 0, RetType := some { Tp := declaredType ftypes (i + k), Flag := 0 } } := by
  induction names generalizing i k with
  | nil => exact absurd hk (Nat.not_lt_zero _)
  | cons name rest ih =>
    cases k with
    | zero => rfl
    | succ k =>
      simp only [showColumnsFrom, List.get?_cons_succ]
      rw [ih (i + 1) k (Nat.lt_of_succ_lt_succ hk), Nat.add_assoc, Nat.add_comm 1 k]

/-- The loop of `buildShowSchema` when the type list is empty or covers the names that
are left: it appends one column and one output name per name. -/
theorem showSchemaLoop_spec (ftypes : List Nat) (names : List String) (i : Nat)
    (schema : Schema) (outputNames : List FieldName)
    (h : ftypes = [] ∨ i + names.length ≤ ftypes.length) :
    showSchemaLoop ftypes i names schema outputNames =
      .ok ({ schema with Columns := schema.Columns ++ showColumnsFrom ftypes i names },
           outputNames ++ names.map showFieldName) := by
  induction names generalizing i schema outputNames with
  | nil => simp only [showSchemaLoop, showColumnsFrom, List.append_nil, List.map_nil]
  | cons name rest ih =>
    have hrest : ftypes = [] ∨ i + 1 + rest.length ≤ ftypes.length := by
      rcases h with h | h
      · exact Or.inl h
      · right
        simp only [List.length_cons] at h
        omega
    by_cases hlen : ftypes.length = 0
    · have hnil : ftypes.get? i = none := by
        rw [List.length_eq_zero] at hlen
        rw [hlen]
        rfl
      have hty : declaredType ftypes i = TypeVarchar := by
        simp only [declaredType, hnil]
      simp only [showSchemaLoop, hlen, ne_eq, not_true_eq_false, if_false]
      rw [ih (i + 1) _ _ hrest]
      simp only [showColumnsFrom, hty, showFieldName, List.append_assoc, List.singleton_append,
        List.map_cons]
    · have hi : i < ftypes.length := by
        rcases h with h | h
        · rw [h] at hlen
          exact absurd rfl hlen
        · simp only [List.length_cons] at h
          omega
      obtain ⟨listed, hlisted⟩ : ∃ listed, ftypes.get? i = some listed :=
        ⟨ftypes.get ⟨i, hi⟩, List.get?_eq_get hi⟩
      have hty : declaredType ftypes i =
          (if listed ≠ TypeUnspecified then listed else TypeVarchar) := by
        simp only [declaredType, hlisted]
      simp only [showSchemaLoop, hlen, ne_eq, not_false_eq_true, if_true, hlisted]
      rw [ih (i + 1) _ _ hrest]
      simp only [showColumnsFrom, hty, showFieldName, List.append_assoc, List.singleton_append,
        List.map_cons, ne_eq]

/-- For a kind of the generic branch `buildShowSchema` is the loop over the declared
names. -/
theorem buildShowSchema_generic (ColDescFieldNames : Bool → List String) (infoschemaName : String)
    (s : ShowStmt) (isView : Bool) (hkind : genericShowKind s.Tp = true) :
    buildShowSchema ColDescFieldNames infoschemaName s isView =
      showSchemaLoop (declaredColumns ColDescFieldNames s isView).2 0
        (declaredColumns ColDescFieldNames s isView).1 { Columns := [], Keys := [] } [] := by
  unfold buildShowSchema
  unfold genericShowKind at hkind
  split <;> simp_all

/-- The result of `buildShowSchema` for a kind of the generic branch. -/
theorem buildShowSchema_spec (ColDescFieldNames : Bool → List String) (infoschemaName : String)
    (s : ShowStmt) (isView : Bool) (hkind : genericShowKind s.Tp = true) :
    buildShowSchema ColDescFieldNames infoschemaName s isView =
      .ok ({ Columns := showColumnsFrom (declaredColumns ColDescFieldNames s isView).2 0
               (declaredColumns ColDescFieldNames s isView).1, Keys := [] },
           (declaredColumns ColDescFieldNames s isView).1.map showFieldName) := by
  rw [buildShowSchema_generic ColDescFieldNames infoschemaName s isView hkind,
    showSchemaLoop_spec]
  · simp only [List.nil_append]
  · rcases declaredColumns_types_length ColDescFieldNames s isView with h | h
    · exact Or.inl h
    · right
      omega

/-- On every kind and every option `buildShowSchema` returns a schema. -/
theorem buildShowSchema_ok (ColDescFieldNames : Bool → List String) (infoschemaName : String)
    (s : ShowStmt) (isView : Bool) :
    ∃ r, buildShowSchema ColDescFieldNames infoschemaName s isView = .ok r := by
  by_cases hkind : genericShowKind s.Tp = true
  · exact ⟨_, buildShowSchema_spec ColDescFieldNames infoschemaName s isView hkind⟩
  · unfold genericShowKind at hkind
    unfold buildShowSchema
    split <;> first
      | exact ⟨_, rfl⟩
      | simp_all

/-- C30: for a kind that the generic branch of `buildShowSchema` handles, the schema and
the output names have one entry per declared column name, in the order of the declared
names (the output name of position i is the declared name i), and the column of position
i has the type listed for it when one is listed and is not `TypeUnspecified`, and is a
VARCHAR otherwise; for SHOW COLLATION the types are varchar, varchar, bigint, varchar,
varchar, bigint. -/
theorem show_schema_generic (ColDescFieldNames : Bool → List String) (infoschemaName : String)
    (s : ShowStmt) (isView : Bool) (hkind : genericShowKind s.Tp = true) :
    ∃ schema outputNames,
      buildShowSchema ColDescFieldNames infoschemaName s isView = .ok (schema, outputNames) ∧
      schema.Columns.length = (declaredColumns ColDescFieldNames s isView).1.length ∧
      outputNames.length = (declaredColumns ColDescFieldNames s isView).1.length ∧
      outputNames.map (fun name => name.ColName) =
        (declaredColumns ColDescFieldNames s isView).1.map NewCIStr ∧
      (∀ i col, schema.Columns.get? i = some col →
        (∀ listed, (declaredColumns ColDescFieldNames s isView).2.get? i = some listed →
          listed ≠ TypeUnspecified → columnType col = some listed) ∧
        ((declaredColumns ColDescFieldNames s isView).2.get? i = none ∨
          (declaredColumns ColDescFieldNames s isView).2.get? i = some TypeUnspecified →
          columnType col = some TypeVarchar)) ∧
      (s.Tp = ShowStmtType.ShowCollation →
        schema.Columns.map columnType =
          [some TypeVarchar, some TypeVarchar, some TypeLonglong, some TypeVarchar,
           some TypeVarchar, some TypeLonglong]) := by
  refine ⟨_, _, buildShowSchema_spec ColDescFieldNames infoschemaName s isView hkind,
    showColumnsFrom_length _ _ _, ?_, ?_, ?_, ?_⟩
  · simp only [List.length_map]
  · simp only [List.map_map]
    rfl
  · intro i col hcol
    have hi : i < (declaredColumns ColDescFieldNames s isView).1.length := by
      have := List.get?_eq_some.mp hcol
      obtain ⟨hlt, _⟩ := this
      rw [showColumnsFrom_length] at hlt
      exact hlt
    rw [showColumnsFrom_get? _ _ 0 i hi, Nat.zero_add] at hcol
    have hcol' := (Option.some.inj hcol).symm
    subst hcol'
    refine ⟨?_, ?_⟩
    · intro listed hlisted hne
      simp only [columnType, declaredType, hlisted, hne, Option.map_some', if_true, ne_eq,
        not_false_eq_true]
    · intro h
      rcases h with h | h
      · simp only [columnType, declaredType, h, Option.map_some']
      · simp only [columnType, declaredType, h, Option.map_some', ne_eq, not_true_eq_false,
          if_false]
  · intro htp
    simp only [declaredColumns, htp]
    rfl

/-- C30 on `SHOW COLLATION`: six columns named Collation, Charset, Id, Default, Compiled,
Sortlen, of the types varchar, varchar, bigint, varchar, varchar, bigint. -/
theorem show_schema_generic_witness :
    ∃ schema outputNames,
      buildShowSchema testShowEnv.ColDescFieldNames "INFORMATION_SCHEMA" testShowCollation false =
        .ok (schema, outputNames) ∧
      schema.Columns.length = 6 ∧
      outputNames.map (fun name => name.ColName.O) =
        ["Collation", "Charset", "Id", "Default", "Compiled", "Sortlen"] ∧
      schema.Columns.map columnType = [some 15, some 15, some 8, some 15, some 15, some 8] := by
  obtain ⟨schema, outputNames, h₁, h₂, _, h₄, _, h₆⟩ :=
    show_schema_generic testShowEnv.ColDescFieldNames "INFORMATION_SCHEMA" testShowCollation
      false (by decide)
  refine ⟨schema, outputNames, h₁, h₂, ?_, h₆ rfl⟩
  have h := congrArg (List.map (fun c : CIStr => c.O)) h₄
  simp only [List.map_map] at h
  exact h


/-- The end of `buildShow` returns a plan. -/
theorem finishShow_ok (env : ShowEnv) (p np : Plan) (st : ShowBuilderState) :
    ∃ r, finishShow env p np st = .ok r := by
  unfold finishShow
  split
  · exact ⟨_, rfl⟩
  · exact ⟨_, rfl⟩

/-- An error of the WHERE part of `buildShow` is an error of `buildSelection`. -/
theorem buildShowWhere_error (env : ShowEnv) (showStmt : ShowStmt) (p np : Plan)
    (st : ShowBuilderState) (e : Err) (h : buildShowWhere env showStmt p np st = .error e) :
    showStmt.Where ≠ none ∧ ∃ plan cond id, env.buildSelection plan cond id = .error e := by
  cases hw : showStmt.Where with
  | none =>
    simp only [buildShowWhere, hw] at h
    obtain ⟨r, hr⟩ := finishShow_ok env p np st
    rw [hr] at h
    cases h
  | some cond =>
    simp only [buildShowWhere, hw] at h
    refine ⟨fun hn => Option.noConfusion hn, ?_⟩
    split at h
    · next e' hsel =>
      cases h
      exact ⟨_, _, _, hsel⟩
    · next np' planColumnID hsel =>
      obtain ⟨r', hr'⟩ := finishShow_ok env p np' { st with planColumnID := planColumnID }
      rw [hr'] at h
      cases h

/-- An error of the LIKE part of `buildShow` is the panic on a missing first column or an
error of `buildSelection`. -/
theorem buildShowPattern_error (env : ShowEnv) (showStmt : ShowStmt) (p : Plan)
    (st : ShowBuilderState) (e : Err) (h : buildShowPattern env showStmt p st = .error e)
    (he : e ≠ Err.runtimePanic) :
    (showStmt.Pattern ≠ none ∨ showStmt.Where ≠ none) ∧
      ∃ plan cond id, env.buildSelection plan cond id = .error e := by
  cases hp : showStmt.Pattern with
  | none =>
    simp only [buildShowPattern, hp] at h
    obtain ⟨hw, hsel⟩ := buildShowWhere_error env showStmt p p st e h
    exact ⟨Or.inr hw, hsel⟩
  | some pattern =>
    simp only [buildShowPattern, hp] at h
    refine ⟨Or.inl (fun hn => Option.noConfusion hn), ?_⟩
    split at h
    · cases h
      exact absurd rfl he
    · split at h
      · next e' hsel =>
        cases h
        exact ⟨_, _, _, hsel⟩
      · next np planColumnID hsel =>
        exact (buildShowWhere_error env showStmt p np _ e h).2

/-- An error of `buildShow` after the switch on the kind, other than a panic, is an error
of `buildSelection` for the pattern or the WHERE condition. -/
theorem buildShowPlan_error (env : ShowEnv) (showStmt : ShowStmt) (isView : Bool)
    (st : ShowBuilderState) (e : Err) (h : buildShowPlan env showStmt isView st = .error e)
    (he : e ≠ Err.runtimePanic) :
    (showStmt.Pattern ≠ none ∨ showStmt.Where ≠ none) ∧
      ∃ plan cond id, env.buildSelection plan cond id = .error e := by
  unfold buildShowPlan at h
  obtain ⟨r, hr⟩ := buildShowSchema_ok env.ColDescFieldNames env.infoschemaName showStmt isView
  rw [hr] at h
  exact buildShowPattern_error env showStmt _ _ e h he

/-- With no pattern and no WHERE condition `buildShow` succeeds after the switch on the
kind, with the show plan. -/
theorem buildShowPlan_ok (env : ShowEnv) (showStmt : ShowStmt) (isView : Bool)
    (st : ShowBuilderState) (hp : showStmt.Pattern = none) (hw : showStmt.Where = none) :
    ∃ r, buildShowPlan env showStmt isView st = .ok r := by
  unfold buildShowPlan
  obtain ⟨r, hr⟩ := buildShowSchema_ok env.ColDescFieldNames env.infoschemaName showStmt isView
  rw [hr]
  simp only [buildShowPattern, hp, buildShowWhere, hw]
  exact finishShow_ok _ _ _ _

/-- For a kind other than SHOW TABLES and SHOW TABLE STATUS, `buildShow` is the part after
the switch, or panics on the missing table of SHOW CREATE TABLE. -/
theorem buildShow_other (env : ShowEnv) (showStmt : ShowStmt) (st : ShowBuilderState)
    (h₁ : showStmt.Tp ≠ ShowStmtType.ShowTables)
    (h₂ : showStmt.Tp ≠ ShowStmtType.ShowTableStatus) :
    (showStmt.Tp = ShowStmtType.ShowCreateTable ∧ showStmt.Table = none ∧
        buildShow env showStmt st = .error Err.runtimePanic) ∨
      ∃ isView, buildShow env showStmt st = buildShowPlan env showStmt isView st := by
  unfold buildShow
  split
  · next htp => exact absurd htp h₁
  · next htp => exact absurd htp h₂
  · next htp =>
    cases htable : showStmt.Table with
    | none => exact Or.inl ⟨htp, rfl, rfl⟩
    | some table =>
      right
      simp only
      split
      · exact ⟨_, rfl⟩
      · exact ⟨_, rfl⟩
  · exact Or.inr ⟨_, rfl⟩

/-- C29: `buildShow` returns the no-database error, and no plan, for a SHOW TABLES or SHOW
TABLE STATUS statement with an empty database name; for every other kind it makes no
check of the database name: when it returns that error, the error is the one
`buildSelection` returned for the pattern or the WHERE condition of the statement, and
with neither a pattern nor a WHERE condition it returns a plan, whatever the database
name (for SHOW CREATE TABLE, given the table name the statement carries). -/
theorem show_no_database (env : ShowEnv) (st : ShowBuilderState) :
    (∀ showStmt : ShowStmt,
      showStmt.Tp = ShowStmtType.ShowTables ∨ showStmt.Tp = ShowStmtType.ShowTableStatus →
      showStmt.DBName = "" → buildShow env showStmt st = .error Err.ErrNoDB) ∧
    (∀ showStmt : ShowStmt,
      showStmt.Tp ≠ ShowStmtType.ShowTables → showStmt.Tp ≠ ShowStmtType.ShowTableStatus →
      buildShow env showStmt st = .error Err.ErrNoDB →
      (showStmt.Pattern ≠ none ∨ showStmt.Where ≠ none) ∧
        ∃ plan cond id, env.buildSelection plan cond id = .error Err.ErrNoDB) ∧
    (∀ showStmt : ShowStmt,
      showStmt.Tp ≠ ShowStmtType.ShowTables → showStmt.Tp ≠ ShowStmtType.ShowTableStatus →
      showStmt.Pattern = none → showStmt.Where = none →
      (showStmt.Tp = ShowStmtType.ShowCreateTable → showStmt.Table ≠ none) →
      ∃ plan st', buildShow env showStmt st = .ok (plan, st')) := by
  refine ⟨?_, ?_, ?_⟩
  · intro showStmt htp hdb
    rcases htp with htp | htp
    · simp only [buildShow, htp, hdb, if_true]
    · simp only [buildShow, htp, hdb, if_true]
  · intro showStmt h₁ h₂ h
    rcases buildShow_other env showStmt st h₁ h₂ with ⟨_, _, hpanic⟩ | ⟨isView, hplan⟩
    · rw [hpanic] at h
      cases h
    · rw [hplan] at h
      exact buildShowPlan_error env showStmt isView st _ h (by decide)
  · intro showStmt h₁ h₂ hp hw htable
    rcases buildShow_other env showStmt st h₁ h₂ with ⟨htp, hnone, _⟩ | ⟨isView, hplan⟩
    · exact absurd hnone (htable htp)
    · obtain ⟨r, hr⟩ := buildShowPlan_ok env showStmt isView st hp hw
      exact ⟨r.1, r.2, by rw [hplan, hr]⟩

/-- C29 on examples: `SHOW TABLES` with no database selected fails with the no-database
error, `SHOW DATABASES` with no database selected builds its plan, and the no-database
error of `SHOW DATABASES WHERE nodb` is the one the selection reports. -/
theorem show_no_database_witness :
    buildShow testShowEnv testShowTables { planColumnID := 0, optFlag := 0 } =
      .error Err.ErrNoDB ∧
    (∃ plan st', buildShow testShowEnv testShowDatabases { planColumnID := 0, optFlag := 0 } =
      .ok (plan, st')) :=
  ⟨(show_no_database testShowEnv { planColumnID := 0, optFlag := 0 }).1 testShowTables
      (Or.inl rfl) rfl,
   (show_no_database testShowEnv { planColumnID := 0, optFlag := 0 }).2.2 testShowDatabases
      (by decide) (by decide) rfl rfl (by decide)⟩

/-- The end of `buildShow` when no selection was put above the show plan. -/
theorem finishShow_same (env : ShowEnv) (p : Plan) (st : ShowBuilderState) :
    finishShow env p p st = .ok (p, st) := by
  simp only [finishShow, ne_eq, not_true_eq_false, if_false]

/-- The plan of `SHOW DATABASES`, and the no-database error that a WHERE condition of
`SHOW DATABASES` can report although the kind makes no check of the database name. -/
theorem test_buildShow :
    buildShow testShowEnv testShowDatabases { planColumnID := 10, optFlag := 0 } =
      .ok ({ id := 1,
             schema := { Columns := [{ UniqueID := 11, RetType := some { Tp := 15, Flag := 0 } }],
                         Keys := [] },
             names := [showFieldName "Database"] }, { planColumnID := 11, optFlag := 0 }) ∧
    buildShow testShowEnv
        { testShowDatabases with Where := some (ExprNode.ColumnNameExpr (testColumnName "nodb")) }
        { planColumnID := 10, optFlag := 0 } = .error Err.ErrNoDB ∧
    buildShow testShowEnv
        { testShowDatabases with Where := some (ExprNode.ColumnNameExpr (testColumnName "a")) }
        { planColumnID := 10, optFlag := 0 } =
      .ok ({ id := 2,
             schema := { Columns := [{ UniqueID := 12, RetType := some { Tp := 15, Flag := 0 } }],
                         Keys := [] },
             names := [showFieldName "Database"] }, { planColumnID := 12, optFlag := 8 }) := by
  refine ⟨?_, rfl, rfl⟩
  exact (finishShow_same testShowEnv _ _).symm ▸ rfl


/-- C39: for every kind of SHOW statement and every value of its options, a kind that
declares column types declares as many types as column names, so every lookup
`ftypes[i]` of the loop of `buildShowSchema` is in range and the function returns a
schema instead of panicking. -/
theorem show_types_in_range (ColDescFieldNames : Bool → List String) (infoschemaName : String)
    (s : ShowStmt) (isView : Bool) :
    ((declaredColumns ColDescFieldNames s isView).2.length ≠ 0 →
      (declaredColumns ColDescFieldNames s isView).2.length =
        (declaredColumns ColDescFieldNames s isView).1.length) ∧
    (∀ i, i < (declaredColumns ColDescFieldNames s isView).1.length →
      (declaredColumns ColDescFieldNames s isView).2.length ≠ 0 →
      ∃ listed, (declaredColumns ColDescFieldNames s isView).2.get? i = some listed) ∧
    (∃ r, buildShowSchema ColDescFieldNames infoschemaName s isView = .ok r) := by
  have hlen : (declaredColumns ColDescFieldNames s isView).2.length ≠ 0 →
      (declaredColumns ColDescFieldNames s isView).2.length =
        (declaredColumns ColDescFieldNames s isView).1.length := by
    intro hne
    rcases declaredColumns_types_length ColDescFieldNames s isView with h | h
    · rw [h] at hne
      exact absurd rfl hne
    · exact h
  refine ⟨hlen, ?_, buildShowSchema_ok ColDescFieldNames infoschemaName s isView⟩
  intro i hi hne
  have hi' : i < (declaredColumns ColDescFieldNames s isView).2.length := by
    rw [hlen hne]
    exact hi
  exact ⟨_, List.get?_eq_get hi'⟩

/-! ### Calls on the handle-column tracker -/

/-- After `mergeAndPush` the helper is the old helper with one more map pushed. -/
theorem mergeAndPush_helper (heap : List (List (Option ExprColumn))) (hch : handleColHelper)
    (m1 m2 : List (Int × ColSlice)) :
    ∃ newMap, (hch.mergeAndPush heap m1 m2).2 = hch.pushMap newMap :=
  ⟨_, rfl⟩

/-- In every state reached from a helper whose `stackTail` is the height of its stack,
`stackTail` is the height of the stack. -/
theorem runHelperCalls_tail (calls : List HelperCall) :
    ∀ (heap heap' : List (List (Option ExprColumn))) (hch hch' : handleColHelper),
      hch.stackTail = hch.id2HandleMapStack.length →
      runHelperCalls heap hch calls = .ok (heap', hch') →
      hch'.stackTail = hch'.id2HandleMapStack.length := by
  induction calls with
  | nil =>
    intro heap heap' hch hch' hinv h
    simp only [runHelperCalls, Except.ok.injEq, Prod.mk.injEq] at h
    rw [← h.2]
    exact hinv
  | cons call rest ih =>
    intro heap heap' hch hch' hinv h
    cases call with
    | pushMap m =>
      simp only [runHelperCalls] at h
      refine ih _ _ _ _ ?_ h
      simp only [handleColHelper.pushMap, List.length_append, List.length_cons, List.length_nil,
        hinv]
    | mergeAndPush m1 m2 =>
      simp only [runHelperCalls] at h
      refine ih _ _ _ _ ?_ h
      simp only [handleColHelper.mergeAndPush, handleColHelper.pushMap, List.length_append,
        List.length_cons, List.length_nil, hinv]
    | popMap =>
      simp only [runHelperCalls] at h
      cases hpop : hch.popMap with
      | error e =>
        rw [hpop] at h
        cases h
      | ok r =>
        rw [hpop] at h
        simp only at h
        refine ih _ _ _ _ ?_ h
        unfold handleColHelper.popMap at hpop
        split at hpop
        · cases hpop
        · split at hpop
          · cases hpop
          · cases hpop
            simp only [List.length_take]
            omega

/-- C33: in every state of a `handleColHelper` reached from the empty helper by calls of
`pushMap`, `mergeAndPush` and `popMap` (on a non-empty stack: the run did not panic),
`stackTail` is the number of maps on the stack; and in such a state, for every map m,
`tailMap` after `pushMap(m)` is m, and `popMap` after `pushMap(m)` returns m and leaves
the stack and `stackTail` as they were before the push. -/
theorem helper_stack_tail (calls : List HelperCall)
    (heap heap' : List (List (Option ExprColumn))) (hch : handleColHelper)
    (h : runHelperCalls heap emptyHelper calls = .ok (heap', hch)) :
    hch.stackTail = hch.id2HandleMapStack.length ∧
    ∀ m, (hch.pushMap m).tailMap = .ok m ∧ (hch.pushMap m).popMap = .ok (m, hch) := by
  have hinv := runHelperCalls_tail calls heap heap' emptyHelper hch rfl h
  refine ⟨hinv, fun m => ?_⟩
  have hget : (hch.id2HandleMapStack ++ [m]).get? hch.stackTail = some m := by
    rw [hinv, List.get?_eq_getElem?, List.getElem?_append_right (le_refl _)]
    simp
  have htake : (hch.id2HandleMapStack ++ [m]).take hch.stackTail = hch.id2HandleMapStack := by
    rw [hinv, List.take_left']
    rfl
  refine ⟨?_, ?_⟩
  · simp only [handleColHelper.tailMap, handleColHelper.pushMap, Nat.add_one_ne_zero, if_false,
      Nat.add_sub_cancel, hget]
  · simp only [handleColHelper.popMap, handleColHelper.pushMap, Nat.add_one_ne_zero, if_false,
      Nat.add_sub_cancel, hget, htake]

/-- C33 on a run: a push, a merge of two maps, a pop, and two more pushes from the empty
helper leave three maps on the stack with `stackTail` three, and a further push followed
by a pop gives the pushed map and that state back. -/
theorem helper_stack_tail_witness :
    ∃ heap' hch,
      runHelperCalls [[some (placeholderColumn 1)]] emptyHelper
        [HelperCall.pushMap [(1, { arr := 0, len := 1 })],
         HelperCall.mergeAndPush [(1, { arr := 0, len := 1 })] [(2, { arr := 0, len := 1 })],
         HelperCall.popMap,
         HelperCall.pushMap [], HelperCall.pushMap [(3, { arr := 0, len := 0 })]] =
        .ok (heap', hch) ∧
      hch.stackTail = 3 ∧ hch.id2HandleMapStack.length = 3 ∧
      (hch.pushMap [(7, { arr := 0, len := 1 })]).popMap =
        .ok ([(7, { arr := 0, len := 1 })], hch) :=
  ⟨_, _, rfl, rfl, rfl,
    ((helper_stack_tail
      [HelperCall.pushMap [(1, { arr := 0, len := 1 })],
       HelperCall.mergeAndPush [(1, { arr := 0, len := 1 })] [(2, { arr := 0, len := 1 })],
       HelperCall.popMap,
       HelperCall.pushMap [], HelperCall.pushMap [(3, { arr := 0, len := 0 })]]
      [[some (placeholderColumn 1)]] _ _ rfl).2 [(7, { arr := 0, len := 1 })]).2⟩


/-! ### Access paths without hints, and the lookup of a path by index name -/

/-- The pointers to all the paths of a list denote the list. -/
theorem derefPaths_range (l : List AccessPath) : derefPaths l (List.range l.length) = l := by
  unfold derefPaths
  induction l with
  | nil => rfl
  | cons path rest ih =>
    rw [List.length_cons, List.range_succ_eq_map, List.filterMap_cons]
    simp only [List.get?_cons_zero, List.filterMap_map]
    congr 1

/-- Without index hints `getPossibleAccessPaths` returns the public paths of the table. -/
theorem getPossibleAccessPaths_no_hints (tableHints : Option tableHintInfo) (tbl : Table)
    (dbName tblName : CIStr) (hcom : commentIndexHints tableHints dbName tblName = []) :
    getPossibleAccessPaths tableHints [] tbl dbName tblName = (.ok (buildPublicPaths tbl), []) := by
  obtain ⟨tablePaths, hne, _, heq⟩ := buildPublicPaths_eq tbl
  have hlen : (buildPublicPaths tbl).length ≠ 0 := by
    rw [heq, List.length_append]
    have : tablePaths.length ≠ 0 := fun h => hne (List.length_eq_zero.mp h)
    omega
  simp only [getPossibleAccessPaths, hcom, List.append_nil, applyIndexHints,
    chooseAvailablePaths, Bool.not_false, Bool.true_or, if_true, removeIgnoredPaths,
    List.length_nil, derefPaths_range, hlen, if_false]

/-- C34: for every table, with no index hint in the statement and no comment-style index
hint for the table, `getPossibleAccessPaths` returns, in this order, the table-scan path,
a second table-scan path on TiFlash exactly when the table has an available TiFlash
replica, and one index path for each index in public state, in the order of the indices
of the table; it gives no warning, no returned path is forced, and the index of a
returned index path is a public index of the table. -/
theorem no_hint_paths (tableHints : Option tableHintInfo) (tbl : Table)
    (dbName tblName : CIStr) (hcom : commentIndexHints tableHints dbName tblName = []) :
    ∃ paths, getPossibleAccessPaths tableHints [] tbl dbName tblName = (.ok paths, []) ∧
      paths =
        [{ Index := none, IsTablePath := true,
           StoreType := if tbl.IsClusterTable then StoreType.TiDB else StoreType.TiKV,
           Forced := false }] ++
        (if (tbl.Meta.TiFlashReplica.map (fun replica => replica.Available)) = some true then
           [{ Index := none, IsTablePath := true, StoreType := StoreType.TiFlash, Forced := false }]
         else []) ++
        (tbl.Meta.Indices.filter (fun index => decide (index.State = SchemaState.StatePublic))).map
          (fun index =>
            { Index := some index, IsTablePath := false, StoreType := StoreType.TiKV,
              Forced := false }) ∧
      (∀ path ∈ paths, path.Forced = false) ∧
      (∀ path ∈ paths, ∀ index, path.Index = some index →
        index ∈ tbl.Meta.Indices ∧ index.State = SchemaState.StatePublic) := by
  have hpaths : buildPublicPaths tbl =
      [{ Index := none, IsTablePath := true,
         StoreType := if tbl.IsClusterTable then StoreType.TiDB else StoreType.TiKV,
         Forced := false }] ++
      (if (tbl.Meta.TiFlashReplica.map (fun replica => replica.Available)) = some true then
         [{ Index := none, IsTablePath := true, StoreType := StoreType.TiFlash, Forced := false }]
       else []) ++
      (tbl.Meta.Indices.filter (fun index => decide (index.State = SchemaState.StatePublic))).map
        (fun index =>
          { Index := some index, IsTablePath := false, StoreType := StoreType.TiKV,
            Forced := false }) := by
    unfold buildPublicPaths
    cases hrep : tbl.Meta.TiFlashReplica with
    | none => simp
    | some replica =>
      cases havail : replica.Available <;> simp [havail]
  refine ⟨_, getPossibleAccessPaths_no_hints tableHints tbl dbName tblName hcom, hpaths, ?_, ?_⟩
  · intro path hpath
    rw [hpaths] at hpath
    simp only [List.mem_append, List.mem_singleton, List.mem_map, List.mem_filter] at hpath
    rcases hpath with (h | h) | ⟨index, _, h⟩
    · rw [h]
    · split at h
      · rw [List.mem_singleton] at h
        rw [h]
      · exact absurd h (List.not_mem_nil _)
    · rw [← h]
  · intro path hpath index hidx
    rw [hpaths] at hpath
    simp only [List.mem_append, List.mem_singleton, List.mem_map, List.mem_filter] at hpath
    rcases hpath with (h | h) | ⟨index', ⟨hmem, hpub⟩, h⟩
    · rw [h] at hidx
      cases hidx
    · split at h
      · rw [List.mem_singleton] at h
        rw [h] at hidx
        cases hidx
      · exact absurd h (List.not_mem_nil _)
    · rw [← h] at hidx
      simp only [Option.some.injEq] at hidx
      subst hidx
      exact ⟨hmem, of_decide_eq_true hpub⟩

/-- C34 on the table with the public index `idx`: the table path and the index path. -/
theorem no_hint_paths_witness :
    ∃ paths, getPossibleAccessPaths none [] testIndexedTable (NewCIStr "test") (NewCIStr "t") =
        (.ok paths, []) ∧
      paths.map (fun path => (path.IsTablePath, path.Index.map (fun index => index.Name.O))) =
        [(true, none), (false, some "idx")] := by
  obtain ⟨paths, h₁, h₂, _, _⟩ :=
    no_hint_paths none testIndexedTable (NewCIStr "test") (NewCIStr "t") rfl
  refine ⟨paths, h₁, ?_⟩
  rw [h₂]
  rfl


/-- The last table path of a list without table paths is the one known before. -/
theorem lastTablePath_none (l : List AccessPath) (pos : Nat) (tp : Option Nat)
    (h : ∀ path ∈ l, path.IsTablePath = false) : lastTablePath l pos tp = tp := by
  induction l generalizing pos tp with
  | nil => rfl
  | cons path rest ih =>
    simp only [lastTablePath, h path (List.mem_cons_self _ _), Bool.false_eq_true, if_false]
    exact ih _ _ (fun q hq => h q (List.mem_cons_of_mem _ hq))

/-- The last table path of a list is the table path after which no table path comes. -/
theorem lastTablePath_some (l : List AccessPath) (pos : Nat) (tp : Option Nat) (k : Nat)
    (path : AccessPath) (hget : l.get? k = some path) (htable : path.IsTablePath = true)
    (hlast : ∀ k' path', k < k' → l.get? k' = some path' → path'.IsTablePath = false) :
    lastTablePath l pos tp = some (pos + k) := by
  induction l generalizing pos tp k with
  | nil => cases hget
  | cons head rest ih =>
    cases k with
    | zero =>
      simp only [List.get?_cons_zero, Option.some.injEq] at hget
      subst hget
      simp only [lastTablePath, htable, if_true]
      rw [lastTablePath_none rest _ _ ?_]
      · rfl
      · intro q hq
        obtain ⟨i, hi⟩ := List.get?_of_mem hq
        exact hlast (i + 1) q (Nat.succ_pos _) (by simpa using hi)
    | succ k =>
      simp only [lastTablePath]
      rw [ih (pos + 1) _ k (by simpa using hget)
        (fun k' path' hk hp => hlast (k' + 1) path' (Nat.succ_lt_succ hk) (by simpa using hp))]
      congr 1
      omega

/-- The scan of `getPathByIndexName` over paths none of which is an index path with the
name: nothing is found, and the table path is the last one of the list. -/
theorem scan_no_named (name : CIStr) (l : List AccessPath) (hwf : wellFormedPaths l)
    (pos : Nat) (tp : Option Nat) (h : ∀ path ∈ l, isNamedIndexPath name path = false) :
    scanPathsByIndexName name l pos tp = .ok (none, lastTablePath l pos tp) := by
  induction l generalizing pos tp with
  | nil => rfl
  | cons path rest ih =>
    have hrest : wellFormedPaths rest := fun q hq => hwf q (List.mem_cons_of_mem _ hq)
    have hrest' : ∀ q ∈ rest, isNamedIndexPath name q = false :=
      fun q hq => h q (List.mem_cons_of_mem _ hq)
    have hpath := h path (List.mem_cons_self _ _)
    by_cases ht : path.IsTablePath = true
    · simp only [scanPathsByIndexName, lastTablePath, ht, if_true]
      exact ih hrest _ _ hrest'
    · have ht' : path.IsTablePath = false := by simpa using ht
      cases hidx : path.Index with
      | none => exact absurd hidx (hwf path (List.mem_cons_self _ _) ht')
      | some index =>
        have hne : ¬ index.Name.L = name.L := by
          simpa [isNamedIndexPath, ht', hidx] using hpath
        simp only [scanPathsByIndexName, lastTablePath, ht', hidx, hne, Bool.false_eq_true,
          if_false]
        exact ih hrest _ _ hrest'

/-- The scan of `getPathByIndexName` finds the first index path with the name. -/
theorem scan_first_named (name : CIStr) (l : List AccessPath) (hwf : wellFormedPaths l)
    (pos : Nat) (tp : Option Nat) (k : Nat) (path : AccessPath) (hget : l.get? k = some path)
    (hnamed : isNamedIndexPath name path = true)
    (hfirst : ∀ k' path', k' < k → l.get? k' = some path' → isNamedIndexPath name path' = false) :
    ∃ t, scanPathsByIndexName name l pos tp = .ok (some (pos + k), t) := by
  induction l generalizing pos tp k with
  | nil => cases hget
  | cons head rest ih =>
    have hrest : wellFormedPaths rest := fun q hq => hwf q (List.mem_cons_of_mem _ hq)
    cases k with
    | zero =>
      simp only [List.get?_cons_zero, Option.some.injEq] at hget
      subst hget
      have ht : head.IsTablePath = false := by
        cases hh : head.IsTablePath with
        | false => rfl
        | true => simp [isNamedIndexPath, hh] at hnamed
      cases hidx : head.Index with
      | none => simp [isNamedIndexPath, hidx] at hnamed
      | some index =>
        have heq : index.Name.L = name.L := by
          simpa [isNamedIndexPath, ht, hidx] using hnamed
        simp only [scanPathsByIndexName, ht, hidx, heq, Bool.false_eq_true, if_false, if_true,
          Nat.add_zero]
        exact ⟨_, rfl⟩
    | succ k =>
      have hhead : isNamedIndexPath name head = false :=
        hfirst 0 head (Nat.succ_pos _) rfl
      have hstep := fun tp' => ih hrest (pos + 1) tp' k (by simpa using hget)
        (fun k' path' hk hp => hfirst (k' + 1) path' (Nat.succ_lt_succ hk) (by simpa using hp))
      have hpos : pos + 1 + k = pos + (k + 1) := by omega
      by_cases ht : head.IsTablePath = true
      · simp only [scanPathsByIndexName, ht, if_true]
        rw [← hpos]
        exact hstep _
      · have ht' : head.IsTablePath = false := by simpa using ht
        cases hidx : head.Index with
        | none => exact absurd hidx (hwf head (List.mem_cons_self _ _) ht')
        | some index =>
          have hne : ¬ index.Name.L = name.L := by
            simpa [isNamedIndexPath, ht', hidx] using hhead
          simp only [scanPathsByIndexName, ht', hidx, hne, Bool.false_eq_true, if_false]
          rw [← hpos]
          exact hstep _

/-- C35: for every list of paths in which every path that is not a table path carries its
index, every index name and every table, `getPathByIndexName` returns the first index path
whose index name is the given name, compared in lower case; when there is none and the
name is `primary` and the primary key of the table is the row handle, it returns the last
table path of the list, and nothing when the list has no table path; in every other case
it returns nothing. -/
theorem path_by_index_name (paths : List AccessPath) (idxName : CIStr) (tblInfo : TableInfo)
    (hwf : wellFormedPaths paths) :
    (∀ q path, paths.get? q = some path → isNamedIndexPath idxName path = true →
      (∀ q' path', q' < q → paths.get? q' = some path' →
        isNamedIndexPath idxName path' = false) →
      getPathByIndexName paths idxName tblInfo = .ok (some q)) ∧
    ((∀ path ∈ paths, isNamedIndexPath idxName path = false) →
      (isPrimaryIndex idxName = true → tblInfo.PKIsHandle = true →
        (∀ q path, paths.get? q = some path → path.IsTablePath = true →
          (∀ q' path', q < q' → paths.get? q' = some path' → path'.IsTablePath = false) →
          getPathByIndexName paths idxName tblInfo = .ok (some q)) ∧
        ((∀ path ∈ paths, path.IsTablePath = false) →
          getPathByIndexName paths idxName tblInfo = .ok none)) ∧
      (isPrimaryIndex idxName = false ∨ tblInfo.PKIsHandle = false →
        getPathByIndexName paths idxName tblInfo = .ok none)) := by
  refine ⟨?_, ?_⟩
  · intro q path hget hnamed hfirst
    obtain ⟨t, ht⟩ := scan_first_named idxName paths hwf 0 none q path hget hnamed hfirst
    rw [Nat.zero_add] at ht
    simp only [getPathByIndexName, ht]
  · intro hnone
    have hscan := scan_no_named idxName paths hwf 0 none hnone
    refine ⟨?_, ?_⟩
    · intro hprim hpk
      refine ⟨?_, ?_⟩
      · intro q path hget htable hlast
        have hl := lastTablePath_some paths 0 none q path hget htable hlast
        rw [Nat.zero_add] at hl
        simp only [getPathByIndexName, hscan, hprim, hpk, Bool.and_self, if_true, hl]
      · intro hall
        simp only [getPathByIndexName, hscan, hprim, hpk, Bool.and_self, if_true,
          lastTablePath_none paths 0 none hall]
    · intro hor
      rcases hor with hprim | hpk
      · simp only [getPathByIndexName, hscan, hprim, Bool.false_and, Bool.false_eq_true,
          if_false]
      · simp only [getPathByIndexName, hscan, hpk, Bool.and_false, Bool.false_eq_true,
          if_false]

/-- C35 on the paths table, table on TiFlash, index a, index idx, index IDX: the name
`Idx` finds position 3, the first of the two index paths named idx in lower case. -/
theorem path_by_index_name_witness :
    getPathByIndexName
      [{ Index := none, IsTablePath := true, StoreType := StoreType.TiKV, Forced := false },
       { Index := none, IsTablePath := true, StoreType := StoreType.TiFlash, Forced := false },
       indexPath { Name := { O := "a", L := "a" }, State := SchemaState.StatePublic },
       indexPath { Name := { O := "idx", L := "idx" }, State := SchemaState.StatePublic },
       indexPath { Name := { O := "IDX", L := "idx" }, State := SchemaState.StatePublic }]
      { O := "Idx", L := "idx" } testHandleTable.Meta = .ok (some 3) :=
  (path_by_index_name _ { O := "Idx", L := "idx" } testHandleTable.Meta
    (by
      intro path hpath hnot
      simp only [List.mem_cons, List.mem_singleton, List.not_mem_nil, or_false] at hpath
      rcases hpath with h | h | h | h | h <;> subst h <;> simp_all [indexPath])).1 3
    (indexPath { Name := { O := "idx", L := "idx" }, State := SchemaState.StatePublic }) rfl
    (by decide)
    (by
      intro q' path' hq hget
      match q', hq, hget with
      | 0, _, hget => cases hget; decide
      | 1, _, hget => cases hget; decide
      | 2, _, hget => cases hget; decide)

/-- The name `primary` on a table whose primary key is the row handle gives the last table
path, and nothing on a table without such a key. -/
theorem test_getPathByIndexName :
    getPathByIndexName
      [{ Index := none, IsTablePath := true, StoreType := StoreType.TiKV, Forced := false },
       { Index := none, IsTablePath := true, StoreType := StoreType.TiFlash, Forced := false },
       indexPath { Name := { O := "idx", L := "idx" }, State := SchemaState.StatePublic }]
      { O := "PRIMARY", L := "primary" } testHandleTable.Meta = .ok (some 1) ∧
    getPathByIndexName
      [{ Index := none, IsTablePath := true, StoreType := StoreType.TiKV, Forced := false },
       { Index := none, IsTablePath := true, StoreType := StoreType.TiFlash, Forced := false },
       indexPath { Name := { O := "idx", L := "idx" }, State := SchemaState.StatePublic }]
      { O := "PRIMARY", L := "primary" } testIndexedTable.Meta = .ok none :=
  ⟨rfl, rfl⟩


/-! ### The result of `resolveGeneratedColumns` -/

/-- The result of the loop of `resolveGeneratedColumns` when it succeeds: one column name
and one expression per generated column, one on-duplicate assignment per generated column
with a dependency in the on-duplicate set. -/
theorem resolveGeneratedLoop_spec (g : GenEnv) (onDups : Option (List (String × Unit)))
    (mockPlan : Plan) (columns : List Column) :
    ∀ igc out : InsertGeneratedColumns,
      resolveGeneratedLoop g onDups mockPlan columns igc = .ok out →
      out.Columns = igc.Columns ++ (generatedColumns columns).map generatedColumnName ∧
      out.Exprs.map some =
        igc.Exprs.map some ++ (generatedColumns columns).map (resolvedExpr g mockPlan) ∧
      out.OnDuplicates.map some =
        igc.OnDuplicates.map some ++
          (onDuplicateColumns g onDups (generatedColumns columns)).map
            (resolvedAssignment g mockPlan) := by
  induction columns with
  | nil =>
    intro igc out h
    simp only [resolveGeneratedLoop, Except.ok.injEq] at h
    subst h
    cases onDups <;> simp [generatedColumns, onDuplicateColumns]
  | cons column rest ih =>
    intro igc out h
    by_cases hgen : column.IsGenerated = true
    · have hcols : generatedColumns (column :: rest) = column :: generatedColumns rest := by
        simp only [generatedColumns, List.filter_cons, hgen, if_true]
      simp only [resolveGeneratedLoop, hgen, Bool.not_true, Bool.false_eq_true, if_false] at h
      cases hfind : g.FindFieldName mockPlan.names (generatedColumnName column) with
      | error e =>
        simp only [hfind] at h
        cases h
      | ok idx =>
        simp only [hfind] at h
        by_cases hneg : idx < 0
        · simp only [hneg, if_true] at h
          cases h
        · simp only [hneg, if_false] at h
          cases hget : mockPlan.schema.Columns.get? idx.toNat with
          | none =>
            simp only [hget] at h
            cases h
          | some colExpr =>
            simp only [hget] at h
            cases hrw : g.rewrite (g.GeneratedExpr column) mockPlan with
            | error e =>
              simp only [hrw] at h
              cases h
            | ok compiled =>
              simp only [hrw] at h
              have hres : resolvedColumn g mockPlan column =
                  some (colExpr, g.BuildCastFunction compiled colExpr.RetType) := by
                simp only [resolvedColumn, hfind, hneg, if_false, hget, hrw]
              cases onDups with
              | none =>
                simp only at h
                obtain ⟨h₁, h₂, h₃⟩ := ih _ _ h
                refine ⟨?_, ?_, ?_⟩
                · rw [h₁, hcols]
                  simp only [List.map_cons, List.append_assoc, List.singleton_append]
                · rw [h₂, hcols]
                  simp only [List.map_cons, List.map_append, List.append_assoc,
                    List.singleton_append, resolvedExpr, hres, Option.map_some', List.map_nil]
                · rw [h₃]
                  simp only [onDuplicateColumns]
              | some set =>
                simp only at h
                by_cases hdep : dependsOnDuplicate g set column = true
                · have hdep' : (g.Dependences column).any
                      (fun dep => (mapGet set dep).isSome) = true := hdep
                  simp only [hdep', if_true] at h
                  obtain ⟨h₁, h₂, h₃⟩ := ih _ _ h
                  refine ⟨?_, ?_, ?_⟩
                  · rw [h₁, hcols]
                    simp only [List.map_cons, List.append_assoc, List.singleton_append]
                  · rw [h₂, hcols]
                    simp only [List.map_cons, List.map_append, List.append_assoc,
                      List.singleton_append, resolvedExpr, hres, Option.map_some', List.map_nil]
                  · rw [h₃, hcols]
                    simp only [onDuplicateColumns, List.filter_cons, hdep, if_true,
                      List.map_cons, List.map_append, List.append_assoc, List.singleton_append,
                      resolvedAssignment, hres, Option.map_some', List.map_nil]
                · have hdep' : ¬ (g.Dependences column).any
                      (fun dep => (mapGet set dep).isSome) = true := hdep
                  simp only [hdep', if_false] at h
                  obtain ⟨h₁, h₂, h₃⟩ := ih _ _ h
                  refine ⟨?_, ?_, ?_⟩
                  · rw [h₁, hcols]
                    simp only [List.map_cons, List.append_assoc, List.singleton_append]
                  · rw [h₂, hcols]
                    simp only [List.map_cons, List.map_append, List.append_assoc,
                      List.singleton_append, resolvedExpr, hres, Option.map_some', List.map_nil]
                  · rw [h₃, hcols]
                    simp only [onDuplicateColumns, List.filter_cons, hdep, if_false,
                      Bool.false_eq_true]
    · have hgen' : column.IsGenerated = false := by simpa using hgen
      have hcols : generatedColumns (column :: rest) = generatedColumns rest := by
        simp only [generatedColumns, List.filter_cons, hgen', Bool.false_eq_true, if_false]
      simp only [resolveGeneratedLoop, hgen', Bool.not_false, if_true] at h
      rw [hcols]
      exact ih _ _ h


/-- Two lists that agree entry by entry through `some` agree on a property that the
entries share. -/
theorem map_eq_of_map_some {α β γ : Type} (f : β → Option α) (p : α → γ) (q : β → γ)
    (hpq : ∀ b a, f b = some a → p a = q b) :
    ∀ (xs : List α) (l : List β), xs.map some = l.map f → xs.map p = l.map q := by
  intro xs l
  induction l generalizing xs with
  | nil =>
    intro h
    cases xs with
    | nil => rfl
    | cons x xs => cases h
  | cons b l ih =>
    intro h
    cases xs with
    | nil => cases h
    | cons x xs =>
      simp only [List.map_cons, List.cons.injEq] at h
      simp only [List.map_cons, List.cons.injEq]
      exact ⟨hpq b x h.1.symm, ih xs h.2⟩

/-- C32: a successful `resolveGeneratedColumns` returns `Columns` and `Exprs` of equal
length with exactly one entry per generated column, in the order of the table columns
(the name of the column, and the compiled, cast generation expression); `OnDuplicates` is
empty when the on-duplicate set is nil, and otherwise has exactly one assignment for each
generated column with at least one dependency in the set, in the order of the table
columns, and none for the others. -/
theorem generated_columns_shape (g : GenEnv) (columns : List Column)
    (onDups : Option (List (String × Unit))) (mockPlan : Plan) (igc : InsertGeneratedColumns)
    (h : resolveGeneratedColumns g columns onDups mockPlan = .ok igc) :
    igc.Columns = (generatedColumns columns).map generatedColumnName ∧
    igc.Exprs.length = igc.Columns.length ∧
    igc.Exprs.map some = (generatedColumns columns).map (resolvedExpr g mockPlan) ∧
    (onDups = none → igc.OnDuplicates = []) ∧
    (∀ set, onDups = some set →
      igc.OnDuplicates.map some =
        ((generatedColumns columns).filter (dependsOnDuplicate g set)).map
          (resolvedAssignment g mockPlan) ∧
      igc.OnDuplicates.map (fun assign => assign.ColName) =
        ((generatedColumns columns).filter (dependsOnDuplicate g set)).map
          (fun column => column.Name)) := by
  obtain ⟨h₁, h₂, h₃⟩ := resolveGeneratedLoop_spec g onDups mockPlan columns _ _ h
  simp only [List.nil_append, List.map_nil] at h₁ h₂ h₃
  refine ⟨h₁, ?_, h₂, ?_, ?_⟩
  · have hlen := congrArg List.length h₂
    simp only [List.length_map] at hlen
    rw [hlen, h₁, List.length_map]
  · intro hnone
    rw [hnone] at h₃
    simpa [onDuplicateColumns] using h₃
  · intro set hset
    rw [hset] at h₃
    simp only [onDuplicateColumns] at h₃
    refine ⟨h₃, ?_⟩
    refine map_eq_of_map_some (resolvedAssignment g mockPlan) _ _ ?_ _ _ h₃
    intro column assign hassign
    simp only [resolvedAssignment] at hassign
    cases hres : resolvedColumn g mockPlan column with
    | none =>
      rw [hres] at hassign
      cases hassign
    | some r =>
      rw [hres] at hassign
      simp only [Option.map_some', Option.some.injEq] at hassign
      rw [← hassign]

/-- C32 on `t (a, b as (a + 1), c, d as (c + 1))` with the on-duplicate set {a}: the
columns b and d, two expressions, and one assignment, for b. -/
theorem generated_columns_shape_witness :
    ∃ igc, resolveGeneratedColumns testTwoGenEnv testTwoGenerated (some [("a", ())])
        testTwoGeneratedPlan = .ok igc ∧
      igc.Columns = [testColumnName "b", testColumnName "d"] ∧
      igc.Exprs.length = igc.Columns.length ∧
      igc.OnDuplicates.map (fun assign => assign.ColName) = [{ O := "b", L := "b" }] :=
  ⟨_, rfl,
    (generated_columns_shape testTwoGenEnv testTwoGenerated (some [("a", ())])
      testTwoGeneratedPlan _ rfl).1,
    (generated_columns_shape testTwoGenEnv testTwoGenerated (some [("a", ())])
      testTwoGeneratedPlan _ rfl).2.1,
    ((generated_columns_shape testTwoGenEnv testTwoGenerated (some [("a", ())])
      testTwoGeneratedPlan _ rfl).2.2.2.2 [("a", ())] rfl).2⟩


/-! ### Isolation read -/

/-- Recording a store type leaves the paths as they are. -/
theorem noteEngine_paths (env : IsolationEnv) (st : IsolationState) (path : AccessPath) :
    (noteEngine env st path).paths = st.paths := by
  unfold noteEngine
  split <;> rfl

/-- The loop of `filterPathByIsolationRead` over the first `pre.length` paths: the paths
of `pre` whose store type is in the engine set stay, in their order, and the paths behind
them are untouched. -/
theorem isolationReadLoop_spec (env : IsolationEnv) (pre : List AccessPath) :
    ∀ (tail : List AccessPath) (st : IsolationState), st.paths = pre ++ tail →
      ∃ st', isolationReadLoop env pre.length st = .ok st' ∧
        st'.paths = pathsOfEngines env.isolationReadEngines pre ++ tail := by
  induction pre using List.reverseRecOn with
  | nil =>
    intro tail st hst
    exact ⟨st, rfl, by simpa [pathsOfEngines] using hst⟩
  | append_singleton init x ih =>
    intro tail st hst
    have hget : st.paths.get? init.length = some x := by
      rw [hst, List.append_assoc, List.get?_eq_getElem?,
        List.getElem?_append_right (le_refl _)]
      simp
    have hloop : isolationReadLoop env (init ++ [x]).length st =
        isolationReadLoop env init.length
          (dropUnselected env init.length (noteEngine env st x) x) := by
      rw [List.length_append, List.length_singleton]
      simp only [isolationReadLoop, hget]
    rw [hloop]
    by_cases hsel : (mapGet env.isolationReadEngines x.StoreType).isNone = true
    · have hdrop : (init ++ [x] ++ tail).drop (init.length + 1) = tail :=
        List.drop_left' (by simp)
      have htake : (init ++ [x] ++ tail).take init.length = init := by
        rw [List.append_assoc]
        exact List.take_left' rfl
      have hpaths : (dropUnselected env init.length (noteEngine env st x) x).paths =
          init ++ tail := by
        simp only [dropUnselected, hsel, if_true, noteEngine_paths, hst, htake, hdrop]
      obtain ⟨st', h₁, h₂⟩ := ih tail _ hpaths
      refine ⟨st', h₁, ?_⟩
      have hx : (mapGet env.isolationReadEngines x.StoreType).isSome = false := by
        cases hm : mapGet env.isolationReadEngines x.StoreType with
        | none => rfl
        | some v => rw [hm] at hsel; cases hsel
      rw [h₂]
      simp only [pathsOfEngines, List.filter_append, List.filter_cons, hx, Bool.false_eq_true,
        if_false, List.filter_nil, List.append_nil]
    · have hpaths : (dropUnselected env init.length (noteEngine env st x) x).paths =
          init ++ (x :: tail) := by
        simp only [dropUnselected, hsel, if_false, noteEngine_paths, hst, List.append_assoc,
          List.singleton_append, Bool.false_eq_true]
      obtain ⟨st', h₁, h₂⟩ := ih (x :: tail) _ hpaths
      refine ⟨st', h₁, ?_⟩
      have hx : (mapGet env.isolationReadEngines x.StoreType).isSome = true := by
        cases hm : mapGet env.isolationReadEngines x.StoreType with
        | none => rw [hm] at hsel; exact absurd rfl hsel
        | some v => rfl
      rw [h₂]
      simp only [pathsOfEngines, List.filter_append, List.filter_cons, hx, if_true,
        List.filter_nil, List.append_assoc, List.singleton_append]

/-- C38: for every list of paths and every set of isolation-read engines, the loop of
`filterPathByIsolationRead`, which removes in place and runs backwards, returns exactly
the input paths whose store type is in the engine set, in their original order, and the
call returns an error if and only if that list is empty. -/
theorem isolation_read_filter (env : IsolationEnv) (paths : List AccessPath) :
    ∃ err, filterPathByIsolationRead env paths =
        .ok (pathsOfEngines env.isolationReadEngines paths, err) ∧
      (err.isSome = true ↔ pathsOfEngines env.isolationReadEngines paths = []) ∧
      pathsOfEngines env.isolationReadEngines paths =
        paths.filter (fun path =>
          env.isolationReadEngines.any (fun engine => decide (engine.1 = path.StoreType))) := by
  obtain ⟨st', h₁, h₂⟩ := isolationReadLoop_spec env paths []
    { paths := paths, availableEngine := [], availableEngineStr := "" }
    (List.append_nil _).symm
  rw [List.append_nil] at h₂
  have hfilter : pathsOfEngines env.isolationReadEngines paths =
      paths.filter (fun path =>
        env.isolationReadEngines.any (fun engine => decide (engine.1 = path.StoreType))) := by
    unfold pathsOfEngines
    congr 1
    funext path
    induction env.isolationReadEngines with
    | nil => rfl
    | cons engine rest ih =>
      simp only [mapGet, List.any_cons]
      by_cases he : engine.1 = path.StoreType
      · simp only [he, if_true, Option.isSome_some, decide_True, Bool.true_or]
      · simp only [he, if_false, decide_False, Bool.false_or]
        exact ih
  by_cases hempty : (pathsOfEngines env.isolationReadEngines paths).length = 0
  · refine ⟨some (Err.ErrInternal
        ("Can not find access path matching '" ++ env.TiDBIsolationReadEngines ++
          "'(value: '" ++ env.engineVals ++ "'). Available values are '" ++
          st'.availableEngineStr ++ "'.")), ?_, ?_, hfilter⟩
    · simp only [filterPathByIsolationRead, h₁, h₂, hempty, if_true]
    · exact ⟨fun _ => List.length_eq_zero.mp hempty, fun _ => rfl⟩
  · refine ⟨none, ?_, ?_, hfilter⟩
    · simp only [filterPathByIsolationRead, h₁, h₂, hempty, if_false]
    · refine ⟨fun h => Bool.noConfusion h, fun h => ?_⟩
      rw [h] at hempty
      exact absurd rfl hempty

/-- The paths TiKV table, TiFlash table, index under the engines TiKV and TiDB, and the
error when only TiFlash paths are given. -/
theorem test_filterPathByIsolationRead :
    filterPathByIsolationRead testIsolationEnv
      [{ Index := none, IsTablePath := true, StoreType := StoreType.TiKV, Forced := false },
       { Index := none, IsTablePath := true, StoreType := StoreType.TiFlash, Forced := false },
       indexPath { Name := { O := "idx", L := "idx" }, State := SchemaState.StatePublic }] =
      .ok ([{ Index := none, IsTablePath := true, StoreType := StoreType.TiKV, Forced := false },
            indexPath { Name := { O := "idx", L := "idx" }, State := SchemaState.StatePublic }],
           none) ∧
    filterPathByIsolationRead testIsolationEnv
      [{ Index := none, IsTablePath := true, StoreType := StoreType.TiFlash, Forced := false }] =
      .ok ([], some (Err.ErrInternal
        "Can not find access path matching 'tidb_isolation_read_engines'(value: 'tikv, tidb'). Available values are 'tiflash'.")) := by
  refine ⟨by rfl, by rfl⟩


/-! ### Partitions -/

/-- The definition `findPartition` returns is the first one of the table with the name,
compared in lower case; it returns nothing exactly when no definition has the name. -/
theorem findPartition_spec (definitions : List PartitionDefinition) (name : CIStr) :
    (∀ d, findPartition definitions name = some d →
      d.Name.L = name.L ∧ ∃ before after, definitions = before ++ d :: after ∧
        ∀ d' ∈ before, d'.Name.L ≠ name.L) ∧
    (findPartition definitions name = none ↔ ∀ d ∈ definitions, d.Name.L ≠ name.L) := by
  induction definitions with
  | nil =>
    refine ⟨fun d h => (by cases h), ?_⟩
    simp [findPartition]
  | cons head rest ih =>
    obtain ⟨ih₁, ih₂⟩ := ih
    by_cases hname : head.Name.L = name.L
    · have hfind : findPartition (head :: rest) name = some head := by
        simp only [findPartition, List.find?_cons, hname, decide_True]
      refine ⟨?_, ?_⟩
      · intro d hd
        rw [hfind] at hd
        cases hd
        exact ⟨hname, [], rest, rfl, fun d' hd' => absurd hd' (List.not_mem_nil _)⟩
      · rw [hfind]
        refine ⟨fun h => (by cases h), fun h => ?_⟩
        exact absurd hname (h head (List.mem_cons_self _ _))
    · have hfind : findPartition (head :: rest) name = findPartition rest name := by
        simp only [findPartition, List.find?_cons, hname, decide_False]
      rw [hfind]
      refine ⟨?_, ?_⟩
      · intro d hd
        obtain ⟨h₁, before, after, h₂, h₃⟩ := ih₁ d hd
        refine ⟨h₁, head :: before, after, by rw [h₂]; rfl, ?_⟩
        intro d' hd'
        rcases List.mem_cons.mp hd' with h | h
        · rw [h]
          exact hname
        · exact h₃ d' h
      · rw [ih₂]
        refine ⟨fun h d hd => ?_, fun h d hd => h d (List.mem_cons_of_mem _ hd)⟩
        rcases List.mem_cons.mp hd with h' | h'
        · rw [h']
          exact hname
        · exact h d h'

/-- The result of the loop over the requested names when it succeeds: one id and one name
per requested name, those of the definition found for it. -/
theorem namedPartitions_spec (definitions : List PartitionDefinition) (requested : List CIStr) :
    ∀ (ids ids' : List Int) (names names' : List String),
      namedPartitions definitions requested ids names = .ok (ids', names') →
      ids'.map some = ids.map some ++
        requested.map (fun name => (findPartition definitions name).map (fun d => d.ID)) ∧
      names'.map some = names.map some ++
        requested.map (fun name => (findPartition definitions name).map (fun d => d.Name.O)) := by
  induction requested with
  | nil =>
    intro ids ids' names names' h
    simp only [namedPartitions, Except.ok.injEq, Prod.mk.injEq] at h
    rw [← h.1, ← h.2]
    simp
  | cons name rest ih =>
    intro ids ids' names names' h
    cases hfind : findPartition definitions name with
    | none =>
      simp only [namedPartitions, hfind] at h
      cases h
    | some d =>
      simp only [namedPartitions, hfind] at h
      obtain ⟨h₁, h₂⟩ := ih _ _ _ _ h
      rw [h₁, h₂]
      simp only [List.map_append, List.map_cons, List.map_nil, hfind, Option.map_some',
        List.append_assoc, List.singleton_append, and_self]

/-- The loop over the requested names succeeds when every requested name is found. -/
theorem namedPartitions_ok (definitions : List PartitionDefinition) (requested : List CIStr)
    (hall : ∀ name ∈ requested, ∃ d, findPartition definitions name = some d) :
    ∀ (ids : List Int) (names : List String),
      ∃ r, namedPartitions definitions requested ids names = .ok r := by
  induction requested with
  | nil => exact fun ids names => ⟨_, rfl⟩
  | cons name rest ih =>
    intro ids names
    obtain ⟨d, hd⟩ := hall name (List.mem_cons_self _ _)
    simp only [namedPartitions, hd]
    exact ih (fun n hn => hall n (List.mem_cons_of_mem _ hn)) _ _

/-- The loop over the requested names fails at the first requested name that is not
found, with the error that carries the name. -/
theorem namedPartitions_error (definitions : List PartitionDefinition)
    (found : List CIStr) (name : CIStr) (rest : List CIStr)
    (hfound : ∀ n ∈ found, ∃ d, findPartition definitions n = some d)
    (hname : findPartition definitions name = none) :
    ∀ (ids : List Int) (names : List String),
      namedPartitions definitions (found ++ name :: rest) ids names =
        .error (Err.errorf "can not found the specified partition name %s in the table definition"
          [FormatArg.str name.O]) := by
  induction found with
  | nil =>
    intro ids names
    simp only [List.nil_append, namedPartitions, hname]
  | cons n more ih =>
    intro ids names
    obtain ⟨d, hd⟩ := hfound n (List.mem_cons_self _ _)
    simp only [List.cons_append, namedPartitions, hd]
    exact ih (fun n' hn' => hfound n' (List.mem_cons_of_mem _ hn')) _ _

/-- C37: a successful `getPhysicalIDsAndPartitionNames` returns an id list and a name
list of equal length: the table id and the empty name for a table that is not partitioned
and no requested names; all partition definitions in definition order for a partitioned
table and no requested names; for a partitioned table with requested names, for each
requested name in request order the first definition with that name compared in lower
case. It fails when names are requested for a table that is not partitioned, and when a
requested name has no definition. -/
theorem physical_ids_and_names (tblInfo : TableInfo) (pi : Option PartitionInfo)
    (partitionNames : List CIStr) :
    (∀ ids names, getPhysicalIDsAndPartitionNames tblInfo pi partitionNames = .ok (ids, names) →
      ids.length = names.length) ∧
    (pi = none → partitionNames = [] →
      getPhysicalIDsAndPartitionNames tblInfo pi partitionNames = .ok ([tblInfo.ID], [""])) ∧
    (pi = none → partitionNames ≠ [] →
      getPhysicalIDsAndPartitionNames tblInfo pi partitionNames =
        .error Err.ErrPartitionMgmtOnNonpartitioned) ∧
    (∀ p, pi = some p → partitionNames = [] →
      getPhysicalIDsAndPartitionNames tblInfo pi partitionNames =
        .ok (p.Definitions.map (fun d => d.ID), p.Definitions.map (fun d => d.Name.O))) ∧
    (∀ p, pi = some p → partitionNames ≠ [] →
      (∀ name ∈ partitionNames, ∃ d, findPartition p.Definitions name = some d) →
      ∃ ids names, getPhysicalIDsAndPartitionNames tblInfo pi partitionNames = .ok (ids, names) ∧
        ids.map some =
          partitionNames.map (fun name => (findPartition p.Definitions name).map (fun d => d.ID)) ∧
        names.map some =
          partitionNames.map
            (fun name => (findPartition p.Definitions name).map (fun d => d.Name.O))) ∧
    (∀ p, pi = some p →
      (∃ name ∈ partitionNames, findPartition p.Definitions name = none) →
      ∃ e, getPhysicalIDsAndPartitionNames tblInfo pi partitionNames = .error e) ∧
    (∀ (definitions : List PartitionDefinition) (name : CIStr) (d : PartitionDefinition),
      findPartition definitions name = some d →
      d.Name.L = name.L ∧ ∃ before after, definitions = before ++ d :: after ∧
        ∀ d' ∈ before, d'.Name.L ≠ name.L) := by
  have hne : ∀ l : List CIStr, l ≠ [] → l.length ≠ 0 :=
    fun l h h0 => h (List.length_eq_zero.mp h0)
  refine ⟨?_, ?_, ?_, ?_, ?_, ?_,
    fun definitions name d h => (findPartition_spec definitions name).1 d h⟩
  · intro ids names h
    cases pi with
    | none =>
      simp only [getPhysicalIDsAndPartitionNames] at h
      split at h
      · cases h
      · cases h
        rfl
    | some p =>
      simp only [getPhysicalIDsAndPartitionNames] at h
      split at h
      · simp only [Except.ok.injEq, Prod.mk.injEq] at h
        rw [← h.1, ← h.2, List.length_map, List.length_map]
      · obtain ⟨h₁, h₂⟩ := namedPartitions_spec p.Definitions partitionNames _ _ _ _ h
        have l₁ := congrArg List.length h₁
        have l₂ := congrArg List.length h₂
        simp only [List.length_map, List.map_nil, List.nil_append] at l₁ l₂
        rw [l₁, l₂]
  · intro hpi hnames
    simp only [getPhysicalIDsAndPartitionNames, hpi, hnames, List.length_nil, ne_eq,
      not_true_eq_false, if_false]
  · intro hpi hnames
    simp only [getPhysicalIDsAndPartitionNames, hpi, ne_eq, hne _ hnames, not_false_eq_true,
      if_true]
  · intro p hpi hnames
    simp only [getPhysicalIDsAndPartitionNames, hpi, hnames, List.length_nil, if_true]
  · intro p hpi hnames hall
    obtain ⟨⟨ids, names⟩, hr⟩ := namedPartitions_ok p.Definitions partitionNames hall [] []
    obtain ⟨h₁, h₂⟩ := namedPartitions_spec p.Definitions partitionNames _ _ _ _ hr
    refine ⟨ids, names, ?_, by simpa using h₁, by simpa using h₂⟩
    simp only [getPhysicalIDsAndPartitionNames, hpi, hne _ hnames, if_false, hr]
  · intro p hpi hex
    obtain ⟨name, hmem, hnone⟩ := hex
    have hlen : partitionNames.length ≠ 0 := by
      intro h0
      rw [List.length_eq_zero.mp h0] at hmem
      exact absurd hmem (List.not_mem_nil _)
    simp only [getPhysicalIDsAndPartitionNames, hpi, hlen, if_false]
    cases hr : namedPartitions p.Definitions partitionNames [] [] with
    | error e => exact ⟨e, rfl⟩
    | ok r =>
      obtain ⟨h₁, _⟩ := namedPartitions_spec p.Definitions partitionNames _ _ _ _ hr
      simp only [List.map_nil, List.nil_append] at h₁
      obtain ⟨i, hi⟩ := List.get?_of_mem hmem
      have hget := congrArg (fun l => l.get? i) h₁
      simp only [List.get?_eq_getElem?, List.getElem?_map] at hget hi
      rw [hi] at hget
      simp only [Option.map_some', hnone, Option.map_none'] at hget
      cases hq : r.1[i]? with
      | none => rw [hq] at hget; cases hget
      | some v => rw [hq] at hget; cases hget

/-- The partitions of the examples: all of them without requested names, the first
definition named p1 in lower case for the requested name p1, an error for a name without
definition and for names on a table that is not partitioned. -/
theorem test_getPhysicalIDsAndPartitionNames :
    getPhysicalIDsAndPartitionNames testHandleTable.Meta (some testPartitions) [] =
      .ok ([10, 11, 12], ["p0", "P1", "p1"]) ∧
    getPhysicalIDsAndPartitionNames testHandleTable.Meta (some testPartitions)
      [{ O := "p1", L := "p1" }, { O := "P0", L := "p0" }] = .ok ([11, 10], ["P1", "p0"]) ∧
    getPhysicalIDsAndPartitionNames testHandleTable.Meta (some testPartitions)
      [{ O := "p1", L := "p1" }, { O := "p9", L := "p9" }] =
      .error (Err.errorf "can not found the specified partition name %s in the table definition"
        [FormatArg.str "p9"]) ∧
    getPhysicalIDsAndPartitionNames testHandleTable.Meta none [{ O := "p1", L := "p1" }] =
      .error Err.ErrPartitionMgmtOnNonpartitioned ∧
    getPhysicalIDsAndPartitionNames testHandleTable.Meta none [] =
      .ok ([testHandleTable.Meta.ID], [""]) :=
  ⟨rfl, rfl, rfl, rfl, rfl⟩


/-! ### ANALYZE options -/

/-- The test of the loop of `handleAnalyzeOptions` is the range test of the option. -/
theorem optionOutOfRange_iff (TxnEntrySizeLimit : Nat) (opt : AnalyzeOpt)
    (hlimit : cmSketchSizeLimit TxnEntrySizeLimit < 2 ^ 32) :
    (opt.Value = 0 ∨ opt.Value > mapValue (analyzeOptionLimit TxnEntrySizeLimit) opt.Tp) ↔
      optionOutOfRange (cmSketchSizeLimit TxnEntrySizeLimit) opt = true := by
  have hmod : cmSketchSizeLimit TxnEntrySizeLimit % 2 ^ 64 = cmSketchSizeLimit TxnEntrySizeLimit :=
    Nat.mod_eq_of_lt (lt_trans hlimit (by norm_num))
  have hval : mapValue (analyzeOptionLimit TxnEntrySizeLimit) opt.Tp =
      (match opt.Tp with
       | .AnalyzeOptNumBuckets => 1024
       | .AnalyzeOptCMSketchWidth => cmSketchSizeLimit TxnEntrySizeLimit
       | .AnalyzeOptCMSketchDepth => cmSketchSizeLimit TxnEntrySizeLimit
       | .AnalyzeOptNumSamples => 100000
       | .other _ => 0) := by
    cases opt.Tp <;> simp [mapValue, analyzeOptionLimit, mapGet, hmod] <;> omega
  rw [hval]
  simp only [optionOutOfRange, Bool.or_eq_true, decide_eq_true_eq]

/-- The value a map holds for a key after an assignment. -/
theorem mapValue_mapSet (m : List (AnalyzeOptionType × Nat)) (k k' : AnalyzeOptionType)
    (v : Nat) : mapValue (mapSet m k v) k' = if k = k' then v else mapValue m k' := by
  by_cases h : k = k'
  · subst h
    simp only [mapValue, mapGet_mapSet_self, Option.getD_some, if_true]
  · simp only [mapValue, mapGet_mapSet_ne m v h, h, if_false]

/-- The loop of `handleAnalyzeOptions` over options that are all in range: every option
is written to the map, so a kind has the value of its last option, or the value it had. -/
theorem handleOptionsLoop_ok (TxnEntrySizeLimit : Nat) (names : AnalyzeOptionType → String)
    (hlimit : cmSketchSizeLimit TxnEntrySizeLimit < 2 ^ 32) (opts : List AnalyzeOpt) :
    ∀ optMap : List (AnalyzeOptionType × Nat),
      (∀ opt ∈ opts, optionOutOfRange (cmSketchSizeLimit TxnEntrySizeLimit) opt = false) →
      ∃ out, handleOptionsLoop TxnEntrySizeLimit names opts optMap = .ok out ∧
        ∀ k, mapValue out k =
          (match opts.reverse.find? (fun opt => decide (opt.Tp = k)) with
           | some opt => opt.Value
           | none => mapValue optMap k) := by
  induction opts with
  | nil =>
    intro optMap _
    exact ⟨optMap, rfl, fun k => rfl⟩
  | cons opt rest ih =>
    intro optMap hall
    have hopt : ¬ (opt.Value = 0 ∨
        opt.Value > mapValue (analyzeOptionLimit TxnEntrySizeLimit) opt.Tp) := by
      rw [optionOutOfRange_iff TxnEntrySizeLimit opt hlimit, hall opt (List.mem_cons_self _ _)]
      exact Bool.false_ne_true
    obtain ⟨out, h₁, h₂⟩ := ih (mapSet optMap opt.Tp opt.Value)
      (fun o ho => hall o (List.mem_cons_of_mem _ ho))
    refine ⟨out, ?_, ?_⟩
    · simp only [handleOptionsLoop, hopt, if_false, h₁]
    · intro k
      rw [h₂ k, List.reverse_cons, List.find?_append]
      cases hfind : rest.reverse.find? (fun opt => decide (opt.Tp = k)) with
      | some o => rfl
      | none =>
        simp only [Option.none_or, List.find?_cons, List.find?_nil, mapValue_mapSet]
        by_cases hk : opt.Tp = k
        · simp only [hk, decide_True, if_true]
        · simp only [hk, decide_False, if_false]

/-- The loop of `handleAnalyzeOptions` fails when an option is out of range. -/
theorem handleOptionsLoop_error (TxnEntrySizeLimit : Nat) (names : AnalyzeOptionType → String)
    (hlimit : cmSketchSizeLimit TxnEntrySizeLimit < 2 ^ 32) (opts : List AnalyzeOpt) :
    ∀ optMap : List (AnalyzeOptionType × Nat),
      (∃ opt ∈ opts, optionOutOfRange (cmSketchSizeLimit TxnEntrySizeLimit) opt = true) →
      ∃ e, handleOptionsLoop TxnEntrySizeLimit names opts optMap = .error e := by
  induction opts with
  | nil =>
    intro optMap h
    obtain ⟨opt, hmem, _⟩ := h
    exact absurd hmem (List.not_mem_nil _)
  | cons opt rest ih =>
    intro optMap h
    by_cases hopt : opt.Value = 0 ∨
        opt.Value > mapValue (analyzeOptionLimit TxnEntrySizeLimit) opt.Tp
    · simp only [handleOptionsLoop, hopt, if_true]
      exact ⟨_, rfl⟩
    · simp only [handleOptionsLoop, hopt, if_false]
      apply ih
      obtain ⟨o, hmem, hbad⟩ := h
      rcases List.mem_cons.mp hmem with heq | hmem'
      · rw [heq] at hbad
        exact absurd ((optionOutOfRange_iff TxnEntrySizeLimit opt hlimit).mpr hbad) hopt
      · exact ⟨o, hmem', hbad⟩

/-- The value of a kind in the defaults. -/
theorem mapValue_default (k : AnalyzeOptionType) :
    mapValue analyzeOptionDefault k =
      (match k with
       | .AnalyzeOptNumBuckets => 256
       | .AnalyzeOptCMSketchWidth => 2048
       | .AnalyzeOptCMSketchDepth => 5
       | .AnalyzeOptNumSamples => 10000
       | .other _ => 0) := by
  cases k <;> simp [mapValue, analyzeOptionDefault, mapGet]

/-- With every option in range the sketch width and depth after the options are below
2^32. -/
theorem overriddenValue_lt (limit : Nat) (hlimit : limit < 2 ^ 32) (opts : List AnalyzeOpt)
    (hall : ∀ opt ∈ opts, optionOutOfRange limit opt = false) :
    overriddenValue opts AnalyzeOptionType.AnalyzeOptCMSketchWidth < 2 ^ 32 ∧
      overriddenValue opts AnalyzeOptionType.AnalyzeOptCMSketchDepth < 2 ^ 32 := by
  have hone : ∀ k, (k = AnalyzeOptionType.AnalyzeOptCMSketchWidth ∨
      k = AnalyzeOptionType.AnalyzeOptCMSketchDepth) → overriddenValue opts k < 2 ^ 32 := by
    intro k hk
    unfold overriddenValue
    cases hfind : opts.reverse.find? (fun opt => decide (opt.Tp = k)) with
    | none =>
      rcases hk with hk | hk <;> subst hk <;> norm_num
    | some o =>
      have hmem : o ∈ opts := List.mem_reverse.mp (List.mem_of_find?_eq_some hfind)
      have hp := List.find?_some hfind
      have htp : o.Tp = k := of_decide_eq_true hp
      have hrange := hall o hmem
      simp only [optionOutOfRange, Bool.or_eq_false_iff, decide_eq_false_iff_not, not_lt] at hrange
      have hle : o.Value ≤ limit := by
        rcases hk with hk | hk <;> rw [htp, hk] at hrange <;> exact hrange.2
      exact lt_of_le_of_lt hle hlimit
  exact ⟨hone _ (Or.inl rfl), hone _ (Or.inr rfl)⟩

/-- C36: for every list of ANALYZE options, `handleAnalyzeOptions` fails if and only if
some option has the value 0 or a value above the limit of its kind (1024 buckets, 100000
samples, `cmSketchSizeLimit` for the sketch width and for the sketch depth), or the
resulting width times depth exceeds `cmSketchSizeLimit`, a product that does not overflow
64 bits when every option is in range; otherwise it returns the defaults (256 buckets,
width 2048, depth 5, 10000 samples) overridden by the options, the last option of a kind
winning. The limit `cmSketchSizeLimit` is taken below 2^32, as its value is. -/
theorem analyze_options (TxnEntrySizeLimit : Nat) (names : AnalyzeOptionType → String)
    (opts : List AnalyzeOpt) (hlimit : cmSketchSizeLimit TxnEntrySizeLimit < 2 ^ 32) :
    ((∃ e, handleAnalyzeOptions TxnEntrySizeLimit names opts = .error e) ↔
      (∃ opt ∈ opts, optionOutOfRange (cmSketchSizeLimit TxnEntrySizeLimit) opt = true) ∨
        overriddenValue opts AnalyzeOptionType.AnalyzeOptCMSketchWidth *
          overriddenValue opts AnalyzeOptionType.AnalyzeOptCMSketchDepth >
          cmSketchSizeLimit TxnEntrySizeLimit) ∧
    (∀ optMap, handleAnalyzeOptions TxnEntrySizeLimit names opts = .ok optMap →
      ∀ k, mapValue optMap k = overriddenValue opts k) ∧
    ((∀ opt ∈ opts, optionOutOfRange (cmSketchSizeLimit TxnEntrySizeLimit) opt = false) →
      overriddenValue opts AnalyzeOptionType.AnalyzeOptCMSketchWidth *
        overriddenValue opts AnalyzeOptionType.AnalyzeOptCMSketchDepth < 2 ^ 64) := by
  have hmod : cmSketchSizeLimit TxnEntrySizeLimit % 2 ^ 64 = cmSketchSizeLimit TxnEntrySizeLimit :=
    Nat.mod_eq_of_lt (lt_trans hlimit (by norm_num))
  have hprod : (∀ opt ∈ opts, optionOutOfRange (cmSketchSizeLimit TxnEntrySizeLimit) opt = false) →
      overriddenValue opts AnalyzeOptionType.AnalyzeOptCMSketchWidth *
        overriddenValue opts AnalyzeOptionType.AnalyzeOptCMSketchDepth < 2 ^ 64 := by
    intro hall
    obtain ⟨hw, hd⟩ := overriddenValue_lt _ hlimit opts hall
    calc overriddenValue opts AnalyzeOptionType.AnalyzeOptCMSketchWidth *
          overriddenValue opts AnalyzeOptionType.AnalyzeOptCMSketchDepth
        < 2 ^ 32 * 2 ^ 32 := Nat.mul_lt_mul'' hw hd
      _ = 2 ^ 64 := by norm_num
  have hvalues : ∀ out, (∀ k, mapValue out k =
      (match opts.reverse.find? (fun opt => decide (opt.Tp = k)) with
       | some opt => opt.Value
       | none => mapValue analyzeOptionDefault k)) → ∀ k, mapValue out k = overriddenValue opts k := by
    intro out h k
    rw [h k]
    unfold overriddenValue
    cases opts.reverse.find? (fun opt => decide (opt.Tp = k)) with
    | some o => rfl
    | none => exact mapValue_default k
  by_cases hbad : ∃ opt ∈ opts, optionOutOfRange (cmSketchSizeLimit TxnEntrySizeLimit) opt = true
  · obtain ⟨e, he⟩ := handleOptionsLoop_error TxnEntrySizeLimit names hlimit opts
      analyzeOptionDefault hbad
    have herr : handleAnalyzeOptions TxnEntrySizeLimit names opts = .error e := by
      simp only [handleAnalyzeOptions, he]
    refine ⟨⟨fun _ => Or.inl hbad, fun _ => ⟨e, herr⟩⟩, ?_, hprod⟩
    intro optMap hok
    rw [herr] at hok
    cases hok
  · have hall : ∀ opt ∈ opts,
        optionOutOfRange (cmSketchSizeLimit TxnEntrySizeLimit) opt = false := by
      intro opt hmem
      cases hr : optionOutOfRange (cmSketchSizeLimit TxnEntrySizeLimit) opt with
      | false => rfl
      | true => exact absurd ⟨opt, hmem, hr⟩ hbad
    obtain ⟨out, hout, hvals⟩ := handleOptionsLoop_ok TxnEntrySizeLimit names hlimit opts
      analyzeOptionDefault hall
    have hv := hvalues out hvals
    have hlt := hprod hall
    by_cases hbig : overriddenValue opts AnalyzeOptionType.AnalyzeOptCMSketchWidth *
        overriddenValue opts AnalyzeOptionType.AnalyzeOptCMSketchDepth >
        cmSketchSizeLimit TxnEntrySizeLimit
    · have herr : handleAnalyzeOptions TxnEntrySizeLimit names opts =
          .error (Err.errorf "cm sketch size(depth * width) should not larger than %d"
            [FormatArg.num (cmSketchSizeLimit TxnEntrySizeLimit)]) := by
        simp only [handleAnalyzeOptions, hout, hv, Nat.mod_eq_of_lt hlt, hmod, hbig, if_true]
      refine ⟨⟨fun _ => Or.inr hbig, fun _ => ⟨_, herr⟩⟩, ?_, hprod⟩
      intro optMap hok
      rw [herr] at hok
      cases hok
    · have hok : handleAnalyzeOptions TxnEntrySizeLimit names opts = .ok out := by
        simp only [handleAnalyzeOptions, hout, hv, Nat.mod_eq_of_lt hlt, hmod, hbig, if_false]
      refine ⟨⟨fun h => ?_, fun h => ?_⟩, ?_, hprod⟩
      · obtain ⟨e, he⟩ := h
        rw [hok] at he
        cases he
      · rcases h with h | h
        · exact absurd h hbad
        · exact absurd h hbig
      · intro optMap hok'
        rw [hok] at hok'
        cases hok'
        exact hv

/-- C36 with `kv.TxnEntrySizeLimit` = 6 MiB, so `cmSketchSizeLimit` = 1258291: the options
width 1000, buckets 100, width 3000 give buckets 100, width 3000, and the defaults depth 5
and 10000 samples. -/
theorem analyze_options_witness :
    cmSketchSizeLimit (6 * 1024 * 1024) = 1258291 ∧
    ∃ optMap, handleAnalyzeOptions (6 * 1024 * 1024) testOptionString testAnalyzeOpts =
        .ok optMap ∧
      mapValue optMap AnalyzeOptionType.AnalyzeOptCMSketchWidth = 3000 ∧
      mapValue optMap AnalyzeOptionType.AnalyzeOptNumBuckets = 100 ∧
      mapValue optMap AnalyzeOptionType.AnalyzeOptCMSketchDepth = 5 ∧
      mapValue optMap AnalyzeOptionType.AnalyzeOptNumSamples = 10000 := by
  refine ⟨by decide, ?_⟩
  obtain ⟨out, hout⟩ : ∃ out, handleAnalyzeOptions (6 * 1024 * 1024) testOptionString
      testAnalyzeOpts = .ok out := ⟨_, rfl⟩
  have h := (analyze_options (6 * 1024 * 1024) testOptionString testAnalyzeOpts
    (by decide)).2.1 out hout
  exact ⟨out, hout, (h _).trans (by decide), (h _).trans (by decide), (h _).trans (by decide),
    (h _).trans (by decide)⟩

/-- The errors of `handleAnalyzeOptions`: a value of 0, a value above the limit, and a
sketch whose width times depth is above the limit although each is in range. -/
theorem test_handleAnalyzeOptions :
    handleAnalyzeOptions (6 * 1024 * 1024) testOptionString
        [{ Tp := AnalyzeOptionType.AnalyzeOptNumSamples, Value := 0 }] =
      .error (Err.errorf "value of analyze option %s should be positive and not larger than %d"
        [FormatArg.str "SAMPLES", FormatArg.num 100000]) ∧
    handleAnalyzeOptions (6 * 1024 * 1024) testOptionString
        [{ Tp := AnalyzeOptionType.AnalyzeOptNumBuckets, Value := 1025 }] =
      .error (Err.errorf "value of analyze option %s should be positive and not larger than %d"
        [FormatArg.str "BUCKETS", FormatArg.num 1024]) ∧
    handleAnalyzeOptions (6 * 1024 * 1024) testOptionString
        [{ Tp := AnalyzeOptionType.AnalyzeOptCMSketchWidth, Value := 1258291 },
         { Tp := AnalyzeOptionType.AnalyzeOptCMSketchDepth, Value := 2 }] =
      .error (Err.errorf "cm sketch size(depth * width) should not larger than %d"
        [FormatArg.num 1258291]) :=
  ⟨by rfl, by rfl, by rfl⟩


/-! ### SPLIT TABLE -/

/-- The loop of `buildSplitTableRegion` gets past a run of value lists of exactly one
value each whose values convert. -/
theorem splitValueLists_advance (env : SplitEnv) (pre rest : List (List ExprNode)) :
    ∀ (i : Nat) (values : List (List Datum)),
      (∀ item ∈ pre, ∃ first value, item = [first] ∧ env.convertValue first = .ok value) →
      ∃ converted, converted.length = pre.length ∧
        splitValueLists env i (pre ++ rest) values =
          splitValueLists env (i + pre.length) rest (values ++ converted) := by
  induction pre with
  | nil =>
    intro i values _
    exact ⟨[], rfl, by simp⟩
  | cons item more ih =>
    intro i values hpre
    obtain ⟨first, value, hitem, hconv⟩ := hpre item (List.mem_cons_self _ _)
    obtain ⟨converted, hlen, hrun⟩ := ih (i + 1) (values ++ [[value]])
      (fun it hit => hpre it (List.mem_cons_of_mem _ hit))
    refine ⟨[value] :: converted, by simp [hlen], ?_⟩
    subst hitem
    have hidx : i + ([first] :: more).length = i + 1 + more.length := by
      simp only [List.length_cons]
      omega
    have hvals : values ++ [value] :: converted = values ++ [[value]] ++ converted := by
      simp only [List.append_assoc, List.singleton_append]
    rw [hidx, hvals, ← hrun]
    simp only [List.cons_append, splitValueLists, List.length_singleton, gt_iff_lt,
      lt_irrefl, if_false, List.get?_cons_zero, hconv]
    rfl

/-- C40, what the code does: in a SPLIT TABLE statement with explicit value lists, the
first value list that does not hold exactly one value, reached after value lists of one
value each that convert, is rejected with the wrong-value-count error carrying its 1-based
row index when it holds more than one value, but when it is empty the read of its first
value is out of range and panics; `SPLIT TABLE t BY ()` and `SPLIT TABLE t BY (1), ()`
panic. -/
theorem split_empty_value_list_panics :
    (∀ (env : SplitEnv) (tblInfo : TableInfo) (partitionNames : List CIStr)
        (splitOpt : SplitOption) (pre rest : List (List ExprNode)) (item : List ExprNode),
      splitOpt.ValueLists = pre ++ item :: rest →
      (∀ it ∈ pre, ∃ first value, it = [first] ∧ env.convertValue first = .ok value) →
      (item.length > 1 →
        buildSplitTableRegion env tblInfo partitionNames splitOpt =
          .error (Err.ErrWrongValueCountOnRow (pre.length + 1))) ∧
      (item = [] →
        buildSplitTableRegion env tblInfo partitionNames splitOpt = .error Err.runtimePanic)) ∧
    buildSplitTableRegion testSplitEnv testHandleTable.Meta []
      { Lower := [], Upper := [], Num := 0, ValueLists := [[]] } = .error Err.runtimePanic ∧
    buildSplitTableRegion testSplitEnv testHandleTable.Meta []
      { Lower := [], Upper := [], Num := 0, ValueLists := [[testLiteral 1], []] } =
      .error Err.runtimePanic ∧
    buildSplitTableRegion testSplitEnv testHandleTable.Meta []
      { Lower := [], Upper := [], Num := 0,
        ValueLists := [[testLiteral 1], [testLiteral 2, testLiteral 3]] } =
      .error (Err.ErrWrongValueCountOnRow 2) := by
  refine ⟨?_, rfl, rfl, rfl⟩
  intro env tblInfo partitionNames splitOpt pre rest item hlists hpre
  obtain ⟨converted, _, hrun⟩ := splitValueLists_advance env pre (item :: rest) 0 [] hpre
  have hpos : (pre ++ item :: rest).length > 0 := by
    rw [List.length_append, List.length_cons]
    omega
  refine ⟨?_, ?_⟩
  · intro hlen
    simp only [buildSplitTableRegion, hlists, hpos, if_true, hrun, splitValueLists, hlen,
      Nat.zero_add]
  · intro hempty
    subst hempty
    have hzero : ¬ ([] : List ExprNode).length > 1 := by simp
    simp only [buildSplitTableRegion, hlists, hpos, if_true, hrun, splitValueLists, hzero,
      if_false, List.get?_nil]

/-- The value lists that `buildSplitTableRegion` accepts: when every value list holds
exactly one value and the values convert, the plan holds one list of one datum per value
list, in order. -/
theorem split_single_values (env : SplitEnv) (tblInfo : TableInfo) (partitionNames : List CIStr)
    (splitOpt : SplitOption) (hne : splitOpt.ValueLists ≠ [])
    (hall : ∀ it ∈ splitOpt.ValueLists,
      ∃ first value, it = [first] ∧ env.convertValue first = .ok value) :
    ∃ p, buildSplitTableRegion env tblInfo partitionNames splitOpt = .ok p ∧
      p.ValueLists.length = splitOpt.ValueLists.length := by
  obtain ⟨converted, hlen, hrun⟩ := splitValueLists_advance env splitOpt.ValueLists [] 0 [] hall
  have hpos : splitOpt.ValueLists.length > 0 :=
    Nat.pos_of_ne_zero (fun h => hne (List.length_eq_zero.mp h))
  rw [List.append_nil, List.nil_append] at hrun
  refine ⟨{ TableInfo := tblInfo, PartitionNames := partitionNames,
            schema := (buildSplitRegionsSchema env.infoschemaName).1,
            names := (buildSplitRegionsSchema env.infoschemaName).2,
            Lower := [], Upper := [], Num := 0, ValueLists := converted }, ?_, hlen⟩
  simp only [buildSplitTableRegion, hpos, if_true, hrun, splitValueLists]

end core

end TinySQL
